import Mathlib

/-!
Onyx transpiler (`src/src/Transpiler.cpp`): a shallow embedding.

Strings of the program (`std::string`) are lists of characters; a `Char`
stands for one `char` of the source and the character classes are those of
the "C" locale.  The regular expressions of the source are values of `Re`
and are run by a backtracking matcher with the ECMAScript priorities used
by `std::regex` (leftmost start, greedy and lazy quantifiers in priority
order).  The counters of the source (`int`) are integers without a bound:
they count lines of the unit and stay far from the limits of `int`.
-/

namespace Onyx

/-- Text of the program: `std::string`. -/
abbrev Str := List Char

/-! ## Character classes -/

/-- Class `\w`: letters, digits and the underscore. -/
def isWord (c : Char) : Bool := c.isAlphanum || c == '_'

/-- Class `\s`: the characters for which `isspace` holds in the "C" locale. -/
def isSpace (c : Char) : Bool :=
  c == ' ' || c == '\t' || c == '\n' || c == Char.ofNat 11 || c == Char.ofNat 12 || c == '\r'

/-- Class `.`: every character but the line terminators. -/
def isAny (c : Char) : Bool := !(c == '\n' || c == '\r')

/-- Class `[\w\*]`. -/
def isTypeChar (c : Char) : Bool := isWord c || c == '*'

/-- Class `["\w>]`. -/
def isReceiverChar (c : Char) : Bool := c == '"' || isWord c || c == '>'

/-- Class `[^)]`. -/
def isNotRParen (c : Char) : Bool := !(c == ')')

/-- Class `[^\"]`. -/
def isNotQuote (c : Char) : Bool := !(c == '"')

/-- A one-character class holding just `a`. -/
def isChar (a : Char) (c : Char) : Bool := c == a

/-! ## Regular expressions -/

/-- The fragment of ECMAScript regular expressions that the source uses.
Quantifiers `*`, `+`, `+?` only ever apply to a character class there. -/
inductive Re where
  | eps : Re
  | chr (p : Char → Bool) : Re
  | star (p : Char → Bool) (greedy : Bool) : Re
  | bol : Re
  | eol : Re
  | wordb : Re
  | grp (i : Nat) (r : Re) : Re
  | seq (a b : Re) : Re
  | alt (a b : Re) : Re
  | opt (r : Re) : Re

/-- Position of the matcher in the subject: the text already passed
(reversed, so that its head is the previous character), the text ahead, and
the capture groups recorded so far (most recent first). -/
structure Cur where
  pre : Str
  rest : Str
  caps : List (Nat × Str)
  deriving DecidableEq

/-- Result of a successful match attempt: matched text and final position. -/
abbrev Hit := Str × Cur

/-- First success of two alternatives, in priority order. -/
def orElse (a b : Option Hit) : Option Hit :=
  match a with
  | some h => some h
  | none => b

/-- Greedy `p*`: take as many characters as possible, give them back one at a
time while the continuation fails. -/
def starG (p : Char → Bool) : (Str → Cur → Option Hit) → Str → Str → List (Nat × Str) → Option Hit
  | k, pre, [], caps => k [] ⟨pre, [], caps⟩
  | k, pre, c :: cs, caps =>
    if p c then
      orElse (starG p (fun w cur => k (c :: w) cur) (c :: pre) cs caps) (k [] ⟨pre, c :: cs, caps⟩)
    else k [] ⟨pre, c :: cs, caps⟩

/-- Lazy `p*?`: take as few characters as possible, one more each time the
continuation fails. -/
def starL (p : Char → Bool) : (Str → Cur → Option Hit) → Str → Str → List (Nat × Str) → Option Hit
  | k, pre, [], caps => k [] ⟨pre, [], caps⟩
  | k, pre, c :: cs, caps =>
    orElse (k [] ⟨pre, c :: cs, caps⟩)
      (if p c then starL p (fun w cur => k (c :: w) cur) (c :: pre) cs caps else none)

/-- Word boundary `\b`: exactly one of the previous and the next character is
a word character. -/
def atWordBoundary (pre rest : Str) : Bool :=
  (match pre with | [] => false | c :: _ => isWord c) != (match rest with | [] => false | c :: _ => isWord c)

/-- The backtracking matcher, in continuation-passing style: `run r k cur`
matches `r` at `cur` and hands the text it consumed and the new position to
`k`; alternatives are tried in ECMAScript priority order. -/
def Re.run : Re → (Str → Cur → Option Hit) → Cur → Option Hit
  | .eps, k, cur => k [] cur
  | .chr p, k, cur =>
    match cur.rest with
    | [] => none
    | c :: cs => if p c then k [c] ⟨c :: cur.pre, cs, cur.caps⟩ else none
  | .star p true, k, cur => starG p k cur.pre cur.rest cur.caps
  | .star p false, k, cur => starL p k cur.pre cur.rest cur.caps
  | .bol, k, cur => if cur.pre.isEmpty then k [] cur else none
  | .eol, k, cur => if cur.rest.isEmpty then k [] cur else none
  | .wordb, k, cur => if atWordBoundary cur.pre cur.rest then k [] cur else none
  | .grp i r, k, cur => r.run (fun w c => k w ⟨c.pre, c.rest, (i, w) :: c.caps⟩) cur
  | .seq a b, k, cur => a.run (fun w₁ c₁ => b.run (fun w₂ c₂ => k (w₁ ++ w₂) c₂) c₁) cur
  | .alt a b, k, cur => orElse (a.run k cur) (b.run k cur)
  | .opt r, k, cur => orElse (r.run k cur) (k [] cur)

/-- Literal text. -/
def Re.lit : Str → Re
  | [] => .eps
  | c :: cs => .seq (.chr (isChar c)) (Re.lit cs)

/-- Concatenation of a list of expressions. -/
def Re.cat : List Re → Re
  | [] => .eps
  | [r] => r
  | r :: rs => .seq r (Re.cat rs)

/-- Greedy `p+`. -/
def Re.plus (p : Char → Bool) : Re := .seq (.chr p) (.star p true)

/-- Lazy `p+?`. -/
def Re.plusLazy (p : Char → Bool) : Re := .seq (.chr p) (.star p false)

/-- Outcome of `std::regex_search`: the text skipped before the match
(`prefix()`), the matched text, the text after it (`suffix()`) and the
groups. -/
structure Match where
  pfx : Str
  matched : Str
  sfx : Str
  caps : List (Nat × Str)
  deriving DecidableEq

/-- Text of group `i` (`match[i].str()`), empty when the group did not take part. -/
def groupOf (caps : List (Nat × Str)) (i : Nat) : Str :=
  match caps with
  | [] => []
  | (j, w) :: rest => if j = i then w else groupOf rest i

/-- Text of group `i` of a match. -/
def Match.group (m : Match) (i : Nat) : Str := groupOf m.caps i

/-- One match attempt at the current position. -/
def matchAt (r : Re) (pre rest : Str) : Option Hit :=
  r.run (fun w c => some (w, c)) ⟨pre, rest, []⟩

/-- Leftmost match at or after the current position; `skipped` is the text
passed over (reversed) since the search began. -/
def searchFrom (r : Re) : Str → Str → Str → Option Match
  | skipped, pre, [] =>
    match matchAt r pre [] with
    | some (w, c) => some ⟨skipped.reverse, w, c.rest, c.caps⟩
    | none => none
  | skipped, pre, x :: xs =>
    match matchAt r pre (x :: xs) with
    | some (w, c) => some ⟨skipped.reverse, w, c.rest, c.caps⟩
    | none => searchFrom r (x :: skipped) (x :: pre) xs

/-- The call `std::regex_search(s, match, r)`. -/
def regexSearch (r : Re) (s : Str) : Option Match := searchFrom r [] [] s

/-- The call `std::regex_search(s, r)` used as a condition. -/
def regexTest (r : Re) (s : Str) : Bool := (regexSearch r s).isSome

/-- The call `std::regex_match(s, r)`: the whole of `s` has to match. -/
def regexMatch (r : Re) (s : Str) : Bool :=
  (r.run (fun w c => if c.rest.isEmpty then some (w, c) else none) ⟨[], s, []⟩).isSome


/-! ## Replacement and splitting -/

/-- The double quote character. -/
def chQuote : Char := Char.ofNat 34

/-- The apostrophe character. -/
def chApos : Char := Char.ofNat 39

/-- The grave accent character. -/
def chGrave : Char := Char.ofNat 96

/-- The opening brace character. -/
def chLBrace : Char := Char.ofNat 123

/-- The closing brace character. -/
def chRBrace : Char := Char.ofNat 125

/-- Text of sub-match `n` as `match_results::format` writes it: group 0 is the
whole match, a number beyond the expression's groups writes nothing. -/
def subText (m : Match) (ngroups n : Nat) : Str :=
  if n = 0 then m.matched else if n ≤ ngroups then m.group n else []

/-- Value of a decimal digit. -/
def digitVal (c : Char) : Nat := c.toNat - 48

/-- Where `match_results::format` stands in the replacement text: copying,
just after a `$`, or after a `$` and one digit. -/
inductive FmtMode where
  | copy : FmtMode
  | dollar : FmtMode
  | digit (d : Char) : FmtMode

/-- The default (ECMAScript) `match_results::format`, one character at a
time: `$$`, `$&`, the prefix and suffix escapes and `$n`, `$nn` are expanded,
a `$` before anything else and every other character are copied. -/
def formatGo (m : Match) (ngroups : Nat) : FmtMode → Str → Str
  | .copy, [] => []
  | .copy, c :: cs =>
    if c = '$' then formatGo m ngroups .dollar cs else c :: formatGo m ngroups .copy cs
  | .dollar, [] => ['$']
  | .dollar, d :: ds =>
    if d = '$' then '$' :: formatGo m ngroups .copy ds
    else if d = '&' then m.matched ++ formatGo m ngroups .copy ds
    else if d = chGrave then m.pfx ++ formatGo m ngroups .copy ds
    else if d = chApos then m.sfx ++ formatGo m ngroups .copy ds
    else if d.isDigit then formatGo m ngroups (.digit d) ds
    else '$' :: d :: formatGo m ngroups .copy ds
  | .digit d, [] => subText m ngroups (digitVal d)
  | .digit d, e :: es =>
    if e.isDigit then subText m ngroups (digitVal d * 10 + digitVal e) ++ formatGo m ngroups .copy es
    else if e = '$' then subText m ngroups (digitVal d) ++ formatGo m ngroups .dollar es
    else subText m ngroups (digitVal d) ++ e :: formatGo m ngroups .copy es

/-- The replacement text `fmt` expanded for the match `m`. -/
def formatWith (m : Match) (ngroups : Nat) (fmt : Str) : Str := formatGo m ngroups .copy fmt

/-- Position reached after a match: everything up to its end, reversed. -/
def preAfter (pre : Str) (m : Match) : Str := m.matched.reverse ++ (m.pfx.reverse ++ pre)

/-- Loop of `std::regex_replace`: every match, found from the end of the
previous one, is replaced by the expanded format and the text between
matches is copied.  No expression the source passes to `regex_replace` or to
the token iterator can match the empty text; an empty match would step one
character. -/
def replaceLoop (r : Re) (ngroups : Nat) (fmt : Str) : Nat → Str → Str → Str
  | 0, _, rest => rest
  | fuel + 1, pre, rest =>
    match searchFrom r [] pre rest with
    | none => rest
    | some m =>
      match m.matched, m.sfx with
      | [], [] => m.pfx ++ formatWith m ngroups fmt
      | [], x :: xs =>
        m.pfx ++ formatWith m ngroups fmt ++ x :: replaceLoop r ngroups fmt fuel (x :: preAfter pre m) xs
      | _ :: _, sfx => m.pfx ++ formatWith m ngroups fmt ++ replaceLoop r ngroups fmt fuel (preAfter pre m) sfx

/-- The call `std::regex_replace(s, r, fmt)`. -/
def regexReplace (r : Re) (ngroups : Nat) (fmt : Str) (s : Str) : Str :=
  replaceLoop r ngroups fmt (s.length + 1) [] s

/-- Tokens that follow a match of the separator, for the token iterator with
sub-match `-1`: the text before each further match, and the text after the
last match when it is not empty. -/
def splitLoop (r : Re) : Nat → Str → Str → List Str
  | 0, _, _ => []
  | fuel + 1, pre, rest =>
    match searchFrom r [] pre rest with
    | none => if rest.isEmpty then [] else [rest]
    | some m =>
      match m.matched, m.sfx with
      | [], [] => [m.pfx]
      | [], x :: xs => m.pfx :: splitLoop r fuel (x :: preAfter pre m) xs
      | _ :: _, sfx => m.pfx :: splitLoop r fuel (preAfter pre m) sfx

/-- The tokens of `std::sregex_token_iterator(s.begin(), s.end(), r, -1)`: the
pieces of `s` between matches of `r`; the whole of `s` when nothing matches. -/
def regexSplit (r : Re) (s : Str) : List Str :=
  match regexSearch r s with
  | none => [s]
  | some _ => splitLoop r (s.length + 1) [] s

/-- Search for a text inside another: `s.find(needle) != npos`. -/
def hasSub (needle : Str) : Str → Bool
  | [] => needle.isEmpty
  | c :: cs => needle.isPrefixOf (c :: cs) || hasSub needle cs

/-- The text before the last occurrence of `c`: `s.substr(0, s.rfind(c))`,
or nothing when `c` does not occur. -/
def beforeLast (c : Char) : Str → Option Str
  | [] => none
  | x :: xs =>
    match beforeLast c xs with
    | some r => some (x :: r)
    | none => if x = c then some [] else none

/-- Lines of a text as `std::getline` reads them. -/
def getlines : Str → List Str
  | [] => []
  | c :: cs =>
    if c = '\n' then [] :: getlines cs
    else
      match getlines cs with
      | [] => [[c]]
      | l :: ls => (c :: l) :: ls

/-! ## The expressions of the source -/

/-- Expression `\s*`. -/
def ws : Re := .star isSpace true

/-- Expression `\s+`. -/
def ws1 : Re := Re.plus isSpace

/-- Expression `.*`. -/
def anyStar : Re := .star isAny true

/-- Expression `(?:@\[(.*)\]\s*)?` with its group numbered `i`. -/
def attrOpt (i : Nat) : Re :=
  .opt (Re.cat [Re.lit "@[".toList, .grp i anyStar, Re.lit "]".toList, ws])

/-- Expression `^\s*#`. -/
def R_COMMENT : Re := Re.cat [.bol, ws, Re.lit "#".toList]

/-- Expression `^\s*@include\s+\"([^\"]+)\"`. -/
def R_INCLUDE : Re :=
  Re.cat [.bol, ws, Re.lit "@include".toList, ws1, .chr (isChar chQuote),
    .grp 1 (Re.plus isNotQuote), .chr (isChar chQuote)]

/-- Expression `^\s*shared\s+(\w+)\s*[{]`. -/
def R_SHARED_START : Re :=
  Re.cat [.bol, ws, Re.lit "shared".toList, ws1, .grp 1 (Re.plus isWord), ws, .chr (isChar chLBrace)]

/-- Expression `^\s*(?:@\[(.*)\]\s*)?struct\s+(\w+)\s*[{]`. -/
def R_STRUCT_START : Re :=
  Re.cat [.bol, ws, attrOpt 1, Re.lit "struct".toList, ws1, .grp 2 (Re.plus isWord), ws,
    .chr (isChar chLBrace)]

/-- Expression `^\s*@\[(.*)\]\s*$`. -/
def R_ATTRIBUTE_LINE : Re :=
  Re.cat [.bol, ws, Re.lit "@[".toList, .grp 1 anyStar, Re.lit "]".toList, ws, .eol]

/-- Expression `^\s*use\s+(\w+)`. -/
def R_USE_MIXIN : Re := Re.cat [.bol, ws, Re.lit "use".toList, ws1, .grp 1 (Re.plus isWord)]

/-- Expression `^\s*(\w+)\s*:\s*([\w\*]+)\s*`. -/
def R_FIELD : Re :=
  Re.cat [.bol, ws, .grp 1 (Re.plus isWord), ws, Re.lit ":".toList, ws, .grp 2 (Re.plus isTypeChar), ws]

/-- Expression `^\s*resolve\s+(\w+)\s*[{]`. -/
def R_RESOLVE_START : Re :=
  Re.cat [.bol, ws, Re.lit "resolve".toList, ws1, .grp 1 (Re.plus isWord), ws, .chr (isChar chLBrace)]

/-- Expression
`^\s*(?:@\[(.*)\]\s*)?(?:(inline|extern|static)\s+)?fn\s+(\w+)\s*\((.*)\)\s*->\s*([\w\*]+)\s*`. -/
def R_FUNC_SIGNATURE : Re :=
  Re.cat [.bol, ws, attrOpt 1,
    .opt (Re.cat [.grp 2 (.alt (Re.lit "inline".toList) (.alt (Re.lit "extern".toList) (Re.lit "static".toList))), ws1]),
    Re.lit "fn".toList, ws1, .grp 3 (Re.plus isWord), ws, Re.lit "(".toList, .grp 4 anyStar,
    Re.lit ")".toList, ws, Re.lit "->".toList, ws, .grp 5 (Re.plus isTypeChar), ws]

/-- Expression
`^\s*var\s+(?:(volatile|register|const)\s+)?(\w+)\s*:\s*([\w\*]+)\s*(?:=\s*(.*))?`. -/
def R_VAR : Re :=
  Re.cat [.bol, ws, Re.lit "var".toList, ws1,
    .opt (Re.cat [.grp 1 (.alt (Re.lit "volatile".toList) (.alt (Re.lit "register".toList) (Re.lit "const".toList))), ws1]),
    .grp 2 (Re.plus isWord), ws, Re.lit ":".toList, ws, .grp 3 (Re.plus isTypeChar), ws,
    .opt (Re.cat [Re.lit "=".toList, ws, .grp 4 anyStar])]

/-- Expression `^\s*if\s+(.*)\s*[{]`. -/
def R_IF : Re :=
  Re.cat [.bol, ws, Re.lit "if".toList, ws1, .grp 1 anyStar, ws, .chr (isChar chLBrace)]

/-- Expression `^\s*while\s+(.*)\s*[{]`. -/
def R_WHILE : Re :=
  Re.cat [.bol, ws, Re.lit "while".toList, ws1, .grp 1 anyStar, ws, .chr (isChar chLBrace)]

/-- Expression `^\s*loop\s*[{]`. -/
def R_LOOP : Re := Re.cat [.bol, ws, Re.lit "loop".toList, ws, .chr (isChar chLBrace)]

/-- Expression `^\s*native\s*[{]`. -/
def R_NATIVE_BLOCK : Re := Re.cat [.bol, ws, Re.lit "native".toList, ws, .chr (isChar chLBrace)]

/-- Expression `^\s+`, which trims the start of a line. -/
def R_LEADING_WS : Re := Re.cat [.bol, ws1]

/-- Expression `\{\s*$`. -/
def R_OPENS_AT_END : Re := Re.cat [.chr (isChar chLBrace), ws, .eol]

/-- Expression `^\s*\{`. -/
def R_OPENS_AT_START : Re := Re.cat [.bol, ws, .chr (isChar chLBrace)]

/-- Expression `^\}`. -/
def R_STARTS_CLOSING : Re := Re.cat [.bol, .chr (isChar chRBrace)]

/-- Expression `^\s*\}`. -/
def R_CLOSES : Re := Re.cat [.bol, ws, .chr (isChar chRBrace)]

/-- Expression `self\.`. -/
def R_SELF_DOT : Re := Re.lit "self.".toList

/-- Expression `\s*,\s*`, the separator of parameters. -/
def R_ARG_SPLIT : Re := Re.cat [ws, Re.lit ",".toList, ws]

/-- Expression `(\w+)\s*:\s*([\w\*]+)`. -/
def R_ARG : Re :=
  Re.cat [.grp 1 (Re.plus isWord), ws, Re.lit ":".toList, ws, .grp 2 (Re.plus isTypeChar)]

/-- Expression `^\s*$`. -/
def R_BLANK : Re := Re.cat [.bol, ws, .eol]

/-- Expression `(["\w>]+)\.(\w+)\(([^)]*)\)`. -/
def R_METHOD_CALL : Re :=
  Re.cat [.grp 1 (Re.plus isReceiverChar), Re.lit ".".toList, .grp 2 (Re.plus isWord),
    Re.lit "(".toList, .grp 3 (.star isNotRParen true), Re.lit ")".toList]

/-- Expression `(.+?)\s*\|>\s*([\w]+)\(([^)]*)\)`. -/
def R_PIPE : Re :=
  Re.cat [.grp 1 (Re.plusLazy isAny), ws, Re.lit "|>".toList, ws, .grp 2 (Re.plus isWord),
    Re.lit "(".toList, .grp 3 (.star isNotRParen true), Re.lit ")".toList]

/-- Expression `^\s+|\s+$`, which trims both ends. -/
def R_TRIM : Re := .alt (Re.cat [.bol, ws1]) (Re.cat [ws1, .eol])

/-- Expression `\b_\b`, the placeholder of a pipe. -/
def placeholder_regex : Re := Re.cat [.wordb, Re.lit "_".toList, .wordb]


/-! ## State of the transpiler (`Transpiler.hpp`) -/

/-- Ways a call can fail to return a value. -/
inductive Fault where
  /-- `std::string(count, ch)` with a negative count throws `std::length_error`. -/
  | lengthError : Fault
  /-- `back()` of an empty `std::string`: undefined behaviour. -/
  | emptyBack : Fault
  /-- A rewrite loop did not stop within the iterations allowed. -/
  | outOfFuel : Fault
  deriving DecidableEq, Repr

/-- A `std::unordered_map<std::string, std::string>` as an association list
with unique keys. -/
abbrev StrMap := List (Str × Str)

/-- Lookup in a map: `m.count(k)` and `m.at(k)`. -/
def mapFind : StrMap → Str → Option Str
  | [], _ => none
  | (k', v) :: rest, k => if k' = k then some v else mapFind rest k

/-- Assignment in a map: `m[k] = v`. -/
def mapSet : StrMap → Str → Str → StrMap
  | [], k, v => [(k, v)]
  | (k', v') :: rest, k, v => if k' = k then (k, v) :: rest else (k', v') :: mapSet rest k v

/-- The symbol table: `scopes` lists the vector of the source from its back,
the innermost scope first. -/
structure SymbolTable where
  scopes : List StrMap
  deriving DecidableEq

namespace SymbolTable

/-- The method `pushScope`. -/
def pushScope (s : SymbolTable) : SymbolTable := ⟨[] :: s.scopes⟩

/-- The method `popScope`: nothing happens when there is no scope. -/
def popScope (s : SymbolTable) : SymbolTable := ⟨s.scopes.tail⟩

/-- The method `add`: the binding goes to the innermost scope, nothing happens
when there is no scope. -/
def add (s : SymbolTable) (name type : Str) : SymbolTable :=
  match s.scopes with
  | [] => s
  | sc :: rest => ⟨mapSet sc name type :: rest⟩

/-- The loop of `lookup`, from the innermost scope outwards. -/
def lookupIn : List StrMap → Str → Str
  | [], _ => []
  | sc :: rest, name =>
    match mapFind sc name with
    | some t => t
    | none => lookupIn rest name

/-- The method `lookup`: the empty text when no scope binds the name. -/
def lookup (s : SymbolTable) (name : Str) : Str := lookupIn s.scopes name

end SymbolTable

/-- The structure `TranspilerConfig`. -/
structure TranspilerConfig where
  verbose : Bool
  keep_comments : Bool
  deriving DecidableEq

/-- The member variables of the class `Transpiler`. -/
structure Transpiler where
  m_config : TranspilerConfig
  m_source : Str
  m_outputLines : List Str
  m_symbols : SymbolTable
  m_sharedMixins : StrMap
  m_currentResolveType : Str
  m_braceDepth : Int
  m_pendingAttribute : Str
  m_currentStructAttribute : Str
  m_inShared : Bool
  m_sharedStartDepth : Int
  m_inStruct : Bool
  m_structStartDepth : Int
  m_currentStructName : Str
  deriving DecidableEq

/-- A freshly constructed `Transpiler`: the default member initialisers. -/
def Transpiler.fresh (config : TranspilerConfig) : Transpiler :=
  { m_config := config, m_source := [], m_outputLines := [], m_symbols := ⟨[]⟩,
    m_sharedMixins := [], m_currentResolveType := [], m_braceDepth := 0,
    m_pendingAttribute := [], m_currentStructAttribute := [], m_inShared := false,
    m_sharedStartDepth := 0, m_inStruct := false, m_structStartDepth := 0,
    m_currentStructName := [] }

/-! ## Type translation -/

/-- The recursion of `translateType`, on at most `fuel` nested calls;
`none` is the read of `back()` on an empty text. -/
def translateTypeAux : Nat → Str → Option Str
  | 0, _ => none
  | fuel + 1, onyxType =>
    if onyxType = "i32".toList then some "int".toList
    else if onyxType = "u32".toList then some "uint32_t".toList
    else if onyxType = "u8".toList then some "uint8_t".toList
    else if onyxType = "f32".toList then some "float".toList
    else if onyxType = "f64".toList then some "double".toList
    else if onyxType = "bool".toList then some "bool".toList
    else if onyxType = "str".toList then some "char*".toList
    else if onyxType = "ptr".toList then some "void*".toList
    else if onyxType = "void".toList then some "void".toList
    else
      match onyxType.getLast? with
      | none => none
      | some c =>
        if c = '*' then (translateTypeAux fuel onyxType.dropLast).map (fun r => r ++ ['*'])
        else some onyxType

/-- The function `Transpiler::translateType`; each nested call drops one
character, so `length + 1` calls are always enough. -/
def translateType (onyxType : Str) : Option Str :=
  translateTypeAux (onyxType.length + 1) onyxType

/-- Translation used by the line processors: the fault is reported. -/
def translateTypeE (onyxType : Str) : Except Fault Str :=
  match translateType onyxType with
  | some r => .ok r
  | none => .error .emptyBack

/-! ## Expression rewriting -/

/-- The loop of `Transpiler::replaceMethodCalls`; `fuel` bounds the number of
times the loop condition is evaluated, `none` means the bound was reached. -/
def replaceMethodCalls (syms : SymbolTable) : Nat → Str → Option Str
  | 0, _ => none
  | fuel + 1, current =>
    match regexSearch R_METHOD_CALL current with
    | none => some current
    | some m =>
      let varName := m.group 1
      let methodName := m.group 2
      let args := m.group 3
      let typeName := syms.lookup varName
      if typeName ≠ [] then
        let newArgs := "&".toList ++ varName
        let newArgs := if args ≠ [] then newArgs ++ ", ".toList ++ args else newArgs
        let replacement := typeName ++ "_".toList ++ methodName ++ "(".toList ++ newArgs ++ ")".toList
        replaceMethodCalls syms fuel (m.pfx ++ replacement ++ m.sfx)
      else some current

/-- The loop of `Transpiler::replacePipeOperators`; `fuel` bounds the number
of times the loop condition is evaluated, `none` means the bound was
reached. -/
def replacePipeOperators (syms : SymbolTable) : Nat → Str → Option Str
  | 0, _ => none
  | fuel + 1, current =>
    match regexSearch R_PIPE current with
    | none => some current
    | some m =>
      let arg1 := m.group 1
      let func := m.group 2
      let otherArgs := m.group 3
      let arg1 := regexReplace R_TRIM 0 [] arg1
      let typeName := syms.lookup arg1
      let finalArg :=
        if typeName ≠ [] ∧ (typeName ++ "_".toList).isPrefixOf func = true then "&".toList ++ arg1 else arg1
      let replacement :=
        if regexTest placeholder_regex otherArgs = true then
          func ++ "(".toList ++ regexReplace placeholder_regex 0 finalArg otherArgs ++ ")".toList
        else
          let newArgs := if otherArgs ≠ [] then finalArg ++ ", ".toList ++ otherArgs else finalArg
          func ++ "(".toList ++ newArgs ++ ")".toList
      replacePipeOperators syms fuel (m.pfx ++ replacement ++ m.sfx)

/-- Both rewrites in the order of the source, with the fault reported. -/
def rewriteExpr (syms : SymbolTable) (fuel : Nat) (e : Str) : Except Fault Str :=
  match replaceMethodCalls syms fuel e with
  | none => .error .outOfFuel
  | some e₁ =>
    match replacePipeOperators syms fuel e₁ with
    | none => .error .outOfFuel
    | some e₂ => .ok e₂


/-! ## Line processing (`Transpiler::processLine`) -/

/-- The indentation `std::string(depth * 4, ' ')`; a negative count throws. -/
def indentOf (depth : Int) : Except Fault Str :=
  if depth < 0 then .error .lengthError else .ok (List.replicate (depth.toNat * 4) ' ')

/-- What `processLine` has computed about a line before it lowers it: the
line, its text `out` (trimmed, `self.` replaced), the brace flags and the
indentation. -/
structure LineCtx where
  line : Str
  out : Str
  opensBrace : Bool
  closesBrace : Bool
  indentation : Str

/-- The depth after a line that may open a block: `if (opensBrace) m_braceDepth++`. -/
def bumpDepth (c : LineCtx) (t : Transpiler) : Transpiler :=
  if c.opensBrace = true then { t with m_braceDepth := t.m_braceDepth + 1 } else t

/-- The guarded pop `if (m_braceDepth >= 0) m_symbols.popScope()`. -/
def popIfOpen (t : Transpiler) : Transpiler :=
  if t.m_braceDepth ≥ 0 then { t with m_symbols := t.m_symbols.popScope } else t

/-- The block "Closing Contexts" of `processLine`: the line returned when a
mixin, a struct or a resolve block ends here (`none` when the function goes
on), and the state. -/
def closeContexts (c : LineCtx) (t : Transpiler) : Option Str × Transpiler :=
  if c.closesBrace = true then
    let t := { t with m_braceDepth := t.m_braceDepth - 1 }
    if t.m_inShared = true ∧ t.m_braceDepth = t.m_sharedStartDepth then
      (some [], popIfOpen { t with m_inShared := false })
    else if t.m_inStruct = true ∧ t.m_braceDepth = t.m_structStartDepth then
      let t := { t with m_inStruct := false }
      let out := [chRBrace, ' '] ++ t.m_currentStructName
      if t.m_currentStructAttribute ≠ [] then
        (some (c.indentation ++ (out ++ " __attribute__((".toList ++ t.m_currentStructAttribute
            ++ "))".toList ++ ";".toList)),
          { t with m_currentStructAttribute := [] })
      else (some (c.indentation ++ (out ++ ";".toList)), t)
    else if t.m_currentResolveType ≠ [] ∧ t.m_braceDepth = 0 then
      (some (c.indentation ++ "// end resolve".toList), popIfOpen { t with m_currentResolveType := [] })
    else (none, popIfOpen t)
  else (none, t)

/-- The attribute of a declaration: the inline list when nothing is pending,
the pending text when there is no inline list, both otherwise (pending
first). -/
def mergeAttr (pending inline : Str) : Str :=
  if inline = [] then pending
  else if pending ≠ [] then pending ++ ", ".toList ++ inline
  else inline

/-- The loop over the body of a mixin at a `use` line: one lowered field per
line of the body that has the form of a field. -/
def injectMixin (indentation : Str) : List Str → Except Fault Str
  | [] => .ok []
  | bodyLine :: rest =>
    if bodyLine = [] then injectMixin indentation rest
    else
      match regexSearch R_FIELD bodyLine with
      | none => injectMixin indentation rest
      | some fm =>
        match translateTypeE (fm.group 2) with
        | .error e => .error e
        | .ok ty =>
          match injectMixin indentation rest with
          | .error e => .error e
          | .ok more => .ok (indentation ++ ty ++ " ".toList ++ fm.group 1 ++ ";\n".toList ++ more)

/-- The loop over the parameters of a signature: the lowered parameters
`cArgs` and the symbol table, which gains the parameters of a definition. -/
def lowerArgs (resolveType : Str) (isDefinition : Bool) :
    List Str → List Str → SymbolTable → Except Fault (List Str × SymbolTable)
  | [], cArgs, syms => .ok (cArgs, syms)
  | arg :: rest, cArgs, syms =>
    if arg = [] then lowerArgs resolveType isDefinition rest cArgs syms
    else
      match regexSearch R_ARG arg with
      | none => lowerArgs resolveType isDefinition rest cArgs syms
      | some am =>
        let argName := am.group 1
        if resolveType ≠ [] ∧ argName = "self".toList then
          lowerArgs resolveType isDefinition rest cArgs syms
        else
          match translateTypeE (am.group 2) with
          | .error e => .error e
          | .ok ty =>
            lowerArgs resolveType isDefinition rest (cArgs ++ [ty ++ " ".toList ++ argName])
              (if isDefinition = true then syms.add argName ty else syms)

/-- The lowered parameters joined by `", "`. -/
def joinArgs : List Str → Str
  | [] => []
  | [a] => a
  | a :: rest => a ++ ", ".toList ++ joinArgs rest

/-- The branch of `processLine` for a function signature matched by `m`. -/
def lowerFunc (c : LineCtx) (t : Transpiler) (m : Match) : Except Fault (Str × Transpiler) :=
  let isDefinition : Bool := decide (chLBrace ∈ c.line)
  let attr := if isDefinition = true then mergeAttr t.m_pendingAttribute (m.group 1) else m.group 1
  let t := if isDefinition = true then { t with m_pendingAttribute := [] } else t
  let mods := m.group 2
  let name := m.group 3
  let args := m.group 4
  match translateTypeE (m.group 5) with
  | .error e => .error e
  | .ok ret =>
    let name := if t.m_currentResolveType ≠ [] then t.m_currentResolveType ++ "_".toList ++ name else name
    let syms :=
      if t.m_currentResolveType ≠ [] then t.m_symbols.add "self".toList t.m_currentResolveType
      else t.m_symbols
    let cArgs := if t.m_currentResolveType ≠ [] then [t.m_currentResolveType ++ "* self".toList] else []
    match lowerArgs t.m_currentResolveType isDefinition (regexSplit R_ARG_SPLIT args) cArgs syms with
    | .error e => .error e
    | .ok (cArgs, syms) =>
      let t := { t with m_symbols := syms }
      let attrPrefix := if attr ≠ [] then "__attribute__((".toList ++ attr ++ ")) ".toList else []
      let result := c.indentation ++ attrPrefix ++ (if mods = [] then [] else mods ++ " ".toList)
        ++ ret ++ " ".toList ++ name ++ "(".toList ++ joinArgs cArgs ++ ")".toList
      if isDefinition = true then
        let t := bumpDepth c t
        .ok (result ++ [' ', chLBrace], { t with m_symbols := t.m_symbols.pushScope })
      else .ok (result ++ ";".toList, t)

/-- The branch of `processLine` for a variable declaration matched by `m`. -/
def lowerVar (fuel : Nat) (c : LineCtx) (t : Transpiler) (m : Match) : Except Fault (Str × Transpiler) :=
  let mods := m.group 1
  let name := m.group 2
  match translateTypeE (m.group 3) with
  | .error e => .error e
  | .ok type =>
    let val := m.group 4
    let t := { t with m_symbols := t.m_symbols.add name (m.group 3) }
    let res := c.indentation ++ (if mods = [] then [] else mods ++ " ".toList) ++ type ++ " ".toList ++ name
    if val ≠ [] then
      match rewriteExpr t.m_symbols fuel val with
      | .error e => .error e
      | .ok val => .ok (res ++ " = ".toList ++ val ++ ";".toList, t)
    else .ok (res ++ ";".toList, t)

/-- The end of `processLine`: expression rewriting, control constructs, the
automatic semicolon and the generic block. -/
def lowerStmt (fuel : Nat) (c : LineCtx) (t : Transpiler) : Except Fault (Str × Transpiler) :=
  match rewriteExpr t.m_symbols fuel c.out with
  | .error e => .error e
  | .ok out =>
    match regexSearch R_IF out with
    | some m => .ok (c.indentation ++ "if (".toList ++ m.group 1 ++ [')', ' ', chLBrace], bumpDepth c t)
    | none =>
      match regexSearch R_WHILE out with
      | some m => .ok (c.indentation ++ "while (".toList ++ m.group 1 ++ [')', ' ', chLBrace], bumpDepth c t)
      | none =>
        if regexTest R_LOOP out = true then
          .ok (c.indentation ++ "while (1) ".toList ++ [chLBrace], bumpDepth c t)
        else
          let isWhitespace := regexMatch R_BLANK out
          let isStatement : Bool := decide (out ≠ []) && !isWhitespace && !c.opensBrace && !c.closesBrace
            && decide (out.getLast? ≠ some ';')
          let out := if isStatement = true then out ++ ";".toList else out
          let t :=
            if c.opensBrace = true ∧ regexTest R_SHARED_START out = false ∧ regexTest R_STRUCT_START out = false
                ∧ regexTest R_RESOLVE_START out = false ∧ regexTest R_FUNC_SIGNATURE out = false
                ∧ regexTest R_IF out = false ∧ regexTest R_WHILE out = false ∧ regexTest R_LOOP out = false then
              { t with m_braceDepth := t.m_braceDepth + 1 }
            else t
          .ok (c.indentation ++ out, t)

/-- The middle of `processLine`, after the closing contexts: mixin
definitions, structs, `use`, fields, resolve blocks, then signatures,
variables and statements. -/
def lowerLine (fuel : Nat) (c : LineCtx) (t : Transpiler) : Except Fault (Str × Transpiler) :=
  match regexSearch R_SHARED_START c.out with
  | some m =>
    let t := { t with m_inShared := true, m_sharedStartDepth := t.m_braceDepth }
    let attrMsg := if t.m_pendingAttribute ≠ [] then " [attributes: ".toList ++ t.m_pendingAttribute ++ "]".toList else []
    let t := if t.m_pendingAttribute ≠ [] then { t with m_pendingAttribute := [] } else t
    .ok (c.indentation ++ "// shared ".toList ++ m.group 1 ++ " (elided)".toList ++ attrMsg, bumpDepth c t)
  | none =>
    if t.m_inShared = true then .ok ([], bumpDepth c t)
    else
      match regexSearch R_STRUCT_START c.out with
      | some m =>
        let attr := mergeAttr t.m_pendingAttribute (m.group 1)
        let t := { t with m_inStruct := true, m_structStartDepth := t.m_braceDepth,
                          m_pendingAttribute := [], m_currentStructAttribute := attr,
                          m_currentStructName := m.group 2 }
        .ok (c.indentation ++ "typedef struct ".toList ++ t.m_currentStructName ++ [' ', chLBrace], bumpDepth c t)
      | none =>
        let useHit : Option Str :=
          match regexSearch R_USE_MIXIN c.out with
          | some m => mapFind t.m_sharedMixins (m.group 1)
          | none => none
        match useHit with
        | some body =>
          match injectMixin c.indentation (getlines body) with
          | .error e => .error e
          | .ok injected => .ok (injected, t)
        | none =>
          let fieldHit : Option Match :=
            if t.m_inStruct = true ∧ regexTest R_FUNC_SIGNATURE c.out = false ∧ c.closesBrace = false then
              regexSearch R_FIELD c.out
            else none
          match fieldHit with
          | some m =>
            match translateTypeE (m.group 2) with
            | .error e => .error e
            | .ok ty => .ok (c.indentation ++ ty ++ " ".toList ++ m.group 1 ++ ";".toList, t)
          | none =>
            match regexSearch R_RESOLVE_START c.out with
            | some m =>
              let t := { t with m_currentResolveType := m.group 1 }
              .ok (c.indentation ++ "// resolve ".toList ++ t.m_currentResolveType, bumpDepth c t)
            | none =>
              match regexSearch R_FUNC_SIGNATURE c.out with
              | some m => lowerFunc c t m
              | none =>
                match regexSearch R_VAR c.out with
                | some m => lowerVar fuel c t m
                | none => lowerStmt fuel c t

/-- The depth used for the indentation of a line: one less for a line that
starts with a closing brace, one less inside a resolve block, never below
zero by either rule. -/
def printDepthOf (t : Transpiler) (startsClosing : Bool) : Int :=
  let printDepth := t.m_braceDepth
  let printDepth := if startsClosing = true ∧ printDepth > 0 then printDepth - 1 else printDepth
  if t.m_currentResolveType ≠ [] ∧ printDepth > 0 then printDepth - 1 else printDepth

/-- The function `Transpiler::processLine`: the emitted text and the new
state, or the fault.  `fuel` bounds the iterations of each rewrite loop. -/
def processLine (fuel : Nat) (t : Transpiler) (line : Str) : Except Fault (Str × Transpiler) :=
  let out := regexReplace R_LEADING_WS 0 [] line
  match regexSearch R_INCLUDE out with
  | some m => .ok ("#include ".toList ++ [chQuote] ++ m.group 1 ++ [chQuote], t)
  | none =>
    let opensBrace := regexTest R_OPENS_AT_END out || regexTest R_OPENS_AT_START out
    let startsClosing := regexTest R_STARTS_CLOSING out
    let closesBrace := regexTest R_CLOSES out
    match indentOf (printDepthOf t startsClosing) with
    | .error e => .error e
    | .ok indentation =>
      let out := if hasSub "self.".toList out = true then regexReplace R_SELF_DOT 0 "self->".toList out else out
      let c : LineCtx := ⟨line, out, opensBrace, closesBrace, indentation⟩
      match closeContexts c t with
      | (some res, t) => .ok (res, t)
      | (none, t) => lowerLine fuel c t

/-! ## The two passes and `processFile` -/

/-- The local variables of `pass1_Discovery`. -/
structure Discovery where
  currentMixinName : Str
  currentMixinBody : Str
  insideMixin : Bool
  depth : Int
  mixins : StrMap

/-- Brace balance of a line: `depth++` on every opening brace, `depth--` on
every closing one. -/
def braceBalance (depth : Int) : Str → Int
  | [] => depth
  | c :: cs =>
    if c = chLBrace then braceBalance (depth + 1) cs
    else if c = chRBrace then braceBalance (depth - 1) cs
    else braceBalance depth cs

/-- One turn of the loop of `pass1_Discovery`. -/
def discoverLine (d : Discovery) (line : Str) : Discovery :=
  match (if d.insideMixin = false then regexSearch R_SHARED_START line else none) with
  | some m => { d with insideMixin := true, currentMixinName := m.group 1, currentMixinBody := [], depth := 1 }
  | none =>
    if d.insideMixin = true then
      let depth := braceBalance d.depth line
      if depth = 0 then
        { d with depth := depth, insideMixin := false,
                 mixins := mapSet d.mixins d.currentMixinName d.currentMixinBody }
      else { d with depth := depth, currentMixinBody := d.currentMixinBody ++ line ++ "\n".toList }
    else d

/-- The function `Transpiler::pass1_Discovery`. -/
def pass1_Discovery (t : Transpiler) (content : Str) : Transpiler :=
  { t with m_sharedMixins :=
      ((getlines content).foldl discoverLine ⟨[], [], false, 0, t.m_sharedMixins⟩).mixins }

/-- One turn of the loop of `pass2_Transpilation`; `insideNative` is the local
flag of the function. -/
def pass2Line (fuel : Nat) (t : Transpiler) (insideNative : Bool) (line : Str) :
    Except Fault (Transpiler × Bool) :=
  if regexTest R_NATIVE_BLOCK line = true then
    if chRBrace ∈ line then
      let raw := regexReplace R_NATIVE_BLOCK 0 [] line
      let raw := match beforeLast chRBrace raw with
        | some r => r
        | none => raw
      match indentOf t.m_braceDepth with
      | .error e => .error e
      | .ok indentation => .ok ({ t with m_outputLines := t.m_outputLines ++ [indentation ++ raw] }, false)
    else .ok (t, true)
  else if insideNative = true then
    if chRBrace ∈ line then .ok (t, false)
    else
      match indentOf t.m_braceDepth with
      | .error e => .error e
      | .ok nativeIndentation =>
        let trimmedLine := regexReplace R_LEADING_WS 0 [] line
        .ok ({ t with m_outputLines := t.m_outputLines ++ [nativeIndentation ++ trimmedLine] }, true)
  else if regexTest R_COMMENT line = true then
    match indentOf t.m_braceDepth with
    | .error e => .error e
    | .ok indentation =>
      if t.m_config.keep_comments = true then
        let trimmed := regexReplace R_LEADING_WS 0 [] line
        .ok ({ t with m_outputLines :=
                t.m_outputLines ++ [indentation ++ regexReplace R_COMMENT 0 "//".toList trimmed] }, false)
      else .ok (t, false)
  else
    match regexSearch R_ATTRIBUTE_LINE line with
    | some m =>
      let pending := if t.m_pendingAttribute ≠ [] then t.m_pendingAttribute ++ ", ".toList else t.m_pendingAttribute
      .ok ({ t with m_pendingAttribute := pending ++ m.group 1 }, false)
    | none =>
      match processLine fuel t line with
      | .error e => .error e
      | .ok (processed, t) =>
        if processed ≠ [] then .ok ({ t with m_outputLines := t.m_outputLines ++ [processed] }, false)
        else .ok (t, false)

/-- The loop of `pass2_Transpilation` over the lines of the unit: the state
reached and, when a line faults, the fault (the state is then the one before
that line). -/
def pass2Lines (fuel : Nat) : List Str → Transpiler → Bool → Transpiler × Option Fault
  | [], t, _ => (t, none)
  | line :: rest, t, insideNative =>
    match pass2Line fuel t insideNative line with
    | .error e => (t, some e)
    | .ok (t, insideNative) => pass2Lines fuel rest t insideNative

/-- The function `Transpiler::pass2_Transpilation`. -/
def pass2_Transpilation (fuel : Nat) (t : Transpiler) (content : Str) : Transpiler × Option Fault :=
  pass2Lines fuel (getlines content) t false

/-- The function `Transpiler::loadFile`: `file` is the content of the file, or
nothing when it cannot be opened (the old source is then kept). -/
def loadFile (t : Transpiler) (file : Option Str) : Transpiler :=
  match file with
  | none => t
  | some content => { t with m_source := content }

/-- The assignments of `processFile` between the two passes. -/
def resetForPass2 (t : Transpiler) : Transpiler :=
  { t with m_symbols := (⟨[]⟩ : SymbolTable).pushScope, m_braceDepth := 0, m_currentResolveType := [],
           m_inShared := false, m_inStruct := false, m_pendingAttribute := [],
           m_currentStructAttribute := [] }

/-- The function `Transpiler::processFile` without its file system: `file` is
what the input holds, `name` its file name, `canWrite` whether the output
opens.  The result is the returned flag, the lines written and the state
left in the object.  A `std::length_error` thrown by the rewrite pass is
caught and `false` is returned; the other faults leave the call without a
result. -/
def processFile (fuel : Nat) (t : Transpiler) (file : Option Str) (name : Str) (canWrite : Bool) :
    Except Fault (Bool × List Str × Transpiler) :=
  let t := loadFile t file
  if t.m_source = [] then .ok (false, [], t)
  else
    let t := resetForPass2 (pass1_Discovery t t.m_source)
    match pass2_Transpilation fuel t t.m_source with
    | (t, some .lengthError) => .ok (false, [], t)
    | (_, some e) => .error e
    | (t, none) =>
      if canWrite = true then .ok (true, ("// transpiled from ".toList ++ name) :: t.m_outputLines, t)
      else .ok (false, [], t)

/-! ## What a match looks like -/

/-- The texts an expression can match: `r.Accepts pre w rest` says that `w`,
standing after the (reversed) text `pre` and before `rest`, has the form the
expression `r` describes.  Every match the matcher finds is of this kind
(`run_sound`). -/
def Re.Accepts : Re → Str → Str → Str → Prop
  | .eps, _, w, _ => w = []
  | .chr p, _, w, _ => ∃ c, w = [c] ∧ p c = true
  | .star p _, _, w, _ => ∀ c ∈ w, p c = true
  | .bol, pre, w, _ => w = [] ∧ pre = []
  | .eol, _, w, rest => w = [] ∧ rest = []
  | .wordb, pre, w, rest => w = [] ∧ atWordBoundary pre rest = true
  | .grp _ r, pre, w, rest => r.Accepts pre w rest
  | .seq a b, pre, w, rest =>
    ∃ w₁ w₂, w = w₁ ++ w₂ ∧ a.Accepts pre w₁ (w₂ ++ rest) ∧ b.Accepts (w₁.reverse ++ pre) w₂ rest
  | .alt a b, pre, w, rest => a.Accepts pre w rest ∨ b.Accepts pre w rest
  | .opt r, pre, w, rest => w = [] ∨ r.Accepts pre w rest

/-- The first character of `s`, if any, is outside the class `p`: a run of
`p` cannot go on into `s`. -/
def StopsAt (p : Char → Bool) (s : Str) : Prop := ∀ c ∈ s.head?, p c = false

/-- An identifier: a non-empty text of word characters. -/
def IsIdent (s : Str) : Prop := s ≠ [] ∧ ∀ c ∈ s, isWord c = true

/-- A type spelling as the grammar of declarations reads it (`[\w\*]+`). -/
def IsTypeText (s : Str) : Prop := s ≠ [] ∧ ∀ c ∈ s, isTypeChar c = true

/-- The nine source names of the mapping table. -/
def isMapped (T : Str) : Prop :=
  T = "i32".toList ∨ T = "u32".toList ∨ T = "u8".toList ∨ T = "f32".toList ∨ T = "f64".toList
    ∨ T = "bool".toList ∨ T = "str".toList ∨ T = "ptr".toList ∨ T = "void".toList

instance (s : Str) : Decidable (IsIdent s) := by unfold IsIdent; infer_instance

instance (s : Str) : Decidable (IsTypeText s) := by unfold IsTypeText; infer_instance

/-- Whether there is a character and it is a word character. -/
def isWordAt (c : Option Char) : Bool :=
  match c with
  | none => false
  | some c => isWord c

/-- A standalone `_` token in words: the text holds, after the character
`prev`, a `_` with no word character right before it and none right after. -/
def hasStandalone : Option Char → Str → Bool
  | _, [] => false
  | prev, c :: cs =>
    (decide (c = '_') && !isWordAt prev && !isWordAt cs.head?) || hasStandalone (some c) cs

/-- The text with every standalone `_` replaced by `e`, in words: a `_` with
no word character right before it and none right after gives way to `e`,
every other character stays. -/
def substStandalone (e : Str) : Option Char → Str → Str
  | _, [] => []
  | prev, c :: cs =>
    if c = '_' ∧ isWordAt prev = false ∧ isWordAt cs.head? = false then e ++ substStandalone e (some c) cs
    else c :: substStandalone e (some c) cs

/-- Whether an expression may accept the empty text (an upper bound). -/
def Re.nullable : Re → Bool
  | .eps => true
  | .chr _ => false
  | .star _ _ => true
  | .bol => true
  | .eol => true
  | .wordb => true
  | .grp _ r => r.nullable
  | .seq a b => a.nullable && b.nullable
  | .alt a b => a.nullable || b.nullable
  | .opt _ => true

/-- Whether a text accepted by an expression may begin with `c` (an upper
bound). -/
def Re.first : Re → Char → Bool
  | .eps, _ => false
  | .chr p, c => p c
  | .star p _, c => p c
  | .bol, _ => false
  | .eol, _ => false
  | .wordb, _ => false
  | .grp _ r, c => r.first c
  | .seq a b, c => a.first c || (a.nullable && b.first c)
  | .alt a b, c => a.first c || b.first c
  | .opt r, c => r.first c

/-- Every text the expression accepts holds the character `c`. -/
def Re.Requires (r : Re) (c : Char) : Prop := ∀ pre w rest, r.Accepts pre w rest → c ∈ w

/-! ## Source lines and emitted lines, as texts -/

/-- The source line `struct S {`. -/
def structOpenLine (S : Str) : Str := "struct ".toList ++ S ++ [' ', chLBrace]

/-- The source line `n: t` of a field. -/
def fieldLine (n t : Str) : Str := n ++ ": ".toList ++ t

/-- The source line that only holds a closing brace. -/
def closeLine : Str := [chRBrace]

/-- The source line `@[a]` of a standalone attribute. -/
def attrLine (a : Str) : Str := "@[".toList ++ a ++ "]".toList

/-- The emitted line `typedef struct S {`. -/
def typedefLine (S : Str) : Str := "typedef struct ".toList ++ S ++ [' ', chLBrace]

/-- The emitted text `ty n;` of a field. -/
def fieldText (ty n : Str) : Str := ty ++ " ".toList ++ n ++ ";".toList

/-- The indentation of `depth` levels, four spaces each. -/
def spaces (depth : Nat) : Str := List.replicate (depth * 4) ' '

/-- A unit as the text of a file: every line followed by a line feed. -/
def unlines : List Str → Str
  | [] => []
  | l :: ls => l ++ '\n' :: unlines ls

/-- A field of a struct as the claims write it: a name `n` and a type
spelling `t` that `translateType` can translate (it holds a character other
than the pointer marker). -/
def IsField (f : Str × Str) : Prop := IsIdent f.1 ∧ IsTypeText f.2 ∧ ∃ c ∈ f.2, c ≠ '*'

/-- The translation of a type, the empty text standing for a fault. -/
def translated (ty : Str) : Str := (translateType ty).getD []

/-- The text after the name in the line that closes a struct: the annotation,
if there are attributes, and the terminator. -/
def closeText (S attr : Str) : Str :=
  [chRBrace, ' '] ++ S ++
    (if attr ≠ [] then " __attribute__((".toList ++ attr ++ "))".toList else []) ++ ";".toList

/-- The source lines of a struct `S` with the given fields. -/
def structLines (S : Str) (fields : List (Str × Str)) : List Str :=
  structOpenLine S :: (fields.map (fun f => fieldLine f.1 f.2) ++ [closeLine])

/-- The lines emitted for a struct `S` with the given fields and attributes,
at depth `d`. -/
def structOutput (d : Nat) (S attr : Str) (fields : List (Str × Str)) : List Str :=
  (spaces d ++ typedefLine S) ::
    (fields.map (fun f => spaces (d + 1) ++ fieldText (translated f.2) f.1)
      ++ [spaces d ++ closeText S attr])

instance (f : Str × Str) : Decidable (IsField f) := by unfold IsField; infer_instance

/-- The source text `p: t` of a parameter. -/
def paramText (p : Str × Str) : Str := p.1 ++ ": ".toList ++ p.2

/-- The source line `fn m(p1: t1, ..., pn: tn) -> r {` of a definition. -/
def fnLine (m : Str) (ps : List (Str × Str)) (r : Str) : Str :=
  "fn ".toList ++ m ++ "(".toList ++ joinArgs (ps.map paramText) ++ ") -> ".toList ++ r ++ [' ', chLBrace]

/-- The lowered text `translateType(t) p` of a parameter. -/
def paramOut (p : Str × Str) : Str := translated p.2 ++ " ".toList ++ p.1

/-- The characters of a parameter list written as the claims write it. -/
def isParamChar (c : Char) : Bool := isTypeChar c || c == ':' || c == ' ' || c == ','

/-- The symbol table after the parameters of a definition are added, in
order. -/
def addParams (syms : SymbolTable) : List (Str × Str) → SymbolTable
  | [] => syms
  | p :: ps => addParams (syms.add p.1 (translated p.2)) ps

/-! ## Lines of mixins, declarations and variables, as texts -/

/-- The source line `use M`. -/
def useLine (M : Str) : Str := "use ".toList ++ M

/-- The depth `pass1_Discovery` has reached after the given interior lines of
a mixin definition, from the depth `d`. -/
def depthAfter (d : Int) (ls : List Str) : Int := ls.foldl braceBalance d

/-- The two passes as `processFile` runs them on a source that is already
loaded: discovery, the reset of the state, then the rewrite pass. -/
def runPasses (fuel : Nat) (t : Transpiler) (src : Str) : Transpiler × Option Fault :=
  pass2_Transpilation fuel (resetForPass2 (pass1_Discovery t src)) src

/-- The source line `fn m(p1: t1, ..., pn: tn) -> r` of a declaration. -/
def declLine (m : Str) (ps : List (Str × Str)) (r : Str) : Str :=
  "fn ".toList ++ m ++ "(".toList ++ joinArgs (ps.map paramText) ++ ") -> ".toList ++ r

/-- The source line `var n : t = e`. -/
def varLine (n t e : Str) : Str := "var ".toList ++ n ++ " : ".toList ++ t ++ " = ".toList ++ e

/-- The source line `var n : t`, without an initializer. -/
def varLine₀ (n t : Str) : Str := "var ".toList ++ n ++ " : ".toList ++ t

/-- The part `(volatile|register|const)\s+` of the expression for variable
declarations. -/
def varMods : Re :=
  Re.cat [.grp 1 (.alt (Re.lit "volatile".toList) (.alt (Re.lit "register".toList) (Re.lit "const".toList))), ws1]

/-- The part `(\w+)\s*:\s*([\w\*]+)\s*(?:=\s*(.*))?` of the expression for
variable declarations. -/
def varTail : Re :=
  Re.cat [.grp 2 (Re.plus isWord), ws, Re.lit ":".toList, ws, .grp 3 (Re.plus isTypeChar), ws,
    .opt (Re.cat [Re.lit "=".toList, ws, .grp 4 anyStar])]

/-- The source line of a native region that closes on the line it opens on:
`native`, an opening brace, the text `text`, a closing brace and a rest
`tail` of the line; `ind` and `sp` are the blanks before the keyword and
after it. -/
def nativeLine (ind sp text tail : Str) : Str :=
  ind ++ "native".toList ++ sp ++ [chLBrace] ++ text ++ [chRBrace] ++ tail

/-- The number of dots in a text. -/
def dots (s : Str) : Nat := s.count '.'

/-- No type name stored in the symbol table holds a dot. -/
def TypesDotFree (syms : SymbolTable) : Prop := ∀ sc ∈ syms.scopes, ∀ p ∈ sc, '.' ∉ p.2

instance (syms : SymbolTable) : Decidable (TypesDotFree syms) := by unfold TypesDotFree; infer_instance

/-- The line after one turn of the loop of `replaceMethodCalls` for the match
`m` and the type name `typeName` of the receiver. -/
def methodCallStep (m : Match) (typeName : Str) : Str :=
  m.pfx ++ (typeName ++ "_".toList ++ m.group 2 ++ "(".toList
    ++ (if m.group 3 ≠ [] then "&".toList ++ m.group 1 ++ ", ".toList ++ m.group 3 else "&".toList ++ m.group 1)
    ++ ")".toList) ++ m.sfx


/-- The text `out` that `processLine` works on from the closing contexts on:
the line without its leading blanks, with `self.` replaced by `self->`. -/
def lineText (line : Str) : Str :=
  let out := regexReplace R_LEADING_WS 0 [] line
  if hasSub "self.".toList out = true then regexReplace R_SELF_DOT 0 "self->".toList out else out

/-- The lines of a unit that the rewrite pass hands to `processLine`: those
that are neither part of a native region, nor comment lines, nor attribute
lines.  `insideNative` is the flag of the pass. -/
def countedLines : List Str → Bool → List Str
  | [], _ => []
  | l :: ls, insideNative =>
    if regexTest R_NATIVE_BLOCK l = true then countedLines ls (decide (chRBrace ∉ l))
    else if insideNative = true then countedLines ls (decide (chRBrace ∉ l))
    else if regexTest R_COMMENT l = true then countedLines ls false
    else if (regexSearch R_ATTRIBUTE_LINE l).isSome = true then countedLines ls false
    else l :: countedLines ls false

/-- A line without a brace. -/
def IsPlainLine (l : Str) : Prop := chLBrace ∉ l ∧ chRBrace ∉ l

/-- A closing line: its only brace is a closing brace that starts the line,
leading blanks apart. -/
def IsCloserLine (l : Str) : Prop :=
  (l.dropWhile isSpace).head? = some chRBrace ∧ l.count chRBrace = 1 ∧ chLBrace ∉ l

/-- An opening line: its only brace is an opening brace that ends the line,
trailing blanks apart; it is no include, `use`, field or variable line; and
it is the head of a mixin definition, a struct, a resolve block or a
function, or it holds no method call and no pipe to rewrite. -/
def IsOpenerLine (l : Str) : Prop :=
  (l.reverse.dropWhile isSpace).head? = some chLBrace ∧ l.count chLBrace = 1 ∧ chRBrace ∉ l
    ∧ regexSearch R_INCLUDE (l.dropWhile isSpace) = none
    ∧ regexSearch R_USE_MIXIN (lineText l) = none
    ∧ regexSearch R_FIELD (lineText l) = none
    ∧ regexSearch R_VAR (lineText l) = none
    ∧ ((regexSearch R_SHARED_START (lineText l)).isSome = true
        ∨ (regexSearch R_STRUCT_START (lineText l)).isSome = true
        ∨ (regexSearch R_RESOLVE_START (lineText l)).isSome = true
        ∨ (regexSearch R_FUNC_SIGNATURE (lineText l)).isSome = true
        ∨ (regexSearch R_METHOD_CALL (lineText l) = none ∧ regexSearch R_PIPE (lineText l) = none))

instance (l : Str) : Decidable (IsPlainLine l) := by unfold IsPlainLine; infer_instance

instance (l : Str) : Decidable (IsCloserLine l) := by unfold IsCloserLine; infer_instance

instance (l : Str) : Decidable (IsOpenerLine l) := by unfold IsOpenerLine; infer_instance

/-- What `processLine` has computed about a line when it reaches the closing
contexts, for the indentation `ind`. -/
def lineCtx (line ind : Str) : LineCtx :=
  ⟨line, lineText line,
    regexTest R_OPENS_AT_END (regexReplace R_LEADING_WS 0 [] line)
      || regexTest R_OPENS_AT_START (regexReplace R_LEADING_WS 0 [] line),
    regexTest R_CLOSES (regexReplace R_LEADING_WS 0 [] line), ind⟩


/-- Whether the strict detection of `processLine` reads the line as one that
begins with a closing brace (`closesBrace`). -/
def closesAt (l : Str) : Bool := regexTest R_CLOSES (regexReplace R_LEADING_WS 0 [] l)

/-- Whether the strict detection of `processLine` reads the line as one that
opens a block (`opensBrace`): its last or its first character, blanks apart,
is an opening brace. -/
def opensAt (l : Str) : Bool :=
  regexTest R_OPENS_AT_END (regexReplace R_LEADING_WS 0 [] l)
    || regexTest R_OPENS_AT_START (regexReplace R_LEADING_WS 0 [] l)

/-- Whether the end of `processLine` raises the depth on a text that opens a
block: the text after expression rewriting is an `if`, a `while` or a `loop`,
or it is the head of no mixin definition, struct, resolve block or
function. -/
def stmtOpens (fuel : Nat) (t : Transpiler) (out : Str) : Bool :=
  match rewriteExpr t.m_symbols fuel out with
  | .error _ => false
  | .ok out =>
    (regexSearch R_IF out).isSome || (regexSearch R_WHILE out).isSome || regexTest R_LOOP out
      || (!regexTest R_SHARED_START out && !regexTest R_STRUCT_START out
          && !regexTest R_RESOLVE_START out && !regexTest R_FUNC_SIGNATURE out)

/-- Whether the branch of `processLine` that a line takes after the closing
contexts is one that raises the depth when the line opens a block: the head
of a mixin definition, a line inside a mixin definition, the head of a
struct, of a resolve block or of a function definition, or a statement for
which `stmtOpens` holds; not a `use` line of a registered mixin, a field
line of a struct, a signature without an opening brace or a variable
line. -/
def lowersAsBlock (fuel : Nat) (c : LineCtx) (t : Transpiler) : Bool :=
  if (regexSearch R_SHARED_START c.out).isSome = true then true
  else if t.m_inShared = true then true
  else if (regexSearch R_STRUCT_START c.out).isSome = true then true
  else if ((regexSearch R_USE_MIXIN c.out).bind (fun m => mapFind t.m_sharedMixins (m.group 1))).isSome = true
    then false
  else if t.m_inStruct = true ∧ regexTest R_FUNC_SIGNATURE c.out = false ∧ c.closesBrace = false
      ∧ (regexSearch R_FIELD c.out).isSome = true then false
  else if (regexSearch R_RESOLVE_START c.out).isSome = true then true
  else if (regexSearch R_FUNC_SIGNATURE c.out).isSome = true then decide (chLBrace ∈ c.line)
  else if (regexSearch R_VAR c.out).isSome = true then false
  else stmtOpens fuel t c.out

/-- Whether `processLine`, in the state `t`, takes the line as opening a
block and raises the depth: the line is no include line, the strict
detection reads it as opening a block, it does not end a mixin definition,
struct or resolve block that is open, and it is lowered as the head of a
block. -/
def takenAsOpening (fuel : Nat) (t : Transpiler) (l : Str) : Bool :=
  (regexSearch R_INCLUDE (regexReplace R_LEADING_WS 0 [] l)).isNone && opensAt l
    && (closeContexts (lineCtx l []) t).1.isNone
    && lowersAsBlock fuel (lineCtx l []) (closeContexts (lineCtx l []) t).2

/-- The braces of a line stand where `processLine`, in the state `t`, reads
them: the line holds one opening brace more than closing braces for being
taken as opening a block, and one closing brace more for beginning with a
closing brace. -/
def lineTracks (fuel : Nat) (t : Transpiler) (l : Str) : Bool :=
  decide (braceBalance 0 l
    = (if takenAsOpening fuel t l = true then 1 else 0) - (if closesAt l = true then 1 else 0))

/-- Every line that the rewrite pass hands to `processLine` has its braces
where `processLine` reads them, in the state in which the pass reaches the
line.  `insideNative` is the flag of the pass. -/
def tracksBraces (fuel : Nat) : List Str → Transpiler → Bool → Bool
  | [], _, _ => true
  | l :: ls, t, insideNative =>
    (if regexTest R_NATIVE_BLOCK l = true then true
      else if insideNative = true then true
      else if regexTest R_COMMENT l = true then true
      else if (regexSearch R_ATTRIBUTE_LINE l).isSome = true then true
      else lineTracks fuel t l)
    && (match pass2Line fuel t insideNative l with
        | .ok (t, insideNative) => tracksBraces fuel ls t insideNative
        | .error _ => true)

/-- The depth as `processLine` reads the braces: from the depth `d`, one up
for every line handed to `processLine` that is taken as opening a block, one
down for every such line that begins with a closing brace, each line being
read in the state in which the rewrite pass reaches it. -/
def detectedDepth (fuel : Nat) : List Str → Transpiler → Bool → Int → Int
  | [], _, _, d => d
  | l :: ls, t, insideNative, d =>
    let d :=
      if regexTest R_NATIVE_BLOCK l = true then d
      else if insideNative = true then d
      else if regexTest R_COMMENT l = true then d
      else if (regexSearch R_ATTRIBUTE_LINE l).isSome = true then d
      else d + (if takenAsOpening fuel t l = true then 1 else 0) - (if closesAt l = true then 1 else 0)
    match pass2Line fuel t insideNative l with
    | .ok (t, insideNative) => detectedDepth fuel ls t insideNative d
    | .error _ => d

/-- Every group of the expression records a text with the property `Q`: the
body of a group numbered `i` accepts only texts `w` with `Q i w`. -/
def Re.CapOK (Q : Nat → Str → Prop) : Re → Prop
  | .grp i r => (∀ pre w rest, r.Accepts pre w rest → Q i w) ∧ r.CapOK Q
  | .seq a b => a.CapOK Q ∧ b.CapOK Q
  | .alt a b => a.CapOK Q ∧ b.CapOK Q
  | .opt r => r.CapOK Q
  | _ => True

/-- No type name held by the state holds a dot: neither a type stored in
the symbol table nor the type of the resolve block that is open. -/
def StateDotFree (t : Transpiler) : Prop := TypesDotFree t.m_symbols ∧ '.' ∉ t.m_currentResolveType

/-- The part `\s*\|>\s*([\w]+)\(([^)]*)\)` of the pipe expression, after the
piped argument. -/
def pipeTail : Re :=
  Re.cat [ws, Re.lit "|>".toList, ws, .grp 2 (Re.plus isWord),
    Re.lit "(".toList, .grp 3 (.star isNotRParen true), Re.lit ")".toList]

/-- The text of `i` opened calls `a(`. -/
def callHeads : Nat → Str
  | 0 => []
  | i + 1 => 'a' :: '(' :: callHeads i

/-- The line `a(...a(_|>_|>a(...a(_|>_)`, with `i` opened calls before the
first `_|>_` and `j + 1` before the second. -/
def pipeLoopLine (i j : Nat) : Str :=
  callHeads i ++ "_|>_".toList ++ "|>".toList ++ callHeads (j + 1) ++ "_|>_".toList ++ ")".toList

/-- The part of the state that a run reads: everything but the source text,
the lines emitted so far and, while no mixin definition or struct is open,
the start depth and name recorded for the last one. -/
def liveState (t : Transpiler) : Transpiler :=
  { t with m_source := [], m_outputLines := [],
           m_sharedStartDepth := if t.m_inShared = true then t.m_sharedStartDepth else 0,
           m_structStartDepth := if t.m_inStruct = true then t.m_structStartDepth else 0,
           m_currentStructName := if t.m_inStruct = true then t.m_currentStructName else [] }

/-- A freshly constructed `Transpiler` with the configuration of `t` whose
mixin registry is preset to the one of `t`. -/
def presetFresh (t : Transpiler) : Transpiler :=
  { Transpiler.fresh t.m_config with m_sharedMixins := t.m_sharedMixins }
/-! ## Facts about type translation -/

/-- One step of `translateType`, with the nested call again a call of
`translateType`. -/
theorem translateType_step (T : Str) :
    translateType T =
      if T = "i32".toList then some "int".toList
      else if T = "u32".toList then some "uint32_t".toList
      else if T = "u8".toList then some "uint8_t".toList
      else if T = "f32".toList then some "float".toList
      else if T = "f64".toList then some "double".toList
      else if T = "bool".toList then some "bool".toList
      else if T = "str".toList then some "char*".toList
      else if T = "ptr".toList then some "void*".toList
      else if T = "void".toList then some "void".toList
      else
        match T.getLast? with
        | none => none
        | some c =>
          if c = '*' then (translateType T.dropLast).map (fun r => r ++ ['*'])
          else some T := by
  unfold translateType
  rw [translateTypeAux]
  rcases List.eq_nil_or_concat T with h | ⟨L, b, h⟩
  · subst h; rfl
  · subst h
    simp [List.dropLast_concat]

/-- A text that ends in the pointer marker is translated by translating the
rest. -/
theorem translateType_star (T : Str) :
    translateType (T ++ ['*']) = (translateType T).map (fun r => r ++ ['*']) := by
  rw [translateType_step (T ++ ['*'])]
  have h : ∀ l : Str, l.getLast? ≠ some '*' → T ++ ['*'] ≠ l := by
    intro l hl e
    apply hl
    rw [← e]
    simp
  rw [if_neg (h _ (by decide)), if_neg (h _ (by decide)), if_neg (h _ (by decide)),
    if_neg (h _ (by decide)), if_neg (h _ (by decide)), if_neg (h _ (by decide)),
    if_neg (h _ (by decide)), if_neg (h _ (by decide)), if_neg (h _ (by decide))]
  simp

/-- Markers appended to a text are appended to its translation. -/
theorem translateType_stars (T : Str) (k : Nat) :
    translateType (T ++ List.replicate k '*') =
      (translateType T).map (fun r => r ++ List.replicate k '*') := by
  induction k with
  | zero => simp
  | succ k ih =>
    rw [List.replicate_succ', ← List.append_assoc, translateType_star, ih]
    simp [Option.map_map, Function.comp_def]

/-- A mapped name has a translation, and the translation translates to itself. -/
theorem translateType_mapped (T : Str) (h : isMapped T) :
    ∃ r, translateType T = some r ∧ translateType r = some r := by
  rcases h with h | h | h | h | h | h | h | h | h <;> subst h <;> exact ⟨_, rfl, by decide⟩

/-- Outside the mapping table only the last character matters. -/
theorem translateType_unmapped (T : Str) (h : ¬ isMapped T) :
    translateType T =
      match T.getLast? with
      | none => none
      | some c => if c = '*' then (translateType T.dropLast).map (fun r => r ++ ['*']) else some T := by
  unfold isMapped at h
  push_neg at h
  obtain ⟨h1, h2, h3, h4, h5, h6, h7, h8, h9⟩ := h
  rw [translateType_step, if_neg h1, if_neg h2, if_neg h3, if_neg h4, if_neg h5, if_neg h6,
    if_neg h7, if_neg h8, if_neg h9]

/-- A text with a character other than the marker has a translation. -/
theorem translateType_isSome (T : Str) (h : ∃ c ∈ T, c ≠ '*') : ∃ r, translateType T = some r := by
  induction T using List.reverseRecOn with
  | nil => simp at h
  | append_singleton L b ih =>
    by_cases hb : b = '*'
    · subst hb
      have hL : ∃ c ∈ L, c ≠ '*' := by
        obtain ⟨c, hc, hne⟩ := h
        simp at hc
        rcases hc with hc | hc
        · exact ⟨c, hc, hne⟩
        · exact absurd hc hne
      obtain ⟨r, hr⟩ := ih hL
      exact ⟨r ++ ['*'], by rw [translateType_star, hr]; rfl⟩
    · by_cases hm : isMapped (L ++ [b])
      · obtain ⟨r, hr, _⟩ := translateType_mapped _ hm
        exact ⟨r, hr⟩
      · rw [translateType_unmapped _ hm]
        simp [hb]

/-- A translation is translated to itself. -/
theorem translateType_fixed (T r : Str) (h : translateType T = some r) : translateType r = some r := by
  induction T using List.reverseRecOn generalizing r with
  | nil => simp [translateType, translateTypeAux] at h
  | append_singleton L b ih =>
    by_cases hb : b = '*'
    · subst hb
      rw [translateType_star] at h
      cases hL : translateType L with
      | none => simp [hL] at h
      | some r' =>
        simp [hL] at h
        subst h
        rw [translateType_star, ih r' hL]
        rfl
    · by_cases hm : isMapped (L ++ [b])
      · obtain ⟨r', hr', hfix⟩ := translateType_mapped _ hm
        rw [hr'] at h
        cases h
        exact hfix
      · have h' := h
        rw [translateType_unmapped _ hm] at h
        simp [hb] at h
        subst h
        exact h'

/-! ## Facts about the matcher -/

@[simp] theorem orElse_some (h : Hit) (b : Option Hit) : orElse (some h) b = some h := rfl

@[simp] theorem orElse_none (b : Option Hit) : orElse none b = b := rfl

theorem orElse_eq_some {a b : Option Hit} {h : Hit} (e : orElse a b = some h) :
    a = some h ∨ (a = none ∧ b = some h) := by
  cases a with
  | none => exact Or.inr ⟨rfl, e⟩
  | some x => exact Or.inl e

theorem stopsAt_nil (p : Char → Bool) : StopsAt p [] := by
  intro c hc
  simp at hc

theorem stopsAt_cons {p : Char → Bool} {c : Char} (s : Str) (h : p c = false) : StopsAt p (c :: s) := by
  intro d hd
  simp at hd
  subst hd
  exact h

/-- Greedy star: when every longer run fails, the result is the one of the
empty run. -/
theorem starG_short (p : Char → Bool) :
    ∀ (s : Str) (k : Str → Cur → Option Hit) (pre : Str) (caps : List (Nat × Str)),
      (∀ zs ws, s = zs ++ ws → zs ≠ [] → (∀ z ∈ zs, p z = true) →
        k zs ⟨zs.reverse ++ pre, ws, caps⟩ = none) →
      starG p k pre s caps = k [] ⟨pre, s, caps⟩ := by
  intro s
  induction s with
  | nil => intro k pre caps _; rfl
  | cons c cs ih =>
    intro k pre caps h
    rw [starG]
    split_ifs with hc
    · rw [ih (fun w cur => k (c :: w) cur) (c :: pre) caps]
      · have := h [c] cs rfl (by simp) (by simpa using hc)
        simp at this
        rw [this]
        rfl
      · intro zs ws e hz hall
        have := h (c :: zs) ws (by rw [e]; rfl) (by simp) (by
          intro z hz'
          simp at hz'
          rcases hz' with rfl | hz'
          · exact hc
          · exact hall z hz')
        simpa using this
    · rfl

/-- Greedy star: the run `xs` is taken when the continuation accepts it and
rejects every longer run. -/
theorem starG_some (p : Char → Bool) :
    ∀ (xs ys : Str) (k : Str → Cur → Option Hit) (pre : Str) (caps : List (Nat × Str)) (h : Hit),
      (∀ x ∈ xs, p x = true) →
      k xs ⟨xs.reverse ++ pre, ys, caps⟩ = some h →
      (∀ zs ws, ys = zs ++ ws → zs ≠ [] → (∀ z ∈ zs, p z = true) →
        k (xs ++ zs) ⟨(xs ++ zs).reverse ++ pre, ws, caps⟩ = none) →
      starG p k pre (xs ++ ys) caps = some h := by
  intro xs
  induction xs with
  | nil =>
    intro ys k pre caps h _ hk hlong
    rw [List.nil_append, starG_short p ys k pre caps]
    · simpa using hk
    · intro zs ws e hz hall
      simpa using hlong zs ws e hz hall
  | cons x xs ih =>
    intro ys k pre caps h hall hk hlong
    rw [List.cons_append, starG, if_pos (hall x (by simp))]
    rw [ih ys (fun w cur => k (x :: w) cur) (x :: pre) caps h]
    · rfl
    · intro y hy
      exact hall y (by simp [hy])
    · simpa using hk
    · intro zs ws e hz hz'
      simpa using hlong zs ws e hz hz'

/-- Greedy star: a whole run is taken when the text after it is outside the
class and the continuation accepts. -/
theorem starG_run (p : Char → Bool) (xs ys : Str) (k : Str → Cur → Option Hit) (pre : Str)
    (caps : List (Nat × Str)) (h : Hit) (hxs : ∀ x ∈ xs, p x = true) (hys : StopsAt p ys)
    (hk : k xs ⟨xs.reverse ++ pre, ys, caps⟩ = some h) :
    starG p k pre (xs ++ ys) caps = some h := by
  apply starG_some p xs ys k pre caps h hxs hk
  intro zs ws e hz hall
  exfalso
  cases zs with
  | nil => exact hz rfl
  | cons z zs =>
    have h1 := hys z (by rw [e]; simp)
    have h2 := hall z (by simp)
    rw [h1] at h2
    exact Bool.noConfusion h2

/-- Lazy star: the run `xs` is taken when the continuation accepts it and
rejects every shorter run. -/
theorem starL_some (p : Char → Bool) :
    ∀ (xs ys : Str) (k : Str → Cur → Option Hit) (pre : Str) (caps : List (Nat × Str)) (h : Hit),
      (∀ x ∈ xs, p x = true) →
      k xs ⟨xs.reverse ++ pre, ys, caps⟩ = some h →
      (∀ zs ws, xs = zs ++ ws → ws ≠ [] → k zs ⟨zs.reverse ++ pre, ws ++ ys, caps⟩ = none) →
      starL p k pre (xs ++ ys) caps = some h := by
  intro xs
  induction xs with
  | nil =>
    intro ys k pre caps h _ hk _
    cases ys with
    | nil => simpa [starL] using hk
    | cons y ys =>
      rw [List.nil_append, starL]
      have : k [] ⟨pre, y :: ys, caps⟩ = some h := by simpa using hk
      rw [this]
      rfl
  | cons x xs ih =>
    intro ys k pre caps h hall hk hshort
    rw [List.cons_append, starL]
    have h0 := hshort [] (x :: xs) rfl (by simp)
    simp at h0
    rw [h0, orElse_none, if_pos (hall x (by simp))]
    apply ih ys (fun w cur => k (x :: w) cur) (x :: pre) caps h
    · intro y hy
      exact hall y (by simp [hy])
    · simpa using hk
    · intro zs ws e hws
      have := hshort (x :: zs) ws (by rw [e]; rfl) hws
      simpa using this

/-- Every result of the greedy star comes from the continuation, applied
after a run of the class. -/
theorem starG_sound (p : Char → Bool) :
    ∀ (s : Str) (k : Str → Cur → Option Hit) (pre : Str) (caps : List (Nat × Str)) (h : Hit),
      starG p k pre s caps = some h →
      ∃ w rest, s = w ++ rest ∧ (∀ c ∈ w, p c = true) ∧ k w ⟨w.reverse ++ pre, rest, caps⟩ = some h := by
  intro s
  induction s with
  | nil =>
    intro k pre caps h e
    exact ⟨[], [], rfl, by simp, by simpa [starG] using e⟩
  | cons c cs ih =>
    intro k pre caps h e
    rw [starG] at e
    split_ifs at e with hc
    · rcases orElse_eq_some e with e1 | ⟨_, e2⟩
      · obtain ⟨w, rest, hs, hw, hk⟩ := ih _ _ _ _ e1
        refine ⟨c :: w, rest, by rw [hs]; rfl, ?_, by simpa using hk⟩
        intro d hd
        simp at hd
        rcases hd with rfl | hd
        · exact hc
        · exact hw d hd
      · exact ⟨[], c :: cs, rfl, by simp, by simpa using e2⟩
    · exact ⟨[], c :: cs, rfl, by simp, by simpa using e⟩

/-- Every result of the lazy star comes from the continuation, applied after
a run of the class. -/
theorem starL_sound (p : Char → Bool) :
    ∀ (s : Str) (k : Str → Cur → Option Hit) (pre : Str) (caps : List (Nat × Str)) (h : Hit),
      starL p k pre s caps = some h →
      ∃ w rest, s = w ++ rest ∧ (∀ c ∈ w, p c = true) ∧ k w ⟨w.reverse ++ pre, rest, caps⟩ = some h := by
  intro s
  induction s with
  | nil =>
    intro k pre caps h e
    exact ⟨[], [], rfl, by simp, by simpa [starL] using e⟩
  | cons c cs ih =>
    intro k pre caps h e
    rw [starL] at e
    rcases orElse_eq_some e with e1 | ⟨_, e2⟩
    · exact ⟨[], c :: cs, rfl, by simp, by simpa using e1⟩
    · split_ifs at e2 with hc
      obtain ⟨w, rest, hs, hw, hk⟩ := ih _ _ _ _ e2
      refine ⟨c :: w, rest, by rw [hs]; rfl, ?_, by simpa using hk⟩
      intro d hd
      simp at hd
      rcases hd with rfl | hd
      · exact hc
      · exact hw d hd

/-- Soundness of the matcher: a result is the continuation's result at a
position reached over a text that the expression accepts. -/
theorem run_sound (r : Re) :
    ∀ (k : Str → Cur → Option Hit) (cur : Cur) (h : Hit), r.run k cur = some h →
      ∃ w rest caps, cur.rest = w ++ rest ∧ r.Accepts cur.pre w rest
        ∧ k w ⟨w.reverse ++ cur.pre, rest, caps⟩ = some h := by
  induction r with
  | eps =>
    intro k cur h e
    exact ⟨[], cur.rest, cur.caps, rfl, rfl, by simpa [Re.run] using e⟩
  | chr p =>
    intro k cur h e
    rw [Re.run] at e
    split at e
    · exact Option.noConfusion e
    · rename_i c cs hrest
      split_ifs at e with hc
      exact ⟨[c], cs, cur.caps, by rw [hrest]; rfl, ⟨c, rfl, hc⟩, by simpa using e⟩
  | star p g =>
    intro k cur h e
    cases g with
    | true =>
      rw [Re.run] at e
      obtain ⟨w, rest, hs, hw, hk⟩ := starG_sound p _ _ _ _ _ e
      exact ⟨w, rest, cur.caps, hs, hw, hk⟩
    | false =>
      rw [Re.run] at e
      obtain ⟨w, rest, hs, hw, hk⟩ := starL_sound p _ _ _ _ _ e
      exact ⟨w, rest, cur.caps, hs, hw, hk⟩
  | bol =>
    intro k cur h e
    rw [Re.run] at e
    split_ifs at e with hc
    exact ⟨[], cur.rest, cur.caps, rfl, ⟨rfl, by simpa using hc⟩, by simpa using e⟩
  | eol =>
    intro k cur h e
    obtain ⟨pre, rest, caps⟩ := cur
    rw [Re.run] at e
    split_ifs at e with hc
    have hr : rest = [] := by simpa using hc
    subst hr
    exact ⟨[], [], caps, rfl, ⟨rfl, rfl⟩, by simpa using e⟩
  | wordb =>
    intro k cur h e
    rw [Re.run] at e
    split_ifs at e with hc
    exact ⟨[], cur.rest, cur.caps, rfl, ⟨rfl, hc⟩, by simpa using e⟩
  | grp i r ih =>
    intro k cur h e
    rw [Re.run] at e
    obtain ⟨w, rest, caps, hs, hw, hk⟩ := ih _ _ _ e
    exact ⟨w, rest, _, hs, hw, hk⟩
  | seq a b iha ihb =>
    intro k cur h e
    rw [Re.run] at e
    obtain ⟨w₁, rest₁, caps₁, hs₁, hw₁, hk₁⟩ := iha _ _ _ e
    obtain ⟨w₂, rest₂, caps₂, hs₂, hw₂, hk₂⟩ := ihb _ _ _ hk₁
    simp only at hs₂ hw₂ hk₂
    refine ⟨w₁ ++ w₂, rest₂, caps₂, by rw [hs₁, hs₂, List.append_assoc], ?_, ?_⟩
    · exact ⟨w₁, w₂, rfl, by rw [← hs₂]; exact hw₁, hw₂⟩
    · simpa using hk₂
  | alt a b iha ihb =>
    intro k cur h e
    rw [Re.run] at e
    rcases orElse_eq_some e with e1 | ⟨_, e2⟩
    · obtain ⟨w, rest, caps, hs, hw, hk⟩ := iha _ _ _ e1
      exact ⟨w, rest, caps, hs, Or.inl hw, hk⟩
    · obtain ⟨w, rest, caps, hs, hw, hk⟩ := ihb _ _ _ e2
      exact ⟨w, rest, caps, hs, Or.inr hw, hk⟩
  | opt r ih =>
    intro k cur h e
    rw [Re.run] at e
    rcases orElse_eq_some e with e1 | ⟨_, e2⟩
    · obtain ⟨w, rest, caps, hs, hw, hk⟩ := ih _ _ _ e1
      exact ⟨w, rest, caps, hs, Or.inr hw, hk⟩
    · exact ⟨[], cur.rest, cur.caps, rfl, Or.inl rfl, by simpa using e2⟩

/-! ## Facts about searching and replacing -/

theorem matchAt_sound {r : Re} {pre s w : Str} {c : Cur} (e : matchAt r pre s = some (w, c)) :
    s = w ++ c.rest ∧ r.Accepts pre w c.rest := by
  obtain ⟨w', rest, caps, hs, hw, hk⟩ := run_sound r _ _ _ e
  simp only [Option.some.injEq, Prod.mk.injEq] at hk
  obtain ⟨h1, h2⟩ := hk
  subst h1
  subst h2
  exact ⟨hs, hw⟩

theorem searchFrom_hit {r : Re} {pre s w : Str} {c : Cur} (sk : Str)
    (e : matchAt r pre s = some (w, c)) :
    searchFrom r sk pre s = some ⟨sk.reverse, w, c.rest, c.caps⟩ := by
  cases s with
  | nil => simp [searchFrom, e]
  | cons x xs => simp [searchFrom, e]

theorem searchFrom_miss {r : Re} {pre : Str} {x : Char} {xs : Str} (sk : Str)
    (e : matchAt r pre (x :: xs) = none) :
    searchFrom r sk pre (x :: xs) = searchFrom r (x :: sk) (x :: pre) xs := by
  simp [searchFrom, e]

/-- A match found by a search splits the subject and is accepted by the
expression. -/
theorem searchFrom_sound (r : Re) :
    ∀ (s sk pre : Str) (m : Match), searchFrom r sk pre s = some m →
      ∃ u, s = u ++ (m.matched ++ m.sfx) ∧ m.pfx = sk.reverse ++ u
        ∧ r.Accepts (u.reverse ++ pre) m.matched m.sfx := by
  intro s
  induction s with
  | nil =>
    intro sk pre m e
    rw [searchFrom] at e
    split at e
    · rename_i w c hm
      cases e
      obtain ⟨h1, h2⟩ := matchAt_sound hm
      exact ⟨[], by simpa using h1, by simp, by simpa using h2⟩
    · exact Option.noConfusion e
  | cons x xs ih =>
    intro sk pre m e
    rw [searchFrom] at e
    split at e
    · rename_i w c hm
      cases e
      obtain ⟨h1, h2⟩ := matchAt_sound hm
      exact ⟨[], by simpa using h1, by simp, by simpa using h2⟩
    · obtain ⟨u, h1, h2, h3⟩ := ih _ _ _ e
      exact ⟨x :: u, by rw [h1]; rfl, by simp [h2], by simpa using h3⟩

theorem regexSearch_sound {r : Re} {s : Str} {m : Match} (e : regexSearch r s = some m) :
    s = m.pfx ++ (m.matched ++ m.sfx) ∧ r.Accepts m.pfx.reverse m.matched m.sfx := by
  obtain ⟨u, h1, h2, h3⟩ := searchFrom_sound r s [] [] m e
  simp at h2
  subst h2
  exact ⟨h1, by simpa using h3⟩

/-- No match is found in a subject of which no part is accepted. -/
theorem regexSearch_none {r : Re} {s : Str}
    (h : ∀ u w v, s = u ++ (w ++ v) → ¬ r.Accepts u.reverse w v) : regexSearch r s = none := by
  cases e : regexSearch r s with
  | none => rfl
  | some m =>
    obtain ⟨h1, h2⟩ := regexSearch_sound e
    exact absurd h2 (h _ _ _ h1)

theorem regexTest_false {r : Re} {s : Str}
    (h : ∀ u w v, s = u ++ (w ++ v) → ¬ r.Accepts u.reverse w v) : regexTest r s = false := by
  simp [regexTest, regexSearch_none h]

/-- An expression that begins with `^` matches nowhere but at the start. -/
theorem searchFrom_bol (r : Re) :
    ∀ (s sk pre : Str), pre ≠ [] → searchFrom (.seq .bol r) sk pre s = none := by
  intro s
  induction s with
  | nil =>
    intro sk pre hpre
    cases pre with
    | nil => exact absurd rfl hpre
    | cons p ps => simp [searchFrom, matchAt, Re.run]
  | cons x xs ih =>
    intro sk pre hpre
    cases pre with
    | nil => exact absurd rfl hpre
    | cons p ps =>
      rw [searchFrom]
      simp only [matchAt, Re.run, List.isEmpty_cons, Bool.false_eq_true, if_false]
      exact ih _ _ (by simp)

theorem regexSearch_bol_none {r : Re} {s : Str} (e : matchAt (.seq .bol r) [] s = none) :
    regexSearch (.seq .bol r) s = none := by
  cases s with
  | nil => simp [regexSearch, searchFrom, e]
  | cons x xs =>
    rw [regexSearch, searchFrom_miss _ e]
    exact searchFrom_bol r _ _ _ (by simp)

theorem regexSearch_hit {r : Re} {s w : Str} {c : Cur} (e : matchAt r [] s = some (w, c)) :
    regexSearch r s = some ⟨[], w, c.rest, c.caps⟩ := by
  rw [regexSearch, searchFrom_hit [] e]
  rfl

theorem regexTest_bol_false {r : Re} {s : Str} (e : matchAt (.seq .bol r) [] s = none) :
    regexTest (.seq .bol r) s = false := by
  simp [regexTest, regexSearch_bol_none e]

/-- The text skipped before a search only shows in the prefix of the match. -/
theorem searchFrom_pfx (r : Re) :
    ∀ (s sk pre : Str), searchFrom r sk pre s =
      (searchFrom r [] pre s).map (fun m => ⟨sk.reverse ++ m.pfx, m.matched, m.sfx, m.caps⟩) := by
  intro s
  induction s with
  | nil =>
    intro sk pre
    rw [searchFrom, searchFrom]
    split <;> simp
  | cons x xs ih =>
    intro sk pre
    rw [searchFrom, searchFrom]
    split
    · simp
    · rw [ih (x :: sk), ih [x]]
      cases searchFrom r [] (x :: pre) xs <;> simp

/-- A search succeeds when an attempt succeeds somewhere in the subject. -/
theorem searchFrom_isSome (r : Re) :
    ∀ (u v sk pre : Str), (matchAt r (u.reverse ++ pre) v).isSome = true →
      (searchFrom r sk pre (u ++ v)).isSome = true := by
  intro u
  induction u with
  | nil =>
    intro v sk pre h
    cases e : matchAt r pre v with
    | none => simp [e] at h
    | some hit =>
      obtain ⟨w, c⟩ := hit
      rw [List.nil_append, searchFrom_hit sk e]
      rfl
  | cons x u ih =>
    intro v sk pre h
    cases e : matchAt r pre (x :: (u ++ v)) with
    | some hit =>
      obtain ⟨w, c⟩ := hit
      rw [List.cons_append, searchFrom_hit sk e]
      rfl
    | none =>
      rw [List.cons_append, searchFrom_miss sk e]
      apply ih
      simpa using h

theorem regexTest_true {r : Re} (u v : Str) (h : (matchAt r u.reverse v).isSome = true) :
    regexTest r (u ++ v) = true := by
  rw [regexTest, regexSearch]
  exact searchFrom_isSome r u v [] [] (by simpa using h)

/-- Replacing leaves a subject without a match as it is. -/
theorem regexReplace_none {r : Re} {s : Str} (n : Nat) (fmt : Str) (e : regexSearch r s = none) :
    regexReplace r n fmt s = s := by
  rw [regexSearch] at e
  simp [regexReplace, replaceLoop, e]

/-- A replacement text without `$` is copied as it is. -/
theorem formatWith_plain (m : Match) (n : Nat) (fmt : Str) (h : '$' ∉ fmt) :
    formatWith m n fmt = fmt := by
  unfold formatWith
  induction fmt with
  | nil => rfl
  | cons c cs ih =>
    simp at h
    rw [formatGo, if_neg (by intro e; exact h.1 e.symm), ih (by simpa using h.2)]

/-! ## Facts about the method-call expression -/

theorem isReceiverChar_of_isWord {c : Char} (h : isWord c = true) : isReceiverChar c = true := by
  simp [isReceiverChar, h]

/-- The method-call expression matches the whole of `r.m(a)`. -/
theorem methodCall_match (r m a : Str) (hr : IsIdent r) (hm : IsIdent m) (ha : ')' ∉ a) :
    regexSearch R_METHOD_CALL (r ++ ".".toList ++ m ++ "(".toList ++ a ++ ")".toList)
      = some ⟨[], r ++ ".".toList ++ m ++ "(".toList ++ a ++ ")".toList, [], [(3, a), (2, m), (1, r)]⟩ := by
  obtain ⟨hr0, hrw⟩ := hr
  obtain ⟨hm0, hmw⟩ := hm
  obtain ⟨x, xs, rfl⟩ := List.exists_cons_of_ne_nil hr0
  obtain ⟨y, ys, rfl⟩ := List.exists_cons_of_ne_nil hm0
  have hx : isReceiverChar x = true := isReceiverChar_of_isWord (hrw x (by simp))
  have hy : isWord y = true := hmw y (by simp)
  have e : matchAt R_METHOD_CALL [] (x :: xs ++ ".".toList ++ y :: ys ++ "(".toList ++ a ++ ")".toList)
      = some (x :: xs ++ ".".toList ++ y :: ys ++ "(".toList ++ a ++ ")".toList,
          ⟨(x :: xs ++ ".".toList ++ y :: ys ++ "(".toList ++ a ++ ")".toList).reverse, [],
            [(3, a), (2, y :: ys), (1, x :: xs)]⟩) := by
    simp only [R_METHOD_CALL, Re.cat, Re.plus, Re.lit, matchAt, Re.run, String.toList, List.cons_append,
      List.append_assoc, List.nil_append, hx, if_true]
    apply starG_run
    · intro c hc
      exact isReceiverChar_of_isWord (hrw c (by simp [hc]))
    · exact stopsAt_cons _ (by decide)
    simp only [Re.run, isChar, beq_self_eq_true, if_true, hy]
    apply starG_run
    · intro c hc
      exact hmw c (by simp [hc])
    · exact stopsAt_cons _ (by decide)
    simp only [Re.run, isChar, beq_self_eq_true, if_true]
    apply starG_run
    · intro c hc
      simp only [isNotRParen, Bool.not_eq_true', beq_eq_false_iff_ne, ne_eq]
      intro e
      exact ha (e ▸ hc)
    · exact stopsAt_cons _ (by decide)
    simp [Re.run, isChar]
  have := regexSearch_hit e
  simpa using this

/-- Whatever the method-call expression accepts holds a dot. -/
theorem methodCall_accepts_dot {pre w rest : Str} (h : R_METHOD_CALL.Accepts pre w rest) : '.' ∈ w := by
  simp only [R_METHOD_CALL, Re.cat, Re.lit, Re.Accepts, String.toList] at h
  obtain ⟨w₁, w₂, rfl, -, w₃, w₄, rfl, h₃, -⟩ := h
  obtain ⟨a, b, rfl, ⟨c, rfl, hc⟩, rfl⟩ := h₃
  simp [isChar] at hc
  subst hc
  simp

/-- The method-call expression finds nothing in a text without a dot. -/
theorem methodCall_absent (s : Str) (h : '.' ∉ s) : regexSearch R_METHOD_CALL s = none := by
  apply regexSearch_none
  intro u w v e hacc
  apply h
  rw [e]
  simp [methodCall_accepts_dot hacc]

theorem not_mem_of_isWord {s : Str} {d : Char} (hs : ∀ c ∈ s, isWord c = true) (hd : isWord d = false) :
    d ∉ s := by
  intro h
  have := hs d h
  rw [hd] at this
  exact Bool.noConfusion this

/-- The loop of `replaceMethodCalls` on `r.m(a)` with a resolved receiver:
one rewrite, then nothing more to find. -/
theorem replaceMethodCalls_resolved (syms : SymbolTable) (r m a T : Str) (fuel : Nat)
    (hr : IsIdent r) (hm : IsIdent m) (ha : ')' ∉ a) (hadot : '.' ∉ a)
    (hT : syms.lookup r = T) (hT0 : T ≠ []) (hTdot : '.' ∉ T) :
    replaceMethodCalls syms (fuel + 2) (r ++ ".".toList ++ m ++ "(".toList ++ a ++ ")".toList)
      = some (T ++ "_".toList ++ m ++ "(".toList
          ++ (if a ≠ [] then "&".toList ++ r ++ ", ".toList ++ a else "&".toList ++ r) ++ ")".toList) := by
  rw [replaceMethodCalls, methodCall_match r m a hr hm ha]
  simp only [Match.group, groupOf, if_true, hT, hT0, ne_eq, not_false_eq_true, List.nil_append,
    List.append_nil, if_false,
    (by decide : (3 : Nat) ≠ 1), (by decide : (2 : Nat) ≠ 1), (by decide : (3 : Nat) ≠ 2)]
  rw [replaceMethodCalls, methodCall_absent]
  have h1 := not_mem_of_isWord hr.2 (d := '.') (by decide)
  have h2 := not_mem_of_isWord hm.2 (d := '.') (by decide)
  split_ifs <;> simp [hTdot, h1, h2, hadot]

/-! ## Facts about the pipe expressions -/

theorem isSpace_false_of_isWord {c : Char} (h : isWord c = true) : isSpace c = false := by
  cases hs : isSpace c with
  | false => rfl
  | true =>
    exfalso
    simp only [isSpace, Bool.or_eq_true, beq_iff_eq] at hs
    rcases hs with ((((rfl | rfl) | rfl) | rfl) | rfl) | rfl <;> exact absurd h (by decide)

theorem isAny_of_isWord {c : Char} (h : isWord c = true) : isAny c = true := by
  cases hs : isAny c with
  | true => rfl
  | false =>
    exfalso
    simp only [isAny, Bool.not_eq_false', Bool.or_eq_true, beq_iff_eq] at hs
    rcases hs with rfl | rfl <;> exact absurd h (by decide)

theorem ne_of_isWord {c d : Char} (h : isWord c = true) (hd : isWord d = false) : c ≠ d := by
  intro e
  rw [e, hd] at h
  exact Bool.noConfusion h

theorem isChar_false_of_isWord {c d : Char} (h : isWord c = true) (hd : isWord d = false) :
    isChar d c = false := by
  simp [isChar, ne_of_isWord h hd]

/-- The pipe expression matches the whole of `e |> f(a)`. -/
theorem pipe_match (e f a : Str) (he : IsIdent e) (hf : IsIdent f) (ha : ')' ∉ a) :
    regexSearch R_PIPE (e ++ " |> ".toList ++ f ++ "(".toList ++ a ++ ")".toList)
      = some ⟨[], e ++ " |> ".toList ++ f ++ "(".toList ++ a ++ ")".toList, [], [(3, a), (2, f), (1, e)]⟩ := by
  obtain ⟨he0, hew⟩ := he
  obtain ⟨hf0, hfw⟩ := hf
  obtain ⟨x, xs, rfl⟩ := List.exists_cons_of_ne_nil he0
  obtain ⟨y, ys, rfl⟩ := List.exists_cons_of_ne_nil hf0
  have hx : isAny x = true := isAny_of_isWord (hew x (by simp))
  have hy : isWord y = true := hfw y (by simp)
  have hys : isSpace y = false := isSpace_false_of_isWord hy
  have e : matchAt R_PIPE [] (x :: xs ++ " |> ".toList ++ y :: ys ++ "(".toList ++ a ++ ")".toList)
      = some (x :: xs ++ " |> ".toList ++ y :: ys ++ "(".toList ++ a ++ ")".toList,
          ⟨(x :: xs ++ " |> ".toList ++ y :: ys ++ "(".toList ++ a ++ ")".toList).reverse, [],
            [(3, a), (2, y :: ys), (1, x :: xs)]⟩) := by
    simp only [R_PIPE, Re.cat, Re.plus, Re.plusLazy, Re.lit, matchAt, Re.run, String.toList,
      List.cons_append, List.append_assoc, List.nil_append, hx, if_true, ws]
    apply starL_some
    · intro c hc
      exact isAny_of_isWord (hew c (by simp [hc]))
    · simp only [Re.run]
      apply starG_run isSpace [' ']
      · decide
      · exact stopsAt_cons _ (by decide)
      simp only [Re.run, isChar, beq_self_eq_true, if_true]
      apply starG_run isSpace [' ']
      · decide
      · exact stopsAt_cons _ hys
      simp only [Re.run, isChar, beq_self_eq_true, if_true, hy]
      apply starG_run
      · intro c hc
        exact hfw c (by simp [hc])
      · exact stopsAt_cons _ (by decide)
      simp only [Re.run, isChar, beq_self_eq_true, if_true]
      apply starG_run
      · intro c hc
        simp only [isNotRParen, Bool.not_eq_true', beq_eq_false_iff_ne, ne_eq]
        intro e
        exact ha (e ▸ hc)
      · exact stopsAt_cons _ (by decide)
      simp [Re.run, isChar]
    · intro zs ws' e hws
      obtain ⟨c, cs, rfl⟩ := List.exists_cons_of_ne_nil hws
      have hc : isWord c = true := hew c (by rw [e]; simp)
      simp [Re.run, starG, isSpace_false_of_isWord hc,
        isChar_false_of_isWord hc (by decide : isWord '|' = false)]
  have := regexSearch_hit e
  simpa using this

theorem hasSub_of_isPrefixOf (n s : Str) (h : n.isPrefixOf s = true) : hasSub n s = true := by
  cases s with
  | nil =>
    cases n with
    | nil => rfl
    | cons a n => simp [List.isPrefixOf] at h
  | cons c cs => simp [hasSub, h]

/-- A text that holds `n` somewhere is found to hold it. -/
theorem hasSub_infix (n : Str) : ∀ (u v : Str), hasSub n (u ++ (n ++ v)) = true := by
  intro u
  induction u with
  | nil =>
    intro v
    apply hasSub_of_isPrefixOf
    simp
  | cons c cs ih =>
    intro v
    simp [hasSub, ih v]

/-- Whatever the pipe expression accepts holds the pipe operator. -/
theorem pipe_accepts_op {pre w rest : Str} (h : R_PIPE.Accepts pre w rest) :
    ∃ a b, w = a ++ ("|>".toList ++ b) := by
  simp only [R_PIPE, Re.cat, Re.lit, Re.Accepts, String.toList] at h
  obtain ⟨w₁, w₂, rfl, -, w₃, w₄, rfl, -, w₅, w₆, rfl, h₅, -⟩ := h
  obtain ⟨a, b, rfl, ⟨c, rfl, hc⟩, b₁, b₂, rfl, ⟨d, rfl, hd⟩, rfl⟩ := h₅
  simp [isChar] at hc hd
  subst hc
  subst hd
  exact ⟨w₁ ++ w₃, w₆, by simp⟩

/-- The pipe expression finds nothing in a text without the pipe operator. -/
theorem pipe_absent (s : Str) (h : hasSub "|>".toList s = false) : regexSearch R_PIPE s = none := by
  apply regexSearch_none
  intro u w v e hacc
  obtain ⟨a, b, rfl⟩ := pipe_accepts_op hacc
  have := hasSub_infix "|>".toList (u ++ a) (b ++ v)
  rw [e] at h
  simp only [List.append_assoc] at this h
  rw [this] at h
  exact Bool.noConfusion h

/-- Whatever the trimming expression accepts holds a space character. -/
theorem trim_accepts_space {pre w rest : Str} (h : R_TRIM.Accepts pre w rest) :
    ∃ c ∈ w, isSpace c = true := by
  simp only [R_TRIM, Re.cat, Re.plus, ws1, Re.Accepts] at h
  rcases h with ⟨w₁, w₂, rfl, -, w₃, w₄, rfl, ⟨c, rfl, hc⟩, -⟩ | ⟨w₁, w₂, rfl, ⟨w₃, w₄, rfl, ⟨c, rfl, hc⟩, -⟩, -⟩
  · exact ⟨c, by simp, hc⟩
  · exact ⟨c, by simp, hc⟩

/-- Trimming leaves an identifier as it is. -/
theorem trim_ident (e : Str) (he : IsIdent e) : regexReplace R_TRIM 0 [] e = e := by
  apply regexReplace_none
  apply regexSearch_none
  intro u w v h hacc
  obtain ⟨c, hc, hs⟩ := trim_accepts_space hacc
  have := isSpace_false_of_isWord (he.2 c (by rw [h]; simp [hc]))
  rw [this] at hs
  exact Bool.noConfusion hs

/-- One attempt of the placeholder expression: it matches a `_` with no word
character on either side. -/
theorem placeholder_matchAt (pre : Str) (c : Char) (cs : Str) :
    matchAt placeholder_regex pre (c :: cs) =
      if c = '_' ∧ isWordAt pre.head? = false ∧ isWordAt cs.head? = false then
        some (['_'], ⟨'_' :: pre, cs, []⟩)
      else none := by
  by_cases hc : c = '_'
  · subst hc
    cases pre with
    | nil =>
      cases cs with
      | nil => decide
      | cons d ds =>
        cases hd : isWord d <;>
          simp [placeholder_regex, Re.cat, Re.lit, matchAt, Re.run, atWordBoundary, isWordAt, isChar, hd,
            (by decide : isWord '_' = true)]
    | cons p ps =>
      cases cs with
      | nil =>
        cases hp : isWord p <;>
          simp [placeholder_regex, Re.cat, Re.lit, matchAt, Re.run, atWordBoundary, isWordAt, isChar, hp,
            (by decide : isWord '_' = true)]
      | cons d ds =>
        cases hp : isWord p <;> cases hd : isWord d <;>
          simp [placeholder_regex, Re.cat, Re.lit, matchAt, Re.run, atWordBoundary, isWordAt, isChar, hp, hd,
            (by decide : isWord '_' = true)]
  · simp [placeholder_regex, Re.cat, Re.lit, matchAt, Re.run, isChar, hc]

theorem placeholder_matchAt_nil (pre : Str) : matchAt placeholder_regex pre [] = none := by
  simp [placeholder_regex, Re.cat, Re.lit, matchAt, Re.run]

/-- The placeholder expression finds a match exactly in a text with a
standalone `_`. -/
theorem placeholder_search_isSome :
    ∀ (s sk pre : Str), (searchFrom placeholder_regex sk pre s).isSome = hasStandalone pre.head? s := by
  intro s
  induction s with
  | nil =>
    intro sk pre
    simp [searchFrom, placeholder_matchAt_nil, hasStandalone]
  | cons c cs ih =>
    intro sk pre
    rw [searchFrom, placeholder_matchAt, hasStandalone]
    split_ifs with h
    · obtain ⟨h1, h2, h3⟩ := h
      simp [h1, h2, h3]
    · rw [ih]
      simp only [List.head?_cons]
      have : (decide (c = '_') && !isWordAt pre.head? && !isWordAt cs.head?) = false := by
        by_contra hne
        simp at hne
        exact h ⟨hne.1, hne.2.1, hne.2.2⟩
      rw [this]
      rfl

theorem placeholder_test (a : Str) : regexTest placeholder_regex a = hasStandalone none a := by
  rw [regexTest, regexSearch, placeholder_search_isSome]
  rfl

/-- A replacement step over a character at which nothing matches copies the
character, when the replacement text holds no `$`. -/
theorem replaceLoop_miss (r : Re) (n : Nat) (fmt : Str) (hfmt : '$' ∉ fmt) (fuel : Nat) (pre : Str)
    (c : Char) (cs : Str) (e : matchAt r pre (c :: cs) = none) :
    replaceLoop r n fmt (fuel + 1) pre (c :: cs) = c :: replaceLoop r n fmt (fuel + 1) (c :: pre) cs := by
  rw [replaceLoop, replaceLoop, searchFrom_miss [] e, searchFrom_pfx]
  cases hs : searchFrom r [] (c :: pre) cs with
  | none => rfl
  | some m =>
    obtain ⟨p, w, s, caps⟩ := m
    cases w with
    | nil =>
      cases s with
      | nil => simp [formatWith_plain _ _ _ hfmt]
      | cons x xs => simp [formatWith_plain _ _ _ hfmt, preAfter]
    | cons y ys => simp [formatWith_plain _ _ _ hfmt, preAfter]

/-- Replacing the placeholder by a text without `$` is the replacement of
every standalone `_`. -/
theorem placeholder_replaceLoop (e : Str) (he : '$' ∉ e) :
    ∀ (s : Str) (fuel : Nat) (pre : Str), s.length < fuel →
      replaceLoop placeholder_regex 0 e fuel pre s = substStandalone e pre.head? s := by
  intro s
  induction s with
  | nil =>
    intro fuel pre hf
    cases fuel with
    | zero => simp at hf
    | succ fuel => simp [replaceLoop, searchFrom, placeholder_matchAt_nil, substStandalone]
  | cons c cs ih =>
    intro fuel pre hf
    cases fuel with
    | zero => simp at hf
    | succ fuel =>
      have hm := placeholder_matchAt pre c cs
      rw [substStandalone]
      split_ifs at hm ⊢ with h
      · rw [replaceLoop, searchFrom_hit [] hm]
        simp only [List.reverse_nil, List.nil_append, formatWith_plain _ _ _ he, preAfter,
          List.reverse_cons, List.append_nil]
        rw [ih fuel _ (by simpa using hf)]
        simp [h.1]
      · rw [replaceLoop_miss _ _ _ he _ _ _ _ hm, ih (fuel + 1) _ (by simp at hf; omega)]
        simp

theorem placeholder_replace (e a : Str) (he : '$' ∉ e) :
    regexReplace placeholder_regex 0 e a = substStandalone e none a := by
  rw [regexReplace, placeholder_replaceLoop e he a _ [] (by simp)]
  rfl

theorem hasSub_pipe_cons (c : Char) (s : Str) :
    hasSub "|>".toList (c :: s) = ((c == '|' && s.head? == some '>') || hasSub "|>".toList s) := by
  cases s with
  | nil => simp [hasSub, List.isPrefixOf]
  | cons d ds =>
    rw [Bool.eq_iff_iff]
    simp [hasSub, List.isPrefixOf, @eq_comm _ '|', @eq_comm _ '>']

/-- A text without `|` in front does not bring in a pipe operator. -/
theorem hasSub_pipe_append_left (e t : Str) (he : '|' ∉ e) :
    hasSub "|>".toList (e ++ t) = hasSub "|>".toList t := by
  induction e with
  | nil => rfl
  | cons c cs ih =>
    simp at he
    rw [List.cons_append, hasSub_pipe_cons, ih he.2]
    have : (c == '|') = false := by simpa using fun h => he.1 h.symm
    simp [this]

/-- A text without the pipe operator, before a text that does not begin with
`>`, does not bring one in. -/
theorem hasSub_pipe_append_right (x t : Str) (hx : hasSub "|>".toList x = false)
    (ht : t.head? ≠ some '>') : hasSub "|>".toList (x ++ t) = hasSub "|>".toList t := by
  induction x with
  | nil => rfl
  | cons c cs ih =>
    rw [hasSub_pipe_cons] at hx
    simp only [Bool.or_eq_false_iff, Bool.and_eq_false_imp, beq_iff_eq] at hx
    rw [List.cons_append, hasSub_pipe_cons, ih hx.2]
    by_cases hc : c = '|'
    · have h1 := hx.1 hc
      cases cs with
      | nil => simp [ht]
      | cons d ds =>
        have : d ≠ '>' := by simpa using h1
        simp [this]
    · simp [hc]

/-- Replacing standalone placeholders by an identifier does not bring in a
pipe operator, nor a `>` at the start. -/
theorem substStandalone_noPipe (e : Str) (he : IsIdent e) :
    ∀ (s : Str) (prev : Option Char), hasSub "|>".toList s = false →
      hasSub "|>".toList (substStandalone e prev s) = false
        ∧ (s.head? ≠ some '>' → (substStandalone e prev s).head? ≠ some '>') := by
  have hbar : '|' ∉ e := not_mem_of_isWord he.2 (by decide)
  obtain ⟨x, xs, hxs⟩ := List.exists_cons_of_ne_nil he.1
  have hx : x ≠ '>' := ne_of_isWord (he.2 x (by rw [hxs]; simp)) (by decide)
  intro s
  induction s with
  | nil =>
    intro prev _
    simp [substStandalone, hasSub]
  | cons c cs ih =>
    intro prev h
    rw [hasSub_pipe_cons] at h
    simp only [Bool.or_eq_false_iff, Bool.and_eq_false_imp, beq_iff_eq] at h
    obtain ⟨ih1, ih2⟩ := ih (some c) h.2
    rw [substStandalone]
    split_ifs with hst
    · refine ⟨by rw [hasSub_pipe_append_left _ _ hbar]; exact ih1, ?_⟩
      intro _
      rw [hxs]
      simpa using hx
    · refine ⟨?_, by simp⟩
      rw [hasSub_pipe_cons, ih1]
      by_cases hc : c = '|'
      · have h1 := h.1 hc
        have h2 := ih2 (by simpa using h1)
        simp
        intro _
        simpa using h2
      · simp [hc]

/-- One turn of the loop of `replacePipeOperators` on `e |> f(a)`. -/
theorem pipe_step (syms : SymbolTable) (e f a : Str) (fuel : Nat) (he : IsIdent e) (hf : IsIdent f)
    (ha : ')' ∉ a) :
    replacePipeOperators syms (fuel + 1) (e ++ " |> ".toList ++ f ++ "(".toList ++ a ++ ")".toList)
      = replacePipeOperators syms fuel
          (if hasStandalone none a = true then
            f ++ "(".toList ++ regexReplace placeholder_regex 0
              (if syms.lookup e ≠ [] ∧ (syms.lookup e ++ "_".toList).isPrefixOf f = true
                then "&".toList ++ e else e) a ++ ")".toList
          else
            f ++ "(".toList ++
              (if a ≠ [] then
                (if syms.lookup e ≠ [] ∧ (syms.lookup e ++ "_".toList).isPrefixOf f = true
                  then "&".toList ++ e else e) ++ ", ".toList ++ a
              else (if syms.lookup e ≠ [] ∧ (syms.lookup e ++ "_".toList).isPrefixOf f = true
                  then "&".toList ++ e else e)) ++ ")".toList) := by
  rw [replacePipeOperators, pipe_match e f a he hf ha]
  simp only [Match.group, groupOf, if_true, if_false, List.nil_append, List.append_nil,
    (by decide : (3 : Nat) ≠ 1), (by decide : (2 : Nat) ≠ 1), (by decide : (3 : Nat) ≠ 2),
    trim_ident e he, placeholder_test]

/-- The loop of `replacePipeOperators` stops on a text without the pipe
operator. -/
theorem pipe_done (syms : SymbolTable) (s : Str) (fuel : Nat) (h : hasSub "|>".toList s = false) :
    replacePipeOperators syms (fuel + 1) s = some s := by
  rw [replacePipeOperators, pipe_absent s h]

theorem noPipe_call (f x : Str) (hf : IsIdent f) (hx : hasSub "|>".toList x = false) :
    hasSub "|>".toList (f ++ "(".toList ++ x ++ ")".toList) = false := by
  have hbar : '|' ∉ f := not_mem_of_isWord hf.2 (by decide)
  rw [List.append_assoc, List.append_assoc, hasSub_pipe_append_left _ _ hbar]
  rw [show "(".toList ++ (x ++ ")".toList) = '(' :: (x ++ ")".toList) from rfl, hasSub_pipe_cons]
  rw [hasSub_pipe_append_right x _ hx (by decide)]
  simp [hasSub, List.isPrefixOf]

/-- The loop of `replacePipeOperators` on `e |> f(a)` without a placeholder
and without a binding for `e`. -/
theorem replacePipe_prepend (syms : SymbolTable) (e f a : Str) (fuel : Nat) (he : IsIdent e)
    (hf : IsIdent f) (hl : syms.lookup e = []) (ha : ')' ∉ a) (hp : hasSub "|>".toList a = false)
    (hs : hasStandalone none a = false) :
    replacePipeOperators syms (fuel + 2) (e ++ " |> ".toList ++ f ++ "(".toList ++ a ++ ")".toList)
      = some (f ++ "(".toList ++ (if a ≠ [] then e ++ ", ".toList ++ a else e) ++ ")".toList) := by
  have hbar : '|' ∉ e := not_mem_of_isWord he.2 (by decide)
  rw [pipe_step syms e f a (fuel + 1) he hf ha]
  simp only [hl, hs, ne_eq, not_true_eq_false, false_and, if_false, Bool.false_eq_true]
  apply pipe_done
  apply noPipe_call f _ hf
  split_ifs
  · have := hasSub_pipe_append_left e [] hbar
    simpa [hasSub] using this
  · rw [List.append_assoc, hasSub_pipe_append_left _ _ hbar]
    rw [show ", ".toList ++ a = ',' :: ' ' :: a from rfl, hasSub_pipe_cons, hasSub_pipe_cons, hp]
    simp

/-- The loop of `replacePipeOperators` on `e |> f(a)` with a placeholder and
without a binding for `e`. -/
theorem replacePipe_placeholder (syms : SymbolTable) (e f a : Str) (fuel : Nat) (he : IsIdent e)
    (hf : IsIdent f) (hl : syms.lookup e = []) (ha : ')' ∉ a) (hp : hasSub "|>".toList a = false)
    (hs : hasStandalone none a = true) :
    replacePipeOperators syms (fuel + 2) (e ++ " |> ".toList ++ f ++ "(".toList ++ a ++ ")".toList)
      = some (f ++ "(".toList ++ substStandalone e none a ++ ")".toList) := by
  have hdollar : '$' ∉ e := not_mem_of_isWord he.2 (by decide)
  rw [pipe_step syms e f a (fuel + 1) he hf ha]
  simp only [hl, hs, ne_eq, not_true_eq_false, false_and, if_false, if_true,
    placeholder_replace e a hdollar]
  apply pipe_done
  exact noPipe_call f _ hf (substStandalone_noPipe e he a none hp).1

/-- The loop of `replacePipeOperators` on `e |> f()`. -/
theorem replacePipe_dispatch (syms : SymbolTable) (e f T : Str) (fuel : Nat) (he : IsIdent e)
    (hf : IsIdent f) (hT : syms.lookup e = T) :
    replacePipeOperators syms (fuel + 2) (e ++ " |> ".toList ++ f ++ "()".toList)
      = some (if T ≠ [] ∧ (T ++ "_".toList).isPrefixOf f = true then f ++ "(&".toList ++ e ++ ")".toList
          else f ++ "(".toList ++ e ++ ")".toList) := by
  have hbar : '|' ∉ e := not_mem_of_isWord he.2 (by decide)
  have h := pipe_step syms e f [] (fuel + 1) he hf (by simp)
  simp only [List.append_nil, hasStandalone, Bool.false_eq_true, if_false, ne_eq, not_true_eq_false,
    hT] at h
  have e1 : e ++ " |> ".toList ++ f ++ "()".toList = e ++ " |> ".toList ++ f ++ "(".toList ++ ")".toList := by
    simp
  rw [e1, h]
  split_ifs with hc
  · rw [show f ++ "(&".toList ++ e ++ ")".toList = f ++ "(".toList ++ ("&".toList ++ e) ++ ")".toList by simp]
    apply pipe_done
    apply noPipe_call f _ hf
    rw [show "&".toList ++ e = '&' :: e from rfl, hasSub_pipe_cons]
    have := hasSub_pipe_append_left e [] hbar
    simp only [List.append_nil] at this
    rw [this]
    simp [hasSub]
  · apply pipe_done
    apply noPipe_call f _ hf
    have := hasSub_pipe_append_left e [] hbar
    simpa [hasSub] using this

/-! ## First characters and required characters -/

/-- An accepted text is empty, or begins with a character of the first set. -/
theorem accepts_first (r : Re) :
    ∀ (pre w rest : Str), r.Accepts pre w rest →
      (w = [] ∧ r.nullable = true) ∨ (∃ c w', w = c :: w' ∧ r.first c = true) := by
  induction r with
  | eps => intro pre w rest h; exact Or.inl ⟨h, rfl⟩
  | chr p =>
    intro pre w rest h
    obtain ⟨c, rfl, hc⟩ := h
    exact Or.inr ⟨c, [], rfl, hc⟩
  | star p g =>
    intro pre w rest h
    cases w with
    | nil => exact Or.inl ⟨rfl, rfl⟩
    | cons c w' => exact Or.inr ⟨c, w', rfl, h c (by simp)⟩
  | bol => intro pre w rest h; exact Or.inl ⟨h.1, rfl⟩
  | eol => intro pre w rest h; exact Or.inl ⟨h.1, rfl⟩
  | wordb => intro pre w rest h; exact Or.inl ⟨h.1, rfl⟩
  | grp i r ih => intro pre w rest h; exact ih pre w rest h
  | seq a b iha ihb =>
    intro pre w rest h
    obtain ⟨w₁, w₂, rfl, h₁, h₂⟩ := h
    rcases iha _ _ _ h₁ with ⟨rfl, na⟩ | ⟨c, w', rfl, fc⟩
    · rcases ihb _ _ _ h₂ with ⟨rfl, nb⟩ | ⟨c, w', rfl, fc⟩
      · exact Or.inl ⟨rfl, by simp [Re.nullable, na, nb]⟩
      · exact Or.inr ⟨c, w', rfl, by simp [Re.first, na, fc]⟩
    · exact Or.inr ⟨c, w' ++ w₂, rfl, by simp [Re.first, fc]⟩
  | alt a b iha ihb =>
    intro pre w rest h
    rcases h with h | h
    · rcases iha _ _ _ h with ⟨rfl, na⟩ | ⟨c, w', rfl, fc⟩
      · exact Or.inl ⟨rfl, by simp [Re.nullable, na]⟩
      · exact Or.inr ⟨c, w', rfl, by simp [Re.first, fc]⟩
    · rcases ihb _ _ _ h with ⟨rfl, nb⟩ | ⟨c, w', rfl, fc⟩
      · exact Or.inl ⟨rfl, by simp [Re.nullable, nb]⟩
      · exact Or.inr ⟨c, w', rfl, by simp [Re.first, fc]⟩
  | opt r ih =>
    intro pre w rest h
    rcases h with rfl | h
    · exact Or.inl ⟨rfl, rfl⟩
    · rcases ih _ _ _ h with ⟨rfl, -⟩ | ⟨c, w', rfl, fc⟩
      · exact Or.inl ⟨rfl, rfl⟩
      · exact Or.inr ⟨c, w', rfl, fc⟩

/-- An attempt fails at a character outside the first set of an expression
that needs at least one character. -/
theorem matchAt_first_none (r : Re) (pre : Str) (c : Char) (rest : Str) (hn : r.nullable = false)
    (hf : r.first c = false) : matchAt r pre (c :: rest) = none := by
  cases e : matchAt r pre (c :: rest) with
  | none => rfl
  | some hit =>
    obtain ⟨w, cur⟩ := hit
    obtain ⟨h1, h2⟩ := matchAt_sound e
    rcases accepts_first r _ _ _ h2 with ⟨-, hn'⟩ | ⟨d, w', rfl, hd⟩
    · rw [hn] at hn'; exact Bool.noConfusion hn'
    · simp at h1
      rw [← h1.1, hf] at hd
      exact Bool.noConfusion hd

theorem matchAt_nil_none (r : Re) (pre : Str) (hn : r.nullable = false) : matchAt r pre [] = none := by
  cases e : matchAt r pre [] with
  | none => rfl
  | some hit =>
    obtain ⟨w, cur⟩ := hit
    obtain ⟨h1, h2⟩ := matchAt_sound e
    rcases accepts_first r _ _ _ h2 with ⟨-, hn'⟩ | ⟨d, w', rfl, hd⟩
    · rw [hn] at hn'; exact Bool.noConfusion hn'
    · simp at h1

/-- An expression anchored at the start finds nothing in a text whose first
character is outside its first set. -/
theorem regexSearch_first_none (r : Re) (c : Char) (rest : Str) (hn : (Re.seq .bol r).nullable = false)
    (hf : (Re.seq .bol r).first c = false) : regexSearch (.seq .bol r) (c :: rest) = none :=
  regexSearch_bol_none (matchAt_first_none _ [] c rest hn hf)

theorem regexTest_first_false (r : Re) (c : Char) (rest : Str) (hn : (Re.seq .bol r).nullable = false)
    (hf : (Re.seq .bol r).first c = false) : regexTest (.seq .bol r) (c :: rest) = false := by
  simp [regexTest, regexSearch_first_none r c rest hn hf]

/-- A search passes over a run of characters at none of which the expression
can begin. -/
theorem searchFrom_skip (r : Re) (hn : r.nullable = false) :
    ∀ (xs rest sk pre : Str), (∀ c ∈ xs, r.first c = false) →
      searchFrom r sk pre (xs ++ rest) = searchFrom r (xs.reverse ++ sk) (xs.reverse ++ pre) rest := by
  intro xs
  induction xs with
  | nil => intro rest sk pre _; rfl
  | cons x xs ih =>
    intro rest sk pre h
    rw [List.cons_append, searchFrom_miss sk (matchAt_first_none r pre x _ hn (h x (by simp)))]
    rw [ih rest _ _ (fun c hc => h c (by simp [hc]))]
    simp

theorem requires_chr (c : Char) : (Re.chr (isChar c)).Requires c := by
  intro pre w rest h
  obtain ⟨d, rfl, hd⟩ := h
  simp [isChar] at hd
  simp [hd]

theorem requires_seq_left {a : Re} (b : Re) {c : Char} (h : a.Requires c) : (Re.seq a b).Requires c := by
  intro pre w rest hacc
  obtain ⟨w₁, w₂, rfl, h₁, -⟩ := hacc
  simp [h _ _ _ h₁]

theorem requires_seq_right (a : Re) {b : Re} {c : Char} (h : b.Requires c) : (Re.seq a b).Requires c := by
  intro pre w rest hacc
  obtain ⟨w₁, w₂, rfl, -, h₂⟩ := hacc
  simp [h _ _ _ h₂]

theorem requires_grp (i : Nat) {r : Re} {c : Char} (h : r.Requires c) : (Re.grp i r).Requires c :=
  fun pre w rest hacc => h pre w rest hacc

theorem requires_alt {a b : Re} {c : Char} (ha : a.Requires c) (hb : b.Requires c) :
    (Re.alt a b).Requires c := by
  intro pre w rest hacc
  rcases hacc with h | h
  · exact ha _ _ _ h
  · exact hb _ _ _ h

/-- An expression finds nothing in a text without a character it requires. -/
theorem regexSearch_requires_none {r : Re} {c : Char} {s : Str} (h : r.Requires c) (hc : c ∉ s) :
    regexSearch r s = none := by
  apply regexSearch_none
  intro u w v e hacc
  apply hc
  rw [e]
  simp [h _ _ _ hacc]

theorem regexTest_requires_false {r : Re} {c : Char} {s : Str} (h : r.Requires c) (hc : c ∉ s) :
    regexTest r s = false := by
  simp [regexTest, regexSearch_requires_none h hc]

/-- A text that lacks a character of `n` does not hold `n`. -/
theorem hasSub_false_of_not_mem (n : Str) (c : Char) (hn : c ∈ n) :
    ∀ (s : Str), c ∉ s → hasSub n s = false := by
  have hpre : ∀ (n s : Str), c ∈ n → c ∉ s → n.isPrefixOf s = false := by
    intro n
    induction n with
    | nil => intro s h; simp at h
    | cons a n ih =>
      intro s h hs
      cases s with
      | nil => rfl
      | cons b s =>
        simp only [List.isPrefixOf, Bool.and_eq_false_imp, beq_iff_eq]
        intro hab
        simp at h hs
        rcases h with rfl | h
        · exact absurd hab hs.1
        · exact ih s h hs.2
  intro s
  induction s with
  | nil =>
    intro _
    cases n with
    | nil => simp at hn
    | cons a n => rfl
  | cons b s ih =>
    intro hs
    rw [hasSub, hpre n (b :: s) hn hs, ih (fun h => hs (by simp [h]))]
    rfl

/-! ## What the expressions of the source require -/

theorem requires_R_NATIVE_BLOCK : R_NATIVE_BLOCK.Requires chLBrace := by
  unfold R_NATIVE_BLOCK
  simp only [Re.cat]
  repeat (first | exact requires_chr _ | apply requires_seq_right)

theorem requires_R_SHARED_START : R_SHARED_START.Requires chLBrace := by
  unfold R_SHARED_START
  simp only [Re.cat]
  repeat (first | exact requires_chr _ | apply requires_seq_right)

theorem requires_R_STRUCT_START : R_STRUCT_START.Requires chLBrace := by
  unfold R_STRUCT_START
  simp only [Re.cat]
  repeat (first | exact requires_chr _ | apply requires_seq_right)

theorem requires_R_RESOLVE_START : R_RESOLVE_START.Requires chLBrace := by
  unfold R_RESOLVE_START
  simp only [Re.cat]
  repeat (first | exact requires_chr _ | apply requires_seq_right)

theorem requires_R_OPENS_AT_START : R_OPENS_AT_START.Requires chLBrace := by
  unfold R_OPENS_AT_START
  simp only [Re.cat]
  repeat (first | exact requires_chr _ | apply requires_seq_right)

theorem requires_R_OPENS_AT_END : R_OPENS_AT_END.Requires chLBrace := by
  unfold R_OPENS_AT_END
  simp only [Re.cat]
  exact requires_seq_left _ (requires_chr _)

theorem requires_R_IF : R_IF.Requires chLBrace := by
  unfold R_IF
  simp only [Re.cat]
  repeat (first | exact requires_chr _ | apply requires_seq_right)

theorem requires_R_WHILE : R_WHILE.Requires chLBrace := by
  unfold R_WHILE
  simp only [Re.cat]
  repeat (first | exact requires_chr _ | apply requires_seq_right)

theorem requires_R_LOOP : R_LOOP.Requires chLBrace := by
  unfold R_LOOP
  simp only [Re.cat]
  repeat (first | exact requires_chr _ | apply requires_seq_right)

theorem requires_R_STARTS_CLOSING : R_STARTS_CLOSING.Requires chRBrace := by
  unfold R_STARTS_CLOSING
  simp only [Re.cat]
  repeat (first | exact requires_chr _ | apply requires_seq_right)

theorem requires_R_CLOSES : R_CLOSES.Requires chRBrace := by
  unfold R_CLOSES
  simp only [Re.cat]
  repeat (first | exact requires_chr _ | apply requires_seq_right)

theorem requires_R_COMMENT : R_COMMENT.Requires '#' := by
  unfold R_COMMENT
  simp only [Re.cat, Re.lit, String.toList]
  exact requires_seq_right _ (requires_seq_right _ (requires_seq_left _ (requires_chr _)))

theorem requires_R_ATTRIBUTE_LINE : R_ATTRIBUTE_LINE.Requires '@' := by
  unfold R_ATTRIBUTE_LINE
  simp only [Re.cat, Re.lit, String.toList]
  exact requires_seq_right _ (requires_seq_right _ (requires_seq_left _ (requires_seq_left _ (requires_chr _))))

theorem requires_R_INCLUDE : R_INCLUDE.Requires '@' := by
  unfold R_INCLUDE
  simp only [Re.cat, Re.lit, String.toList]
  exact requires_seq_right _ (requires_seq_right _ (requires_seq_left _ (requires_seq_left _ (requires_chr _))))

theorem requires_R_FUNC_SIGNATURE : R_FUNC_SIGNATURE.Requires '(' := by
  unfold R_FUNC_SIGNATURE
  simp only [Re.cat, Re.lit, String.toList]
  exact requires_seq_right _ (requires_seq_right _ (requires_seq_right _ (requires_seq_right _
    (requires_seq_right _ (requires_seq_right _ (requires_seq_right _ (requires_seq_right _
      (requires_seq_left _ (requires_seq_left _ (requires_chr _))))))))))

theorem requires_R_VAR : R_VAR.Requires ':' := by
  unfold R_VAR
  simp only [Re.cat, Re.lit, String.toList]
  exact requires_seq_right _ (requires_seq_right _ (requires_seq_right _ (requires_seq_right _
    (requires_seq_right _ (requires_seq_right _ (requires_seq_right _
      (requires_seq_left _ (requires_seq_left _ (requires_chr _)))))))))

/-! ## The line that opens a struct -/

/-- The struct expression on `struct S {`. -/
theorem structStart_match (S : Str) (hS : IsIdent S) :
    regexSearch R_STRUCT_START ("struct ".toList ++ S ++ [' ', chLBrace])
      = some ⟨[], "struct ".toList ++ S ++ [' ', chLBrace], [], [(2, S)]⟩ := by
  obtain ⟨hS0, hSw⟩ := hS
  obtain ⟨x, xs, rfl⟩ := List.exists_cons_of_ne_nil hS0
  have hx : isWord x = true := hSw x (by simp)
  have hxs : isSpace x = false := isSpace_false_of_isWord hx
  have e : matchAt R_STRUCT_START [] ("struct ".toList ++ x :: xs ++ [' ', chLBrace])
      = some ("struct ".toList ++ x :: xs ++ [' ', chLBrace],
          ⟨("struct ".toList ++ x :: xs ++ [' ', chLBrace]).reverse, [], [(2, x :: xs)]⟩) := by
    simp only [R_STRUCT_START, attrOpt, anyStar, ws1, Re.cat, Re.plus, Re.lit, matchAt, Re.run, String.toList,
      List.cons_append, List.append_assoc, List.nil_append, ws, List.isEmpty_nil, if_true]
    rw [starG_short isSpace _ _ _ _ (by
      intro zs ws' e hz hall
      exfalso
      cases zs with
      | nil => exact hz rfl
      | cons z zs =>
        simp at e
        have := hall z (by simp)
        rw [← e.1] at this
        exact absurd this (by decide))]
    simp only [Re.run, isChar, beq_self_eq_true, if_true, orElse_none, orElse_some,
      (by decide : ('s' == '@') = false), Bool.false_eq_true, if_false,
      (by decide : isSpace ' ' = true)]
    apply starG_run isSpace []
    · simp
    · exact stopsAt_cons _ hxs
    simp only [Re.run, hx, if_true]
    apply starG_run
    · intro c hc
      exact hSw c (by simp [hc])
    · exact stopsAt_cons _ (by decide)
    simp only [Re.run]
    apply starG_run isSpace [' ']
    · decide
    · exact stopsAt_cons _ (by decide)
    simp [Re.run, isChar]
  have := regexSearch_hit e
  simpa using this

theorem trim_nonspace (c : Char) (rest : Str) (hc : isSpace c = false) :
    regexReplace R_LEADING_WS 0 [] (c :: rest) = c :: rest := by
  apply regexReplace_none
  exact regexSearch_first_none _ c rest (by decide) (by simp [Re.first, Re.nullable, ws1, Re.plus, hc])

theorem indentOf_nonneg (d : Int) (h : 0 ≤ d) : indentOf d = .ok (spaces d.toNat) := by
  simp [indentOf, spaces, not_lt.mpr h]

/-- The function `processLine` on `struct S {`, outside a mixin definition
and at a non-negative depth. -/
theorem processLine_structOpen (fuel : Nat) (t : Transpiler) (S : Str) (hS : IsIdent S)
    (hd : 0 ≤ t.m_braceDepth) (hsh : t.m_inShared = false) :
    processLine fuel t (structOpenLine S)
      = .ok (spaces (printDepthOf t false).toNat ++ typedefLine S,
          { t with m_inStruct := true, m_structStartDepth := t.m_braceDepth, m_pendingAttribute := [],
                   m_currentStructAttribute := t.m_pendingAttribute, m_currentStructName := S,
                   m_braceDepth := t.m_braceDepth + 1 }) := by
  unfold structOpenLine typedefLine
  have hdot : '.' ∉ "struct ".toList ++ S ++ [' ', chLBrace] := by
    have := not_mem_of_isWord hS.2 (d := '.') (by decide)
    simp [this, chLBrace]
  have f1 : regexReplace R_LEADING_WS 0 [] ("struct ".toList ++ S ++ [' ', chLBrace])
      = "struct ".toList ++ S ++ [' ', chLBrace] := trim_nonspace 's' _ (by decide)
  have f2 : regexSearch R_INCLUDE ("struct ".toList ++ S ++ [' ', chLBrace]) = none :=
    regexSearch_first_none _ 's' _ (by decide) (by decide)
  have f3 : regexTest R_OPENS_AT_END ("struct ".toList ++ S ++ [' ', chLBrace]) = true := by
    have := regexTest_true (r := R_OPENS_AT_END) ("struct ".toList ++ S ++ [' ']) [chLBrace] (by
      simp [R_OPENS_AT_END, Re.cat, matchAt, Re.run, isChar, ws, starG])
    simpa using this
  have f4 : regexTest R_STARTS_CLOSING ("struct ".toList ++ S ++ [' ', chLBrace]) = false :=
    regexTest_first_false _ 's' _ (by decide) (by decide)
  have f5 : regexTest R_CLOSES ("struct ".toList ++ S ++ [' ', chLBrace]) = false :=
    regexTest_first_false _ 's' _ (by decide) (by decide)
  have f6 : hasSub "self.".toList ("struct ".toList ++ S ++ [' ', chLBrace]) = false :=
    hasSub_false_of_not_mem _ '.' (by decide) _ hdot
  have f7 : regexSearch R_SHARED_START ("struct ".toList ++ S ++ [' ', chLBrace]) = none := by
    apply regexSearch_bol_none
    simp [R_SHARED_START, Re.cat, Re.lit, matchAt, Re.run, ws, starG, isSpace, isChar]
  have hp : 0 ≤ printDepthOf t false := by
    unfold printDepthOf
    simp only [Bool.false_eq_true, false_and, if_false]
    split_ifs <;> omega
  unfold processLine
  simp only [f1, f2, f3, f4, f5, f6, f7, Bool.true_or, closeContexts, Bool.false_eq_true, if_false,
    lowerLine, hsh, structStart_match S hS, indentOf_nonneg _ hp, Match.group, groupOf, mergeAttr,
    bumpDepth, if_true, (by decide : (2 : Nat) ≠ 1)]
  simp

/-! ## The line of a field -/

theorem isWord_isTypeChar {c : Char} (h : isWord c = true) : isTypeChar c = true := by
  simp [isTypeChar, h]

theorem isSpace_false_of_isTypeChar {c : Char} (h : isTypeChar c = true) : isSpace c = false := by
  simp only [isTypeChar, Bool.or_eq_true, beq_iff_eq] at h
  rcases h with h | rfl
  · exact isSpace_false_of_isWord h
  · decide

/-- A character that is neither a type character, nor a colon, nor a space
does not occur in a field line. -/
theorem not_mem_fieldLine (n ty : Str) (hn : IsIdent n) (hty : IsTypeText ty) (d : Char)
    (h1 : isTypeChar d = false) (h2 : d ≠ ':') (h3 : d ≠ ' ') : d ∉ fieldLine n ty := by
  unfold fieldLine
  intro h
  simp at h
  rcases h with h | h | h | h
  · have := isWord_isTypeChar (hn.2 d h)
    rw [h1] at this
    exact Bool.noConfusion this
  · exact h2 h
  · exact h3 h
  · have := hty.2 d h
    rw [h1] at this
    exact Bool.noConfusion this

/-- The field expression on `n: t`. -/
theorem field_match (n ty : Str) (hn : IsIdent n) (hty : IsTypeText ty) :
    regexSearch R_FIELD (fieldLine n ty) = some ⟨[], fieldLine n ty, [], [(2, ty), (1, n)]⟩ := by
  unfold fieldLine
  obtain ⟨hn0, hnw⟩ := hn
  obtain ⟨ht0, htw⟩ := hty
  obtain ⟨x, xs, rfl⟩ := List.exists_cons_of_ne_nil hn0
  obtain ⟨y, ys, rfl⟩ := List.exists_cons_of_ne_nil ht0
  have hx : isWord x = true := hnw x (by simp)
  have hy : isTypeChar y = true := htw y (by simp)
  have e : matchAt R_FIELD [] (x :: xs ++ ": ".toList ++ y :: ys)
      = some (x :: xs ++ ": ".toList ++ y :: ys,
          ⟨(x :: xs ++ ": ".toList ++ y :: ys).reverse, [], [(2, y :: ys), (1, x :: xs)]⟩) := by
    simp only [R_FIELD, Re.cat, Re.plus, Re.lit, matchAt, Re.run, String.toList,
      List.cons_append, List.append_assoc, List.nil_append, ws, List.isEmpty_nil, if_true]
    apply starG_run isSpace []
    · simp
    · exact stopsAt_cons _ (isSpace_false_of_isWord hx)
    simp only [Re.run, hx, if_true]
    apply starG_run
    · intro c hc
      exact hnw c (by simp [hc])
    · exact stopsAt_cons _ (by decide)
    simp only [Re.run]
    apply starG_run isSpace []
    · simp
    · exact stopsAt_cons _ (by decide)
    simp only [Re.run, isChar, beq_self_eq_true, if_true]
    apply starG_run isSpace [' ']
    · decide
    · exact stopsAt_cons _ (isSpace_false_of_isTypeChar hy)
    simp only [Re.run, hy, if_true]
    have hys : ys = ys ++ [] := by simp
    rw [hys]
    apply starG_run
    · intro c hc
      exact htw c (by simp [hc])
    · exact stopsAt_nil _
    simp [Re.run, starG]
  have := regexSearch_hit e
  simpa using this

/-- The `use` expression does not match a field line. -/
theorem useMixin_field_none (n ty : Str) (hn : IsIdent n) :
    regexSearch R_USE_MIXIN (fieldLine n ty) = none := by
  unfold fieldLine
  apply regexSearch_bol_none
  cases e : matchAt (Re.seq .bol (Re.cat [ws, Re.lit "use".toList, ws1, .grp 1 (Re.plus isWord)])) []
      (n ++ ": ".toList ++ ty) with
  | none => rfl
  | some hit =>
    exfalso
    obtain ⟨w, cur⟩ := hit
    obtain ⟨h1, h2⟩ := matchAt_sound e
    simp only [Re.cat, Re.lit, Re.plus, ws, ws1, Re.Accepts, String.toList] at h2
    obtain ⟨w₀, w₁, rfl, ⟨rfl, -⟩, sp, w₂, rfl, hsp, w₃, w₄, rfl, hlit, w₅, w₆, rfl, hs1, -⟩ := h2
    obtain ⟨a₁, a₂, rfl, ⟨c₁, rfl, hc₁⟩, a₃, a₄, rfl, ⟨c₂, rfl, hc₂⟩, a₅, a₆, rfl, ⟨c₃, rfl, hc₃⟩, rfl⟩ := hlit
    obtain ⟨b₁, b₂, rfl, ⟨s₁, rfl, hs₁⟩, -⟩ := hs1
    simp only [isChar, beq_iff_eq] at hc₁ hc₂ hc₃
    subst hc₁ hc₂ hc₃
    obtain ⟨hn0, hnw⟩ := hn
    obtain ⟨x, xs, rfl⟩ := List.exists_cons_of_ne_nil hn0
    have hx : isSpace x = false := isSpace_false_of_isWord (hnw x (by simp))
    cases sp with
    | cons z zs =>
      simp at h1
      have := hsp z (by simp)
      rw [← h1.1, hx] at this
      exact Bool.noConfusion this
    | nil =>
      simp only [List.nil_append, List.cons_append, List.append_assoc, List.cons.injEq] at h1
      obtain ⟨-, h1⟩ := h1
      rcases xs with _ | ⟨x₂, _ | ⟨x₃, _ | ⟨x₄, xs⟩⟩⟩
      · simp at h1
      · simp at h1
      · simp at h1
        rw [← h1.2.2.1] at hs₁
        exact absurd hs₁ (by decide)
      · simp at h1
        have := isSpace_false_of_isWord (hnw x₄ (by simp))
        rw [h1.2.2.1, hs₁] at this
        exact Bool.noConfusion this


/-- The function `processLine` on a field line `n: t` inside a struct,
outside a mixin definition and at a non-negative depth: the field is
lowered and the state stays as it is. -/
theorem processLine_field (fuel : Nat) (t : Transpiler) (n ty ty' : Str) (hn : IsIdent n)
    (hty : IsTypeText ty) (htr : translateType ty = some ty')
    (hd : 0 ≤ t.m_braceDepth) (hsh : t.m_inShared = false) (hst : t.m_inStruct = true) :
    processLine fuel t (fieldLine n ty)
      = .ok (spaces (printDepthOf t false).toNat ++ fieldText ty' n, t) := by
  have hno : ∀ d, isTypeChar d = false → d ≠ ':' → d ≠ ' ' → d ∉ fieldLine n ty :=
    not_mem_fieldLine n ty hn hty
  obtain ⟨x, xs, hx⟩ := List.exists_cons_of_ne_nil hn.1
  have hcons : fieldLine n ty = x :: (xs ++ ": ".toList ++ ty) := by simp [fieldLine, hx]
  have hxw : isSpace x = false := isSpace_false_of_isWord (hn.2 x (by simp [hx]))
  have f1 : regexReplace R_LEADING_WS 0 [] (fieldLine n ty) = fieldLine n ty := by
    rw [hcons]; exact trim_nonspace x _ hxw
  have f2 : regexSearch R_INCLUDE (fieldLine n ty) = none :=
    regexSearch_requires_none requires_R_INCLUDE (hno _ (by decide) (by decide) (by decide))
  have f3 : regexTest R_OPENS_AT_END (fieldLine n ty) = false :=
    regexTest_requires_false requires_R_OPENS_AT_END (hno _ (by decide) (by decide) (by decide))
  have f3' : regexTest R_OPENS_AT_START (fieldLine n ty) = false :=
    regexTest_requires_false requires_R_OPENS_AT_START (hno _ (by decide) (by decide) (by decide))
  have f4 : regexTest R_STARTS_CLOSING (fieldLine n ty) = false :=
    regexTest_requires_false requires_R_STARTS_CLOSING (hno _ (by decide) (by decide) (by decide))
  have f5 : regexTest R_CLOSES (fieldLine n ty) = false :=
    regexTest_requires_false requires_R_CLOSES (hno _ (by decide) (by decide) (by decide))
  have f6 : hasSub "self.".toList (fieldLine n ty) = false :=
    hasSub_false_of_not_mem _ '.' (by decide) _ (hno _ (by decide) (by decide) (by decide))
  have f7 : regexSearch R_SHARED_START (fieldLine n ty) = none :=
    regexSearch_requires_none requires_R_SHARED_START (hno _ (by decide) (by decide) (by decide))
  have f8 : regexSearch R_STRUCT_START (fieldLine n ty) = none :=
    regexSearch_requires_none requires_R_STRUCT_START (hno _ (by decide) (by decide) (by decide))
  have f9 : regexTest R_FUNC_SIGNATURE (fieldLine n ty) = false :=
    regexTest_requires_false requires_R_FUNC_SIGNATURE (hno _ (by decide) (by decide) (by decide))
  have hp : 0 ≤ printDepthOf t false := by
    unfold printDepthOf
    simp only [Bool.false_eq_true, false_and, if_false]
    split_ifs <;> omega
  unfold processLine
  simp only [f1, f2, f3, f3', f4, f5, f6, f7, f8, f9, Bool.or_false, closeContexts, Bool.false_eq_true,
    if_false, lowerLine, hsh, hst, useMixin_field_none n ty hn, field_match n ty hn hty,
    indentOf_nonneg _ hp, Match.group, groupOf, if_true, (by decide : (2 : Nat) ≠ 1), and_self,
    translateTypeE, htr, fieldText]
  simp

/-- The function `processLine` on the line `}` that closes a struct. -/
theorem processLine_structClose (fuel : Nat) (t : Transpiler) (hd : 0 ≤ t.m_braceDepth)
    (hsh : t.m_inShared = false) (hst : t.m_inStruct = true)
    (hstart : t.m_braceDepth - 1 = t.m_structStartDepth) :
    processLine fuel t closeLine
      = .ok (spaces (printDepthOf t true).toNat ++
          ([chRBrace, ' '] ++ t.m_currentStructName ++
            (if t.m_currentStructAttribute ≠ [] then
              " __attribute__((".toList ++ t.m_currentStructAttribute ++ "))".toList else []) ++ ";".toList),
          { t with m_braceDepth := t.m_braceDepth - 1, m_inStruct := false, m_currentStructAttribute := [] }) := by
  have f1 : regexReplace R_LEADING_WS 0 [] closeLine = closeLine := by decide
  have f2 : regexSearch R_INCLUDE closeLine = none := by decide
  have f4 : regexTest R_STARTS_CLOSING closeLine = true := by decide
  have f5 : regexTest R_CLOSES closeLine = true := by decide
  have f6 : hasSub "self.".toList closeLine = false := by decide
  have hp : 0 ≤ printDepthOf t true := by
    unfold printDepthOf
    simp only [true_and]
    split_ifs <;> omega
  unfold processLine
  simp only [f1, f2, f4, f5, f6, closeContexts, Bool.false_eq_true, if_false, hsh, hst, hstart,
    indentOf_nonneg _ hp, if_true, and_self, false_and, true_and]
  split_ifs with h
  · simp [h]
  · simp
    exact not_not.mp h

/-! ## The rewrite pass on the lines of a struct -/

/-- A turn of the loop of `pass2_Transpilation` on a line that is neither
native text, nor a comment, nor an attribute line, and for which
`processLine` returns a non-empty text. -/
theorem pass2Line_process (fuel : Nat) (t t' : Transpiler) (line out : Str)
    (h1 : regexTest R_NATIVE_BLOCK line = false) (h2 : regexTest R_COMMENT line = false)
    (h3 : regexSearch R_ATTRIBUTE_LINE line = none)
    (hp : processLine fuel t line = .ok (out, t')) (ho : out ≠ []) :
    pass2Line fuel t false line = .ok ({ t' with m_outputLines := t'.m_outputLines ++ [out] }, false) := by
  unfold pass2Line
  simp [h1, h2, h3, hp, ho]

theorem spaces_append_ne_nil (d : Nat) (s : Str) (h : s ≠ []) : spaces d ++ s ≠ [] := by
  simp [h]

/-- The pass on `struct S {`. -/
theorem pass2Line_structOpen (fuel : Nat) (t : Transpiler) (S : Str) (hS : IsIdent S)
    (hd : 0 ≤ t.m_braceDepth) (hsh : t.m_inShared = false) :
    pass2Line fuel t false (structOpenLine S)
      = .ok ({ t with
                m_inStruct := true, m_structStartDepth := t.m_braceDepth, m_pendingAttribute := [],
                m_currentStructAttribute := t.m_pendingAttribute, m_currentStructName := S,
                m_braceDepth := t.m_braceDepth + 1,
                m_outputLines := t.m_outputLines ++ [spaces (printDepthOf t false).toNat ++ typedefLine S] },
              false) := by
  have h := pass2Line_process fuel t _ (structOpenLine S) _
    (regexTest_first_false _ 's' _ (by decide) (by decide))
    (regexTest_first_false _ 's' _ (by decide) (by decide))
    (regexSearch_first_none _ 's' _ (by decide) (by decide))
    (processLine_structOpen fuel t S hS hd hsh)
    (spaces_append_ne_nil _ _ (by simp [typedefLine]))
  rw [h]

/-- The pass on a field line inside a struct. -/
theorem pass2Line_field (fuel : Nat) (t : Transpiler) (n ty ty' : Str) (hn : IsIdent n)
    (hty : IsTypeText ty) (htr : translateType ty = some ty')
    (hd : 0 ≤ t.m_braceDepth) (hsh : t.m_inShared = false) (hst : t.m_inStruct = true) :
    pass2Line fuel t false (fieldLine n ty)
      = .ok ({ t with m_outputLines :=
                t.m_outputLines ++ [spaces (printDepthOf t false).toNat ++ fieldText ty' n] }, false) := by
  have hno : ∀ d, isTypeChar d = false → d ≠ ':' → d ≠ ' ' → d ∉ fieldLine n ty :=
    not_mem_fieldLine n ty hn hty
  have h := pass2Line_process fuel t _ (fieldLine n ty) _
    (regexTest_requires_false requires_R_NATIVE_BLOCK (hno _ (by decide) (by decide) (by decide)))
    (regexTest_requires_false requires_R_COMMENT (hno _ (by decide) (by decide) (by decide)))
    (regexSearch_requires_none requires_R_ATTRIBUTE_LINE (hno _ (by decide) (by decide) (by decide)))
    (processLine_field fuel t n ty ty' hn hty htr hd hsh hst)
    (spaces_append_ne_nil _ _ (by simp [fieldText]))
  rw [h]

/-- The pass on the line `}` that closes a struct. -/
theorem pass2Line_structClose (fuel : Nat) (t : Transpiler) (hd : 0 ≤ t.m_braceDepth)
    (hsh : t.m_inShared = false) (hst : t.m_inStruct = true)
    (hstart : t.m_braceDepth - 1 = t.m_structStartDepth) :
    pass2Line fuel t false closeLine
      = .ok ({ t with
                m_braceDepth := t.m_braceDepth - 1, m_inStruct := false, m_currentStructAttribute := [],
                m_outputLines := t.m_outputLines ++ [spaces (printDepthOf t true).toNat ++
                  ([chRBrace, ' '] ++ t.m_currentStructName ++
                    (if t.m_currentStructAttribute ≠ [] then
                      " __attribute__((".toList ++ t.m_currentStructAttribute ++ "))".toList else [])
                    ++ ";".toList)] },
              false) := by
  have h := pass2Line_process fuel t _ closeLine _ (by decide) (by decide) (by decide)
    (processLine_structClose fuel t hd hsh hst hstart)
    (spaces_append_ne_nil _ _ (by simp))
  rw [h]

theorem translated_eq {ty : Str} (h : ∃ c ∈ ty, c ≠ '*') : translateType ty = some (translated ty) := by
  obtain ⟨r, hr⟩ := translateType_isSome ty h
  simp [translated, hr]

theorem pass2Lines_cons (fuel : Nat) (line : Str) (rest : List Str) (t t' : Transpiler) (n n' : Bool)
    (h : pass2Line fuel t n line = .ok (t', n')) :
    pass2Lines fuel (line :: rest) t n = pass2Lines fuel rest t' n' := by
  simp [pass2Lines, h]

/-- The pass over the field lines of a struct: one lowered line each, in
order, and no other change of state. -/
theorem pass2Lines_fields (fuel : Nat) (rest : List Str) :
    ∀ (fields : List (Str × Str)) (t : Transpiler), (∀ f ∈ fields, IsField f) →
      0 ≤ t.m_braceDepth → t.m_inShared = false → t.m_inStruct = true →
      pass2Lines fuel (fields.map (fun f => fieldLine f.1 f.2) ++ rest) t false
        = pass2Lines fuel rest
            { t with m_outputLines := t.m_outputLines ++ fields.map (fun f =>
                spaces (printDepthOf t false).toNat ++ fieldText (translated f.2) f.1) } false := by
  intro fields
  induction fields with
  | nil => intro t _ _ _ _; simp
  | cons f fs ih =>
    intro t hf hd hsh hst
    obtain ⟨h1, h2, h3⟩ := hf f (by simp)
    rw [List.map_cons, List.cons_append,
      pass2Lines_cons fuel _ _ t _ false false
        (pass2Line_field fuel t f.1 f.2 _ h1 h2 (translated_eq h3) hd hsh hst)]
    have h := ih
      { t with m_outputLines :=
          t.m_outputLines ++ [spaces (printDepthOf t false).toNat ++ fieldText (translated f.2) f.1] }
      (fun g hg => hf g (by simp [hg])) hd hsh hst
    rw [h]
    simp [printDepthOf]

/-- The pass over the lines of a struct at depth `d`, outside a resolve block
and outside a mixin definition. -/
theorem pass2Lines_struct (fuel : Nat) (rest : List Str) (S : Str) (fields : List (Str × Str))
    (t : Transpiler) (d : Nat) (hS : IsIdent S) (hf : ∀ f ∈ fields, IsField f)
    (hd : t.m_braceDepth = (d : Int)) (hsh : t.m_inShared = false) (hr : t.m_currentResolveType = []) :
    pass2Lines fuel (structLines S fields ++ rest) t false
      = pass2Lines fuel rest
          { t with
              m_inStruct := false, m_structStartDepth := (d : Int), m_pendingAttribute := [],
              m_currentStructAttribute := [], m_currentStructName := S,
              m_outputLines := t.m_outputLines ++ structOutput d S t.m_pendingAttribute fields } false := by
  unfold structLines
  rw [List.cons_append,
    pass2Lines_cons fuel _ _ t _ false false (pass2Line_structOpen fuel t S hS (by omega) hsh)]
  have h2 := pass2Lines_fields fuel ([closeLine] ++ rest) fields
    { t with
        m_inStruct := true, m_structStartDepth := t.m_braceDepth, m_pendingAttribute := [],
        m_currentStructAttribute := t.m_pendingAttribute, m_currentStructName := S,
        m_braceDepth := t.m_braceDepth + 1,
        m_outputLines := t.m_outputLines ++ [spaces (printDepthOf t false).toNat ++ typedefLine S] }
    hf (by simp; omega) hsh rfl
  rw [List.append_assoc, h2, List.singleton_append]
  dsimp only
  rw [pass2Lines_cons fuel _ _ _ _ false false (pass2Line_structClose fuel _ ?_ ?_ ?_ ?_)]
  · congr 1
    simp [printDepthOf, hr, hd, structOutput, closeText]
  · simp; omega
  · exact hsh
  · rfl
  · simp

/-! ## Attribute lines -/

/-- The attribute expression on `@[a]`. -/
theorem attrLine_match (a : Str) (ha : ∀ c ∈ a, isAny c = true) :
    regexSearch R_ATTRIBUTE_LINE (attrLine a) = some ⟨[], attrLine a, [], [(1, a)]⟩ := by
  unfold attrLine
  have e : matchAt R_ATTRIBUTE_LINE [] ("@[".toList ++ a ++ "]".toList)
      = some ("@[".toList ++ a ++ "]".toList, ⟨("@[".toList ++ a ++ "]".toList).reverse, [], [(1, a)]⟩) := by
    simp only [R_ATTRIBUTE_LINE, anyStar, Re.cat, Re.lit, matchAt, Re.run, String.toList,
      List.cons_append, List.append_assoc, List.nil_append, ws, List.isEmpty_nil, if_true]
    apply starG_run isSpace []
    · simp
    · exact stopsAt_cons _ (by decide)
    simp only [Re.run, isChar, beq_self_eq_true, if_true]
    apply starG_some isAny a [']']
    · exact ha
    · simp [Re.run, isChar, starG]
    · intro zs ws' e hz _
      have hws : ws' = [] := by
        cases zs with
        | nil => exact absurd rfl hz
        | cons z zs =>
          simp at e
          have := e.2
          cases zs with
          | nil => simpa using this.symm
          | cons z' zs' => simp at this
      subst hws
      simp [Re.run]
  have := regexSearch_hit e
  simpa using this

/-- The pass on a standalone attribute line: the fragment joins the pending
attributes, after a comma when some are pending already. -/
theorem pass2Line_attr (fuel : Nat) (t : Transpiler) (a : Str) (ha : ∀ c ∈ a, isAny c = true) :
    pass2Line fuel t false (attrLine a)
      = .ok ({ t with m_pendingAttribute :=
                (if t.m_pendingAttribute ≠ [] then t.m_pendingAttribute ++ ", ".toList
                  else t.m_pendingAttribute) ++ a }, false) := by
  have h1 : regexTest R_NATIVE_BLOCK (attrLine a) = false :=
    regexTest_first_false _ '@' _ (by decide) (by decide)
  have h2 : regexTest R_COMMENT (attrLine a) = false :=
    regexTest_first_false _ '@' _ (by decide) (by decide)
  unfold pass2Line
  simp only [h1, h2, attrLine_match a ha, Bool.false_eq_true, if_false, Match.group, groupOf, if_true]

/-! ## Lines of a text -/

theorem getlines_line (l : Str) (hl : '\n' ∉ l) (rest : Str) :
    getlines (l ++ '\n' :: rest) = l :: getlines rest := by
  induction l with
  | nil => simp [getlines]
  | cons c cs ih =>
    simp at hl
    have hc : c ≠ '\n' := fun h => hl.1 h.symm
    rw [List.cons_append, getlines, if_neg hc, ih hl.2]

/-- Reading back the lines of a unit written line by line. -/
theorem getlines_unlines (ls : List Str) (h : ∀ l ∈ ls, '\n' ∉ l) : getlines (unlines ls) = ls := by
  induction ls with
  | nil => rfl
  | cons l ls ih =>
    rw [unlines, getlines_line l (h l (by simp)), ih (fun x hx => h x (by simp [hx]))]

theorem no_newline_structLines (S : Str) (fields : List (Str × Str)) (hS : IsIdent S)
    (hf : ∀ f ∈ fields, IsField f) : ∀ l ∈ structLines S fields, '\n' ∉ l := by
  intro l hl
  simp only [structLines, List.mem_cons, List.mem_append, List.mem_map, List.mem_singleton,
    List.not_mem_nil, or_false] at hl
  rcases hl with rfl | ⟨f, hf', rfl⟩ | rfl
  · have := not_mem_of_isWord hS.2 (d := '\n') (by decide)
    simp [structOpenLine, this, chLBrace]
  · obtain ⟨h1, h2, -⟩ := hf f hf'
    exact not_mem_fieldLine f.1 f.2 h1 h2 '\n' (by decide) (by decide) (by decide)
  · decide

theorem no_newline_attrLine (a : Str) (ha : ∀ c ∈ a, isAny c = true) : '\n' ∉ attrLine a := by
  have : '\n' ∉ a := fun h => absurd (ha _ h) (by decide)
  simp [attrLine, this]

/-- The rewrite pass on the lines of one struct, read from the text of the
unit. -/
theorem pass2_struct (fuel : Nat) (t : Transpiler) (S : Str) (fields : List (Str × Str))
    (hS : IsIdent S) (hf : ∀ f ∈ fields, IsField f) (hd : t.m_braceDepth = 0)
    (hsh : t.m_inShared = false) (hr : t.m_currentResolveType = []) :
    pass2_Transpilation fuel t (unlines (structLines S fields))
      = ({ t with
            m_inStruct := false, m_structStartDepth := 0, m_pendingAttribute := [],
            m_currentStructAttribute := [], m_currentStructName := S,
            m_outputLines := t.m_outputLines ++ structOutput 0 S t.m_pendingAttribute fields }, none) := by
  unfold pass2_Transpilation
  rw [getlines_unlines _ (no_newline_structLines S fields hS hf)]
  have h := pass2Lines_struct fuel [] S fields t 0 hS hf (by simpa using hd) hsh hr
  rw [List.append_nil] at h
  rw [h]
  rfl

/-- The rewrite pass on two attribute lines, an annotated struct and a second
struct, read from the text of the unit. -/
theorem pass2_attr_structs (fuel : Nat) (t : Transpiler) (a b S T : Str) (fs₁ fs₂ : List (Str × Str))
    (ha : ∀ c ∈ a, isAny c = true) (hb : ∀ c ∈ b, isAny c = true)
    (hS : IsIdent S) (hT : IsIdent T) (hf₁ : ∀ f ∈ fs₁, IsField f) (hf₂ : ∀ f ∈ fs₂, IsField f)
    (hd : t.m_braceDepth = 0) (hsh : t.m_inShared = false) (hr : t.m_currentResolveType = [])
    (hp : t.m_pendingAttribute = []) :
    pass2_Transpilation fuel t
        (unlines (attrLine a :: attrLine b :: (structLines S fs₁ ++ structLines T fs₂)))
      = ({ t with
            m_inStruct := false, m_structStartDepth := 0, m_pendingAttribute := [],
            m_currentStructAttribute := [], m_currentStructName := T,
            m_outputLines := t.m_outputLines
              ++ structOutput 0 S ((if a ≠ [] then a ++ ", ".toList else a) ++ b) fs₁
              ++ structOutput 0 T [] fs₂ }, none) := by
  unfold pass2_Transpilation
  rw [getlines_unlines]
  · rw [pass2Lines_cons fuel _ _ t _ false false (pass2Line_attr fuel t a ha)]
    rw [pass2Lines_cons fuel _ _ _ _ false false (pass2Line_attr fuel _ b hb)]
    dsimp only
    rw [pass2Lines_struct fuel _ S fs₁ _ 0 hS hf₁ ?_ ?_ ?_]
    · dsimp only
      rw [← List.append_nil (structLines T fs₂), pass2Lines_struct fuel [] T fs₂ _ 0 hT hf₂ ?_ ?_ ?_]
      · simp [pass2Lines, hp]
      · simpa using hd
      · exact hsh
      · exact hr
    · simpa using hd
    · exact hsh
    · exact hr
  · intro l hl
    simp only [List.mem_cons, List.mem_append] at hl
    rcases hl with rfl | rfl | hl | hl
    · exact no_newline_attrLine _ ha
    · exact no_newline_attrLine _ hb
    · exact no_newline_structLines S fs₁ hS hf₁ l hl
    · exact no_newline_structLines T fs₂ hT hf₂ l hl

/-! ## Function signatures -/

theorem isAny_of_isTypeChar {c : Char} (h : isTypeChar c = true) : isAny c = true := by
  simp only [isTypeChar, Bool.or_eq_true, beq_iff_eq] at h
  rcases h with h | rfl
  · exact isAny_of_isWord h
  · decide

theorem isAny_of_isParamChar {c : Char} (h : isParamChar c = true) : isAny c = true := by
  simp only [isParamChar, Bool.or_eq_true, beq_iff_eq] at h
  rcases h with ((h | rfl) | rfl) | rfl
  · exact isAny_of_isTypeChar h
  · decide
  · decide
  · decide

theorem isParamChar_paramText (p : Str × Str) (hp : IsField p) : ∀ c ∈ paramText p, isParamChar c = true := by
  intro c hc
  simp only [paramText, String.toList, List.mem_append, List.mem_cons, List.not_mem_nil, or_false] at hc
  rcases hc with (hc | rfl | rfl) | hc
  · simp [isParamChar, isWord_isTypeChar (hp.1.2 c hc)]
  · decide
  · decide
  · simp [isParamChar, hp.2.1.2 c hc]

theorem isParamChar_joinArgs :
    ∀ (ps : List (Str × Str)), (∀ p ∈ ps, IsField p) → ∀ c ∈ joinArgs (ps.map paramText), isParamChar c = true := by
  intro ps
  induction ps with
  | nil => intro _ c hc; simp [joinArgs] at hc
  | cons p ps ih =>
    intro h c hc
    cases ps with
    | nil =>
      simp only [List.map_cons, List.map_nil, joinArgs] at hc
      exact isParamChar_paramText p (h p (by simp)) c hc
    | cons q qs =>
      simp only [List.map_cons, joinArgs, String.toList, List.mem_append, List.mem_cons,
        List.not_mem_nil, or_false] at hc
      rcases hc with (hc | rfl | rfl) | hc
      · exact isParamChar_paramText p (h p (by simp)) c hc
      · decide
      · decide
      · exact ih (fun x hx => h x (by simp [hx])) c (by simpa [joinArgs] using hc)

/-- The signature expression on `fn m(params) -> r {`, for a parameter text
without a closing parenthesis. -/
theorem funcSig_match (m params r : Str) (hm : IsIdent m) (hr : IsTypeText r)
    (hps : ∀ c ∈ params, isParamChar c = true) :
    regexSearch R_FUNC_SIGNATURE
        ("fn ".toList ++ m ++ "(".toList ++ params ++ ") -> ".toList ++ r ++ [' ', chLBrace])
      = some ⟨[], "fn ".toList ++ m ++ "(".toList ++ params ++ ") -> ".toList ++ r ++ [' '], [chLBrace],
          [(5, r), (4, params), (3, m)]⟩ := by
  obtain ⟨hm0, hmw⟩ := hm
  obtain ⟨hr0, hrw⟩ := hr
  obtain ⟨x, xs, rfl⟩ := List.exists_cons_of_ne_nil hm0
  obtain ⟨y, ys, rfl⟩ := List.exists_cons_of_ne_nil hr0
  have hx : isWord x = true := hmw x (by simp)
  have hy : isTypeChar y = true := hrw y (by simp)
  have e : matchAt R_FUNC_SIGNATURE []
        ("fn ".toList ++ x :: xs ++ "(".toList ++ params ++ ") -> ".toList ++ y :: ys ++ [' ', chLBrace])
      = some ("fn ".toList ++ x :: xs ++ "(".toList ++ params ++ ") -> ".toList ++ y :: ys ++ [' '],
          ⟨("fn ".toList ++ x :: xs ++ "(".toList ++ params ++ ") -> ".toList ++ y :: ys ++ [' ']).reverse,
            [chLBrace], [(5, y :: ys), (4, params), (3, x :: xs)]⟩) := by
    simp only [R_FUNC_SIGNATURE, attrOpt, anyStar, ws1, Re.cat, Re.plus, Re.lit, matchAt, Re.run,
      String.toList, List.cons_append, List.append_assoc, List.nil_append, ws, List.isEmpty_nil, if_true]
    apply starG_run isSpace []
    · simp
    · exact stopsAt_cons _ (by decide)
    simp only [Re.run, isChar, beq_self_eq_true, if_true, orElse_none, orElse_some,
      (by decide : ('f' == '@') = false), (by decide : ('f' == 'i') = false),
      (by decide : ('f' == 'e') = false), (by decide : ('f' == 's') = false), Bool.false_eq_true,
      if_false, (by decide : isSpace ' ' = true)]
    apply starG_run isSpace []
    · simp
    · exact stopsAt_cons _ (isSpace_false_of_isWord hx)
    simp only [Re.run, hx, if_true]
    apply starG_run
    · intro c hc
      exact hmw c (by simp [hc])
    · exact stopsAt_cons _ (by decide)
    simp only [Re.run]
    apply starG_run isSpace []
    · simp
    · exact stopsAt_cons _ (by decide)
    simp only [Re.run, isChar, beq_self_eq_true, if_true]
    apply starG_some isAny params
    · intro c hc
      exact isAny_of_isParamChar (hps c hc)
    · simp only [Re.run, isChar, beq_self_eq_true, if_true]
      apply starG_run isSpace [' ']
      · decide
      · exact stopsAt_cons _ (by decide)
      simp only [Re.run, isChar, beq_self_eq_true, if_true]
      apply starG_run isSpace [' ']
      · decide
      · exact stopsAt_cons _ (isSpace_false_of_isTypeChar hy)
      simp only [Re.run, hy, if_true]
      apply starG_run
      · intro c hc
        exact hrw c (by simp [hc])
      · exact stopsAt_cons _ (by decide)
      simp only [Re.run]
      apply starG_run isSpace [' ']
      · decide
      · exact stopsAt_cons _ (by decide)
      simp
    · intro zs ws' e hz _
      cases ws' with
      | nil => simp [Re.run]
      | cons c cs =>
        have hc : c ≠ ')' := by
          intro hc
          subst hc
          cases zs with
          | nil => exact hz rfl
          | cons z zs =>
            simp only [List.cons_append, List.cons.injEq] at e
            have hmem : ')' ∈ ' ' :: '-' :: '>' :: ' ' :: y :: (ys ++ [' ', chLBrace]) := by
              rw [e.2]; simp
            simp only [List.mem_cons, List.mem_append, List.not_mem_nil, or_false] at hmem
            rcases hmem with h | h | h | h | h | h | h | h
            · exact absurd h (by decide)
            · exact absurd h (by decide)
            · exact absurd h (by decide)
            · exact absurd h (by decide)
            · rw [← h] at hy; exact absurd hy (by decide)
            · exact absurd (hrw ')' (by simp [h])) (by decide)
            · exact absurd h (by decide)
            · exact absurd h (by decide)
        simp [Re.run, isChar, hc]
  have := regexSearch_hit e
  simpa using this

/-! ## Splitting the parameters -/

theorem argSplit_first (c : Char) (hs : isSpace c = false) (hc : c ≠ ',') : R_ARG_SPLIT.first c = false := by
  simp [R_ARG_SPLIT, Re.cat, Re.lit, ws, Re.first, Re.nullable, isChar, hs, hc]

theorem argSplit_first_typeChar (c : Char) (h : isTypeChar c = true) : R_ARG_SPLIT.first c = false := by
  apply argSplit_first c (isSpace_false_of_isTypeChar h)
  intro hc
  subst hc
  exact absurd h (by decide)

/-- The separator does not match at the space of `p: t`. -/
theorem argSplit_miss_space (pre : Str) (c : Char) (rest : Str) (h : isTypeChar c = true) :
    matchAt R_ARG_SPLIT pre (' ' :: c :: rest) = none := by
  have hs : isSpace c = false := isSpace_false_of_isTypeChar h
  have hc : (c == ',') = false := by
    simp only [beq_eq_false_iff_ne, ne_eq]
    intro hc
    subst hc
    exact absurd h (by decide)
  simp [R_ARG_SPLIT, Re.cat, Re.lit, ws, matchAt, Re.run, starG, isChar, hs, hc,
    (by decide : isSpace ' ' = true)]

/-- A search for the separator passes over the text of a parameter. -/
theorem argSplit_skip_param (p : Str × Str) (hp : IsField p) (rest sk pre : Str) :
    searchFrom R_ARG_SPLIT sk pre (paramText p ++ rest)
      = searchFrom R_ARG_SPLIT ((paramText p).reverse ++ sk) ((paramText p).reverse ++ pre) rest := by
  obtain ⟨⟨-, h1⟩, ⟨h2, h3⟩, -⟩ := hp
  obtain ⟨y, ys, hy⟩ := List.exists_cons_of_ne_nil h2
  have hyt : isTypeChar y = true := h3 y (by simp [hy])
  unfold paramText
  rw [hy]
  have e : p.1 ++ ": ".toList ++ y :: ys ++ rest = p.1 ++ ([':'] ++ (' ' :: y :: (ys ++ rest))) := by simp
  rw [e, searchFrom_skip R_ARG_SPLIT rfl p.1 _ _ _ (fun c hc => argSplit_first_typeChar c
    (isWord_isTypeChar (h1 c hc)))]
  rw [searchFrom_skip R_ARG_SPLIT rfl [':'] _ _ _ (fun c hc => by
    simp at hc; subst hc; exact argSplit_first ':' (by decide) (by decide))]
  rw [searchFrom_miss _ (argSplit_miss_space _ y _ hyt)]
  have e2 : y :: (ys ++ rest) = (y :: ys) ++ rest := rfl
  rw [e2, searchFrom_skip R_ARG_SPLIT rfl (y :: ys) _ _ _ (fun c hc => argSplit_first_typeChar c
    (h3 c (by rw [hy]; exact hc)))]
  simp

/-- The separator matches `, ` before a text that does not begin with a
space. -/
theorem argSplit_hit (pre more : Str) (hmore : StopsAt isSpace more) :
    matchAt R_ARG_SPLIT pre (", ".toList ++ more) = some (", ".toList, ⟨' ' :: ',' :: pre, more, []⟩) := by
  simp only [R_ARG_SPLIT, Re.cat, Re.lit, ws, matchAt, Re.run, String.toList, List.cons_append,
    List.nil_append]
  apply starG_run isSpace []
  · simp
  · exact stopsAt_cons _ (by decide)
  simp only [Re.run, isChar, beq_self_eq_true, if_true]
  apply starG_run isSpace [' ']
  · decide
  · exact hmore
  simp

theorem stopsAt_paramText (p : Str × Str) (hp : IsField p) (rest : Str) :
    StopsAt isSpace (paramText p ++ rest) := by
  obtain ⟨⟨h0, h1⟩, -, -⟩ := hp
  obtain ⟨x, xs, hx⟩ := List.exists_cons_of_ne_nil h0
  unfold paramText
  rw [hx]
  exact stopsAt_cons _ (isSpace_false_of_isWord (h1 x (by simp [hx])))

theorem stopsAt_joinArgs (p : Str × Str) (ps : List (Str × Str)) (hp : IsField p) :
    StopsAt isSpace (joinArgs ((p :: ps).map paramText)) := by
  cases ps with
  | nil =>
    have := stopsAt_paramText p hp []
    simpa [joinArgs] using this
  | cons q qs =>
    have := stopsAt_paramText p hp (", ".toList ++ joinArgs ((q :: qs).map paramText))
    simpa [joinArgs] using this

/-- The loop of the token iterator over the parameters written `p: t` and
joined by `, `: one token per parameter. -/
theorem splitLoop_params :
    ∀ (ps : List (Str × Str)), ps ≠ [] → (∀ p ∈ ps, IsField p) → ∀ (fuel : Nat) (pre : Str),
      ps.length ≤ fuel → splitLoop R_ARG_SPLIT fuel pre (joinArgs (ps.map paramText)) = ps.map paramText := by
  intro ps
  induction ps with
  | nil => intro h; exact absurd rfl h
  | cons p ps ih =>
    intro _ hf fuel pre hfuel
    cases fuel with
    | zero => simp at hfuel
    | succ fuel =>
      have hp := hf p (by simp)
      cases ps with
      | nil =>
        have h := argSplit_skip_param p hp [] [] pre
        simp only [List.append_nil] at h
        have hne : paramText p ≠ [] := by
          have := hp.1.1
          simp [paramText, this]
        simp only [List.map_cons, List.map_nil, joinArgs, splitLoop, h, searchFrom,
          matchAt_nil_none R_ARG_SPLIT _ rfl]
        simp [hne]
      | cons q qs =>
        have hq := hf q (by simp)
        have h := argSplit_skip_param p hp (", ".toList ++ joinArgs ((q :: qs).map paramText)) [] pre
        rw [searchFrom_hit _ (argSplit_hit _ _ (stopsAt_joinArgs q qs hq))] at h
        have e : joinArgs ((p :: q :: qs).map paramText)
            = paramText p ++ (", ".toList ++ joinArgs ((q :: qs).map paramText)) := by
          simp [joinArgs]
        rw [e, splitLoop, h]
        simp only [List.append_nil, List.reverse_reverse, String.toList]
        rw [ih (by simp) (fun x hx => hf x (by simp [hx])) fuel _ (by simpa using hfuel)]
        simp

/-- The tokens of a parameter list: the parameters, or one empty token when
there is none. -/
theorem regexSplit_params (ps : List (Str × Str)) (hf : ∀ p ∈ ps, IsField p) :
    regexSplit R_ARG_SPLIT (joinArgs (ps.map paramText))
      = if ps = [] then [[]] else ps.map paramText := by
  cases ps with
  | nil => decide
  | cons p ps =>
    simp only [reduceCtorEq, if_false]
    unfold regexSplit
    cases e : regexSearch R_ARG_SPLIT (joinArgs ((p :: ps).map paramText)) with
    | some m =>
      simp only
      apply splitLoop_params (p :: ps) (by simp) hf
      have : ∀ (qs : List (Str × Str)), (∀ q ∈ qs, IsField q) → qs.length ≤ (joinArgs (qs.map paramText)).length := by
        intro qs
        induction qs with
        | nil => intro _; simp
        | cons q qs ih =>
          intro hq
          have hq1 := (hq q (by simp)).1.1
          have hlen : 1 ≤ (paramText q).length := by
            have : paramText q ≠ [] := by simp [paramText, hq1]
            exact List.length_pos.mpr this
          cases qs with
          | nil => simpa [joinArgs] using hlen
          | cons r rs =>
            have := ih (fun x hx => hq x (by simp [hx]))
            simp only [List.map_cons, joinArgs, List.length_append, List.length_cons] at this ⊢
            omega
      have := this (p :: ps) hf
      omega
    | none =>
      simp only
      cases ps with
      | nil => simp [joinArgs]
      | cons q qs =>
        exfalso
        have hp := hf p (by simp)
        have hq := hf q (by simp)
        have h := argSplit_skip_param p hp (", ".toList ++ joinArgs ((q :: qs).map paramText)) [] []
        rw [searchFrom_hit _ (argSplit_hit _ _ (stopsAt_joinArgs q qs hq))] at h
        have e2 : joinArgs ((p :: q :: qs).map paramText)
            = paramText p ++ (", ".toList ++ joinArgs ((q :: qs).map paramText)) := by
          simp [joinArgs]
        rw [regexSearch, e2, h] at e
        exact Option.noConfusion e

/-- The parameter expression on `p: t`. -/
theorem arg_match (p : Str × Str) (hp : IsField p) :
    regexSearch R_ARG (paramText p) = some ⟨[], paramText p, [], [(2, p.2), (1, p.1)]⟩ := by
  obtain ⟨n, ty⟩ := p
  obtain ⟨⟨hn0, hnw⟩, ⟨ht0, htw⟩, -⟩ := hp
  simp only at hn0 hnw ht0 htw
  unfold paramText
  simp only
  obtain ⟨x, xs, rfl⟩ := List.exists_cons_of_ne_nil hn0
  obtain ⟨y, ys, rfl⟩ := List.exists_cons_of_ne_nil ht0
  have hx : isWord x = true := hnw x (by simp)
  have hy : isTypeChar y = true := htw y (by simp)
  have e : matchAt R_ARG [] (x :: xs ++ ": ".toList ++ y :: ys)
      = some (x :: xs ++ ": ".toList ++ y :: ys,
          ⟨(x :: xs ++ ": ".toList ++ y :: ys).reverse, [], [(2, y :: ys), (1, x :: xs)]⟩) := by
    simp only [R_ARG, Re.cat, Re.plus, Re.lit, matchAt, Re.run, String.toList,
      List.cons_append, List.append_assoc, List.nil_append, ws, hx, if_true]
    apply starG_run
    · intro c hc
      exact hnw c (by simp [hc])
    · exact stopsAt_cons _ (by decide)
    simp only [Re.run]
    apply starG_run isSpace []
    · simp
    · exact stopsAt_cons _ (by decide)
    simp only [Re.run, isChar, beq_self_eq_true, if_true]
    apply starG_run isSpace [' ']
    · decide
    · exact stopsAt_cons _ (isSpace_false_of_isTypeChar hy)
    simp only [Re.run, hy, if_true]
    have hys : ys = ys ++ [] := by simp
    rw [hys]
    apply starG_run
    · intro c hc
      exact htw c (by simp [hc])
    · exact stopsAt_nil _
    simp
  have := regexSearch_hit e
  simpa using this

/-- The loop over the parameters of a definition inside a resolve block:
every parameter is lowered, in order, and added to the symbol table. -/
theorem lowerArgs_params (V : Str) :
    ∀ (ps : List (Str × Str)) (cArgs : List Str) (syms : SymbolTable),
      (∀ p ∈ ps, IsField p ∧ p.1 ≠ "self".toList) →
      lowerArgs V true (ps.map paramText) cArgs syms
        = .ok (cArgs ++ ps.map paramOut, addParams syms ps) := by
  intro ps
  induction ps with
  | nil => intro cArgs syms _; simp [lowerArgs, addParams]
  | cons p ps ih =>
    intro cArgs syms h
    obtain ⟨hp, hself⟩ := h p (by simp)
    have hne : paramText p ≠ [] := by simp [paramText, hp.1.1]
    rw [List.map_cons, lowerArgs, if_neg hne, arg_match p hp]
    simp only [Match.group, groupOf, if_true, (by decide : (2 : Nat) ≠ 1), if_false, hself, and_false,
      translateTypeE, translated_eq hp.2.2]
    rw [ih _ _ (fun q hq => h q (by simp [hq]))]
    simp [addParams, paramOut]


theorem lowerArgs_split (V : Str) (ps : List (Str × Str)) (cArgs : List Str) (syms : SymbolTable)
    (h : ∀ p ∈ ps, IsField p ∧ p.1 ≠ "self".toList) :
    lowerArgs V true (regexSplit R_ARG_SPLIT (joinArgs (ps.map paramText))) cArgs syms
      = .ok (cArgs ++ ps.map paramOut, addParams syms ps) := by
  rw [regexSplit_params ps (fun p hp => (h p hp).1)]
  split_ifs with hps
  · subst hps
    simp [lowerArgs, addParams]
  · exact lowerArgs_params V ps cArgs syms h

/-- A character that is no parameter character, no parenthesis, no part of
the arrow and no brace does not occur in the line of a definition. -/
theorem not_mem_fnLine (m : Str) (ps : List (Str × Str)) (r : Str) (hm : IsIdent m)
    (hps : ∀ p ∈ ps, IsField p) (hr : IsTypeText r) (d : Char) (h1 : isParamChar d = false)
    (h2 : d ≠ '(') (h3 : d ≠ ')') (h4 : d ≠ '-') (h5 : d ≠ '>') (h6 : d ≠ chLBrace) (h7 : d ≠ 'f')
    (h8 : d ≠ 'n') : d ∉ fnLine m ps r := by
  have hsp : d ≠ ' ' := by
    intro h; subst h; exact absurd h1 (by decide)
  have hty : ∀ c, isTypeChar c = true → d ≠ c := by
    intro c hc h
    subst h
    simp [isParamChar, hc] at h1
  unfold fnLine
  intro h
  simp only [String.toList, List.mem_append, List.mem_cons, List.not_mem_nil, or_false] at h
  casesm* _ ∨ _
  all_goals first
    | exact h7 ‹_› | exact h8 ‹_› | exact hsp ‹_› | exact h2 ‹_› | exact h3 ‹_› | exact h4 ‹_›
    | exact h5 ‹_› | exact h6 ‹_›
    | exact hty d (isWord_isTypeChar (hm.2 d ‹_›)) rfl
    | exact hty d (hr.2 d ‹_›) rfl
    | exact absurd (isParamChar_joinArgs ps hps d ‹_›) (by rw [h1]; exact Bool.noConfusion)

/-- The function `processLine` on a definition line
`fn m(p1: t1, ..., pn: tn) -> r {` with no parameter named `self`, outside a
mixin definition and at a non-negative depth: the lowered signature, and the
state with the parameters added to the current scope, a new scope pushed and
the depth raised. -/
theorem processLine_fnDef (fuel : Nat) (t : Transpiler) (m : Str) (ps : List (Str × Str)) (r : Str)
    (hm : IsIdent m) (hps : ∀ p ∈ ps, IsField p ∧ p.1 ≠ "self".toList) (hr : IsTypeText r)
    (hr' : ∃ c ∈ r, c ≠ '*') (hd : 0 ≤ t.m_braceDepth) (hsh : t.m_inShared = false) :
    processLine fuel t (fnLine m ps r)
      = .ok (spaces (printDepthOf t false).toNat
            ++ (if t.m_pendingAttribute ≠ [] then "__attribute__((".toList ++ t.m_pendingAttribute ++ ")) ".toList
                else [])
            ++ translated r ++ " ".toList
            ++ (if t.m_currentResolveType ≠ [] then t.m_currentResolveType ++ "_".toList ++ m else m)
            ++ "(".toList
            ++ joinArgs ((if t.m_currentResolveType ≠ [] then [t.m_currentResolveType ++ "* self".toList] else [])
                ++ ps.map paramOut)
            ++ ")".toList ++ [' ', chLBrace],
          { t with
              m_pendingAttribute := [],
              m_symbols := (addParams
                (if t.m_currentResolveType ≠ [] then t.m_symbols.add "self".toList t.m_currentResolveType
                  else t.m_symbols) ps).pushScope,
              m_braceDepth := t.m_braceDepth + 1 }) := by
  have hps' : ∀ p ∈ ps, IsField p := fun p hp => (hps p hp).1
  have hno := not_mem_fnLine m ps r hm hps' hr
  have hcons : fnLine m ps r = 'f' :: ("n ".toList ++ m ++ "(".toList ++ joinArgs (ps.map paramText)
      ++ ") -> ".toList ++ r ++ [' ', chLBrace]) := by simp [fnLine]
  have hsplit : fnLine m ps r = ("fn ".toList ++ m ++ "(".toList ++ joinArgs (ps.map paramText)
      ++ ") -> ".toList ++ r ++ [' ']) ++ [chLBrace] := by simp [fnLine]
  have hbrace : chLBrace ∈ fnLine m ps r := by simp [fnLine]
  have f1 : regexReplace R_LEADING_WS 0 [] (fnLine m ps r) = fnLine m ps r := by
    rw [hcons]; exact trim_nonspace 'f' _ (by decide)
  have f2 : regexSearch R_INCLUDE (fnLine m ps r) = none := by
    rw [hcons]; exact regexSearch_first_none _ 'f' _ (by decide) (by decide)
  have f3 : regexTest R_OPENS_AT_END (fnLine m ps r) = true := by
    rw [hsplit]
    exact regexTest_true _ [chLBrace] (by
      simp [R_OPENS_AT_END, Re.cat, matchAt, Re.run, isChar, ws, starG])
  have f4 : regexTest R_STARTS_CLOSING (fnLine m ps r) = false := by
    rw [hcons]; exact regexTest_first_false _ 'f' _ (by decide) (by decide)
  have f5 : regexTest R_CLOSES (fnLine m ps r) = false := by
    rw [hcons]; exact regexTest_first_false _ 'f' _ (by decide) (by decide)
  have f6 : hasSub "self.".toList (fnLine m ps r) = false :=
    hasSub_false_of_not_mem _ '.' (by decide) _
      (hno '.' (by decide) (by decide) (by decide) (by decide) (by decide) (by decide) (by decide)
        (by decide))
  have f7 : regexSearch R_SHARED_START (fnLine m ps r) = none := by
    rw [hcons]; exact regexSearch_first_none _ 'f' _ (by decide) (by decide)
  have f8 : regexSearch R_STRUCT_START (fnLine m ps r) = none := by
    rw [hcons]; exact regexSearch_first_none _ 'f' _ (by decide) (by decide)
  have f9 : regexSearch R_USE_MIXIN (fnLine m ps r) = none := by
    rw [hcons]; exact regexSearch_first_none _ 'f' _ (by decide) (by decide)
  have f10 : regexSearch R_RESOLVE_START (fnLine m ps r) = none := by
    rw [hcons]; exact regexSearch_first_none _ 'f' _ (by decide) (by decide)
  have f11 := funcSig_match m (joinArgs (ps.map paramText)) r hm hr (isParamChar_joinArgs ps hps')
  have f11' : regexSearch R_FUNC_SIGNATURE (fnLine m ps r)
      = some ⟨[], "fn ".toList ++ m ++ "(".toList ++ joinArgs (ps.map paramText) ++ ") -> ".toList ++ r ++ [' '],
          [chLBrace], [(5, r), (4, joinArgs (ps.map paramText)), (3, m)]⟩ := f11
  have f12 : regexTest R_FUNC_SIGNATURE (fnLine m ps r) = true := by
    simp [regexTest, f11']
  have hp : 0 ≤ printDepthOf t false := by
    unfold printDepthOf
    simp only [Bool.false_eq_true, false_and, if_false]
    split_ifs <;> omega
  unfold processLine
  simp only [f1, f2, f3, f4, f5, f6, f7, f8, f9, f10, f11', f12, Bool.true_or, closeContexts,
    Bool.false_eq_true, if_false, lowerLine, hsh, indentOf_nonneg _ hp, and_false, false_and, lowerFunc,
    hbrace, decide_True, if_true, Match.group, groupOf, (by decide : (5 : Nat) ≠ 1),
    (by decide : (4 : Nat) ≠ 1), (by decide : (3 : Nat) ≠ 1), (by decide : (5 : Nat) ≠ 2),
    (by decide : (4 : Nat) ≠ 2), (by decide : (3 : Nat) ≠ 2), (by decide : (5 : Nat) ≠ 3),
    (by decide : (4 : Nat) ≠ 3), (by decide : (5 : Nat) ≠ 4), mergeAttr, translateTypeE,
    translated_eq hr', lowerArgs_split _ ps _ _ hps, bumpDepth]
  simp


/-! ## Mixin definitions and their use -/

/-- The `use` expression on `use M`. -/
theorem useMixin_match (M : Str) (hM : IsIdent M) :
    regexSearch R_USE_MIXIN (useLine M) = some ⟨[], useLine M, [], [(1, M)]⟩ := by
  unfold useLine
  obtain ⟨hM0, hMw⟩ := hM
  obtain ⟨x, xs, rfl⟩ := List.exists_cons_of_ne_nil hM0
  have hx : isWord x = true := hMw x (by simp)
  have e : matchAt R_USE_MIXIN [] ("use ".toList ++ x :: xs)
      = some ("use ".toList ++ x :: xs, ⟨("use ".toList ++ x :: xs).reverse, [], [(1, x :: xs)]⟩) := by
    simp only [R_USE_MIXIN, ws1, Re.cat, Re.plus, Re.lit, matchAt, Re.run, String.toList,
      List.cons_append, List.append_assoc, List.nil_append, ws, List.isEmpty_nil, if_true]
    apply starG_run isSpace []
    · simp
    · exact stopsAt_cons _ (by decide)
    simp only [Re.run, isChar, beq_self_eq_true, if_true, (by decide : isSpace ' ' = true)]
    apply starG_run isSpace []
    · simp
    · exact stopsAt_cons _ (isSpace_false_of_isWord hx)
    simp only [Re.run, hx, if_true]
    have hxs : xs = xs ++ [] := by simp
    rw [hxs]
    apply starG_run
    · intro c hc
      exact hMw c (by simp [hc])
    · exact stopsAt_nil _
    simp
  have := regexSearch_hit e
  simpa using this

theorem printDepth_nonneg (t : Transpiler) (b : Bool) (hd : 0 ≤ t.m_braceDepth) : 0 ≤ printDepthOf t b := by
  unfold printDepthOf
  dsimp only
  split_ifs <;> omega

/-- A character that is neither a word character nor a space does not occur
in a `use` line. -/
theorem not_mem_useLine (M : Str) (hM : IsIdent M) (d : Char) (h1 : isWord d = false) (h2 : d ≠ ' ') :
    d ∉ useLine M := by
  unfold useLine
  intro h
  simp at h
  rcases h with h | h | h | h | h
  · subst h; exact absurd h1 (by decide)
  · subst h; exact absurd h1 (by decide)
  · subst h; exact absurd h1 (by decide)
  · exact h2 h
  · have := hM.2 d h
    rw [h1] at this
    exact Bool.noConfusion this

theorem requires_R_FIELD : R_FIELD.Requires ':' := by
  unfold R_FIELD
  simp only [Re.cat, Re.lit, String.toList]
  exact requires_seq_right _ (requires_seq_right _ (requires_seq_right _ (requires_seq_right _
    (requires_seq_left _ (requires_seq_left _ (requires_chr _))))))

/-- A line without a method call and without a pipe is left as it is by
expression rewriting. -/
theorem rewriteExpr_plain (syms : SymbolTable) (fuel : Nat) (s : Str) (h1 : '.' ∉ s)
    (h2 : hasSub "|>".toList s = false) : rewriteExpr syms (fuel + 1) s = .ok s := by
  unfold rewriteExpr
  have e1 : replaceMethodCalls syms (fuel + 1) s = some s := by
    unfold replaceMethodCalls
    rw [methodCall_absent s h1]
  rw [e1]
  simp only [pipe_done syms s fuel h2]

theorem getLast_useLine (M : Str) (hM : IsIdent M) : (useLine M).getLast? ≠ some ';' := by
  unfold useLine
  obtain ⟨hM0, hMw⟩ := hM
  rw [List.getLast?_append_of_ne_nil _ hM0]
  intro h
  have := List.mem_of_mem_getLast? (Option.mem_def.mpr h)
  have := hMw _ this
  exact absurd this (by decide)

/-- The function `processLine` on `use N` inside a struct when no mixin `N`
is registered: the line goes the way of a statement, so it is emitted with
the indentation and the automatic semicolon, and the state stays as it is. -/
theorem processLine_useUnregistered (fuel : Nat) (t : Transpiler) (N : Str) (hN : IsIdent N)
    (hd : 0 ≤ t.m_braceDepth) (hsh : t.m_inShared = false)
    (hreg : mapFind t.m_sharedMixins N = none) :
    processLine (fuel + 1) t (useLine N)
      = .ok (spaces (printDepthOf t false).toNat ++ useLine N ++ ";".toList, t) := by
  have hno := not_mem_useLine N hN
  have hm := useMixin_match N hN
  have f1 : regexReplace R_LEADING_WS 0 [] (useLine N) = useLine N := trim_nonspace 'u' _ (by decide)
  have f2 : regexSearch R_INCLUDE (useLine N) = none :=
    regexSearch_requires_none requires_R_INCLUDE (hno _ (by decide) (by decide))
  have f3 : regexTest R_OPENS_AT_END (useLine N) = false :=
    regexTest_requires_false requires_R_OPENS_AT_END (hno _ (by decide) (by decide))
  have f3' : regexTest R_OPENS_AT_START (useLine N) = false :=
    regexTest_requires_false requires_R_OPENS_AT_START (hno _ (by decide) (by decide))
  have f4 : regexTest R_STARTS_CLOSING (useLine N) = false :=
    regexTest_requires_false requires_R_STARTS_CLOSING (hno _ (by decide) (by decide))
  have f5 : regexTest R_CLOSES (useLine N) = false :=
    regexTest_requires_false requires_R_CLOSES (hno _ (by decide) (by decide))
  have f6 : hasSub "self.".toList (useLine N) = false :=
    hasSub_false_of_not_mem _ '.' (by decide) _ (hno _ (by decide) (by decide))
  have f7 : regexSearch R_SHARED_START (useLine N) = none :=
    regexSearch_requires_none requires_R_SHARED_START (hno _ (by decide) (by decide))
  have f8 : regexSearch R_STRUCT_START (useLine N) = none :=
    regexSearch_requires_none requires_R_STRUCT_START (hno _ (by decide) (by decide))
  have f9 : regexSearch R_FIELD (useLine N) = none :=
    regexSearch_requires_none requires_R_FIELD (hno _ (by decide) (by decide))
  have f10 : regexSearch R_RESOLVE_START (useLine N) = none :=
    regexSearch_requires_none requires_R_RESOLVE_START (hno _ (by decide) (by decide))
  have f11 : regexSearch R_FUNC_SIGNATURE (useLine N) = none :=
    regexSearch_requires_none requires_R_FUNC_SIGNATURE (hno _ (by decide) (by decide))
  have f12 : regexSearch R_VAR (useLine N) = none :=
    regexSearch_requires_none requires_R_VAR (hno _ (by decide) (by decide))
  have f13 : regexSearch R_IF (useLine N) = none :=
    regexSearch_requires_none requires_R_IF (hno _ (by decide) (by decide))
  have f14 : regexSearch R_WHILE (useLine N) = none :=
    regexSearch_requires_none requires_R_WHILE (hno _ (by decide) (by decide))
  have f15 : regexTest R_LOOP (useLine N) = false :=
    regexTest_requires_false requires_R_LOOP (hno _ (by decide) (by decide))
  have f16 : regexMatch R_BLANK (useLine N) = false := by
    simp [regexMatch, R_BLANK, Re.cat, Re.run, ws, starG, useLine, isSpace]
  have f17 : rewriteExpr t.m_symbols (fuel + 1) (useLine N) = .ok (useLine N) :=
    rewriteExpr_plain _ _ _ (hno _ (by decide) (by decide))
      (hasSub_false_of_not_mem _ '|' (by decide) _ (hno _ (by decide) (by decide)))
  have f18 : useLine N ≠ [] := by simp [useLine]
  have f19 := getLast_useLine N hN
  have hp := printDepth_nonneg t false hd
  unfold processLine
  simp only [f1, f2, f3, f3', f4, f5, f6, f7, f8, f9, f10, f11, f12, hm, Bool.or_false, closeContexts,
    Bool.false_eq_true, if_false, lowerLine, hsh, indentOf_nonneg _ hp, Match.group, groupOf, if_true, hreg,
    lowerStmt, f13, f14, f15, f16, f17, ite_self, false_and]
  simp [f18, f19]

/-! ## The rewrite pass on mixin definitions and on structs that use one -/

/-- A line that does not open a mixin definition, read outside one, leaves
the discovery state as it is. -/
theorem discoverLine_outside (d : Discovery) (l : Str) (hin : d.insideMixin = false)
    (h : regexSearch R_SHARED_START l = none) : discoverLine d l = d := by
  simp [discoverLine, hin, h]

/-- Lines read outside a mixin definition, none of which opens one, leave the
discovery state as it is. -/
theorem discover_outside (d : Discovery) (hin : d.insideMixin = false) :
    ∀ (ls : List Str), (∀ l ∈ ls, regexSearch R_SHARED_START l = none) → ls.foldl discoverLine d = d := by
  intro ls
  induction ls with
  | nil => intro _; rfl
  | cons l ls ih =>
    intro h
    rw [List.foldl_cons, discoverLine_outside d l hin (h l (by simp))]
    exact ih (fun x hx => h x (by simp [hx]))

/-- The opening line of a mixin definition, read outside one. -/
theorem discoverLine_open (d : Discovery) (l : Str) (m : Match) (hin : d.insideMixin = false)
    (h : regexSearch R_SHARED_START l = some m) :
    discoverLine d l
      = { d with insideMixin := true, currentMixinName := m.group 1, currentMixinBody := [], depth := 1 } := by
  simp [discoverLine, hin, h]

/-- Interior lines of a mixin definition: while the depth does not come back
to zero at the end of a line, every line is appended to the body with a line
feed. -/
theorem discover_inside :
    ∀ (ls : List Str) (d : Discovery), d.insideMixin = true →
      (∀ k, k ≤ ls.length → depthAfter d.depth (ls.take k) ≠ 0) →
      ls.foldl discoverLine d
        = { d with depth := depthAfter d.depth ls, currentMixinBody := d.currentMixinBody ++ unlines ls } := by
  intro ls
  induction ls with
  | nil =>
    intro d _ _
    simp [depthAfter, unlines]
  | cons l ls ih =>
    intro d hin h
    have h1 : braceBalance d.depth l ≠ 0 := by
      have := h 1 (by simp)
      simpa [depthAfter] using this
    have e : discoverLine d l
        = { d with depth := braceBalance d.depth l, currentMixinBody := d.currentMixinBody ++ l ++ "\n".toList } := by
      simp [discoverLine, hin, h1]
    have h2 := ih { d with depth := braceBalance d.depth l,
                           currentMixinBody := d.currentMixinBody ++ l ++ "\n".toList } hin (by
      intro k hk
      have := h (k + 1) (by simp; omega)
      simpa [depthAfter] using this)
    rw [List.foldl_cons, e, h2]
    simp [depthAfter, unlines]

/-- The line that brings the depth back to zero closes the mixin definition
and commits the body under the name. -/
theorem discoverLine_close (d : Discovery) (l : Str) (hin : d.insideMixin = true)
    (h : braceBalance d.depth l = 0) :
    discoverLine d l
      = { d with depth := 0, insideMixin := false,
                 mixins := mapSet d.mixins d.currentMixinName d.currentMixinBody } := by
  simp [discoverLine, hin, h]

/-- The discovery pass over a unit that holds one mixin definition: the lines
`pre`, an opening line, the interior lines `ls`, a line `}` and the lines
`post`. -/
theorem pass1_oneMixin (t : Transpiler) (pre post ls : List Str) (l₀ : Str) (m : Match)
    (hpre : ∀ l ∈ pre, regexSearch R_SHARED_START l = none)
    (hpost : ∀ l ∈ post, regexSearch R_SHARED_START l = none)
    (hopen : regexSearch R_SHARED_START l₀ = some m)
    (hin : ∀ k, k ≤ ls.length → depthAfter 1 (ls.take k) ≠ 0) (hbal : depthAfter 1 ls = 1)
    (hnl : ∀ l ∈ pre ++ l₀ :: (ls ++ closeLine :: post), '\n' ∉ l) :
    pass1_Discovery t (unlines (pre ++ l₀ :: (ls ++ closeLine :: post)))
      = { t with m_sharedMixins := mapSet t.m_sharedMixins (m.group 1) (unlines ls) } := by
  unfold pass1_Discovery
  rw [getlines_unlines _ hnl, List.foldl_append, discover_outside _ rfl pre hpre, List.foldl_cons,
    discoverLine_open _ l₀ m rfl hopen, List.foldl_append, discover_inside ls _ rfl hin, List.foldl_cons]
  dsimp only
  rw [hbal, discoverLine_close _ closeLine rfl (by simp [braceBalance, closeLine, chRBrace, chLBrace]),
    discover_outside _ rfl post hpost]
  simp

/-! ## A unit with a mixin and a struct that uses it -/

theorem mapFind_mapSet (ms : StrMap) (k v : Str) : mapFind (mapSet ms k v) k = some v := by
  induction ms with
  | nil => simp [mapSet, mapFind]
  | cons p ps ih =>
    obtain ⟨k', v'⟩ := p
    by_cases h : k' = k
    · simp [mapSet, mapFind, h]
    · simp [mapSet, mapFind, h, ih]

/-- The signature expression on `fn m(params) -> r`, for a parameter text
without a closing parenthesis. -/
theorem funcSig_decl_match (m params r : Str) (hm : IsIdent m) (hr : IsTypeText r)
    (hps : ∀ c ∈ params, isParamChar c = true) :
    regexSearch R_FUNC_SIGNATURE ("fn ".toList ++ m ++ "(".toList ++ params ++ ") -> ".toList ++ r)
      = some ⟨[], "fn ".toList ++ m ++ "(".toList ++ params ++ ") -> ".toList ++ r, [],
          [(5, r), (4, params), (3, m)]⟩ := by
  obtain ⟨hm0, hmw⟩ := hm
  obtain ⟨hr0, hrw⟩ := hr
  obtain ⟨x, xs, rfl⟩ := List.exists_cons_of_ne_nil hm0
  obtain ⟨y, ys, rfl⟩ := List.exists_cons_of_ne_nil hr0
  have hx : isWord x = true := hmw x (by simp)
  have hy : isTypeChar y = true := hrw y (by simp)
  have e : matchAt R_FUNC_SIGNATURE []
        ("fn ".toList ++ x :: xs ++ "(".toList ++ params ++ ") -> ".toList ++ y :: ys)
      = some ("fn ".toList ++ x :: xs ++ "(".toList ++ params ++ ") -> ".toList ++ y :: ys,
          ⟨("fn ".toList ++ x :: xs ++ "(".toList ++ params ++ ") -> ".toList ++ y :: ys).reverse,
            [], [(5, y :: ys), (4, params), (3, x :: xs)]⟩) := by
    simp only [R_FUNC_SIGNATURE, attrOpt, anyStar, ws1, Re.cat, Re.plus, Re.lit, matchAt, Re.run,
      String.toList, List.cons_append, List.append_assoc, List.nil_append, ws, List.isEmpty_nil, if_true]
    apply starG_run isSpace []
    · simp
    · exact stopsAt_cons _ (by decide)
    simp only [Re.run, isChar, beq_self_eq_true, if_true, orElse_none, orElse_some,
      (by decide : ('f' == '@') = false), (by decide : ('f' == 'i') = false),
      (by decide : ('f' == 'e') = false), (by decide : ('f' == 's') = false), Bool.false_eq_true,
      if_false, (by decide : isSpace ' ' = true)]
    apply starG_run isSpace []
    · simp
    · exact stopsAt_cons _ (isSpace_false_of_isWord hx)
    simp only [Re.run, hx, if_true]
    apply starG_run
    · intro c hc
      exact hmw c (by simp [hc])
    · exact stopsAt_cons _ (by decide)
    simp only [Re.run]
    apply starG_run isSpace []
    · simp
    · exact stopsAt_cons _ (by decide)
    simp only [Re.run, isChar, beq_self_eq_true, if_true]
    apply starG_some isAny params
    · intro c hc
      exact isAny_of_isParamChar (hps c hc)
    · simp only [Re.run, isChar, beq_self_eq_true, if_true]
      apply starG_run isSpace [' ']
      · decide
      · exact stopsAt_cons _ (by decide)
      simp only [Re.run, isChar, beq_self_eq_true, if_true]
      apply starG_run isSpace [' ']
      · decide
      · exact stopsAt_cons _ (isSpace_false_of_isTypeChar hy)
      simp only [Re.run, hy, if_true]
      have hys : ys = ys ++ [] := by simp
      rw [hys]
      apply starG_run
      · intro c hc
        exact hrw c (by simp [hc])
      · exact stopsAt_nil _
      simp [Re.run, starG]
    · intro zs ws' e hz _
      cases ws' with
      | nil => simp [Re.run]
      | cons c cs =>
        have hc : c ≠ ')' := by
          intro hc
          subst hc
          cases zs with
          | nil => exact hz rfl
          | cons z zs =>
            simp only [List.cons_append, List.cons.injEq] at e
            have hmem : ')' ∈ ' ' :: '-' :: '>' :: ' ' :: y :: ys := by
              rw [e.2]; simp
            simp only [List.mem_cons, List.mem_append, List.not_mem_nil, or_false] at hmem
            rcases hmem with h | h | h | h | h | h
            · exact absurd h (by decide)
            · exact absurd h (by decide)
            · exact absurd h (by decide)
            · exact absurd h (by decide)
            · rw [← h] at hy; exact absurd hy (by decide)
            · exact absurd (hrw ')' (by simp [h])) (by decide)
        simp [Re.run, isChar, hc]
  have := regexSearch_hit e
  simpa using this

/-- The loop over the parameters of a declaration: every parameter is
lowered, in order, and the symbol table stays as it is. -/
theorem lowerArgs_decl (V : Str) :
    ∀ (ps : List (Str × Str)) (cArgs : List Str) (syms : SymbolTable),
      (∀ p ∈ ps, IsField p ∧ p.1 ≠ "self".toList) →
      lowerArgs V false (ps.map paramText) cArgs syms = .ok (cArgs ++ ps.map paramOut, syms) := by
  intro ps
  induction ps with
  | nil => intro cArgs syms _; simp [lowerArgs]
  | cons p ps ih =>
    intro cArgs syms h
    obtain ⟨hp, hself⟩ := h p (by simp)
    have hne : paramText p ≠ [] := by simp [paramText, hp.1.1]
    rw [List.map_cons, lowerArgs, if_neg hne, arg_match p hp]
    simp only [Match.group, groupOf, if_true, (by decide : (2 : Nat) ≠ 1), if_false, hself, and_false,
      translateTypeE, translated_eq hp.2.2, Bool.false_eq_true]
    rw [ih _ _ (fun q hq => h q (by simp [hq]))]
    simp [paramOut]

theorem lowerArgs_decl_split (V : Str) (ps : List (Str × Str)) (cArgs : List Str) (syms : SymbolTable)
    (h : ∀ p ∈ ps, IsField p ∧ p.1 ≠ "self".toList) :
    lowerArgs V false (regexSplit R_ARG_SPLIT (joinArgs (ps.map paramText))) cArgs syms
      = .ok (cArgs ++ ps.map paramOut, syms) := by
  rw [regexSplit_params ps (fun p hp => (h p hp).1)]
  split_ifs with hps
  · subst hps
    simp [lowerArgs]
  · exact lowerArgs_decl V ps cArgs syms h

/-- A character that is no parameter character, no parenthesis and no part
of the arrow does not occur in the line of a declaration. -/
theorem not_mem_declLine (m : Str) (ps : List (Str × Str)) (r : Str) (hm : IsIdent m)
    (hps : ∀ p ∈ ps, IsField p) (hr : IsTypeText r) (d : Char) (h1 : isParamChar d = false)
    (h2 : d ≠ '(') (h3 : d ≠ ')') (h4 : d ≠ '-') (h5 : d ≠ '>') (h7 : d ≠ 'f')
    (h8 : d ≠ 'n') : d ∉ declLine m ps r := by
  have hsp : d ≠ ' ' := by
    intro h; subst h; exact absurd h1 (by decide)
  have hty : ∀ c, isTypeChar c = true → d ≠ c := by
    intro c hc h
    subst h
    simp [isParamChar, hc] at h1
  unfold declLine
  intro h
  simp only [String.toList, List.mem_append, List.mem_cons, List.not_mem_nil, or_false] at h
  casesm* _ ∨ _
  all_goals first
    | exact h7 ‹_› | exact h8 ‹_› | exact hsp ‹_› | exact h2 ‹_› | exact h3 ‹_› | exact h4 ‹_›
    | exact h5 ‹_›
    | exact hty d (isWord_isTypeChar (hm.2 d ‹_›)) rfl
    | exact hty d (hr.2 d ‹_›) rfl
    | exact absurd (isParamChar_joinArgs ps hps d ‹_›) (by rw [h1]; exact Bool.noConfusion)

/-- The function `processLine` on a declaration line
`fn m(p1: t1, ..., pn: tn) -> r` with no parameter named `self`, outside a
mixin definition and at a non-negative depth: the lowered prototype with its
terminator; the depth and the scopes stay as they are (inside a resolve
block `self` is bound in the current scope), and what is pending stays
pending. -/
theorem processLine_fnDecl (fuel : Nat) (t : Transpiler) (m : Str) (ps : List (Str × Str)) (r : Str)
    (hm : IsIdent m) (hps : ∀ p ∈ ps, IsField p ∧ p.1 ≠ "self".toList) (hr : IsTypeText r)
    (hr' : ∃ c ∈ r, c ≠ '*') (hd : 0 ≤ t.m_braceDepth) (hsh : t.m_inShared = false) :
    processLine fuel t (declLine m ps r)
      = .ok (spaces (printDepthOf t false).toNat
            ++ translated r ++ " ".toList
            ++ (if t.m_currentResolveType ≠ [] then t.m_currentResolveType ++ "_".toList ++ m else m)
            ++ "(".toList
            ++ joinArgs ((if t.m_currentResolveType ≠ [] then [t.m_currentResolveType ++ "* self".toList] else [])
                ++ ps.map paramOut)
            ++ ")".toList ++ ";".toList,
          { t with
              m_symbols :=
                if t.m_currentResolveType ≠ [] then t.m_symbols.add "self".toList t.m_currentResolveType
                else t.m_symbols }) := by
  have hps' : ∀ p ∈ ps, IsField p := fun p hp => (hps p hp).1
  have hno := not_mem_declLine m ps r hm hps' hr
  have hcons : declLine m ps r = 'f' :: ("n ".toList ++ m ++ "(".toList ++ joinArgs (ps.map paramText)
      ++ ") -> ".toList ++ r) := by simp [declLine]
  have hbrace : chLBrace ∉ declLine m ps r :=
    hno _ (by decide) (by decide) (by decide) (by decide) (by decide) (by decide) (by decide)
  have f1 : regexReplace R_LEADING_WS 0 [] (declLine m ps r) = declLine m ps r := by
    rw [hcons]; exact trim_nonspace 'f' _ (by decide)
  have f2 : regexSearch R_INCLUDE (declLine m ps r) = none := by
    rw [hcons]; exact regexSearch_first_none _ 'f' _ (by decide) (by decide)
  have f3 : regexTest R_OPENS_AT_END (declLine m ps r) = false :=
    regexTest_requires_false requires_R_OPENS_AT_END hbrace
  have f3' : regexTest R_OPENS_AT_START (declLine m ps r) = false :=
    regexTest_requires_false requires_R_OPENS_AT_START hbrace
  have f4 : regexTest R_STARTS_CLOSING (declLine m ps r) = false := by
    rw [hcons]; exact regexTest_first_false _ 'f' _ (by decide) (by decide)
  have f5 : regexTest R_CLOSES (declLine m ps r) = false := by
    rw [hcons]; exact regexTest_first_false _ 'f' _ (by decide) (by decide)
  have f6 : hasSub "self.".toList (declLine m ps r) = false :=
    hasSub_false_of_not_mem _ '.' (by decide) _
      (hno '.' (by decide) (by decide) (by decide) (by decide) (by decide) (by decide) (by decide))
  have f7 : regexSearch R_SHARED_START (declLine m ps r) = none := by
    rw [hcons]; exact regexSearch_first_none _ 'f' _ (by decide) (by decide)
  have f8 : regexSearch R_STRUCT_START (declLine m ps r) = none := by
    rw [hcons]; exact regexSearch_first_none _ 'f' _ (by decide) (by decide)
  have f9 : regexSearch R_USE_MIXIN (declLine m ps r) = none := by
    rw [hcons]; exact regexSearch_first_none _ 'f' _ (by decide) (by decide)
  have f10 : regexSearch R_RESOLVE_START (declLine m ps r) = none := by
    rw [hcons]; exact regexSearch_first_none _ 'f' _ (by decide) (by decide)
  have f11 : regexSearch R_FUNC_SIGNATURE (declLine m ps r)
      = some ⟨[], "fn ".toList ++ m ++ "(".toList ++ joinArgs (ps.map paramText) ++ ") -> ".toList ++ r,
          [], [(5, r), (4, joinArgs (ps.map paramText)), (3, m)]⟩ :=
    funcSig_decl_match m (joinArgs (ps.map paramText)) r hm hr (isParamChar_joinArgs ps hps')
  have f12 : regexTest R_FUNC_SIGNATURE (declLine m ps r) = true := by
    simp [regexTest, f11]
  have hp := printDepth_nonneg t false hd
  unfold processLine
  simp only [f1, f2, f3, f3', f4, f5, f6, f7, f8, f9, f10, f11, f12, Bool.or_false, closeContexts,
    Bool.false_eq_true, if_false, lowerLine, hsh, indentOf_nonneg _ hp, and_false, false_and, lowerFunc,
    hbrace, decide_False, if_true, Match.group, groupOf, (by decide : (5 : Nat) ≠ 1),
    (by decide : (4 : Nat) ≠ 1), (by decide : (3 : Nat) ≠ 1), (by decide : (5 : Nat) ≠ 2),
    (by decide : (4 : Nat) ≠ 2), (by decide : (3 : Nat) ≠ 2), (by decide : (5 : Nat) ≠ 3),
    (by decide : (4 : Nat) ≠ 3), (by decide : (5 : Nat) ≠ 4), translateTypeE,
    translated_eq hr', lowerArgs_decl_split _ ps _ _ hps]
  simp

theorem scopes_length_add (s : SymbolTable) (n v : Str) : (s.add n v).scopes.length = s.scopes.length := by
  unfold SymbolTable.add
  cases h : s.scopes with
  | nil => simp [h]
  | cons sc rest => simp

/-! ## Variable declarations -/

theorem R_VAR_eq : R_VAR
    = Re.seq .bol (Re.seq ws (Re.seq (Re.lit "var".toList) (Re.seq ws1 (Re.seq (.opt varMods) varTail)))) := rfl

/-- Two ways to cut a text after a run of characters of a class, right
before a character outside the class, are the same. -/
theorem append_cons_unique {p : Char → Bool} :
    ∀ (A B R R' : Str) (a b : Char), (∀ c ∈ A, p c = true) → (∀ c ∈ B, p c = true) →
      p a = false → p b = false → A ++ a :: R = B ++ b :: R' → A = B ∧ a = b ∧ R = R' := by
  intro A
  induction A with
  | nil =>
    intro B R R' a b _ hB ha _ h
    cases B with
    | nil => simpa using h
    | cons y ys =>
      simp only [List.nil_append, List.cons_append, List.cons.injEq] at h
      have := hB y (by simp)
      rw [← h.1, ha] at this
      exact Bool.noConfusion this
  | cons x xs ih =>
    intro B R R' a b hA hB ha hb h
    cases B with
    | nil =>
      simp only [List.nil_append, List.cons_append, List.cons.injEq] at h
      have := hA x (by simp)
      rw [h.1, hb] at this
      exact Bool.noConfusion this
    | cons y ys =>
      simp only [List.cons_append, List.cons.injEq] at h
      obtain ⟨h1, h2, h3⟩ := ih ys R R' a b (fun c hc => hA c (by simp [hc]))
        (fun c hc => hB c (by simp [hc])) ha hb h.2
      exact ⟨by rw [h.1, h1], h2, h3⟩

/-- An optional part that cannot be followed by the rest of the expression
is skipped. -/
theorem run_opt_skip (r rest : Re) (k : Str → Cur → Option Hit) (cur : Cur)
    (h : (Re.seq r rest).run k cur = none) :
    (Re.seq (.opt r) rest).run k cur = rest.run (fun w c => k ([] ++ w) c) cur := by
  simp only [Re.run] at h ⊢
  rw [h]
  rfl

theorem isWord_false_of_isSpace {c : Char} (h : isSpace c = true) : isWord c = false := by
  cases hw : isWord c with
  | false => rfl
  | true => rw [isSpace_false_of_isWord hw] at h; exact Bool.noConfusion h

/-- A modifier cannot be read where the name of the variable stands: after
the modifier and its blanks a name has to follow, not the colon. -/
theorem varMods_none (k : Str → Cur → Option Hit) (pre n R : Str) (caps : List (Nat × Str))
    (hn : ∀ c ∈ n, isWord c = true) :
    (Re.seq varMods varTail).run k ⟨pre, n ++ ' ' :: ':' :: R, caps⟩ = none := by
  cases e : (Re.seq varMods varTail).run k ⟨pre, n ++ ' ' :: ':' :: R, caps⟩ with
  | none => rfl
  | some hit =>
    exfalso
    obtain ⟨w, rest, caps', h1, h2, -⟩ := run_sound _ k _ hit e
    simp only [varMods, varTail, Re.cat, Re.lit, Re.plus, ws, ws1, Re.Accepts, String.toList] at h2
    obtain ⟨w₁, w₂, rfl, ⟨kw, sp, rfl, hkw, s₁, sp', rfl, ⟨s, rfl, hs⟩, hsp'⟩, nm, w₃, rfl,
      ⟨c₁, cs, rfl, ⟨c, rfl, hc⟩, -⟩, -⟩ := h2
    have hkww : ∀ c ∈ kw, isWord c = true := by
      rcases hkw with hkw | hkw | hkw
      · obtain ⟨a₁, b₁, rfl, ⟨_, rfl, h₁⟩, a₂, b₂, rfl, ⟨_, rfl, h₂⟩, a₃, b₃, rfl, ⟨_, rfl, h₃⟩,
          a₄, b₄, rfl, ⟨_, rfl, h₄⟩, a₅, b₅, rfl, ⟨_, rfl, h₅⟩, a₆, b₆, rfl, ⟨_, rfl, h₆⟩,
          a₇, b₇, rfl, ⟨_, rfl, h₇⟩, a₈, b₈, rfl, ⟨_, rfl, h₈⟩, rfl⟩ := hkw
        simp only [isChar, beq_iff_eq] at h₁ h₂ h₃ h₄ h₅ h₆ h₇ h₈
        subst h₁ h₂ h₃ h₄ h₅ h₆ h₇ h₈
        decide
      · obtain ⟨a₁, b₁, rfl, ⟨_, rfl, h₁⟩, a₂, b₂, rfl, ⟨_, rfl, h₂⟩, a₃, b₃, rfl, ⟨_, rfl, h₃⟩,
          a₄, b₄, rfl, ⟨_, rfl, h₄⟩, a₅, b₅, rfl, ⟨_, rfl, h₅⟩, a₆, b₆, rfl, ⟨_, rfl, h₆⟩,
          a₇, b₇, rfl, ⟨_, rfl, h₇⟩, a₈, b₈, rfl, ⟨_, rfl, h₈⟩, rfl⟩ := hkw
        simp only [isChar, beq_iff_eq] at h₁ h₂ h₃ h₄ h₅ h₆ h₇ h₈
        subst h₁ h₂ h₃ h₄ h₅ h₆ h₇ h₈
        decide
      · obtain ⟨a₁, b₁, rfl, ⟨_, rfl, h₁⟩, a₂, b₂, rfl, ⟨_, rfl, h₂⟩, a₃, b₃, rfl, ⟨_, rfl, h₃⟩,
          a₄, b₄, rfl, ⟨_, rfl, h₄⟩, a₅, b₅, rfl, ⟨_, rfl, h₅⟩, rfl⟩ := hkw
        simp only [isChar, beq_iff_eq] at h₁ h₂ h₃ h₄ h₅
        subst h₁ h₂ h₃ h₄ h₅
        decide
    have h1' : n ++ ' ' :: (':' :: R) = kw ++ s :: (sp' ++ (c :: cs ++ w₃ ++ rest)) := by
      simpa using h1
    obtain ⟨-, -, h3⟩ := append_cons_unique n kw _ _ ' ' s hn hkww (by decide)
      (isWord_false_of_isSpace hs) h1'
    cases sp' with
    | nil =>
      simp only [List.nil_append, List.cons_append, List.cons.injEq] at h3
      rw [← h3.1] at hc
      exact absurd hc (by decide)
    | cons z zs =>
      simp only [List.cons_append, List.cons.injEq] at h3
      have := hsp' z (by simp)
      rw [← h3.1] at this
      exact absurd this (by decide)

theorem orElse_left {a b : Option Hit} {h : Hit} (e : a = some h) : orElse a b = some h := by
  rw [e]; rfl

/-- The expression for variable declarations on `var n : t = e`, for an
initializer `e` without a line terminator that does not start with a blank. -/
theorem var_match (n ty e : Str) (hn : IsIdent n) (hty : IsTypeText ty)
    (he : ∀ c ∈ e, isAny c = true) (he0 : StopsAt isSpace e) :
    regexSearch R_VAR (varLine n ty e) = some ⟨[], varLine n ty e, [], [(4, e), (3, ty), (2, n)]⟩ := by
  unfold varLine
  obtain ⟨hn0, hnw⟩ := hn
  obtain ⟨ht0, htw⟩ := hty
  obtain ⟨y, ys, rfl⟩ := List.exists_cons_of_ne_nil ht0
  have hy : isTypeChar y = true := htw y (by simp)
  have e' : matchAt R_VAR [] ("var ".toList ++ n ++ " : ".toList ++ y :: ys ++ " = ".toList ++ e)
      = some ("var ".toList ++ n ++ " : ".toList ++ y :: ys ++ " = ".toList ++ e,
          ⟨("var ".toList ++ n ++ " : ".toList ++ y :: ys ++ " = ".toList ++ e).reverse, [],
            [(4, e), (3, y :: ys), (2, n)]⟩) := by
    rw [R_VAR_eq]
    generalize hT : Re.seq (.opt varMods) varTail = T
    simp only [ws1, Re.plus, Re.lit, matchAt, Re.run, String.toList,
      List.cons_append, List.append_assoc, List.nil_append, ws, List.isEmpty_nil, if_true]
    apply starG_run isSpace []
    · simp
    · exact stopsAt_cons _ (by decide)
    simp only [Re.run, isChar, beq_self_eq_true, if_true, (by decide : isSpace ' ' = true)]
    obtain ⟨x, xs, rfl⟩ := List.exists_cons_of_ne_nil hn0
    have hx : isWord x = true := hnw x (by simp)
    apply starG_run isSpace []
    · simp
    · exact stopsAt_cons _ (isSpace_false_of_isWord hx)
    subst hT
    rw [run_opt_skip]
    swap
    · exact varMods_none _ _ (x :: xs) _ _ hnw
    simp only [varTail, Re.cat, Re.plus, Re.lit, Re.run, ws, anyStar, String.toList, hx, if_true]
    apply starG_run
    · intro c hc
      exact hnw c (by simp [hc])
    · exact stopsAt_cons _ (by decide)
    simp only [Re.run]
    apply starG_run isSpace [' ']
    · decide
    · exact stopsAt_cons _ (by decide)
    simp only [Re.run, isChar, beq_self_eq_true, if_true]
    apply starG_run isSpace [' ']
    · decide
    · exact stopsAt_cons _ (isSpace_false_of_isTypeChar hy)
    simp only [Re.run, hy, if_true]
    apply starG_run
    · intro c hc
      exact htw c (by simp [hc])
    · exact stopsAt_cons _ (by decide)
    simp only [Re.run]
    apply starG_run isSpace [' ']
    · decide
    · exact stopsAt_cons _ (by decide)
    simp only [Re.run, isChar, beq_self_eq_true, if_true]
    apply orElse_left
    apply starG_run isSpace [' ']
    · decide
    · exact he0
    simp only [Re.run]
    have hes : e = e ++ [] := by simp
    rw [hes]
    apply starG_run
    · exact he
    · exact stopsAt_nil _
    simp
  have := regexSearch_hit e'
  simpa using this

/-- The expression for variable declarations on `var n : t`. -/
theorem var_match₀ (n ty : Str) (hn : IsIdent n) (hty : IsTypeText ty) :
    regexSearch R_VAR (varLine₀ n ty) = some ⟨[], varLine₀ n ty, [], [(3, ty), (2, n)]⟩ := by
  unfold varLine₀
  obtain ⟨hn0, hnw⟩ := hn
  obtain ⟨ht0, htw⟩ := hty
  obtain ⟨y, ys, rfl⟩ := List.exists_cons_of_ne_nil ht0
  have hy : isTypeChar y = true := htw y (by simp)
  have e' : matchAt R_VAR [] ("var ".toList ++ n ++ " : ".toList ++ y :: ys)
      = some ("var ".toList ++ n ++ " : ".toList ++ y :: ys,
          ⟨("var ".toList ++ n ++ " : ".toList ++ y :: ys).reverse, [], [(3, y :: ys), (2, n)]⟩) := by
    rw [R_VAR_eq]
    generalize hT : Re.seq (.opt varMods) varTail = T
    simp only [ws1, Re.plus, Re.lit, matchAt, Re.run, String.toList,
      List.cons_append, List.append_assoc, List.nil_append, ws, List.isEmpty_nil, if_true]
    apply starG_run isSpace []
    · simp
    · exact stopsAt_cons _ (by decide)
    simp only [Re.run, isChar, beq_self_eq_true, if_true, (by decide : isSpace ' ' = true)]
    obtain ⟨x, xs, rfl⟩ := List.exists_cons_of_ne_nil hn0
    have hx : isWord x = true := hnw x (by simp)
    apply starG_run isSpace []
    · simp
    · exact stopsAt_cons _ (isSpace_false_of_isWord hx)
    subst hT
    rw [run_opt_skip]
    swap
    · exact varMods_none _ _ (x :: xs) _ _ hnw
    simp only [varTail, Re.cat, Re.plus, Re.lit, Re.run, ws, anyStar, String.toList, hx, if_true]
    apply starG_run
    · intro c hc
      exact hnw c (by simp [hc])
    · exact stopsAt_cons _ (by decide)
    simp only [Re.run]
    apply starG_run isSpace [' ']
    · decide
    · exact stopsAt_cons _ (by decide)
    simp only [Re.run, isChar, beq_self_eq_true, if_true]
    apply starG_run isSpace [' ']
    · decide
    · exact stopsAt_cons _ (isSpace_false_of_isTypeChar hy)
    simp only [Re.run, hy, if_true]
    have hys : ys = ys ++ [] := by simp
    rw [hys]
    apply starG_run
    · intro c hc
      exact htw c (by simp [hc])
    · exact stopsAt_nil _
    simp [Re.run, starG, orElse]
  have := regexSearch_hit e'
  simpa using this

/-- The text `self.` does not begin inside a text without a dot that ends
with a blank. -/
theorem selfDot_prefix_false (A e : Str) (hA : '.' ∉ A) :
    "self.".toList.isPrefixOf (A ++ ' ' :: e) = false := by
  rcases A with _ | ⟨a, _ | ⟨b, _ | ⟨c, _ | ⟨d, _ | ⟨f, A⟩⟩⟩⟩⟩
  · simp [List.isPrefixOf]
  · simp [List.isPrefixOf]
  · simp [List.isPrefixOf]
  · simp [List.isPrefixOf]
  · simp [List.isPrefixOf]
  · have hf : f ≠ '.' := by
      intro h; subst h; simp at hA
    simp [List.isPrefixOf, Ne.symm hf]

/-- The text `self.` occurs in a line exactly when it occurs after a part
without a dot that ends with a blank. -/
theorem hasSub_selfDot_append (e : Str) (he : hasSub "self.".toList e = false) :
    ∀ (A : Str), '.' ∉ A → hasSub "self.".toList (A ++ ' ' :: e) = false := by
  intro A
  induction A with
  | nil =>
    intro _
    have h1 := selfDot_prefix_false [] e (by simp)
    simp only [List.nil_append] at h1 ⊢
    simp only [hasSub, h1, he, Bool.or_self]
  | cons a A ih =>
    intro hA
    have h1 := selfDot_prefix_false (a :: A) e hA
    have h2 := ih (fun h => hA (by simp [h]))
    simp only [List.cons_append] at h1 ⊢
    simp only [hasSub, h1, h2, Bool.or_self]

/-- The field expression does not match the line of a variable declaration:
the keyword is followed by the name, not by a colon. -/
theorem field_var_none (n R : Str) (hn : IsIdent n) :
    regexSearch R_FIELD ("var ".toList ++ n ++ R) = none := by
  apply regexSearch_bol_none
  cases e : matchAt (Re.seq .bol (Re.cat [ws, .grp 1 (Re.plus isWord), ws, Re.lit ":".toList, ws,
      .grp 2 (Re.plus isTypeChar), ws])) [] ("var ".toList ++ n ++ R) with
  | none => rfl
  | some hit =>
    exfalso
    obtain ⟨w, cur⟩ := hit
    obtain ⟨h1, h2⟩ := matchAt_sound e
    simp only [Re.cat, Re.lit, Re.plus, ws, Re.Accepts, String.toList] at h2
    obtain ⟨w₀, w₁, rfl, ⟨rfl, -⟩, sp, w₂, rfl, hsp, nm, w₃, rfl, ⟨c₁, cs, rfl, ⟨c, rfl, hc⟩, hcs⟩,
      sp₂, w₄, rfl, hsp₂, col, w₅, rfl, ⟨d₁, d₂, rfl, ⟨d, rfl, hd⟩, rfl⟩, -⟩ := h2
    simp only [isChar, beq_iff_eq] at hd
    subst hd
    obtain ⟨hn0, hnw⟩ := hn
    obtain ⟨x, xs, rfl⟩ := List.exists_cons_of_ne_nil hn0
    have hx : isWord x = true := hnw x (by simp)
    cases sp with
    | cons z zs =>
      simp at h1
      have := hsp z (by simp)
      rw [← h1.1] at this
      exact absurd this (by decide)
    | nil =>
      cases sp₂ with
      | nil =>
        have h1' : "var".toList ++ ' ' :: (x :: xs ++ R) = (c :: cs) ++ ':' :: (w₅ ++ cur.rest) := by
          simpa using h1
        obtain ⟨-, h3, -⟩ := append_cons_unique (p := isWord) _ _ _ _ ' ' ':' (by decide)
          (by
            intro c' hc'
            rcases List.mem_cons.mp hc' with rfl | hc'
            · exact hc
            · exact hcs c' hc')
          (by decide) (by decide) h1'
        exact absurd h3 (by decide)
      | cons s ss =>
        have hs : isSpace s = true := hsp₂ s (by simp)
        have h1' : "var".toList ++ ' ' :: (x :: xs ++ R) = (c :: cs) ++ s :: (ss ++ ':' :: (w₅ ++ cur.rest)) := by
          simpa using h1
        obtain ⟨-, -, h3⟩ := append_cons_unique (p := isWord) _ _ _ _ ' ' s (by decide)
          (by
            intro c' hc'
            rcases List.mem_cons.mp hc' with rfl | hc'
            · exact hc
            · exact hcs c' hc')
          (by decide) (isWord_false_of_isSpace hs) h1'
        cases ss with
        | nil =>
          simp only [List.nil_append, List.cons_append, List.cons.injEq] at h3
          rw [h3.1] at hx
          exact absurd hx (by decide)
        | cons z zs =>
          simp only [List.cons_append, List.cons.injEq] at h3
          have := hsp₂ z (by simp)
          rw [← h3.1, isSpace_false_of_isWord hx] at this
          exact Bool.noConfusion this

theorem not_mem_varHead (n ty : Str) (hn : IsIdent n) (hty : IsTypeText ty) (d : Char)
    (h1 : isTypeChar d = false) (h2 : d ≠ ':') (h3 : d ≠ ' ') : d ∉ varLine₀ n ty := by
  unfold varLine₀
  intro h
  simp only [String.toList, List.mem_append, List.mem_cons, List.not_mem_nil, or_false] at h
  casesm* _ ∨ _
  all_goals first
    | exact h2 ‹_› | exact h3 ‹_›
    | (subst_vars; exact absurd h1 (by decide))
    | exact absurd (isWord_isTypeChar (hn.2 d ‹_›)) (by rw [h1]; exact Bool.noConfusion)
    | exact absurd (hty.2 d ‹_›) (by rw [h1]; exact Bool.noConfusion)

/-- The function `processLine` on `var n : t = e`, outside a mixin definition
and at a non-negative depth, when both rewrites of the initializer return:
the declaration with the rewritten initializer, and the name bound to the
source type in the innermost scope. -/
theorem processLine_var (fuel : Nat) (t : Transpiler) (n ty e e₁ e₂ : Str) (hn : IsIdent n)
    (hty : IsTypeText ty) (hty' : ∃ c ∈ ty, c ≠ '*') (he : ∀ c ∈ e, isAny c = true) (he0 : e ≠ [])
    (hes : StopsAt isSpace e) (hself : hasSub "self.".toList e = false)
    (hd : 0 ≤ t.m_braceDepth) (hsh : t.m_inShared = false)
    (h₁ : replaceMethodCalls (t.m_symbols.add n ty) fuel e = some e₁)
    (h₂ : replacePipeOperators (t.m_symbols.add n ty) fuel e₁ = some e₂) :
    processLine fuel t (varLine n ty e)
      = .ok (spaces (printDepthOf t false).toNat ++ translated ty ++ " ".toList ++ n ++ " = ".toList
              ++ e₂ ++ ";".toList,
          { t with m_symbols := t.m_symbols.add n ty }) := by
  have hcons : varLine n ty e = 'v' :: ("ar ".toList ++ n ++ " : ".toList ++ ty ++ " = ".toList ++ e) := by
    simp [varLine]
  have hsplit : varLine n ty e = (varLine₀ n ty ++ " =".toList) ++ ' ' :: e := by
    simp [varLine, varLine₀]
  have hfld : varLine n ty e = "var ".toList ++ n ++ (" : ".toList ++ ty ++ " = ".toList ++ e) := by
    simp [varLine]
  have f1 : regexReplace R_LEADING_WS 0 [] (varLine n ty e) = varLine n ty e := by
    rw [hcons]; exact trim_nonspace 'v' _ (by decide)
  have f2 : regexSearch R_INCLUDE (varLine n ty e) = none := by
    rw [hcons]; exact regexSearch_first_none _ 'v' _ (by decide) (by decide)
  have f4 : regexTest R_STARTS_CLOSING (varLine n ty e) = false := by
    rw [hcons]; exact regexTest_first_false _ 'v' _ (by decide) (by decide)
  have f5 : regexTest R_CLOSES (varLine n ty e) = false := by
    rw [hcons]; exact regexTest_first_false _ 'v' _ (by decide) (by decide)
  have f6 : hasSub "self.".toList (varLine n ty e) = false := by
    rw [hsplit]
    apply hasSub_selfDot_append e hself
    have := not_mem_varHead n ty hn hty '.' (by decide) (by decide) (by decide)
    simp [this]
  have f7 : regexSearch R_SHARED_START (varLine n ty e) = none := by
    rw [hcons]; exact regexSearch_first_none _ 'v' _ (by decide) (by decide)
  have f8 : regexSearch R_STRUCT_START (varLine n ty e) = none := by
    rw [hcons]; exact regexSearch_first_none _ 'v' _ (by decide) (by decide)
  have f9 : regexSearch R_USE_MIXIN (varLine n ty e) = none := by
    rw [hcons]; exact regexSearch_first_none _ 'v' _ (by decide) (by decide)
  have f10 : regexSearch R_RESOLVE_START (varLine n ty e) = none := by
    rw [hcons]; exact regexSearch_first_none _ 'v' _ (by decide) (by decide)
  have f11 : regexSearch R_FUNC_SIGNATURE (varLine n ty e) = none := by
    rw [hcons]; exact regexSearch_first_none _ 'v' _ (by decide) (by decide)
  have f12 : regexSearch R_FIELD (varLine n ty e) = none := by
    rw [hfld]; exact field_var_none n _ hn
  have f13 := var_match n ty e hn hty he hes
  have hp := printDepth_nonneg t false hd
  have hr : rewriteExpr (t.m_symbols.add n ty) fuel e = .ok e₂ := by
    simp [rewriteExpr, h₁, h₂]
  unfold processLine
  simp only [f1, f2, f4, f5, f6, f7, f8, f9, f10, f11, f12, f13, closeContexts,
    Bool.false_eq_true, if_false, lowerLine, hsh, indentOf_nonneg _ hp, ite_self, lowerVar,
    Match.group, groupOf, if_true, (by decide : (4 : Nat) ≠ 1), (by decide : (3 : Nat) ≠ 1),
    (by decide : (2 : Nat) ≠ 1), (by decide : (4 : Nat) ≠ 2), (by decide : (3 : Nat) ≠ 2),
    (by decide : (4 : Nat) ≠ 3), translateTypeE, translated_eq hty', he0, ne_eq, not_false_eq_true, hr]
  simp

/-- The function `processLine` on `var n : t`, outside a mixin definition
and at a non-negative depth: the declaration, and the name bound to the
source type in the innermost scope. -/
theorem processLine_var₀ (fuel : Nat) (t : Transpiler) (n ty : Str) (hn : IsIdent n)
    (hty : IsTypeText ty) (hty' : ∃ c ∈ ty, c ≠ '*')
    (hd : 0 ≤ t.m_braceDepth) (hsh : t.m_inShared = false) :
    processLine fuel t (varLine₀ n ty)
      = .ok (spaces (printDepthOf t false).toNat ++ translated ty ++ " ".toList ++ n ++ ";".toList,
          { t with m_symbols := t.m_symbols.add n ty }) := by
  have hno := not_mem_varHead n ty hn hty
  have hcons : varLine₀ n ty = 'v' :: ("ar ".toList ++ n ++ " : ".toList ++ ty) := by
    simp [varLine₀]
  have hfld : varLine₀ n ty = "var ".toList ++ n ++ (" : ".toList ++ ty) := by
    simp [varLine₀]
  have f1 : regexReplace R_LEADING_WS 0 [] (varLine₀ n ty) = varLine₀ n ty := by
    rw [hcons]; exact trim_nonspace 'v' _ (by decide)
  have f2 : regexSearch R_INCLUDE (varLine₀ n ty) = none := by
    rw [hcons]; exact regexSearch_first_none _ 'v' _ (by decide) (by decide)
  have f4 : regexTest R_STARTS_CLOSING (varLine₀ n ty) = false := by
    rw [hcons]; exact regexTest_first_false _ 'v' _ (by decide) (by decide)
  have f5 : regexTest R_CLOSES (varLine₀ n ty) = false := by
    rw [hcons]; exact regexTest_first_false _ 'v' _ (by decide) (by decide)
  have f6 : hasSub "self.".toList (varLine₀ n ty) = false :=
    hasSub_false_of_not_mem _ '.' (by decide) _ (hno _ (by decide) (by decide) (by decide))
  have f7 : regexSearch R_SHARED_START (varLine₀ n ty) = none := by
    rw [hcons]; exact regexSearch_first_none _ 'v' _ (by decide) (by decide)
  have f8 : regexSearch R_STRUCT_START (varLine₀ n ty) = none := by
    rw [hcons]; exact regexSearch_first_none _ 'v' _ (by decide) (by decide)
  have f9 : regexSearch R_USE_MIXIN (varLine₀ n ty) = none := by
    rw [hcons]; exact regexSearch_first_none _ 'v' _ (by decide) (by decide)
  have f10 : regexSearch R_RESOLVE_START (varLine₀ n ty) = none := by
    rw [hcons]; exact regexSearch_first_none _ 'v' _ (by decide) (by decide)
  have f11 : regexSearch R_FUNC_SIGNATURE (varLine₀ n ty) = none := by
    rw [hcons]; exact regexSearch_first_none _ 'v' _ (by decide) (by decide)
  have f12 : regexSearch R_FIELD (varLine₀ n ty) = none := by
    rw [hfld]; exact field_var_none n _ hn
  have f13 := var_match₀ n ty hn hty
  have hp := printDepth_nonneg t false hd
  unfold processLine
  simp only [f1, f2, f4, f5, f6, f7, f8, f9, f10, f11, f12, f13, closeContexts,
    Bool.false_eq_true, if_false, lowerLine, hsh, indentOf_nonneg _ hp, ite_self, lowerVar,
    Match.group, groupOf, if_true, (by decide : (4 : Nat) ≠ 1), (by decide : (3 : Nat) ≠ 1),
    (by decide : (2 : Nat) ≠ 1), (by decide : (4 : Nat) ≠ 2), (by decide : (3 : Nat) ≠ 2),
    (by decide : (4 : Nat) ≠ 3), (by decide : (3 : Nat) ≠ 4), (by decide : (2 : Nat) ≠ 4),
    translateTypeE, translated_eq hty']
  simp

/-- A name added to a table that has a scope is found with the type it was
added with. -/
theorem lookup_add (s : SymbolTable) (n v : Str) (h : s.scopes ≠ []) : (s.add n v).lookup n = v := by
  obtain ⟨sc, rest, hs⟩ := List.exists_cons_of_ne_nil h
  simp [SymbolTable.add, SymbolTable.lookup, SymbolTable.lookupIn, hs, mapFind_mapSet]

/-- A binding goes to the innermost scope; the outer scopes stay as they
are. -/
theorem scopes_add (s : SymbolTable) (n v : Str) (sc : StrMap) (rest : List StrMap)
    (h : s.scopes = sc :: rest) : (s.add n v).scopes = mapSet sc n v :: rest := by
  simp [SymbolTable.add, h]

/-! ## Native regions -/

/-- A replacement by the empty text for an expression anchored at the start
of the text: the first match is dropped and what follows it is kept. -/
theorem replace_bol_once (r : Re) (n : Nat) (s w : Str) (c : Cur) (hw : w ≠ [])
    (h : matchAt (.seq .bol r) [] s = some (w, c)) :
    regexReplace (.seq .bol r) n [] s = c.rest := by
  unfold regexReplace
  have hs : searchFrom (.seq .bol r) [] [] s = some ⟨[], w, c.rest, c.caps⟩ := regexSearch_hit h
  obtain ⟨x, xs, rfl⟩ := List.exists_cons_of_ne_nil hw
  rw [replaceLoop, hs]
  simp only [formatWith, formatGo, List.nil_append, preAfter, List.reverse_nil, List.append_nil]
  cases hl : s.length with
  | zero => rfl
  | succ k =>
    rw [replaceLoop, searchFrom_bol r c.rest [] _ (by simp)]

/-- Trimming the start of a line drops its leading blanks. -/
theorem trim_eq_dropWhile (l : Str) : regexReplace R_LEADING_WS 0 [] l = l.dropWhile isSpace := by
  cases l with
  | nil => rfl
  | cons c cs =>
    cases hc : isSpace c with
    | false =>
      rw [trim_nonspace c cs hc]
      simp [List.dropWhile, hc]
    | true =>
      have hsplit : c :: cs = (c :: cs).takeWhile isSpace ++ (c :: cs).dropWhile isSpace :=
        (List.takeWhile_append_dropWhile _ _).symm
      have htw : (c :: cs).takeWhile isSpace ≠ [] := by simp [List.takeWhile, hc]
      obtain ⟨y, ys, hy⟩ := List.exists_cons_of_ne_nil htw
      have hall : ∀ z ∈ y :: ys, isSpace z = true := by
        intro z hz
        rw [← hy] at hz
        exact List.mem_takeWhile_imp hz
      have hstop : StopsAt isSpace ((c :: cs).dropWhile isSpace) := by
        intro z hz
        have := List.head?_dropWhile_not isSpace (c :: cs)
        rw [Option.mem_def.mp hz] at this
        simpa using this
      generalize hD : (c :: cs).dropWhile isSpace = D at hsplit hstop ⊢
      rw [hy] at hsplit
      have hm : matchAt (.seq .bol ws1) [] (c :: cs) = some (y :: ys, ⟨(y :: ys).reverse, D, []⟩) := by
        rw [hsplit]
        simp only [matchAt, Re.run, ws1, Re.plus, List.isEmpty_nil, if_true, List.cons_append,
          hall y (by simp)]
        apply starG_run isSpace ys
        · intro z hz
          exact hall z (by simp [hz])
        · exact hstop
        simp
      have := replace_bol_once ws1 0 (c :: cs) (y :: ys) _ (by simp) hm
      exact this

theorem beforeLast_none (c : Char) : ∀ (s : Str), c ∉ s → beforeLast c s = none := by
  intro s
  induction s with
  | nil => intro _; rfl
  | cons x xs ih =>
    intro h
    have hx : x ≠ c := fun e => h (by simp [e])
    simp [beforeLast, ih (fun h' => h (by simp [h'])), hx]

/-- The text before the last closing brace. -/
theorem beforeLast_append (c : Char) (tail : Str) (ht : c ∉ tail) :
    ∀ (text : Str), beforeLast c (text ++ c :: tail) = some text := by
  intro text
  induction text with
  | nil => simp [beforeLast, beforeLast_none c tail ht]
  | cons x xs ih => simp [beforeLast, ih]

/-- The native expression on a line `native {` followed by anything. -/
theorem native_match (ind sp R : Str) (hind : ∀ c ∈ ind, isSpace c = true)
    (hsp : ∀ c ∈ sp, isSpace c = true) :
    matchAt R_NATIVE_BLOCK [] (ind ++ "native".toList ++ sp ++ [chLBrace] ++ R)
      = some (ind ++ "native".toList ++ sp ++ [chLBrace],
          ⟨(ind ++ "native".toList ++ sp ++ [chLBrace]).reverse, R, []⟩) := by
  simp only [R_NATIVE_BLOCK, Re.cat, Re.lit, matchAt, Re.run, String.toList,
    List.cons_append, List.append_assoc, List.nil_append, ws, List.isEmpty_nil, if_true]
  apply starG_run isSpace ind
  · exact hind
  · exact stopsAt_cons _ (by decide)
  simp only [Re.run, isChar, beq_self_eq_true, if_true]
  apply starG_run isSpace sp
  · exact hsp
  · exact stopsAt_cons _ (by decide)
  simp [Re.run, isChar]

/-- A turn of the loop of `pass2_Transpilation` on a native region that
closes on its own line, at the depth `d`: one line is emitted, the
indentation followed by the text between the opening brace and the last
closing brace as it stands; nothing else changes. -/
theorem pass2Line_nativeSingle (fuel : Nat) (t : Transpiler) (b : Bool) (ind sp text tail : Str) (d : Nat)
    (hind : ∀ c ∈ ind, isSpace c = true) (hsp : ∀ c ∈ sp, isSpace c = true) (htail : chRBrace ∉ tail)
    (hd : t.m_braceDepth = (d : Int)) :
    pass2Line fuel t b (nativeLine ind sp text tail)
      = .ok ({ t with m_outputLines := t.m_outputLines ++ [spaces d ++ text] }, false) := by
  have hm := native_match ind sp (text ++ [chRBrace] ++ tail) hind hsp
  have hline : nativeLine ind sp text tail
      = ind ++ "native".toList ++ sp ++ [chLBrace] ++ (text ++ [chRBrace] ++ tail) := by
    simp [nativeLine]
  rw [← hline] at hm
  have f1 : regexTest R_NATIVE_BLOCK (nativeLine ind sp text tail) = true := by
    simp [regexTest, regexSearch_hit hm]
  have f2 : chRBrace ∈ nativeLine ind sp text tail := by simp [nativeLine]
  have f3 : regexReplace R_NATIVE_BLOCK 0 [] (nativeLine ind sp text tail) = text ++ [chRBrace] ++ tail :=
    replace_bol_once _ 0 _ _ _ (by simp) hm
  have f4 : beforeLast chRBrace (text ++ [chRBrace] ++ tail) = some text := by
    have := beforeLast_append chRBrace tail htail text
    simpa using this
  have hi : indentOf t.m_braceDepth = .ok (spaces d) := by
    rw [indentOf_nonneg _ (by omega), hd]; simp
  unfold pass2Line
  simp only [f1, f2, f3, f4, if_true, hi]

/-- A turn of the loop on a line that opens a native region and does not
close it. -/
theorem pass2Line_nativeOpen (fuel : Nat) (t : Transpiler) (b : Bool) (l : Str)
    (h1 : regexTest R_NATIVE_BLOCK l = true) (h2 : chRBrace ∉ l) :
    pass2Line fuel t b l = .ok (t, true) := by
  unfold pass2Line
  simp only [h1, h2, if_true, if_false]

/-- A turn of the loop on a line inside a native region that holds no
closing brace: the line is emitted with the indentation of the depth in place
of its leading blanks. -/
theorem pass2Line_nativeInterior (fuel : Nat) (t : Transpiler) (l : Str) (d : Nat)
    (h1 : regexTest R_NATIVE_BLOCK l = false) (h2 : chRBrace ∉ l) (hd : t.m_braceDepth = (d : Int)) :
    pass2Line fuel t true l
      = .ok ({ t with m_outputLines := t.m_outputLines ++ [spaces d ++ l.dropWhile isSpace] }, true) := by
  have hi : indentOf t.m_braceDepth = .ok (spaces d) := by
    rw [indentOf_nonneg _ (by omega), hd]; simp
  unfold pass2Line
  simp only [h1, h2, if_true, if_false, Bool.false_eq_true, trim_eq_dropWhile, hi]

/-- A turn of the loop on the line that ends a native region. -/
theorem pass2Line_nativeClose (fuel : Nat) (t : Transpiler) (l : Str)
    (h1 : regexTest R_NATIVE_BLOCK l = false) (h2 : chRBrace ∈ l) :
    pass2Line fuel t true l = .ok (t, false) := by
  unfold pass2Line
  simp only [h1, h2, if_true, if_false, Bool.false_eq_true]

/-- The loop over the interior lines of a native region. -/
theorem pass2Lines_nativeInterior (fuel : Nat) (rest : List Str) (d : Nat) :
    ∀ (ls : List Str) (t : Transpiler), t.m_braceDepth = (d : Int) →
      (∀ l ∈ ls, regexTest R_NATIVE_BLOCK l = false ∧ chRBrace ∉ l) →
      pass2Lines fuel (ls ++ rest) t true
        = pass2Lines fuel rest
            { t with m_outputLines := t.m_outputLines ++ ls.map (fun l => spaces d ++ l.dropWhile isSpace) }
            true := by
  intro ls
  induction ls with
  | nil => intro t _ _; simp
  | cons l ls ih =>
    intro t hd h
    obtain ⟨h1, h2⟩ := h l (by simp)
    rw [List.cons_append, pass2Lines_cons fuel _ _ t _ true true (pass2Line_nativeInterior fuel t l d h1 h2 hd)]
    have h3 := ih { t with m_outputLines := t.m_outputLines ++ [spaces d ++ l.dropWhile isSpace] } hd
      (fun x hx => h x (by simp [hx]))
    rw [h3]
    simp

/-- The loop over a native region of several lines, at the depth `d`: the
opening line and the closing line emit nothing, every interior line is
emitted with the indentation of the depth in place of its leading blanks,
and nothing else changes. -/
theorem pass2Lines_nativeMulti (fuel : Nat) (rest ls : List Str) (l₀ l₁ : Str) (t : Transpiler) (b : Bool)
    (d : Nat) (hd : t.m_braceDepth = (d : Int))
    (h₀ : regexTest R_NATIVE_BLOCK l₀ = true ∧ chRBrace ∉ l₀)
    (hls : ∀ l ∈ ls, regexTest R_NATIVE_BLOCK l = false ∧ chRBrace ∉ l)
    (h₁ : regexTest R_NATIVE_BLOCK l₁ = false ∧ chRBrace ∈ l₁) :
    pass2Lines fuel (l₀ :: (ls ++ l₁ :: rest)) t b
      = pass2Lines fuel rest
          { t with m_outputLines := t.m_outputLines ++ ls.map (fun l => spaces d ++ l.dropWhile isSpace) }
          false := by
  rw [pass2Lines_cons fuel _ _ t _ b true (pass2Line_nativeOpen fuel t b l₀ h₀.1 h₀.2),
    pass2Lines_nativeInterior fuel _ d ls t hd hls,
    pass2Lines_cons fuel _ _ _ _ true false (pass2Line_nativeClose fuel _ l₁ h₁.1 h₁.2)]

/-! ## Termination of method-call desugaring -/

/-- A match found by a search is a match attempt that succeeded at some
position of the subject. -/
theorem searchFrom_matchAt (r : Re) :
    ∀ (s sk pre : Str) (m : Match), searchFrom r sk pre s = some m →
      ∃ u v w c, s = u ++ v ∧ matchAt r (u.reverse ++ pre) v = some (w, c)
        ∧ m = ⟨sk.reverse ++ u, w, c.rest, c.caps⟩ := by
  intro s
  induction s with
  | nil =>
    intro sk pre m e
    rw [searchFrom] at e
    split at e
    · rename_i w c hm
      cases e
      exact ⟨[], [], w, c, rfl, by simpa using hm, by simp⟩
    · exact Option.noConfusion e
  | cons x xs ih =>
    intro sk pre m e
    rw [searchFrom] at e
    split at e
    · rename_i w c hm
      cases e
      exact ⟨[], x :: xs, w, c, rfl, by simpa using hm, by simp⟩
    · obtain ⟨u, v, w, c, h1, h2, h3⟩ := ih _ _ _ e
      exact ⟨x :: u, v, w, c, by rw [h1]; rfl, by simpa using h2, by simp [h3]⟩

/-- What a match of the method-call expression is made of: a receiver, a
dot, a method name and a parenthesised argument text, with the three groups
holding the receiver, the name and the arguments. -/
theorem methodCall_shape {pre s w : Str} {c : Cur} (h : matchAt R_METHOD_CALL pre s = some (w, c)) :
    ∃ recv meth args, w = recv ++ '.' :: (meth ++ '(' :: (args ++ [')']))
      ∧ c.caps = [(3, args), (2, meth), (1, recv)]
      ∧ (∀ x ∈ recv, isReceiverChar x = true) ∧ (∀ x ∈ meth, isWord x = true) := by
  simp only [matchAt, R_METHOD_CALL, Re.cat, Re.plus, Re.lit, Re.run, String.toList] at h
  cases s with
  | nil => simp at h
  | cons a s =>
    simp only at h
    split_ifs at h with ha
    obtain ⟨w₁, r₁, rfl, hw₁, hk⟩ := starG_sound _ _ _ _ _ _ h
    clear h
    simp only at hk
    cases r₁ with
    | nil => simp at hk
    | cons d r₁ =>
      simp only at hk
      split_ifs at hk with hd
      cases r₁ with
      | nil => simp at hk
      | cons b r₂ =>
        simp only at hk
        split_ifs at hk with hb
        obtain ⟨w₂, r₃, rfl, hw₂, hk₂⟩ := starG_sound _ _ _ _ _ _ hk
        clear hk
        simp only at hk₂
        cases r₃ with
        | nil => simp at hk₂
        | cons p r₃ =>
          simp only at hk₂
          split_ifs at hk₂ with hp
          obtain ⟨w₃, r₄, rfl, -, hk₃⟩ := starG_sound _ _ _ _ _ _ hk₂
          clear hk₂
          simp only at hk₃
          cases r₄ with
          | nil => simp at hk₃
          | cons q r₄ =>
            simp only at hk₃
            split_ifs at hk₃ with hq
            simp only [isChar, beq_iff_eq] at hd hp hq
            subst hd hp hq
            simp only [Option.some.injEq, Prod.mk.injEq] at hk₃
            obtain ⟨rfl, rfl⟩ := hk₃
            refine ⟨a :: w₁, b :: w₂, w₃, by simp, by simp, ?_, ?_⟩
            · intro x hx
              rcases List.mem_cons.mp hx with rfl | hx
              · exact ha
              · exact hw₁ x hx
            · intro x hx
              rcases List.mem_cons.mp hx with rfl | hx
              · exact hb
              · exact hw₂ x hx

theorem mapFind_mem : ∀ (sc : StrMap) (k v : Str), mapFind sc k = some v → ∃ p ∈ sc, p.2 = v := by
  intro sc
  induction sc with
  | nil => intro k v h; simp [mapFind] at h
  | cons q qs ih =>
    intro k v h
    obtain ⟨k', v'⟩ := q
    simp only [mapFind] at h
    split_ifs at h with hk
    · cases h
      exact ⟨_, List.mem_cons_self _ _, rfl⟩
    · obtain ⟨p, hp, hv⟩ := ih k v h
      exact ⟨p, by simp [hp], hv⟩

/-- A type name looked up in a table without dots holds no dot. -/
theorem lookup_dotFree (syms : SymbolTable) (n : Str) (h : TypesDotFree syms) : '.' ∉ syms.lookup n := by
  unfold SymbolTable.lookup
  unfold TypesDotFree at h
  generalize syms.scopes = scopes at h
  induction scopes with
  | nil => simp [SymbolTable.lookupIn]
  | cons sc rest ih =>
    simp only [SymbolTable.lookupIn]
    cases hf : mapFind sc n with
    | none => exact ih (fun s hs => h s (by simp [hs]))
    | some v =>
      obtain ⟨p, hp, rfl⟩ := mapFind_mem sc n v hf
      exact h sc (by simp) p hp

theorem isReceiverChar_ne_dot {c : Char} (h : isReceiverChar c = true) : c ≠ '.' := by
  intro e
  subst e
  exact absurd h (by decide)

/-- A match of the method-call expression found in a line: the line is the
text before the match, the call `recv.meth(args)` and the text after it; the
groups are the three parts and neither the receiver nor the name holds a
dot. -/
theorem regexSearch_methodCall {s : Str} {m : Match} (h : regexSearch R_METHOD_CALL s = some m) :
    s = m.pfx ++ (m.group 1 ++ '.' :: (m.group 2 ++ '(' :: (m.group 3 ++ [')']))) ++ m.sfx
      ∧ '.' ∉ m.group 1 ∧ '.' ∉ m.group 2 := by
  obtain ⟨u, v, w, c, h1, h2, h3⟩ := searchFrom_matchAt _ _ _ _ _ h
  obtain ⟨recv, meth, args, hw, hcaps, hr, hm⟩ := methodCall_shape h2
  obtain ⟨h4, -⟩ := matchAt_sound h2
  subst h3
  simp only [Match.group, groupOf, hcaps, List.reverse_nil, List.nil_append, if_true,
    (by decide : (3 : Nat) ≠ 1), (by decide : (3 : Nat) ≠ 2), (by decide : (2 : Nat) ≠ 1), if_false]
  refine ⟨?_, ?_, ?_⟩
  · rw [h1, h4, hw]; simp
  · intro hd
    exact isReceiverChar_ne_dot (hr _ hd) rfl
  · intro hd
    exact absurd (hm _ hd) (by decide)

theorem dots_append (a b : Str) : dots (a ++ b) = dots a + dots b := by
  simp [dots]

theorem dots_eq_zero {s : Str} (h : '.' ∉ s) : dots s = 0 := by
  simp [dots, List.count_eq_zero, h]

/-- One turn of the loop with a resolved receiver whose type name holds no
dot takes exactly one dot out of the line. -/
theorem methodCallStep_dots {s : Str} {m : Match} (T : Str) (h : regexSearch R_METHOD_CALL s = some m)
    (hT : '.' ∉ T) : dots (methodCallStep m T) + 1 = dots s := by
  obtain ⟨h1, h2, h3⟩ := regexSearch_methodCall h
  have e1 : List.count '.' (m.group 1) = 0 := List.count_eq_zero.mpr h2
  have e2 : List.count '.' (m.group 2) = 0 := List.count_eq_zero.mpr h3
  have e3 : List.count '.' T = 0 := List.count_eq_zero.mpr hT
  conv_rhs => rw [h1]
  unfold methodCallStep dots
  split_ifs with hg
  · simp [List.count_append, List.count_cons, e1, e2, e3]
    omega
  · have hg' : m.group 3 = [] := not_not.mp hg
    simp [List.count_append, List.count_cons, e1, e2, e3, hg']
    omega

/-- One turn of the loop of `replaceMethodCalls` when the receiver is
resolved. -/
theorem replaceMethodCalls_step (syms : SymbolTable) (fuel : Nat) (current : Str) (m : Match)
    (h : regexSearch R_METHOD_CALL current = some m) (hT : syms.lookup (m.group 1) ≠ []) :
    replaceMethodCalls syms (fuel + 1) current
      = replaceMethodCalls syms fuel (methodCallStep m (syms.lookup (m.group 1))) := by
  rw [replaceMethodCalls, h]
  simp only [hT, ne_eq, not_false_eq_true, if_true, methodCallStep]

/-- The loop stops at once when nothing matches or the receiver is not
resolved. -/
theorem replaceMethodCalls_stop (syms : SymbolTable) (fuel : Nat) (current : Str)
    (h : ∀ m, regexSearch R_METHOD_CALL current = some m → syms.lookup (m.group 1) = []) :
    replaceMethodCalls syms (fuel + 1) current = some current := by
  rw [replaceMethodCalls]
  cases hm : regexSearch R_METHOD_CALL current with
  | none => rfl
  | some m => simp [h m hm]

/-- With a table whose type names hold no dot, the loop of
`replaceMethodCalls` returns within one more turn than the line has dots. -/
theorem replaceMethodCalls_terminates (syms : SymbolTable) (hs : TypesDotFree syms) :
    ∀ (n : Nat) (line : Str), dots line ≤ n →
      ∃ r, ∀ fuel, dots line < fuel → replaceMethodCalls syms fuel line = some r := by
  intro n
  induction n with
  | zero =>
    intro line hn
    refine ⟨line, ?_⟩
    intro fuel hf
    obtain ⟨f, rfl⟩ : ∃ f, fuel = f + 1 := ⟨fuel - 1, by omega⟩
    apply replaceMethodCalls_stop
    intro m hm
    by_contra hT
    have := methodCallStep_dots (syms.lookup (m.group 1)) hm (lookup_dotFree syms _ hs)
    omega
  | succ n ih =>
    intro line hn
    cases hm : regexSearch R_METHOD_CALL line with
    | none =>
      refine ⟨line, ?_⟩
      intro fuel hf
      obtain ⟨f, rfl⟩ : ∃ f, fuel = f + 1 := ⟨fuel - 1, by omega⟩
      exact replaceMethodCalls_stop syms f line (by simp [hm])
    | some m =>
      by_cases hT : syms.lookup (m.group 1) = []
      · refine ⟨line, ?_⟩
        intro fuel hf
        obtain ⟨f, rfl⟩ : ∃ f, fuel = f + 1 := ⟨fuel - 1, by omega⟩
        apply replaceMethodCalls_stop
        intro m' hm'
        rw [hm] at hm'
        cases hm'
        exact hT
      · have hdec := methodCallStep_dots (syms.lookup (m.group 1)) hm (lookup_dotFree syms _ hs)
        obtain ⟨r, hr⟩ := ih (methodCallStep m (syms.lookup (m.group 1))) (by omega)
        refine ⟨r, ?_⟩
        intro fuel hf
        obtain ⟨f, rfl⟩ : ∃ f, fuel = f + 1 := ⟨fuel - 1, by omega⟩
        rw [replaceMethodCalls_step syms f line m hm hT]
        exact hr f (by omega)

/-! ## The brace depth, line by line -/

theorem bumpDepth_closed (c : LineCtx) (t : Transpiler) (h : c.opensBrace = false) : bumpDepth c t = t := by
  simp [bumpDepth, h]

theorem bumpDepth_open (c : LineCtx) (t : Transpiler) (h : c.opensBrace = true) :
    (bumpDepth c t).m_braceDepth = t.m_braceDepth + 1 := by
  simp [bumpDepth, h]

/-- The closing contexts take one level off the depth on a closing line and
leave it as it is on any other line. -/
theorem closeContexts_depth (c : LineCtx) (t : Transpiler) :
    (closeContexts c t).2.m_braceDepth
      = if c.closesBrace = true then t.m_braceDepth - 1 else t.m_braceDepth := by
  simp only [closeContexts, popIfOpen]
  split_ifs <;> simp

theorem lowerFunc_depth (c : LineCtx) (t t' : Transpiler) (m : Match) (r : Str)
    (h : lowerFunc c t m = .ok (r, t')) :
    t'.m_braceDepth
      = if chLBrace ∈ c.line ∧ c.opensBrace = true then t.m_braceDepth + 1 else t.m_braceDepth := by
  unfold lowerFunc at h
  simp only at h
  split at h
  · exact Except.noConfusion h
  · split at h
    · exact Except.noConfusion h
    · split_ifs at h with h1 h2 h3
      all_goals (cases h; simp only [bumpDepth]; split_ifs <;> simp_all)

theorem lowerVar_depth (fuel : Nat) (c : LineCtx) (t t' : Transpiler) (m : Match) (r : Str)
    (h : lowerVar fuel c t m = .ok (r, t')) : t'.m_braceDepth = t.m_braceDepth := by
  unfold lowerVar at h
  simp only at h
  repeat (any_goals (first | (cases h; done) | split at h))
  all_goals (cases h; rfl)

/-- The end of `processLine` on a line that does not open a block: the depth
stays as it is. -/
theorem lowerStmt_depth_same (fuel : Nat) (c : LineCtx) (t t' : Transpiler) (r : Str)
    (ho : c.opensBrace = false) (h : lowerStmt fuel c t = .ok (r, t')) :
    t'.m_braceDepth = t.m_braceDepth := by
  unfold lowerStmt at h
  simp only [bumpDepth_closed c t ho, ho, Bool.false_eq_true, false_and, if_false] at h
  repeat (any_goals (first | (cases h; done) | split at h))
  all_goals (cases h; rfl)

/-- The end of `processLine` on a line that opens a block, when rewriting
leaves the text as it is and the text is the head of no mixin definition,
struct, resolve block or function: the depth goes up by one. -/
theorem lowerStmt_depth_open (fuel : Nat) (c : LineCtx) (t t' : Transpiler) (r : Str)
    (ho : c.opensBrace = true) (hr : rewriteExpr t.m_symbols fuel c.out = .ok c.out)
    (h1 : regexSearch R_SHARED_START c.out = none) (h2 : regexSearch R_STRUCT_START c.out = none)
    (h3 : regexSearch R_RESOLVE_START c.out = none) (h4 : regexSearch R_FUNC_SIGNATURE c.out = none)
    (h : lowerStmt fuel c t = .ok (r, t')) :
    t'.m_braceDepth = t.m_braceDepth + 1 := by
  unfold lowerStmt at h
  simp only [hr, ho, Bool.not_true, Bool.and_false, Bool.false_and, Bool.false_eq_true, if_false,
    true_and] at h
  repeat (any_goals (first | (cases h; done) | split at h))
  all_goals (cases h; simp_all [regexTest, bumpDepth])

/-- The middle of `processLine` on a line that does not open a block: the
depth stays as it is. -/
theorem lowerLine_depth_same (fuel : Nat) (c : LineCtx) (t t' : Transpiler) (r : Str)
    (ho : c.opensBrace = false) (h : lowerLine fuel c t = .ok (r, t')) :
    t'.m_braceDepth = t.m_braceDepth := by
  unfold lowerLine at h
  simp only [bumpDepth_closed c _ ho] at h
  repeat (any_goals (first | (cases h; done) | split at h))
  all_goals first
    | (cases h; rfl)
    | simpa [ho] using lowerFunc_depth c t t' _ r h
    | exact lowerVar_depth fuel c t t' _ r h
    | exact lowerStmt_depth_same fuel c t t' r ho h

/-- Expression rewriting of a text without a method call and without a pipe:
the text comes back as it is, unless no turn of the loops is allowed. -/
theorem rewriteExpr_idle (syms : SymbolTable) (fuel : Nat) (s : Str)
    (h1 : regexSearch R_METHOD_CALL s = none) (h2 : regexSearch R_PIPE s = none) :
    rewriteExpr syms fuel s = .ok s ∨ rewriteExpr syms fuel s = .error .outOfFuel := by
  cases fuel with
  | zero => right; simp [rewriteExpr, replaceMethodCalls]
  | succ f => left; simp [rewriteExpr, replaceMethodCalls, replacePipeOperators, h1, h2]

/-- The middle of `processLine` on a line that opens a block and is no `use`,
field or variable line: when the line is the head of a mixin definition, a
struct, a resolve block or a function, or holds no method call and no pipe,
the depth goes up by one. -/
theorem lowerLine_depth_open (fuel : Nat) (c : LineCtx) (t t' : Transpiler) (r : Str)
    (ho : c.opensBrace = true) (hline : chLBrace ∈ c.line)
    (huse : regexSearch R_USE_MIXIN c.out = none) (hfield : regexSearch R_FIELD c.out = none)
    (hvar : regexSearch R_VAR c.out = none)
    (hhead : (regexSearch R_SHARED_START c.out).isSome = true
      ∨ (regexSearch R_STRUCT_START c.out).isSome = true
      ∨ (regexSearch R_RESOLVE_START c.out).isSome = true
      ∨ (regexSearch R_FUNC_SIGNATURE c.out).isSome = true
      ∨ (regexSearch R_METHOD_CALL c.out = none ∧ regexSearch R_PIPE c.out = none))
    (h : lowerLine fuel c t = .ok (r, t')) :
    t'.m_braceDepth = t.m_braceDepth + 1 := by
  unfold lowerLine at h
  simp only [huse, hfield, hvar, ite_self] at h
  repeat (any_goals (first | (cases h; done) | split at h))
  all_goals first
    | (cases h; simp [bumpDepth, ho])
    | simpa [ho, hline] using lowerFunc_depth c t t' _ r h
    | (have h1 : regexSearch R_SHARED_START c.out = none := by assumption
       have h2 : regexSearch R_STRUCT_START c.out = none := by assumption
       have h3 : regexSearch R_RESOLVE_START c.out = none := by assumption
       have h4 : regexSearch R_FUNC_SIGNATURE c.out = none := by assumption
       simp only [h1, h2, h3, h4, Option.isSome_none, Bool.false_eq_true, false_or] at hhead
       rcases rewriteExpr_idle t.m_symbols fuel c.out hhead.1 hhead.2 with hr | hr
       · exact lowerStmt_depth_open fuel c t t' r ho hr h1 h2 h3 h4 h
       · unfold lowerStmt at h
         rw [hr] at h
         exact Except.noConfusion h)

/-- The ways `processLine` returns: at once for an include line; from the
closing contexts; or from the rest of the function, run on the state the
closing contexts leave. -/
theorem processLine_cases (fuel : Nat) (t t' : Transpiler) (line r : Str)
    (h : processLine fuel t line = .ok (r, t')) :
    ((regexSearch R_INCLUDE (regexReplace R_LEADING_WS 0 [] line)).isSome = true ∧ t' = t)
    ∨ (regexSearch R_INCLUDE (regexReplace R_LEADING_WS 0 [] line) = none
        ∧ ∃ ind, ((closeContexts (lineCtx line ind) t).1.isSome = true
              ∧ t' = (closeContexts (lineCtx line ind) t).2)
            ∨ lowerLine fuel (lineCtx line ind) (closeContexts (lineCtx line ind) t).2 = .ok (r, t')) := by
  unfold processLine at h
  simp only at h
  split at h
  · left
    rename_i m hm
    cases h
    simp [hm]
  · right
    rename_i hm
    refine ⟨hm, ?_⟩
    split at h
    · exact Except.noConfusion h
    · rename_i ind _
      refine ⟨ind, ?_⟩
      split at h
      · rename_i res t₁ hc
        left
        cases h
        have hc' : closeContexts (lineCtx line ind) t = (some r, t') := hc
        simp [hc']
      · rename_i t₁ hc
        right
        have hc' : closeContexts (lineCtx line ind) t = (none, t₁) := hc
        rw [hc']
        exact h

theorem mem_of_mem_dropWhile {p : Char → Bool} {c : Char} {l : Str} (h : c ∈ l.dropWhile p) : c ∈ l :=
  (List.dropWhile_sublist p).subset h

theorem dropWhile_append_stop (p : Char → Bool) (c : Char) (hc : p c = false) :
    ∀ (a b : Str), (a ++ c :: b).dropWhile p = a.dropWhile p ++ c :: b := by
  intro a
  induction a with
  | nil => intro b; simp [List.dropWhile, hc]
  | cons x xs ih =>
    intro b
    by_cases hx : p x = true
    · simp [List.dropWhile, hx, ih]
    · simp [List.dropWhile, hx]

/-- A line without a brace leaves the depth as it is. -/
theorem processLine_depth_plain (fuel : Nat) (t t' : Transpiler) (line r : Str) (hl : IsPlainLine line)
    (h : processLine fuel t line = .ok (r, t')) : t'.m_braceDepth = t.m_braceDepth := by
  have h1 : chLBrace ∉ regexReplace R_LEADING_WS 0 [] line := by
    rw [trim_eq_dropWhile]; exact fun hc => hl.1 (mem_of_mem_dropWhile hc)
  have h2 : chRBrace ∉ regexReplace R_LEADING_WS 0 [] line := by
    rw [trim_eq_dropWhile]; exact fun hc => hl.2 (mem_of_mem_dropWhile hc)
  have ho : ∀ ind, (lineCtx line ind).opensBrace = false := by
    intro ind
    simp [lineCtx, regexTest_requires_false requires_R_OPENS_AT_END h1,
      regexTest_requires_false requires_R_OPENS_AT_START h1]
  have hc : ∀ ind, (lineCtx line ind).closesBrace = false := by
    intro ind
    simp [lineCtx, regexTest_requires_false requires_R_CLOSES h2]
  rcases processLine_cases fuel t t' line r h with ⟨-, rfl⟩ | ⟨-, ind, ⟨-, rfl⟩ | h3⟩
  · rfl
  · rw [closeContexts_depth, hc ind]; simp
  · rw [lowerLine_depth_same fuel _ _ t' r (ho ind) h3, closeContexts_depth, hc ind]; simp

/-- A closing line takes one level off the depth. -/
theorem processLine_depth_closer (fuel : Nat) (t t' : Transpiler) (line r : Str) (hl : IsCloserLine line)
    (h : processLine fuel t line = .ok (r, t')) : t'.m_braceDepth = t.m_braceDepth - 1 := by
  obtain ⟨hhead, -, hno⟩ := hl
  obtain ⟨rest, hrest⟩ : ∃ rest, line.dropWhile isSpace = chRBrace :: rest := by
    cases hd : line.dropWhile isSpace with
    | nil => rw [hd] at hhead; simp at hhead
    | cons x xs =>
      rw [hd] at hhead
      simp only [List.head?_cons, Option.some.injEq] at hhead
      exact ⟨xs, by rw [hhead]⟩
  have htrim : regexReplace R_LEADING_WS 0 [] line = chRBrace :: rest := by
    rw [trim_eq_dropWhile, hrest]
  have h1 : chLBrace ∉ chRBrace :: rest := by
    rw [← hrest]; exact fun hc => hno (mem_of_mem_dropWhile hc)
  have ho : ∀ ind, (lineCtx line ind).opensBrace = false := by
    intro ind
    simp [lineCtx, htrim, regexTest_requires_false requires_R_OPENS_AT_END h1,
      regexTest_requires_false requires_R_OPENS_AT_START h1]
  have hc : ∀ ind, (lineCtx line ind).closesBrace = true := by
    intro ind
    simp only [lineCtx, htrim]
    have := regexTest_true (r := R_CLOSES) [] (chRBrace :: rest) (by
      simp [R_CLOSES, Re.cat, matchAt, Re.run, ws, starG, isChar, (by decide : isSpace chRBrace = false)])
    simpa using this
  have hinc : regexSearch R_INCLUDE (regexReplace R_LEADING_WS 0 [] line) = none := by
    rw [htrim]
    exact regexSearch_first_none _ chRBrace rest (by decide) (by decide)
  rcases processLine_cases fuel t t' line r h with ⟨h0, -⟩ | ⟨-, ind, ⟨-, rfl⟩ | h3⟩
  · rw [hinc] at h0; simp at h0
  · rw [closeContexts_depth, hc ind]; simp
  · rw [lowerLine_depth_same fuel _ _ t' r (ho ind) h3, closeContexts_depth, hc ind]; simp

theorem closeContexts_idle (c : LineCtx) (t : Transpiler) (h : c.closesBrace = false) :
    closeContexts c t = (none, t) := by
  simp [closeContexts, h]

/-- A line whose last character, trailing blanks apart, is `a` is some text,
then `a`, then blanks. -/
theorem split_last_nonblank (l : Str) (a : Char) (h : (l.reverse.dropWhile isSpace).head? = some a) :
    ∃ body trail, l = body ++ a :: trail ∧ ∀ c ∈ trail, isSpace c = true := by
  obtain ⟨R, hR⟩ : ∃ R, l.reverse.dropWhile isSpace = a :: R := by
    cases hd : l.reverse.dropWhile isSpace with
    | nil => rw [hd] at h; simp at h
    | cons x xs =>
      rw [hd] at h
      simp only [List.head?_cons, Option.some.injEq] at h
      exact ⟨xs, by rw [h]⟩
  have hsplit : l.reverse = l.reverse.takeWhile isSpace ++ a :: R := by
    rw [← hR]; exact (List.takeWhile_append_dropWhile _ _).symm
  refine ⟨R.reverse, (l.reverse.takeWhile isSpace).reverse, ?_, ?_⟩
  · have := congrArg List.reverse hsplit
    simpa using this
  · intro c hc
    exact List.mem_takeWhile_imp (List.mem_reverse.mp hc)

/-- The end-of-line test for an opening brace on a text that ends with `{`
and blanks. -/
theorem opensAtEnd_true (body trail : Str) (ht : ∀ c ∈ trail, isSpace c = true) :
    regexTest R_OPENS_AT_END (body ++ chLBrace :: trail) = true := by
  apply regexTest_true
  rw [Option.isSome_iff_exists]
  simp only [R_OPENS_AT_END, Re.cat, matchAt, Re.run, ws, isChar, beq_self_eq_true, if_true]
  refine ⟨(chLBrace :: trail, ⟨trail.reverse ++ chLBrace :: body.reverse, [], []⟩), ?_⟩
  have e : trail = trail ++ [] := by simp
  conv_lhs => rw [e]
  apply starG_run isSpace trail [] _ _ _ _ ht (stopsAt_nil _)
  simp

/-- An opening line takes the depth up by one. -/
theorem processLine_depth_opener (fuel : Nat) (t t' : Transpiler) (line r : Str) (hl : IsOpenerLine line)
    (h : processLine fuel t line = .ok (r, t')) : t'.m_braceDepth = t.m_braceDepth + 1 := by
  obtain ⟨hlast, hcount, hno, hinc, huse, hfield, hvar, hhead⟩ := hl
  obtain ⟨body, trail, hbt, htrail⟩ := split_last_nonblank line chLBrace hlast
  have htrim : regexReplace R_LEADING_WS 0 [] line = body.dropWhile isSpace ++ chLBrace :: trail := by
    rw [trim_eq_dropWhile, hbt, dropWhile_append_stop isSpace chLBrace (by decide)]
  have hmem : chLBrace ∈ line := by rw [hbt]; simp
  have h2 : chRBrace ∉ regexReplace R_LEADING_WS 0 [] line := by
    rw [trim_eq_dropWhile]; exact fun hc => hno (mem_of_mem_dropWhile hc)
  have ho : ∀ ind, (lineCtx line ind).opensBrace = true := by
    intro ind
    simp [lineCtx, htrim, opensAtEnd_true _ trail htrail]
  have hc : ∀ ind, (lineCtx line ind).closesBrace = false := by
    intro ind
    simp [lineCtx, regexTest_requires_false requires_R_CLOSES h2]
  rw [← trim_eq_dropWhile] at hinc
  rcases processLine_cases fuel t t' line r h with ⟨h0, -⟩ | ⟨-, ind, ⟨h0, -⟩ | h3⟩
  · rw [hinc] at h0; simp at h0
  · rw [closeContexts_idle _ _ (hc ind)] at h0; simp at h0
  · rw [closeContexts_idle _ _ (hc ind)] at h3
    exact lowerLine_depth_open fuel (lineCtx line ind) t t' r (ho ind) hmem huse hfield hvar hhead h3

/-! ## The brace depth over a unit -/

/-- The brace count of a line: one up for every opening brace, one down for
every closing brace. -/
theorem braceBalance_count : ∀ (l : Str) (d : Int),
    braceBalance d l = d + (l.count chLBrace : Int) - (l.count chRBrace : Int) := by
  intro l
  induction l with
  | nil => intro d; simp [braceBalance]
  | cons c cs ih =>
    intro d
    by_cases h1 : c = chLBrace
    · subst h1
      simp [braceBalance, ih, List.count_cons, (by decide : chLBrace ≠ chRBrace)]
      omega
    · by_cases h2 : c = chRBrace
      · subst h2
        simp [braceBalance, ih, List.count_cons, (by decide : chRBrace ≠ chLBrace)]
        omega
      · simp [braceBalance, ih, List.count_cons, h1, h2]

/-- On a line of one of the three shapes `processLine` moves the depth the
way the braces of the line count. -/
theorem processLine_depth_shape (fuel : Nat) (t t' : Transpiler) (line r : Str)
    (hl : IsPlainLine line ∨ IsCloserLine line ∨ IsOpenerLine line)
    (h : processLine fuel t line = .ok (r, t')) : t'.m_braceDepth = braceBalance t.m_braceDepth line := by
  rw [braceBalance_count]
  rcases hl with hl | hl | hl
  · rw [processLine_depth_plain fuel t t' line r hl h, List.count_eq_zero.mpr hl.1,
      List.count_eq_zero.mpr hl.2]
    simp
  · rw [processLine_depth_closer fuel t t' line r hl h, hl.2.1, List.count_eq_zero.mpr hl.2.2]
    simp
  · rw [processLine_depth_opener fuel t t' line r hl h, hl.2.1, List.count_eq_zero.mpr hl.2.2.1]
    simp

/-- A turn of the loop of `pass2_Transpilation`: either the line is native
text, a comment or an attribute line and the depth stays as it is, or the
line goes to `processLine`, whose state is kept but for the emitted line. -/
theorem pass2Line_step (fuel : Nat) (t t₁ : Transpiler) (b b₁ : Bool) (l : Str) (ls : List Str)
    (h : pass2Line fuel t b l = .ok (t₁, b₁)) :
    (countedLines (l :: ls) b = countedLines ls b₁ ∧ t₁.m_braceDepth = t.m_braceDepth)
    ∨ (countedLines (l :: ls) b = l :: countedLines ls b₁
        ∧ ∃ r t₂, processLine fuel t l = .ok (r, t₂) ∧ t₁.m_braceDepth = t₂.m_braceDepth) := by
  unfold pass2Line at h
  rw [countedLines]
  by_cases h1 : regexTest R_NATIVE_BLOCK l = true
  · left
    simp only [h1, if_true] at h ⊢
    by_cases h2 : chRBrace ∈ l
    · simp only [h2, if_true] at h
      split at h
      · exact Except.noConfusion h
      · cases h
        simp [h2]
    · simp only [h2, if_false] at h
      cases h
      simp [h2]
  · simp only [h1, Bool.false_eq_true, if_false] at h ⊢
    by_cases hb : b = true
    · left
      simp only [hb, if_true] at h ⊢
      by_cases h2 : chRBrace ∈ l
      · simp only [h2, if_true] at h
        cases h
        simp [h2]
      · simp only [h2, if_false] at h
        split at h
        · exact Except.noConfusion h
        · cases h
          simp [h2]
    · simp only [hb, Bool.false_eq_true, if_false] at h ⊢
      by_cases h3 : regexTest R_COMMENT l = true
      · left
        simp only [h3, if_true] at h ⊢
        split at h
        · exact Except.noConfusion h
        · split_ifs at h <;> (cases h; simp)
      · simp only [h3, Bool.false_eq_true, if_false] at h ⊢
        cases h4 : regexSearch R_ATTRIBUTE_LINE l with
        | some m =>
          left
          simp only [h4] at h
          cases h
          simp
        | none =>
          right
          simp only [h4] at h
          simp only [Option.isSome_none, Bool.false_eq_true, if_false, true_and]
          split at h
          · exact Except.noConfusion h
          · rename_i r t₂ hp
            split_ifs at h
            · cases h
              exact ⟨rfl, r, t₂, hp, rfl⟩
            · cases h
              exact ⟨rfl, r, _, hp, rfl⟩

/-- The depth after the rewrite pass, when it ends without a fault on lines
of which every one handed to `processLine` is plain, a closing line or an
opening line: the brace count of those lines, from the depth at the start. -/
theorem pass2Lines_depth (fuel : Nat) :
    ∀ (lines : List Str) (t t' : Transpiler) (b : Bool),
      pass2Lines fuel lines t b = (t', none) →
      (∀ l ∈ countedLines lines b, IsPlainLine l ∨ IsCloserLine l ∨ IsOpenerLine l) →
      t'.m_braceDepth = depthAfter t.m_braceDepth (countedLines lines b) := by
  intro lines
  induction lines with
  | nil =>
    intro t t' b h _
    simp only [pass2Lines, Prod.mk.injEq, and_true] at h
    subst h
    simp [countedLines, depthAfter]
  | cons l ls ih =>
    intro t t' b h hs
    rw [pass2Lines] at h
    split at h
    · simp at h
    · rename_i t₁ b₁ hp
      rcases pass2Line_step fuel t t₁ b b₁ l ls hp with ⟨e, hd⟩ | ⟨e, r, t₂, hpr, hd⟩
      · rw [e] at hs ⊢
        rw [ih t₁ t' b₁ h hs, hd]
      · rw [e] at hs ⊢
        rw [ih t₁ t' b₁ h (fun x hx => hs x (by simp [hx])), hd,
          processLine_depth_shape fuel t t₂ l r (hs l (by simp)) hpr]
        simp [depthAfter]

/-! ## The loop of `replacePipeOperators` -/

theorem R_PIPE_eq : R_PIPE = Re.seq (.grp 1 (Re.plusLazy isAny)) pipeTail := rfl

/-- The rest of the pipe expression does not match at a character that is
neither a blank nor `|`. -/
theorem pipeTail_fail_char (k : Str → Cur → Option Hit) (pre : Str) (c : Char) (t : Str)
    (caps : List (Nat × Str)) (hs : isSpace c = false) (hc : c ≠ '|') :
    pipeTail.run k ⟨pre, c :: t, caps⟩ = none := by
  simp [pipeTail, Re.cat, Re.lit, Re.run, starG, hs, isChar, hc]

/-- The rest of the pipe expression does not match at `|>_` when the
character after it is outside the class `\w` and is not `(`. -/
theorem pipeTail_fail_dead (k : Str → Cur → Option Hit) (pre : Str) (c : Char) (t : Str)
    (caps : List (Nat × Str)) (hw : isWord c = false) (hc : c ≠ '(') :
    pipeTail.run k ⟨pre, '|' :: '>' :: '_' :: c :: t, caps⟩ = none := by
  simp [pipeTail, Re.cat, Re.lit, Re.plus, Re.run, starG, isChar, hw, hc, orElse,
    (by decide : isSpace '|' = false), (by decide : isSpace '_' = false),
    (by decide : isWord '_' = true)]

theorem callHeads_add (i j : Nat) : callHeads (i + j) = callHeads i ++ callHeads j := by
  induction i with
  | zero => simp [callHeads]
  | succ i ih => rw [Nat.succ_add, callHeads, callHeads, ih]; rfl

theorem callHeads_mem {i : Nat} {c : Char} (h : c ∈ callHeads i) : c = 'a' ∨ c = '(' := by
  induction i with
  | zero => simp [callHeads] at h
  | succ i ih =>
    simp only [callHeads, List.mem_cons] at h
    rcases h with h | h | h
    · exact Or.inl h
    · exact Or.inr h
    · exact ih h

/-- Every text that ends `a(...a(_|>_` and is not empty begins with a
character that is neither a blank nor `|`, or it is `|>_`. -/
theorem callHeads_suffix (i : Nat) :
    ∀ (zs ws : Str), callHeads i ++ "_|>_".toList = zs ++ ws → ws ≠ [] →
      (∃ c t, ws = c :: t ∧ isSpace c = false ∧ c ≠ '|') ∨ ws = "|>_".toList := by
  induction i with
  | zero =>
    intro zs ws e hws
    simp only [callHeads, List.nil_append, String.toList] at e
    rcases zs with _ | ⟨z₁, _ | ⟨z₂, _ | ⟨z₃, _ | ⟨z₄, zs⟩⟩⟩⟩
    · left
      exact ⟨'_', "|>_".toList, by simpa using e.symm, by decide, by decide⟩
    · right
      simp at e
      simp [e.2]
    · left
      simp at e
      exact ⟨'>', "_".toList, by simp [e.2.2], by decide, by decide⟩
    · left
      simp at e
      exact ⟨'_', [], by simp [e.2.2.2], by decide, by decide⟩
    · exfalso
      simp at e
      cases zs <;> simp at e
      exact hws e.2.2.2.2
  | succ i ih =>
    intro zs ws e hws
    rcases zs with _ | ⟨z₁, _ | ⟨z₂, zs⟩⟩
    · left
      exact ⟨'a', '(' :: (callHeads i ++ "_|>_".toList), by simpa [callHeads] using e.symm,
        by decide, by decide⟩
    · left
      simp [callHeads] at e
      exact ⟨'(', callHeads i ++ "_|>_".toList, by simp [e.2], by decide, by decide⟩
    · simp only [callHeads, List.cons_append, List.cons.injEq] at e
      exact ih zs ws e.2.2 hws

/-- The pipe expression on `e|>f(a)`, when its rest matches at no place
inside `e`: it matches the whole text, with `e` as the piped argument. -/
theorem pipe_match_dead (f a : Str) (x : Char) (xs : Str)
    (hany : ∀ c ∈ x :: xs, isAny c = true) (hf : IsIdent f) (ha : ')' ∉ a)
    (hshort : ∀ zs ws, xs = zs ++ ws → ws ≠ [] → ∀ k pre caps,
      pipeTail.run k ⟨pre, ws ++ ("|>".toList ++ (f ++ ("(".toList ++ (a ++ ")".toList)))), caps⟩ = none) :
    regexSearch R_PIPE (x :: xs ++ "|>".toList ++ f ++ "(".toList ++ a ++ ")".toList)
      = some ⟨[], x :: xs ++ "|>".toList ++ f ++ "(".toList ++ a ++ ")".toList, [],
          [(3, a), (2, f), (1, x :: xs)]⟩ := by
  obtain ⟨hf0, hfw⟩ := hf
  obtain ⟨y, ys, rfl⟩ := List.exists_cons_of_ne_nil hf0
  have hx : isAny x = true := hany x (by simp)
  have hy : isWord y = true := hfw y (by simp)
  have hys : isSpace y = false := isSpace_false_of_isWord hy
  have e : matchAt R_PIPE [] (x :: xs ++ "|>".toList ++ y :: ys ++ "(".toList ++ a ++ ")".toList)
      = some (x :: xs ++ "|>".toList ++ y :: ys ++ "(".toList ++ a ++ ")".toList,
          ⟨(x :: xs ++ "|>".toList ++ y :: ys ++ "(".toList ++ a ++ ")".toList).reverse, [],
            [(3, a), (2, y :: ys), (1, x :: xs)]⟩) := by
    rw [R_PIPE_eq]
    generalize hT : pipeTail = T
    simp only [Re.plusLazy, matchAt, Re.run, List.cons_append, List.append_assoc, hx, if_true]
    apply starL_some
    · intro c hc
      exact hany c (by simp [hc])
    · subst hT
      simp only [pipeTail, Re.cat, Re.plus, Re.lit, Re.run, ws, String.toList, List.cons_append,
        List.nil_append]
      apply starG_run isSpace []
      · simp
      · exact stopsAt_cons _ (by decide)
      simp only [Re.run, isChar, beq_self_eq_true, if_true]
      apply starG_run isSpace []
      · simp
      · exact stopsAt_cons _ hys
      simp only [Re.run, isChar, beq_self_eq_true, if_true, hy]
      apply starG_run
      · intro c hc
        exact hfw c (by simp [hc])
      · exact stopsAt_cons _ (by decide)
      simp only [Re.run, isChar, beq_self_eq_true, if_true]
      apply starG_run
      · intro c hc
        simp only [isNotRParen, Bool.not_eq_true', beq_eq_false_iff_ne, ne_eq]
        intro e
        exact ha (e ▸ hc)
      · exact stopsAt_cons _ (by decide)
      simp [Re.run, isChar]
    · intro zs ws' e hws
      subst hT
      exact hshort zs ws' e hws _ _ _
  have := regexSearch_hit e
  simpa using this

/-- Trimming leaves a text without blanks as it is. -/
theorem trim_nospace (e : Str) (he : ∀ c ∈ e, isSpace c = false) : regexReplace R_TRIM 0 [] e = e := by
  apply regexReplace_none
  apply regexSearch_none
  intro u w v h hacc
  obtain ⟨c, hc, hs⟩ := trim_accepts_space hacc
  rw [he c (by rw [h]; simp [hc])] at hs
  exact Bool.noConfusion hs

theorem callHeads_ne_nil (i : Nat) : callHeads i ++ "_|>_".toList ≠ [] := by
  cases i <;> simp [callHeads]

theorem callHeads_chars {i : Nat} {c : Char} (h : c ∈ callHeads i ++ "_|>_".toList) :
    c = 'a' ∨ c = '(' ∨ c = '_' ∨ c = '|' ∨ c = '>' := by
  rw [List.mem_append] at h
  rcases h with h | h
  · rcases callHeads_mem h with h | h
    · exact Or.inl h
    · exact Or.inr (Or.inl h)
  · simp at h
    tauto

/-- The pipe expression on a line `a(...a(_|>_|>a(...a(_|>_)`: the first
pipe operator is followed by `_|`, so the match is the whole line, up to the
second one the piped argument. -/
theorem pipeLoop_match (i j : Nat) :
    regexSearch R_PIPE (pipeLoopLine i j)
      = some ⟨[], pipeLoopLine i j, [],
          [(3, callHeads j ++ "_|>_".toList), (2, "a".toList), (1, callHeads i ++ "_|>_".toList)]⟩ := by
  obtain ⟨x, xs, hx⟩ := List.exists_cons_of_ne_nil (callHeads_ne_nil i)
  have h := pipe_match_dead "a".toList (callHeads j ++ "_|>_".toList) x xs
    (by
      intro c hc
      rw [← hx] at hc
      rcases callHeads_chars hc with h | h | h | h | h <;> subst h <;> decide)
    (by decide)
    (by
      intro hc
      rcases callHeads_chars hc with h | h | h | h | h <;> exact absurd h (by decide))
    (by
      intro zs ws e hws k pre caps
      rcases callHeads_suffix i (x :: zs) ws (by rw [hx, e]; rfl) hws with ⟨c, t, rfl, hs, hc⟩ | rfl
      · exact pipeTail_fail_char k pre c _ caps hs hc
      · exact pipeTail_fail_dead k pre '|' _ caps (by decide) (by decide))
  rw [← hx] at h
  simpa [pipeLoopLine, callHeads] using h

theorem subst_callHeads (e : Str) (j : Nat) (t : Str) (prev : Option Char) :
    substStandalone e prev (callHeads j ++ t)
      = callHeads j ++ substStandalone e (if j = 0 then prev else some '(') t := by
  induction j generalizing prev with
  | zero => simp [callHeads]
  | succ j ih =>
    simp only [callHeads, List.cons_append, substStandalone, (by decide : ¬ ('a' = '_')),
      (by decide : ¬ ('(' = '_')), false_and, if_false, List.append_eq]
    rw [ih]
    cases j <;> simp

theorem subst_pipeUnit (e : Str) (prev : Option Char) (hp : isWordAt prev = false) :
    substStandalone e prev "_|>_".toList = e ++ "|>".toList ++ e := by
  simp [substStandalone, hp, (by decide : isWordAt (some '|') = false),
    (by decide : isWordAt (some '>') = false), (by decide : isWordAt none = false)]

theorem subst_pipeLoop (e : Str) (j : Nat) :
    substStandalone e none (callHeads j ++ "_|>_".toList) = callHeads j ++ e ++ "|>".toList ++ e := by
  rw [subst_callHeads, subst_pipeUnit]
  · simp
  · cases j <;> simp [(by decide : isWordAt (some '(') = false), (by decide : isWordAt none = false)]

theorem hasStandalone_callHeads (j : Nat) (prev : Option Char) (hp : isWordAt prev = false) :
    hasStandalone prev (callHeads j ++ "_|>_".toList) = true := by
  induction j generalizing prev with
  | zero =>
    simp [callHeads, hasStandalone, hp, (by decide : isWordAt (some '|') = false)]
  | succ j ih =>
    simp only [callHeads, List.cons_append, hasStandalone, List.append_eq]
    rw [ih (some '(') (by decide)]
    simp

theorem not_prefix_a (T : Str) : (T ++ "_".toList).isPrefixOf "a".toList = false := by
  rcases T with _ | ⟨c, _ | ⟨d, T⟩⟩ <;> simp [List.isPrefixOf]

theorem pipeLoop_text (i j : Nat) :
    "a".toList ++ "(".toList
        ++ (callHeads j ++ (callHeads (i + 1) ++ "_|>_".toList) ++ "|>".toList
            ++ (callHeads (i + 1) ++ "_|>_".toList))
        ++ ")".toList
      = pipeLoopLine (i + j + 2) i := by
  have e : i + j + 2 = (j + 1) + (i + 1) := by omega
  rw [pipeLoopLine, e, callHeads_add (j + 1) (i + 1)]
  simp [callHeads]

/-- One turn of the loop of `replacePipeOperators` on a line
`a(...a(_|>_|>a(...a(_|>_)`: both placeholders of the call give way to the
piped argument, which holds a pipe operator and two placeholders itself, and
the line is of the same kind again, and longer. -/
theorem pipeLoop_step (syms : SymbolTable) (fuel i j : Nat) :
    replacePipeOperators syms (fuel + 1) (pipeLoopLine (i + 1) j)
      = replacePipeOperators syms fuel (pipeLoopLine (i + j + 2) i) := by
  have hsp : ∀ c ∈ callHeads (i + 1) ++ "_|>_".toList, isSpace c = false := by
    intro c hc
    rcases callHeads_chars hc with h | h | h | h | h <;> subst h <;> decide
  have hdollar : '$' ∉ callHeads (i + 1) ++ "_|>_".toList := by
    intro hc
    rcases callHeads_chars hc with h | h | h | h | h <;> exact absurd h (by decide)
  rw [replacePipeOperators, pipeLoop_match]
  simp only [Match.group, groupOf, if_true, if_false, List.nil_append, List.append_nil,
    (by decide : (3 : Nat) ≠ 1), (by decide : (2 : Nat) ≠ 1), (by decide : (3 : Nat) ≠ 2),
    trim_nospace _ hsp, placeholder_test, not_prefix_a, Bool.false_eq_true, and_false,
    hasStandalone_callHeads j none (by decide), placeholder_replace _ _ hdollar, subst_pipeLoop,
    pipeLoop_text]

/-- The loop of `replacePipeOperators` does not end on a line
`a(...a(_|>_|>a(...a(_|>_)` that begins with an opened call: however many
turns are allowed, the bound is reached. -/
theorem pipeLoop_diverges (syms : SymbolTable) :
    ∀ (fuel i j : Nat), replacePipeOperators syms fuel (pipeLoopLine (i + 1) j) = none := by
  intro fuel
  induction fuel with
  | zero => intro i j; rfl
  | succ fuel ih =>
    intro i j
    rw [pipeLoop_step]
    exact ih (i + j + 1) i

/-- When the loop of `replacePipeOperators` ends, the pipe expression finds
nothing in its result. -/
theorem replacePipe_clean (syms : SymbolTable) :
    ∀ (fuel : Nat) (line r : Str), replacePipeOperators syms fuel line = some r →
      regexSearch R_PIPE r = none := by
  intro fuel
  induction fuel with
  | zero => intro line r h; simp [replacePipeOperators] at h
  | succ fuel ih =>
    intro line r h
    rw [replacePipeOperators] at h
    cases hm : regexSearch R_PIPE line with
    | none =>
      rw [hm] at h
      cases h
      exact hm
    | some m =>
      rw [hm] at h
      exact ih _ r h

/-- Expression rewriting of the line `a(_|>_|>a(_|>_)` ends in no number of
turns. -/
theorem rewriteExpr_pipeLoop (syms : SymbolTable) (fuel : Nat) :
    rewriteExpr syms fuel (pipeLoopLine 1 0) = .error .outOfFuel := by
  unfold rewriteExpr
  cases fuel with
  | zero => rfl
  | succ fuel =>
    have e1 : replaceMethodCalls syms (fuel + 1) (pipeLoopLine 1 0) = some (pipeLoopLine 1 0) := by
      unfold replaceMethodCalls
      rw [methodCall_absent _ (by decide)]
    rw [e1]
    simp only [pipeLoop_diverges syms (fuel + 1) 0 0]

/-- The function `processLine` on the line `a(_|>_|>a(_|>_)`, outside a
mixin definition and at a non-negative depth: the loop of
`replacePipeOperators` does not end, whatever bound is set. -/
theorem processLine_pipeLoop (fuel : Nat) (t : Transpiler) (hd : 0 ≤ t.m_braceDepth)
    (hsh : t.m_inShared = false) :
    processLine fuel t (pipeLoopLine 1 0) = .error .outOfFuel := by
  have f1 : regexReplace R_LEADING_WS 0 [] (pipeLoopLine 1 0) = pipeLoopLine 1 0 := by decide
  have f2 : regexSearch R_INCLUDE (pipeLoopLine 1 0) = none := by decide
  have f3 : regexTest R_OPENS_AT_END (pipeLoopLine 1 0) = false := by decide
  have f3' : regexTest R_OPENS_AT_START (pipeLoopLine 1 0) = false := by decide
  have f4 : regexTest R_STARTS_CLOSING (pipeLoopLine 1 0) = false := by decide
  have f5 : regexTest R_CLOSES (pipeLoopLine 1 0) = false := by decide
  have f6 : hasSub "self.".toList (pipeLoopLine 1 0) = false := by decide
  have f7 : regexSearch R_SHARED_START (pipeLoopLine 1 0) = none := by decide
  have f8 : regexSearch R_STRUCT_START (pipeLoopLine 1 0) = none := by decide
  have f9 : regexSearch R_FIELD (pipeLoopLine 1 0) = none := by decide
  have f10 : regexSearch R_RESOLVE_START (pipeLoopLine 1 0) = none := by decide
  have f11 : regexSearch R_FUNC_SIGNATURE (pipeLoopLine 1 0) = none := by decide
  have f12 : regexSearch R_VAR (pipeLoopLine 1 0) = none := by decide
  have f13 : regexSearch R_USE_MIXIN (pipeLoopLine 1 0) = none := by decide
  have hp := printDepth_nonneg t false hd
  unfold processLine
  simp only [f1, f2, f3, f3', f4, f5, f6, f7, f8, f9, f10, f11, f12, f13, Bool.or_false, closeContexts,
    Bool.false_eq_true, if_false, lowerLine, hsh, indentOf_nonneg _ hp, lowerStmt,
    rewriteExpr_pipeLoop, ite_self]

/-- The rewrite pass on a unit that holds the line `a(_|>_|>a(_|>_)` in
first place: whatever bound is set for the loops, it is reached. -/
theorem pass2_pipeLoop (fuel : Nat) (t : Transpiler) (rest : Str) (hd : 0 ≤ t.m_braceDepth)
    (hsh : t.m_inShared = false) :
    pass2_Transpilation fuel t (pipeLoopLine 1 0 ++ '\n' :: rest) = (t, some .outOfFuel) := by
  have h1 : regexTest R_NATIVE_BLOCK (pipeLoopLine 1 0) = false := by decide
  have h2 : regexTest R_COMMENT (pipeLoopLine 1 0) = false := by decide
  have h3 : regexSearch R_ATTRIBUTE_LINE (pipeLoopLine 1 0) = none := by decide
  rw [pass2_Transpilation, getlines_line _ (by decide), pass2Lines]
  have e : pass2Line fuel t false (pipeLoopLine 1 0) = .error .outOfFuel := by
    unfold pass2Line
    simp [h1, h2, h3, processLine_pipeLoop fuel t hd hsh]
  rw [e]

/-! ## What a run reads of the state left by an earlier run -/

theorem liveState_mk (cfg : TranspilerConfig) (src : Str) (out : List Str) (syms : SymbolTable)
    (mix : StrMap) (rt : Str) (d : Int) (pa sa : Str) (ish : Bool) (sd : Int) (ist : Bool) (ssd : Int)
    (nm : Str) :
    liveState ⟨cfg, src, out, syms, mix, rt, d, pa, sa, ish, sd, ist, ssd, nm⟩
      = ⟨cfg, [], [], syms, mix, rt, d, pa, sa, ish, if ish = true then sd else 0, ist,
          if ist = true then ssd else 0, if ist = true then nm else []⟩ := rfl

theorem liveState_idem (t : Transpiler) : liveState (liveState t) = liveState t := by
  obtain ⟨cfg, src, out, syms, mix, rt, d, pa, sa, ish, sd, ist, ssd, nm⟩ := t
  cases ish <;> cases ist <;> rfl

/-- The closing contexts read only the live part of the state. -/
theorem closeContexts_live (c : LineCtx) (t : Transpiler) :
    (closeContexts c (liveState t)).1 = (closeContexts c t).1
    ∧ liveState (closeContexts c (liveState t)).2 = liveState (closeContexts c t).2 := by
  obtain ⟨cfg, src, out, syms, mix, rt, d, pa, sa, ish, sd, ist, ssd, nm⟩ := t
  obtain ⟨l, o, ob, cb, ind⟩ := c
  rw [liveState_mk]
  cases cb <;> cases ish <;> cases ist <;>
    simp only [closeContexts, popIfOpen, if_true, Bool.false_eq_true, if_false, false_and,
      true_and] <;>
    (try split_ifs) <;> first | rfl | exact ⟨rfl, rfl⟩

/-- The branch for function signatures reads only the live part of the
state. -/
theorem lowerFunc_live (c : LineCtx) (t : Transpiler) (m : Match) :
    (lowerFunc c (liveState t) m).map (fun x => (x.1, liveState x.2))
      = (lowerFunc c t m).map (fun x => (x.1, liveState x.2)) := by
  obtain ⟨cfg, src, out, syms, mix, rt, d, pa, sa, ish, sd, ist, ssd, nm⟩ := t
  obtain ⟨l, o, ob, cb, ind⟩ := c
  rw [liveState_mk]
  cases hdef : decide (chLBrace ∈ l) <;>
    simp only [lowerFunc, hdef, Bool.false_eq_true, if_false, if_true] <;>
    (cases translateTypeE (m.group 5) with
      | error e => rfl
      | ok ret =>
        simp only []
        generalize lowerArgs _ _ _ _ _ = la
        rcases la with e | ⟨cArgs, syms'⟩
        · rfl
        · simp only [bumpDepth, Except.map, liveState_mk]
          cases ob <;> cases ish <;> cases ist <;> rfl)

/-- The branch for variable declarations reads only the live part of the
state. -/
theorem lowerVar_live (fuel : Nat) (c : LineCtx) (t : Transpiler) (m : Match) :
    (lowerVar fuel c (liveState t) m).map (fun x => (x.1, liveState x.2))
      = (lowerVar fuel c t m).map (fun x => (x.1, liveState x.2)) := by
  obtain ⟨cfg, src, out, syms, mix, rt, d, pa, sa, ish, sd, ist, ssd, nm⟩ := t
  rw [liveState_mk]
  simp only [lowerVar]
  cases translateTypeE (m.group 3) with
  | error e => rfl
  | ok ty =>
    by_cases hv : m.group 4 ≠ []
    · simp only [if_pos hv]
      cases rewriteExpr (syms.add (m.group 2) (m.group 3)) fuel (m.group 4) with
      | error e => rfl
      | ok val =>
        simp only [Except.map, liveState_mk]
        cases ish <;> cases ist <;> rfl
    · simp only [if_neg hv, Except.map, liveState_mk]
      cases ish <;> cases ist <;> rfl

/-- The end of `processLine` reads only the live part of the state. -/
theorem lowerStmt_live (fuel : Nat) (c : LineCtx) (t : Transpiler) :
    (lowerStmt fuel c (liveState t)).map (fun x => (x.1, liveState x.2))
      = (lowerStmt fuel c t).map (fun x => (x.1, liveState x.2)) := by
  obtain ⟨cfg, src, out, syms, mix, rt, d, pa, sa, ish, sd, ist, ssd, nm⟩ := t
  obtain ⟨l, o, ob, cb, ind⟩ := c
  rw [liveState_mk]
  simp only [lowerStmt]
  cases rewriteExpr syms fuel o with
  | error e => rfl
  | ok o' =>
    simp only []
    cases regexSearch R_IF o' with
    | some m =>
      simp only [bumpDepth, Except.map, liveState_mk]
      cases ob <;> cases ish <;> cases ist <;> rfl
    | none =>
      simp only []
      cases regexSearch R_WHILE o' with
      | some m =>
        simp only [bumpDepth, Except.map, liveState_mk]
        cases ob <;> cases ish <;> cases ist <;> rfl
      | none =>
        simp only []
        by_cases hl : regexTest R_LOOP o' = true
        · simp only [hl, if_true, bumpDepth, Except.map, liveState_mk]
          cases ob <;> cases ish <;> cases ist <;> rfl
        · simp only [hl, if_false]
          cases ob <;> cases ish <;> cases ist <;>
            simp only [if_true, if_false, Bool.false_eq_true, false_and, true_and] <;>
            (try split_ifs) <;> rfl

/-- The middle of `processLine` reads only the live part of the state. -/
theorem lowerLine_live (fuel : Nat) (c : LineCtx) (t : Transpiler) :
    (lowerLine fuel c (liveState t)).map (fun x => (x.1, liveState x.2))
      = (lowerLine fuel c t).map (fun x => (x.1, liveState x.2)) := by
  obtain ⟨cfg, src, out, syms, mix, rt, d, pa, sa, ish, sd, ist, ssd, nm⟩ := t
  have hF := lowerFunc_live c ⟨cfg, src, out, syms, mix, rt, d, pa, sa, ish, sd, ist, ssd, nm⟩
  have hV := lowerVar_live fuel c ⟨cfg, src, out, syms, mix, rt, d, pa, sa, ish, sd, ist, ssd, nm⟩
  have hS := lowerStmt_live fuel c ⟨cfg, src, out, syms, mix, rt, d, pa, sa, ish, sd, ist, ssd, nm⟩
  rw [liveState_mk] at hF hV hS ⊢
  obtain ⟨l, o, ob, cb, ind⟩ := c
  simp only [lowerLine]
  cases regexSearch R_SHARED_START o with
  | some m =>
    simp only []
    by_cases hpa : pa ≠ []
    · simp only [if_pos hpa, bumpDepth, Except.map, liveState_mk]
      cases ob <;> cases ist <;> rfl
    · simp only [if_neg hpa, bumpDepth, Except.map, liveState_mk]
      cases ob <;> cases ist <;> rfl
  | none =>
    simp only []
    cases ish with
    | true =>
      simp only [if_true, bumpDepth, Except.map, liveState_mk]
      cases ob <;> cases ist <;> rfl
    | false =>
      simp only [Bool.false_eq_true, if_false]
      cases regexSearch R_STRUCT_START o with
      | some m =>
        simp only [bumpDepth, Except.map, liveState_mk]
        cases ob <;> rfl
      | none =>
        simp only []
        split
        · cases injectMixin ind (getlines _) with
          | error e => rfl
          | ok injected =>
            simp only [Except.map, liveState_mk]
            cases ist <;> rfl
        · split
          · cases translateTypeE (Match.group _ 2) with
            | error e => rfl
            | ok ty =>
              simp only [Except.map, liveState_mk]
              cases ist <;> rfl
          · cases regexSearch R_RESOLVE_START o with
            | some m =>
              simp only [bumpDepth, Except.map, liveState_mk]
              cases ob <;> cases ist <;> rfl
            | none =>
              simp only []
              cases regexSearch R_FUNC_SIGNATURE o with
              | some m => exact hF m
              | none =>
                simp only []
                cases regexSearch R_VAR o with
                | some m => exact hV m
                | none => exact hS

theorem lowerLine_live_eq (fuel : Nat) (c : LineCtx) (t₁ t₂ : Transpiler)
    (h : liveState t₁ = liveState t₂) :
    (lowerLine fuel c t₁).map (fun x => (x.1, liveState x.2))
      = (lowerLine fuel c t₂).map (fun x => (x.1, liveState x.2)) := by
  rw [← lowerLine_live fuel c t₁, ← lowerLine_live fuel c t₂, h]

theorem closeContexts_live_eq (c : LineCtx) (t₁ t₂ : Transpiler) (h : liveState t₁ = liveState t₂) :
    (closeContexts c t₁).1 = (closeContexts c t₂).1
    ∧ liveState (closeContexts c t₁).2 = liveState (closeContexts c t₂).2 := by
  have h1 := closeContexts_live c t₁
  have h2 := closeContexts_live c t₂
  rw [h] at h1
  exact ⟨h1.1.symm.trans h2.1, h1.2.symm.trans h2.2⟩

/-- The function `processLine` reads only the live part of the state: on
two states with the same live part it returns the same text or the same
fault, and leaves states with the same live part. -/
theorem processLine_live_eq (fuel : Nat) (t₁ t₂ : Transpiler) (line : Str)
    (h : liveState t₁ = liveState t₂) :
    (processLine fuel t₁ line).map (fun x => (x.1, liveState x.2))
      = (processLine fuel t₂ line).map (fun x => (x.1, liveState x.2)) := by
  have hd : (liveState t₁).m_braceDepth = (liveState t₂).m_braceDepth := by rw [h]
  have hr : (liveState t₁).m_currentResolveType = (liveState t₂).m_currentResolveType := by rw [h]
  change t₁.m_braceDepth = t₂.m_braceDepth at hd
  change t₁.m_currentResolveType = t₂.m_currentResolveType at hr
  have hp : ∀ b, printDepthOf t₁ b = printDepthOf t₂ b := by
    intro b
    simp only [printDepthOf, hd, hr]
  unfold processLine
  simp only [hp]
  split
  · simp only [Except.map, h]
  · split
    · rfl
    · rename_i ind _
      obtain ⟨e1, e2⟩ := closeContexts_live_eq
        ⟨line, if hasSub "self.".toList (regexReplace R_LEADING_WS 0 [] line) = true
            then regexReplace R_SELF_DOT 0 "self->".toList (regexReplace R_LEADING_WS 0 [] line)
            else regexReplace R_LEADING_WS 0 [] line,
          regexTest R_OPENS_AT_END (regexReplace R_LEADING_WS 0 [] line)
            || regexTest R_OPENS_AT_START (regexReplace R_LEADING_WS 0 [] line),
          regexTest R_CLOSES (regexReplace R_LEADING_WS 0 [] line), ind⟩ t₁ t₂ h
      revert e1 e2
      generalize closeContexts _ t₁ = r₁
      generalize closeContexts _ t₂ = r₂
      obtain ⟨a₁, s₁⟩ := r₁
      obtain ⟨a₂, s₂⟩ := r₂
      intro e1 e2
      simp only at e1 e2
      subst e1
      cases a₁ with
      | some res => simp only [Except.map, e2]
      | none => exact lowerLine_live_eq fuel _ s₁ s₂ e2

/-! ## The lines emitted so far are left alone by `processLine` -/

theorem bumpDepth_output (c : LineCtx) (t : Transpiler) :
    (bumpDepth c t).m_outputLines = t.m_outputLines := by
  simp only [bumpDepth]
  split_ifs <;> rfl

theorem closeContexts_output (c : LineCtx) (t : Transpiler) :
    (closeContexts c t).2.m_outputLines = t.m_outputLines := by
  simp only [closeContexts, popIfOpen]
  split_ifs <;> rfl

theorem lowerFunc_output (c : LineCtx) (t t' : Transpiler) (m : Match) (r : Str)
    (h : lowerFunc c t m = .ok (r, t')) : t'.m_outputLines = t.m_outputLines := by
  unfold lowerFunc at h
  simp only at h
  split at h
  · exact Except.noConfusion h
  · split at h
    · exact Except.noConfusion h
    · split_ifs at h
      all_goals (cases h; first | rfl | (simp only [bumpDepth]; split_ifs <;> rfl))

theorem lowerVar_output (fuel : Nat) (c : LineCtx) (t t' : Transpiler) (m : Match) (r : Str)
    (h : lowerVar fuel c t m = .ok (r, t')) : t'.m_outputLines = t.m_outputLines := by
  unfold lowerVar at h
  simp only at h
  repeat (any_goals (first | (cases h; done) | split at h))
  all_goals (cases h; rfl)

theorem lowerStmt_output (fuel : Nat) (c : LineCtx) (t t' : Transpiler) (r : Str)
    (h : lowerStmt fuel c t = .ok (r, t')) : t'.m_outputLines = t.m_outputLines := by
  unfold lowerStmt at h
  simp only at h
  repeat (any_goals (first | (cases h; done) | split at h))
  all_goals (cases h; first | rfl | exact bumpDepth_output _ _)

theorem lowerLine_output (fuel : Nat) (c : LineCtx) (t t' : Transpiler) (r : Str)
    (h : lowerLine fuel c t = .ok (r, t')) : t'.m_outputLines = t.m_outputLines := by
  unfold lowerLine at h
  simp only at h
  repeat (any_goals (first | (cases h; done) | split at h))
  all_goals first
    | (cases h; first | rfl | exact bumpDepth_output _ _)
    | exact lowerFunc_output c t t' _ r h
    | exact lowerVar_output fuel c t t' _ r h
    | exact lowerStmt_output fuel c t t' r h

/-- The function `processLine` leaves the lines emitted so far as they
are. -/
theorem processLine_output (fuel : Nat) (t t' : Transpiler) (line r : Str)
    (h : processLine fuel t line = .ok (r, t')) : t'.m_outputLines = t.m_outputLines := by
  rcases processLine_cases fuel t t' line r h with ⟨-, rfl⟩ | ⟨-, ind, ⟨-, rfl⟩ | h2⟩
  · rfl
  · exact closeContexts_output _ t
  · rw [lowerLine_output fuel _ _ t' r h2, closeContexts_output]

/-! ## The rewrite pass on a state left by an earlier run -/

/-- Two states with the same live part agree on everything but the source
text, the lines emitted and the records of closed mixin definitions and
structs. -/
theorem live_fields {t₁ t₂ : Transpiler} (h : liveState t₁ = liveState t₂) :
    t₁.m_config = t₂.m_config ∧ t₁.m_symbols = t₂.m_symbols ∧ t₁.m_sharedMixins = t₂.m_sharedMixins
    ∧ t₁.m_currentResolveType = t₂.m_currentResolveType ∧ t₁.m_braceDepth = t₂.m_braceDepth
    ∧ t₁.m_pendingAttribute = t₂.m_pendingAttribute
    ∧ t₁.m_currentStructAttribute = t₂.m_currentStructAttribute
    ∧ t₁.m_inShared = t₂.m_inShared ∧ t₁.m_inStruct = t₂.m_inStruct := by
  have key : ∀ {α : Type} (f : Transpiler → α), f (liveState t₁) = f (liveState t₂) := by
    intro α f
    rw [h]
  refine ⟨?_, ?_, ?_, ?_, ?_, ?_, ?_, ?_, ?_⟩
  · exact key Transpiler.m_config
  · exact key Transpiler.m_symbols
  · exact key Transpiler.m_sharedMixins
  · exact key Transpiler.m_currentResolveType
  · exact key Transpiler.m_braceDepth
  · exact key Transpiler.m_pendingAttribute
  · exact key Transpiler.m_currentStructAttribute
  · exact key Transpiler.m_inShared
  · exact key Transpiler.m_inStruct

theorem liveState_output (t : Transpiler) (o : List Str) :
    liveState { t with m_outputLines := o } = liveState t := rfl

theorem liveState_pending {t₁ t₂ : Transpiler} (h : liveState t₁ = liveState t₂) (x : Str) :
    liveState { t₁ with m_pendingAttribute := x } = liveState { t₂ with m_pendingAttribute := x } := by
  have e : ∀ t : Transpiler,
      liveState { t with m_pendingAttribute := x } = { liveState t with m_pendingAttribute := x } :=
    fun _ => rfl
  rw [e, e, h]

/-- A turn of the loop of `pass2_Transpilation` on two states with the same
live part, of which the first holds the lines `pre` before the lines of the
second: the same fault, or states of the same kind again and the same
flag. -/
theorem pass2Line_carry (fuel : Nat) (t₁ t₂ : Transpiler) (b : Bool) (line : Str) (pre : List Str)
    (h : liveState t₁ = liveState t₂) (ho : t₁.m_outputLines = pre ++ t₂.m_outputLines) :
    (∃ e, pass2Line fuel t₁ b line = .error e ∧ pass2Line fuel t₂ b line = .error e)
    ∨ (∃ s₁ s₂ b', pass2Line fuel t₁ b line = .ok (s₁, b') ∧ pass2Line fuel t₂ b line = .ok (s₂, b')
        ∧ liveState s₁ = liveState s₂ ∧ s₁.m_outputLines = pre ++ s₂.m_outputLines) := by
  obtain ⟨hcfg, -, -, -, hd, hpa, -, -, -⟩ := live_fields h
  have hP := processLine_live_eq fuel t₁ t₂ line h
  have hI : indentOf t₁.m_braceDepth = indentOf t₂.m_braceDepth := by rw [hd]
  have hK : t₁.m_config.keep_comments = t₂.m_config.keep_comments := by rw [hcfg]
  unfold pass2Line
  rw [hI, hK]
  by_cases h1 : regexTest R_NATIVE_BLOCK line = true
  · simp only [h1, if_true]
    by_cases h2 : chRBrace ∈ line
    · simp only [h2, if_true]
      cases indentOf t₂.m_braceDepth with
      | error e => exact Or.inl ⟨e, rfl, rfl⟩
      | ok ind =>
        refine Or.inr ⟨_, _, _, rfl, rfl, ?_, ?_⟩
        · exact h
        · simp only [ho, List.append_assoc]
    · simp only [h2, if_false]
      exact Or.inr ⟨_, _, _, rfl, rfl, h, ho⟩
  · simp only [h1, if_false]
    by_cases hb : b = true
    · simp only [hb, if_true]
      by_cases h2 : chRBrace ∈ line
      · simp only [h2, if_true]
        exact Or.inr ⟨_, _, _, rfl, rfl, h, ho⟩
      · simp only [h2, if_false]
        cases indentOf t₂.m_braceDepth with
        | error e => exact Or.inl ⟨e, rfl, rfl⟩
        | ok ind =>
          refine Or.inr ⟨_, _, _, rfl, rfl, ?_, ?_⟩
          · exact h
          · simp only [ho, List.append_assoc]
    · simp only [hb, if_false]
      by_cases h3 : regexTest R_COMMENT line = true
      · simp only [h3, if_true]
        cases indentOf t₂.m_braceDepth with
        | error e => exact Or.inl ⟨e, rfl, rfl⟩
        | ok ind =>
          by_cases hk : t₂.m_config.keep_comments = true
          · simp only [hk, if_true]
            refine Or.inr ⟨_, _, _, rfl, rfl, ?_, ?_⟩
            · exact h
            · simp only [ho, List.append_assoc]
          · simp only [hk, if_false]
            exact Or.inr ⟨_, _, _, rfl, rfl, h, ho⟩
      · simp only [h3, if_false]
        cases regexSearch R_ATTRIBUTE_LINE line with
        | some m =>
          simp only [hpa]
          exact Or.inr ⟨_, _, _, rfl, rfl, liveState_pending h _, ho⟩
        | none =>
          simp only []
          cases hp₁ : processLine fuel t₁ line with
          | error e₁ =>
            cases hp₂ : processLine fuel t₂ line with
            | error e₂ =>
              rw [hp₁, hp₂] at hP
              cases hP
              exact Or.inl ⟨e₁, rfl, rfl⟩
            | ok x₂ =>
              rw [hp₁, hp₂] at hP
              cases hP
          | ok x₁ =>
            cases hp₂ : processLine fuel t₂ line with
            | error e₂ =>
              rw [hp₁, hp₂] at hP
              cases hP
            | ok x₂ =>
              obtain ⟨r₁, s₁⟩ := x₁
              obtain ⟨r₂, s₂⟩ := x₂
              rw [hp₁, hp₂] at hP
              simp only [Except.map, Except.ok.injEq, Prod.mk.injEq] at hP
              obtain ⟨rfl, hs⟩ := hP
              have o₁ := processLine_output fuel t₁ s₁ line r₁ hp₁
              have o₂ := processLine_output fuel t₂ s₂ line r₁ hp₂
              simp only []
              by_cases hr : r₁ ≠ []
              · simp only [if_pos hr]
                refine Or.inr ⟨_, _, _, rfl, rfl, ?_, ?_⟩
                · exact hs
                · simp only [o₁, o₂, ho, List.append_assoc]
              · simp only [if_neg hr]
                exact Or.inr ⟨_, _, _, rfl, rfl, hs, by rw [o₁, o₂, ho]⟩

/-- The loop of `pass2_Transpilation` on two states with the same live part,
of which the first holds the lines `pre` before the lines of the second: it
ends on states of the same kind, with the same fault if any. -/
theorem pass2Lines_carry (fuel : Nat) (pre : List Str) :
    ∀ (lines : List Str) (t₁ t₂ : Transpiler) (b : Bool),
      liveState t₁ = liveState t₂ → t₁.m_outputLines = pre ++ t₂.m_outputLines →
      liveState (pass2Lines fuel lines t₁ b).1 = liveState (pass2Lines fuel lines t₂ b).1
      ∧ (pass2Lines fuel lines t₁ b).1.m_outputLines = pre ++ (pass2Lines fuel lines t₂ b).1.m_outputLines
      ∧ (pass2Lines fuel lines t₁ b).2 = (pass2Lines fuel lines t₂ b).2 := by
  intro lines
  induction lines with
  | nil =>
    intro t₁ t₂ b h ho
    exact ⟨h, ho, rfl⟩
  | cons l ls ih =>
    intro t₁ t₂ b h ho
    rw [pass2Lines, pass2Lines]
    rcases pass2Line_carry fuel t₁ t₂ b l pre h ho with ⟨e, e₁, e₂⟩ | ⟨s₁, s₂, b', e₁, e₂, hs, hso⟩
    · rw [e₁, e₂]
      exact ⟨h, ho, rfl⟩
    · rw [e₁, e₂]
      exact ih s₁ s₂ b' hs hso

/-- The two passes on a state left by an earlier run, and on a fresh state
with the same configuration and the same mixins: the same live part at the
end, the same fault if any, and the lines of the earlier run before the
lines emitted. -/
theorem runPasses_carry (fuel : Nat) (t : Transpiler) (src : Str) :
    liveState (runPasses fuel t src).1 = liveState (runPasses fuel (presetFresh t) src).1
    ∧ (runPasses fuel t src).1.m_outputLines
        = t.m_outputLines ++ (runPasses fuel (presetFresh t) src).1.m_outputLines
    ∧ (runPasses fuel t src).2 = (runPasses fuel (presetFresh t) src).2 := by
  unfold runPasses pass2_Transpilation
  apply pass2Lines_carry
  · rfl
  · simp [resetForPass2, pass1_Discovery, presetFresh, Transpiler.fresh]

theorem presetFresh_empty (t : Transpiler) (h : t.m_sharedMixins = []) :
    presetFresh t = Transpiler.fresh t.m_config := by
  simp [presetFresh, h, Transpiler.fresh]

/-! ## Signatures without a body, on any line of the grammar -/

/-- A replacement by a text without `$` brings in no character that is
neither in the subject nor in the replacement text. -/
theorem mem_replaceLoop (r : Re) (n : Nat) (fmt : Str) (hfmt : '$' ∉ fmt) (x : Char) :
    ∀ (fuel : Nat) (pre s : Str), x ∈ replaceLoop r n fmt fuel pre s → x ∈ s ∨ x ∈ fmt := by
  intro fuel
  induction fuel with
  | zero => intro pre s h; exact Or.inl h
  | succ fuel ih =>
    intro pre s h
    rw [replaceLoop] at h
    cases hs : searchFrom r [] pre s with
    | none => rw [hs] at h; exact Or.inl h
    | some m =>
      rw [hs] at h
      obtain ⟨u, h1, h2, -⟩ := searchFrom_sound r s [] pre m hs
      simp only [List.reverse_nil, List.nil_append] at h2
      obtain ⟨p, w, sfx, caps⟩ := m
      simp only at h1 h2 h
      subst h2
      cases w with
      | nil =>
        cases sfx with
        | nil =>
          simp only [formatWith_plain _ _ _ hfmt, List.mem_append] at h
          rcases h with h | h
          · exact Or.inl (by rw [h1]; simp [h])
          · exact Or.inr h
        | cons y ys =>
          simp only [formatWith_plain _ _ _ hfmt, List.mem_append, List.mem_cons] at h
          rcases h with (h | h) | h | h
          · exact Or.inl (by rw [h1]; simp [h])
          · exact Or.inr h
          · exact Or.inl (by rw [h1]; simp [h])
          · rcases ih _ _ h with h | h
            · exact Or.inl (by rw [h1]; simp [h])
            · exact Or.inr h
      | cons y ys =>
        simp only [formatWith_plain _ _ _ hfmt, List.mem_append] at h
        rcases h with (h | h) | h
        · exact Or.inl (by rw [h1]; simp [h])
        · exact Or.inr h
        · rcases ih _ _ h with h | h
          · exact Or.inl (by rw [h1]; simp [h])
          · exact Or.inr h

/-- The text of a line holds no character that is neither in the line nor in
`self->`. -/
theorem mem_lineText (l : Str) (x : Char) (h : x ∈ lineText l) : x ∈ l ∨ x ∈ "self->".toList := by
  unfold lineText at h
  simp only [trim_eq_dropWhile] at h
  split_ifs at h
  · rcases mem_replaceLoop _ _ _ (by decide) x _ _ _ h with h | h
    · exact Or.inl (mem_of_mem_dropWhile h)
    · exact Or.inr h
  · exact Or.inl (mem_of_mem_dropWhile h)

theorem lbrace_not_mem_lineText (l : Str) (h : chLBrace ∉ l) : chLBrace ∉ lineText l := by
  intro hx
  rcases mem_lineText l _ hx with hx | hx
  · exact h hx
  · exact absurd hx (by decide)

/-- The text of a line begins with the first non-blank character of the
line. -/
theorem lineText_head (l : Str) (c : Char) (cs : Str) (h : l.dropWhile isSpace = c :: cs) :
    ∃ cs', lineText l = c :: cs' := by
  unfold lineText
  simp only [trim_eq_dropWhile, h]
  split_ifs
  · unfold regexReplace
    cases hm : matchAt R_SELF_DOT [] (c :: cs) with
    | none =>
      rw [List.length_cons, replaceLoop_miss _ _ _ (by decide) _ _ _ _ hm]
      exact ⟨_, rfl⟩
    | some hit =>
      obtain ⟨w, cur⟩ := hit
      obtain ⟨h1, h2⟩ := matchAt_sound hm
      have hw : w = "self.".toList := by
        simp only [R_SELF_DOT, Re.lit, Re.Accepts, isChar, beq_iff_eq] at h2
        obtain ⟨w₁, w₂, rfl, ⟨_, rfl, rfl⟩, w₃, w₄, rfl, ⟨_, rfl, rfl⟩, w₅, w₆, rfl, ⟨_, rfl, rfl⟩,
          w₇, w₈, rfl, ⟨_, rfl, rfl⟩, w₉, w₁₀, rfl, ⟨_, rfl, rfl⟩, rfl⟩ := h2
        rfl
      subst hw
      have hc : c = 's' := by
        simp at h1
        exact h1.1
      subst hc
      rw [List.length_cons, replaceLoop, searchFrom_hit [] hm]
      simp only [formatWith_plain _ _ _ (by decide : '$' ∉ "self->".toList), String.toList]
      exact ⟨_, rfl⟩
  · exact ⟨_, rfl⟩
theorem lineText_head₂ (l : Str) (c d : Char) (cs : Str) (h : l.dropWhile isSpace = c :: d :: cs)
    (hc : c ≠ 's') (hd : d ≠ 's') : ∃ cs', lineText l = c :: d :: cs' := by
  unfold lineText
  simp only [trim_eq_dropWhile, h]
  have h1 : ∀ pre, matchAt R_SELF_DOT pre (c :: d :: cs) = none := fun pre =>
    matchAt_first_none _ _ _ _ (by decide) (by simpa [R_SELF_DOT, Re.lit, Re.first, Re.nullable, isChar] using hc)
  have h2 : ∀ pre, matchAt R_SELF_DOT pre (d :: cs) = none := fun pre =>
    matchAt_first_none _ _ _ _ (by decide) (by simpa [R_SELF_DOT, Re.lit, Re.first, Re.nullable, isChar] using hd)
  split_ifs
  · unfold regexReplace
    rw [List.length_cons, replaceLoop_miss _ _ _ (by decide) _ _ _ _ (h1 _),
      replaceLoop_miss _ _ _ (by decide) _ _ _ _ (h2 _)]
    exact ⟨_, rfl⟩
  · exact ⟨_, rfl⟩

/-- A match of an expression anchored at the start begins the subject, with
a character of the first set. -/
theorem search_bol_first {r : Re} {s : Str} {m : Match} (e : regexSearch (.seq .bol r) s = some m)
    (hn : (Re.seq .bol r).nullable = false) :
    ∃ c cs, s = c :: cs ∧ (Re.seq .bol r).first c = true := by
  obtain ⟨h1, h2⟩ := regexSearch_sound e
  have hp : m.pfx = [] := by
    obtain ⟨w₁, w₂, -, ⟨-, hpre⟩, -⟩ := h2
    simpa using hpre
  rcases accepts_first _ _ _ _ h2 with ⟨-, hn'⟩ | ⟨c, w', hw, hc⟩
  · rw [hn] at hn'; exact Bool.noConfusion hn'
  · exact ⟨c, w' ++ m.sfx, by rw [h1, hp, hw]; rfl, hc⟩

/-- An include line begins with `@i`, leading blanks apart. -/
theorem include_head {s : Str} {m : Match} (e : regexSearch R_INCLUDE s = some m)
    (hs : StopsAt isSpace s) : ∃ cs, s = '@' :: 'i' :: cs := by
  obtain ⟨h1, h2⟩ := regexSearch_sound e
  simp only [R_INCLUDE, Re.cat, Re.lit, Re.Accepts, ws, isChar, beq_iff_eq] at h2
  obtain ⟨w₁, w₂, hw, ⟨rfl, hpre⟩, w₃, w₄, rfl, hsp, w₅, w₆, rfl, hlit, -⟩ := h2
  obtain ⟨a₁, a₂, rfl, ⟨_, rfl, rfl⟩, a₃, a₄, rfl, ⟨_, rfl, rfl⟩, -⟩ := hlit
  have hp : m.pfx = [] := by simpa using hpre
  rw [hw, hp] at h1
  cases w₃ with
  | nil => exact ⟨_, by rw [h1]; rfl⟩
  | cons x xs =>
    have hx : isSpace x = true := hsp x (by simp)
    have := hs x (by rw [h1]; rfl)
    rw [hx] at this
    exact Bool.noConfusion this

theorem funcSig_at_i (rest : Str) : regexSearch R_FUNC_SIGNATURE ('@' :: 'i' :: rest) = none := by
  apply regexSearch_bol_none
  simp [matchAt, R_FUNC_SIGNATURE, attrOpt, Re.cat, Re.lit, Re.run, ws, starG, isSpace, isChar, orElse]
theorem lineText_nil (l : Str) (h : l.dropWhile isSpace = []) : lineText l = [] := by
  unfold lineText
  simp [trim_eq_dropWhile, h, hasSub]

/-- A line whose text matches the signature expression is no include line,
does not begin with a closing brace and is no `use` line. -/
theorem funcLine_facts (l : Str) (m : Match) (hm : regexSearch R_FUNC_SIGNATURE (lineText l) = some m) :
    regexSearch R_INCLUDE (l.dropWhile isSpace) = none
    ∧ regexTest R_STARTS_CLOSING (l.dropWhile isSpace) = false
    ∧ regexTest R_CLOSES (l.dropWhile isSpace) = false
    ∧ regexSearch R_USE_MIXIN (lineText l) = none := by
  cases hD : l.dropWhile isSpace with
  | nil =>
    rw [lineText_nil l hD] at hm
    have : regexSearch R_FUNC_SIGNATURE [] = none := regexSearch_bol_none (matchAt_nil_none _ _ (by decide))
    rw [this] at hm
    exact Option.noConfusion hm
  | cons c cs =>
    have hsp : isSpace c = false := by
      have := List.head?_dropWhile_not isSpace l
      rw [hD] at this
      simpa using this
    obtain ⟨cs', hT⟩ := lineText_head l c cs hD
    rw [hT] at hm ⊢
    obtain ⟨c', cs'', he, hf⟩ := search_bol_first hm (by decide)
    simp only [List.cons.injEq] at he
    obtain ⟨rfl, -⟩ := he
    have hset : c = '@' ∨ c = 'i' ∨ c = 'e' ∨ c = 's' ∨ c = 'f' := by
      simp only [R_FUNC_SIGNATURE, attrOpt, Re.cat, Re.lit, Re.first, Re.nullable, ws, ws1, Re.plus,
        isChar, hsp, Bool.false_or, Bool.true_and, Bool.or_false, Bool.and_true, Bool.false_and,
        Bool.or_eq_true, beq_iff_eq, Bool.and_false] at hf
      tauto
    refine ⟨?_, ?_, ?_, ?_⟩
    · by_cases hat : c = '@'
      · subst hat
        cases hi : regexSearch R_INCLUDE ('@' :: cs) with
        | none => rfl
        | some mi =>
          obtain ⟨ds, hds⟩ := include_head hi (stopsAt_cons _ (by decide))
          simp only [List.cons.injEq, true_and] at hds
          subst hds
          obtain ⟨es, hes⟩ := lineText_head₂ l '@' 'i' ds hD (by decide) (by decide)
          rw [hT] at hes
          rw [hes, funcSig_at_i] at hm
          exact Option.noConfusion hm
      · rcases hset with h | h | h | h | h
        · exact absurd h hat
        all_goals (subst h; exact regexSearch_first_none _ _ _ (by decide) (by decide))
    · rcases hset with h | h | h | h | h
      all_goals (subst h; exact regexTest_first_false _ _ _ (by decide) (by decide))
    · rcases hset with h | h | h | h | h
      all_goals (subst h; exact regexTest_first_false _ _ _ (by decide) (by decide))
    · rcases hset with h | h | h | h | h
      all_goals (subst h; exact regexSearch_first_none _ _ _ (by decide) (by decide))
/-- The loop over the parameters of a declaration leaves the symbol table
as it is. -/
theorem lowerArgs_decl_syms (V : Str) :
    ∀ (args cArgs : List Str) (syms : SymbolTable) (cArgs' : List Str) (syms' : SymbolTable),
      lowerArgs V false args cArgs syms = .ok (cArgs', syms') → syms' = syms := by
  intro args
  induction args with
  | nil =>
    intro cArgs syms cArgs' syms' h
    simp only [lowerArgs, Except.ok.injEq, Prod.mk.injEq] at h
    exact h.2.symm
  | cons a rest ih =>
    intro cArgs syms cArgs' syms' h
    rw [lowerArgs] at h
    simp only [Bool.false_eq_true, if_false] at h
    repeat (any_goals (first | exact Except.noConfusion h | exact ih _ _ _ _ h | split at h))

/-- The function `processLine` on a line whose text matches the signature
expression and that holds no opening brace, outside a mixin definition and
at a non-negative depth, when the types translate: the lowered prototype
with its terminator; the depth stays as it is and the symbol table gains at
most the binding of `self` that a resolve block brings. -/
theorem processLine_signature (fuel : Nat) (t : Transpiler) (line : Str) (m : Match) (ret : Str)
    (cArgs : List Str) (syms : SymbolTable)
    (hm : regexSearch R_FUNC_SIGNATURE (lineText line) = some m) (hb : chLBrace ∉ line)
    (hsh : t.m_inShared = false) (hd : 0 ≤ t.m_braceDepth)
    (hret : translateType (m.group 5) = some ret)
    (hargs : lowerArgs t.m_currentResolveType false (regexSplit R_ARG_SPLIT (m.group 4))
        (if t.m_currentResolveType ≠ [] then [t.m_currentResolveType ++ "* self".toList] else [])
        (if t.m_currentResolveType ≠ [] then t.m_symbols.add "self".toList t.m_currentResolveType
          else t.m_symbols) = .ok (cArgs, syms)) :
    processLine fuel t line
      = .ok (spaces (printDepthOf t false).toNat
            ++ (if m.group 1 ≠ [] then "__attribute__((".toList ++ m.group 1 ++ ")) ".toList else [])
            ++ (if m.group 2 = [] then [] else m.group 2 ++ " ".toList)
            ++ ret ++ " ".toList
            ++ (if t.m_currentResolveType ≠ [] then t.m_currentResolveType ++ "_".toList ++ m.group 3
                else m.group 3)
            ++ "(".toList ++ joinArgs cArgs ++ ")".toList ++ ";".toList,
          { t with
              m_symbols :=
                if t.m_currentResolveType ≠ [] then t.m_symbols.add "self".toList t.m_currentResolveType
                else t.m_symbols }) := by
  obtain ⟨f2, f4, f5, f9⟩ := funcLine_facts line m hm
  have hb' : chLBrace ∉ line.dropWhile isSpace := fun h => hb (mem_of_mem_dropWhile h)
  have hbT := lbrace_not_mem_lineText line hb
  have f3 : regexTest R_OPENS_AT_END (line.dropWhile isSpace) = false :=
    regexTest_requires_false requires_R_OPENS_AT_END hb'
  have f3' : regexTest R_OPENS_AT_START (line.dropWhile isSpace) = false :=
    regexTest_requires_false requires_R_OPENS_AT_START hb'
  have f7 : regexSearch R_SHARED_START (lineText line) = none :=
    regexSearch_requires_none requires_R_SHARED_START hbT
  have f8 : regexSearch R_STRUCT_START (lineText line) = none :=
    regexSearch_requires_none requires_R_STRUCT_START hbT
  have f10 : regexSearch R_RESOLVE_START (lineText line) = none :=
    regexSearch_requires_none requires_R_RESOLVE_START hbT
  have f12 : regexTest R_FUNC_SIGNATURE (lineText line) = true := by
    simp [regexTest, hm]
  have hp := printDepth_nonneg t false hd
  have hs := lowerArgs_decl_syms _ _ _ _ _ _ hargs
  subst hs
  have hT : (if hasSub "self.".toList (List.dropWhile isSpace line) = true then
      regexReplace R_SELF_DOT 0 "self->".toList (List.dropWhile isSpace line)
      else List.dropWhile isSpace line) = lineText line := by
    simp [lineText, trim_eq_dropWhile]
  unfold processLine
  simp only [trim_eq_dropWhile, f2, f3, f3', f4, f5, hT, f7, f8, f9, f10, hm, f12, Bool.or_false,
    closeContexts, Bool.false_eq_true, if_false, lowerLine, hsh, indentOf_nonneg _ hp, and_false,
    false_and, lowerFunc, hb, decide_False, translateTypeE, hret, hargs]
  simp

/-! ## The brace depth, line by line, as the detection reads the braces -/

/-- The end of `processLine`: the depth goes up by one exactly when the line
opens a block and `stmtOpens` holds of its text. -/
theorem lowerStmt_depth_exact (fuel : Nat) (c : LineCtx) (t t' : Transpiler) (r : Str)
    (h : lowerStmt fuel c t = .ok (r, t')) :
    t'.m_braceDepth
      = t.m_braceDepth + (if (c.opensBrace && stmtOpens fuel t c.out) = true then 1 else 0) := by
  unfold lowerStmt at h
  unfold stmtOpens
  cases hr : rewriteExpr t.m_symbols fuel c.out with
  | error e => rw [hr] at h; exact Except.noConfusion h
  | ok out =>
    rw [hr] at h
    simp only at h ⊢
    cases ho : c.opensBrace with
    | false =>
      simp only [bumpDepth_closed c t ho, ho, Bool.false_eq_true, false_and, if_false] at h
      repeat (any_goals (first | exact Except.noConfusion h | split at h))
      all_goals (cases h; simp)
    | true =>
      simp only [ho, Bool.not_true, Bool.and_false, Bool.false_and, Bool.false_eq_true, if_false,
        true_and] at h
      repeat (any_goals (first | exact Except.noConfusion h | split at h))
      all_goals (cases h; simp_all [regexTest, bumpDepth])
/-- The middle of `processLine`: the depth goes up by one exactly when the
line opens a block and is lowered as the head of a block. -/
theorem lowerLine_depth_exact (fuel : Nat) (c : LineCtx) (t t' : Transpiler) (r : Str)
    (h : lowerLine fuel c t = .ok (r, t')) :
    t'.m_braceDepth
      = t.m_braceDepth + (if (c.opensBrace && lowersAsBlock fuel c t) = true then 1 else 0) := by
  cases ho : c.opensBrace with
  | false =>
    rw [lowerLine_depth_same fuel c t t' r ho h]
    simp
  | true =>
    unfold lowerLine at h
    simp only [Bool.true_and]
    cases h1 : regexSearch R_SHARED_START c.out with
    | some m =>
      have hl : lowersAsBlock fuel c t = true := by simp [lowersAsBlock, h1]
      simp only [h1] at h
      cases h
      rw [hl]
      simp only [bumpDepth, ho, if_true]
      split_ifs <;> rfl
    | none =>
      simp only [h1] at h
      by_cases h2 : t.m_inShared = true
      · have hl : lowersAsBlock fuel c t = true := by simp [lowersAsBlock, h1, h2]
        simp only [h2, if_true] at h
        cases h
        rw [hl]
        simp [bumpDepth, ho]
      · simp only [h2, if_false] at h
        cases h3 : regexSearch R_STRUCT_START c.out with
        | some m =>
          have hl : lowersAsBlock fuel c t = true := by simp [lowersAsBlock, h1, h2, h3]
          simp only [h3] at h
          cases h
          rw [hl]
          simp [bumpDepth, ho]
        | none =>
          simp only [h3] at h
          simp only [Bool.false_eq_true, if_false] at h
          split at h
          · rename_i body heq
            have h4 : (regexSearch R_USE_MIXIN c.out).bind
                (fun m => mapFind t.m_sharedMixins (m.group 1)) = some body := by
              cases hu : regexSearch R_USE_MIXIN c.out with
              | none => rw [hu] at heq; exact Option.noConfusion heq
              | some m => rw [hu] at heq; simpa using heq
            have hl : lowersAsBlock fuel c t = false := by simp [lowersAsBlock, h1, h2, h3, h4]
            split at h
            · exact Except.noConfusion h
            · cases h
              rw [hl]
              simp
          · rename_i heq
            have h4 : (regexSearch R_USE_MIXIN c.out).bind
                (fun m => mapFind t.m_sharedMixins (m.group 1)) = none := by
              cases hu : regexSearch R_USE_MIXIN c.out with
              | none => rfl
              | some m => rw [hu] at heq; simpa using heq
            by_cases h5 : t.m_inStruct = true ∧ regexTest R_FUNC_SIGNATURE c.out = false
                ∧ c.closesBrace = false ∧ (regexSearch R_FIELD c.out).isSome = true
            · have hl : lowersAsBlock fuel c t = false := by simp [lowersAsBlock, h1, h2, h3, h4, h5]
              obtain ⟨m, hm⟩ := Option.isSome_iff_exists.mp h5.2.2.2
              simp only [h5.1, h5.2.1, h5.2.2.1, and_self, if_true, hm] at h
              split at h
              · exact Except.noConfusion h
              · cases h
                rw [hl]
                simp
            · have h5' : (if t.m_inStruct = true ∧ regexTest R_FUNC_SIGNATURE c.out = false
                    ∧ c.closesBrace = false then regexSearch R_FIELD c.out else none) = none := by
                split_ifs with h6
                · cases h7 : regexSearch R_FIELD c.out with
                  | none => rfl
                  | some m => exact absurd ⟨h6.1, h6.2.1, h6.2.2, by simp [h7]⟩ h5
                · rfl
              rw [h5'] at h
              simp only at h
              cases h8 : regexSearch R_RESOLVE_START c.out with
              | some m =>
                have hl : lowersAsBlock fuel c t = true := by
                  simp only [lowersAsBlock, h1, h2, h3, h4, h5, h8]
                  simp
                simp only [h8] at h
                cases h
                rw [hl]
                simp [bumpDepth, ho]
              | none =>
                simp only [h8] at h
                cases h9 : regexSearch R_FUNC_SIGNATURE c.out with
                | some m =>
                  have hl : lowersAsBlock fuel c t = decide (chLBrace ∈ c.line) := by
                    simp only [lowersAsBlock, h1, h2, h3, h4, h5, h8, h9]
                    simp
                  simp only [h9] at h
                  rw [hl, lowerFunc_depth c t t' m r h]
                  simp only [ho, and_true, decide_eq_true_eq]
                  split_ifs <;> simp
                | none =>
                  simp only [h9] at h
                  cases h10 : regexSearch R_VAR c.out with
                  | some m =>
                    have hl : lowersAsBlock fuel c t = false := by
                      simp only [lowersAsBlock, h1, h2, h3, h4, h5, h8, h9, h10]
                      simp
                    simp only [h10] at h
                    rw [hl, lowerVar_depth fuel c t t' m r h]
                    simp
                  | none =>
                    have hl : lowersAsBlock fuel c t = stmtOpens fuel t c.out := by
                      simp only [lowersAsBlock, h1, h2, h3, h4, h5, h8, h9, h10]
                      simp
                    simp only [h10] at h
                    rw [hl, lowerStmt_depth_exact fuel c t t' r h, ho]
                    simp
/-- An include line does not begin with a closing brace. -/
theorem include_not_closes (l : Str)
    (h : (regexSearch R_INCLUDE (regexReplace R_LEADING_WS 0 [] l)).isSome = true) : closesAt l = false := by
  obtain ⟨m, hm⟩ := Option.isSome_iff_exists.mp h
  unfold closesAt
  rw [trim_eq_dropWhile] at hm ⊢
  have hs : StopsAt isSpace (l.dropWhile isSpace) := by
    intro z hz
    have := List.head?_dropWhile_not isSpace l
    rw [Option.mem_def.mp hz] at this
    simpa using this
  obtain ⟨cs, hcs⟩ := include_head hm hs
  rw [hcs]
  exact regexTest_first_false _ _ _ (by decide) (by decide)

/-- The closing contexts do not read the indentation but to write their
line. -/
theorem closeContexts_ind (l ind ind' : Str) (t : Transpiler) :
    (closeContexts (lineCtx l ind) t).2 = (closeContexts (lineCtx l ind') t).2
    ∧ (closeContexts (lineCtx l ind) t).1.isSome = (closeContexts (lineCtx l ind') t).1.isSome := by
  simp only [closeContexts, lineCtx]
  split_ifs <;> exact ⟨rfl, rfl⟩

/-- The ways `processLine` returns: at once for an include line; from the
closing contexts, when they return a line; or from the rest of the function,
run on the state the closing contexts leave. -/
theorem processLine_ways (fuel : Nat) (t t' : Transpiler) (line r : Str)
    (h : processLine fuel t line = .ok (r, t')) :
    ((regexSearch R_INCLUDE (regexReplace R_LEADING_WS 0 [] line)).isSome = true ∧ t' = t)
    ∨ (regexSearch R_INCLUDE (regexReplace R_LEADING_WS 0 [] line) = none
        ∧ ∃ ind, ((closeContexts (lineCtx line ind) t).1.isSome = true
              ∧ t' = (closeContexts (lineCtx line ind) t).2)
            ∨ ((closeContexts (lineCtx line ind) t).1 = none
              ∧ lowerLine fuel (lineCtx line ind) (closeContexts (lineCtx line ind) t).2 = .ok (r, t'))) := by
  unfold processLine at h
  simp only at h
  split at h
  · left
    rename_i m hm
    cases h
    simp [hm]
  · right
    rename_i hm
    refine ⟨hm, ?_⟩
    split at h
    · exact Except.noConfusion h
    · rename_i ind _
      refine ⟨ind, ?_⟩
      split at h
      · rename_i res t₁ hc
        left
        cases h
        have hc' : closeContexts (lineCtx line ind) t = (some r, t') := hc
        simp [hc']
      · rename_i t₁ hc
        right
        have hc' : closeContexts (lineCtx line ind) t = (none, t₁) := hc
        rw [hc']
        exact ⟨rfl, h⟩

/-- The depth after a line: one more when `processLine` takes the line as
opening a block, one less when the line begins with a closing brace. -/
theorem processLine_depth_exact (fuel : Nat) (t t' : Transpiler) (line r : Str)
    (h : processLine fuel t line = .ok (r, t')) :
    t'.m_braceDepth = t.m_braceDepth + (if takenAsOpening fuel t line = true then 1 else 0)
      - (if closesAt line = true then 1 else 0) := by
  rcases processLine_ways fuel t t' line r h with ⟨hi, rfl⟩ | ⟨hi, ind, ⟨hs, rfl⟩ | ⟨hn, hl⟩⟩
  · have ho : takenAsOpening fuel t' line = false := by
      obtain ⟨m, hm⟩ := Option.isSome_iff_exists.mp hi
      simp [takenAsOpening, hm]
    rw [ho, include_not_closes line hi]
    simp
  · have ho : takenAsOpening fuel t line = false := by
      have := (closeContexts_ind line [] ind t).2
      rw [hs] at this
      obtain ⟨x, hx⟩ := Option.isSome_iff_exists.mp this
      simp [takenAsOpening, hx]
    rw [ho, closeContexts_depth]
    have hc : (lineCtx line ind).closesBrace = closesAt line := rfl
    rw [hc]
    cases closesAt line <;> simp
  · have e := (closeContexts_ind line [] ind t).1
    have e2 := (closeContexts_ind line [] ind t).2
    rw [hn] at e2
    have hlab : lowersAsBlock fuel (lineCtx line []) (closeContexts (lineCtx line []) t).2
        = lowersAsBlock fuel (lineCtx line ind) (closeContexts (lineCtx line ind) t).2 := by
      rw [e]; rfl
    have ho : takenAsOpening fuel t line
        = (opensAt line && lowersAsBlock fuel (lineCtx line ind) (closeContexts (lineCtx line ind) t).2) := by
      have e3 : (closeContexts (lineCtx line []) t).1.isNone = true := by
        cases hx : (closeContexts (lineCtx line []) t).1 with
        | none => rfl
        | some x => rw [hx] at e2; exact Bool.noConfusion e2
      simp only [takenAsOpening, hi, e3, hlab, Option.isNone_none, Bool.true_and, Bool.and_true]
    rw [lowerLine_depth_exact fuel _ _ t' r hl, closeContexts_depth, ho]
    have hc : (lineCtx line ind).closesBrace = closesAt line := rfl
    have hop : (lineCtx line ind).opensBrace = opensAt line := rfl
    rw [hc, hop]
    split_ifs <;> omega
theorem braceBalance_shift (d : Int) (l : Str) : braceBalance d l = d + braceBalance 0 l := by
  rw [braceBalance_count l d, braceBalance_count l 0]
  omega

/-- A turn of the loop of `pass2_Transpilation`: either the line is native
text, a comment or an attribute line and the depth stays as it is, or the
line is none of these and goes to `processLine`, whose state is kept but for
the emitted line. -/
theorem pass2Line_handed (fuel : Nat) (t t₁ : Transpiler) (b b₁ : Bool) (l : Str) (ls : List Str)
    (h : pass2Line fuel t b l = .ok (t₁, b₁)) :
    ((regexTest R_NATIVE_BLOCK l = true ∨ b = true ∨ regexTest R_COMMENT l = true
          ∨ (regexSearch R_ATTRIBUTE_LINE l).isSome = true)
        ∧ countedLines (l :: ls) b = countedLines ls b₁ ∧ t₁.m_braceDepth = t.m_braceDepth)
    ∨ (countedLines (l :: ls) b = l :: countedLines ls b₁
        ∧ (regexTest R_NATIVE_BLOCK l = false ∧ b = false ∧ regexTest R_COMMENT l = false
            ∧ regexSearch R_ATTRIBUTE_LINE l = none)
        ∧ ∃ r t₂, processLine fuel t l = .ok (r, t₂) ∧ t₁.m_braceDepth = t₂.m_braceDepth) := by
  unfold pass2Line at h
  rw [countedLines]
  by_cases h1 : regexTest R_NATIVE_BLOCK l = true
  · left
    refine ⟨Or.inl h1, ?_⟩
    simp only [h1, if_true] at h ⊢
    by_cases h2 : chRBrace ∈ l
    · simp only [h2, if_true] at h
      split at h
      · exact Except.noConfusion h
      · cases h
        simp [h2]
    · simp only [h2, if_false] at h
      cases h
      simp [h2]
  · simp only [h1, Bool.false_eq_true, if_false] at h ⊢
    by_cases hb : b = true
    · left
      refine ⟨Or.inr (Or.inl hb), ?_⟩
      simp only [hb, if_true] at h ⊢
      by_cases h2 : chRBrace ∈ l
      · simp only [h2, if_true] at h
        cases h
        simp [h2]
      · simp only [h2, if_false] at h
        split at h
        · exact Except.noConfusion h
        · cases h
          simp [h2]
    · simp only [hb, Bool.false_eq_true, if_false] at h ⊢
      by_cases h3 : regexTest R_COMMENT l = true
      · left
        refine ⟨Or.inr (Or.inr (Or.inl h3)), ?_⟩
        simp only [h3, if_true] at h ⊢
        split at h
        · exact Except.noConfusion h
        · split_ifs at h <;> (cases h; simp)
      · simp only [h3, Bool.false_eq_true, if_false] at h ⊢
        cases h4 : regexSearch R_ATTRIBUTE_LINE l with
        | some m =>
          left
          refine ⟨Or.inr (Or.inr (Or.inr rfl)), ?_⟩
          simp only [h4] at h
          cases h
          simp
        | none =>
          right
          simp only [h4] at h
          simp only [Option.isSome_none, Bool.false_eq_true, if_false, true_and]
          split at h
          · exact Except.noConfusion h
          · rename_i r t₂ hp
            split_ifs at h
            · cases h
              exact ⟨rfl, r, t₂, hp, rfl⟩
            · cases h
              exact ⟨rfl, r, _, hp, rfl⟩

/-- A turn of the loop of `pass2_Transpilation` on a unit whose lines have
their braces where `processLine` reads them: the depth moves the way the
braces of the line count, when the line is handed to `processLine`, and the
rest of the unit has its braces where `processLine` reads them. -/
theorem pass2Line_tracks (fuel : Nat) (t t₁ : Transpiler) (b b₁ : Bool) (l : Str) (ls : List Str)
    (h : pass2Line fuel t b l = .ok (t₁, b₁)) (ht : tracksBraces fuel (l :: ls) t b = true) :
    tracksBraces fuel ls t₁ b₁ = true
    ∧ depthAfter t.m_braceDepth (countedLines (l :: ls) b)
        = depthAfter t₁.m_braceDepth (countedLines ls b₁) := by
  rw [tracksBraces, h, Bool.and_eq_true] at ht
  obtain ⟨ht1, ht2⟩ := ht
  refine ⟨ht2, ?_⟩
  rcases pass2Line_handed fuel t t₁ b b₁ l ls h with ⟨-, e, hd⟩ | ⟨e, ⟨f1, f2, f3, f4⟩, r, t₂, hpr, hd⟩
  · rw [e, hd]
  · simp only [f1, f2, f3, f4, Bool.false_eq_true, if_false, Option.isSome_none, lineTracks,
      decide_eq_true_eq] at ht1
    rw [e, hd, processLine_depth_exact fuel t t₂ l r hpr]
    have : depthAfter t.m_braceDepth (l :: countedLines ls b₁)
        = depthAfter (braceBalance t.m_braceDepth l) (countedLines ls b₁) := by
      simp [depthAfter]
    rw [this, braceBalance_shift, ht1]
    congr 1
    omega

/-- The depth after the rewrite pass, when it ends without a fault on a unit
whose lines have their braces where `processLine` reads them: the brace
count of the lines handed to `processLine`, from the depth at the start. -/
theorem pass2Lines_tracks (fuel : Nat) :
    ∀ (lines : List Str) (t t' : Transpiler) (b : Bool),
      pass2Lines fuel lines t b = (t', none) → tracksBraces fuel lines t b = true →
      t'.m_braceDepth = depthAfter t.m_braceDepth (countedLines lines b) := by
  intro lines
  induction lines with
  | nil =>
    intro t t' b h _
    simp only [pass2Lines, Prod.mk.injEq, and_true] at h
    subst h
    simp [countedLines, depthAfter]
  | cons l ls ih =>
    intro t t' b h ht
    rw [pass2Lines] at h
    split at h
    · simp at h
    · rename_i t₁ b₁ hp
      obtain ⟨ht', e⟩ := pass2Line_tracks fuel t t₁ b b₁ l ls hp ht
      rw [e]
      exact ih t₁ t' b₁ h ht'
/-- A turn of the loop of `pass2_Transpilation`: the depth stays as it is on
native text, comment lines and attribute lines, and on a line handed to
`processLine` it moves as `processLine` reads the braces. -/
theorem pass2Line_detected (fuel : Nat) (t t₁ : Transpiler) (b b₁ : Bool) (l : Str)
    (h : pass2Line fuel t b l = .ok (t₁, b₁)) :
    t₁.m_braceDepth
      = (if regexTest R_NATIVE_BLOCK l = true then t.m_braceDepth
        else if b = true then t.m_braceDepth
        else if regexTest R_COMMENT l = true then t.m_braceDepth
        else if (regexSearch R_ATTRIBUTE_LINE l).isSome = true then t.m_braceDepth
        else t.m_braceDepth + (if takenAsOpening fuel t l = true then 1 else 0)
          - (if closesAt l = true then 1 else 0)) := by
  rcases pass2Line_handed fuel t t₁ b b₁ l [] h with ⟨g, -, hd⟩ | ⟨e, ⟨f1, f2, f3, f4⟩, r, t₂, hpr, hd⟩
  · rw [hd]
    by_cases g1 : regexTest R_NATIVE_BLOCK l = true
    · simp [g1]
    · by_cases g2 : b = true
      · simp [g1, g2]
      · by_cases g3 : regexTest R_COMMENT l = true
        · simp [g1, g2, g3]
        · by_cases g4 : (regexSearch R_ATTRIBUTE_LINE l).isSome = true
          · simp [g1, g2, g3, g4]
          · rcases g with g | g | g | g
            · exact absurd g g1
            · exact absurd g g2
            · exact absurd g g3
            · exact absurd g g4
  · rw [hd, processLine_depth_exact fuel t t₂ l r hpr]
    simp [f1, f2, f3, f4]

/-- The depth after the rewrite pass, when it ends without a fault: the
depth as `processLine` reads the braces. -/
theorem pass2Lines_detected (fuel : Nat) :
    ∀ (lines : List Str) (t t' : Transpiler) (b : Bool) (d : Int),
      pass2Lines fuel lines t b = (t', none) → t.m_braceDepth = d →
      t'.m_braceDepth = detectedDepth fuel lines t b d := by
  intro lines
  induction lines with
  | nil =>
    intro t t' b d h hd
    simp only [pass2Lines, Prod.mk.injEq, and_true] at h
    subst h
    simp [detectedDepth, hd]
  | cons l ls ih =>
    intro t t' b d h hd
    rw [pass2Lines] at h
    split at h
    · simp at h
    · rename_i t₁ b₁ hp
      rw [detectedDepth, hp]
      apply ih t₁ t' b₁ _ h
      rw [pass2Line_detected fuel t t₁ b b₁ l hp, hd]
/-- Lines without a brace, closing lines and opening lines have their braces
where `processLine` reads them: a unit made of such lines, processed without
a fault, is one of those whose depth follows the brace count. -/
theorem tracksBraces_of_shapes (fuel : Nat) :
    ∀ (lines : List Str) (t t' : Transpiler) (b : Bool),
      pass2Lines fuel lines t b = (t', none) →
      (∀ l ∈ countedLines lines b, IsPlainLine l ∨ IsCloserLine l ∨ IsOpenerLine l) →
      tracksBraces fuel lines t b = true := by
  intro lines
  induction lines with
  | nil => intro t t' b _ _; rfl
  | cons l ls ih =>
    intro t t' b h hs
    rw [pass2Lines] at h
    split at h
    · simp at h
    · rename_i t₁ b₁ hp
      rw [tracksBraces, hp, Bool.and_eq_true]
      rcases pass2Line_handed fuel t t₁ b b₁ l ls hp with ⟨g, e, -⟩ | ⟨e, ⟨f1, f2, f3, f4⟩, r, t₂, hpr, -⟩
      · refine ⟨?_, ih t₁ t' b₁ h (fun x hx => hs x (by rw [e]; exact hx))⟩
        by_cases g1 : regexTest R_NATIVE_BLOCK l = true
        · simp [g1]
        · by_cases g2 : b = true
          · simp [g1, g2]
          · by_cases g3 : regexTest R_COMMENT l = true
            · simp [g1, g2, g3]
            · by_cases g4 : (regexSearch R_ATTRIBUTE_LINE l).isSome = true
              · simp [g1, g2, g3, g4]
              · rcases g with g | g | g | g
                · exact absurd g g1
                · exact absurd g g2
                · exact absurd g g3
                · exact absurd g g4
      · refine ⟨?_, ih t₁ t' b₁ h (fun x hx => hs x (by rw [e]; simp [hx]))⟩
        simp only [f1, f2, f3, f4, Bool.false_eq_true, if_false, Option.isSome_none, lineTracks,
          decide_eq_true_eq]
        have h1 := processLine_depth_shape fuel t t₂ l r (hs l (by rw [e]; simp)) hpr
        have h2 := processLine_depth_exact fuel t t₂ l r hpr
        rw [braceBalance_shift] at h1
        omega

/-! ## The type names that the rewrite pass stores -/

/-- The groups of a result: every group recorded on the way to a result has
the property that the bodies of the groups guarantee. -/
theorem run_caps (Q : Nat → Str → Prop) (r : Re) :
    r.CapOK Q → ∀ (k : Str → Cur → Option Hit) (cur : Cur) (h : Hit), r.run k cur = some h →
      (∀ e ∈ cur.caps, Q e.1 e.2) →
      ∃ w rest caps, cur.rest = w ++ rest ∧ r.Accepts cur.pre w rest ∧ (∀ e ∈ caps, Q e.1 e.2)
        ∧ k w ⟨w.reverse ++ cur.pre, rest, caps⟩ = some h := by
  induction r with
  | eps =>
    intro _ k cur h e hc
    exact ⟨[], cur.rest, cur.caps, rfl, rfl, hc, by simpa [Re.run] using e⟩
  | chr p =>
    intro _ k cur h e hq
    rw [Re.run] at e
    split at e
    · exact Option.noConfusion e
    · rename_i c cs hrest
      split_ifs at e with hc
      exact ⟨[c], cs, cur.caps, by rw [hrest]; rfl, ⟨c, rfl, hc⟩, hq, by simpa using e⟩
  | star p g =>
    intro _ k cur h e hq
    cases g with
    | true =>
      rw [Re.run] at e
      obtain ⟨w, rest, hs, hw, hk⟩ := starG_sound p _ _ _ _ _ e
      exact ⟨w, rest, cur.caps, hs, hw, hq, hk⟩
    | false =>
      rw [Re.run] at e
      obtain ⟨w, rest, hs, hw, hk⟩ := starL_sound p _ _ _ _ _ e
      exact ⟨w, rest, cur.caps, hs, hw, hq, hk⟩
  | bol =>
    intro _ k cur h e hq
    rw [Re.run] at e
    split_ifs at e with hc
    exact ⟨[], cur.rest, cur.caps, rfl, ⟨rfl, by simpa using hc⟩, hq, by simpa using e⟩
  | eol =>
    intro _ k cur h e hq
    obtain ⟨pre, rest, caps⟩ := cur
    rw [Re.run] at e
    split_ifs at e with hc
    have hr : rest = [] := by simpa using hc
    subst hr
    exact ⟨[], [], caps, rfl, ⟨rfl, rfl⟩, hq, by simpa using e⟩
  | wordb =>
    intro _ k cur h e hq
    rw [Re.run] at e
    split_ifs at e with hc
    exact ⟨[], cur.rest, cur.caps, rfl, ⟨rfl, hc⟩, hq, by simpa using e⟩
  | grp i r ih =>
    intro hok k cur h e hq
    rw [Re.run] at e
    obtain ⟨w, rest, caps, hs, hw, hc, hk⟩ := ih hok.2 _ _ _ e hq
    refine ⟨w, rest, (i, w) :: caps, hs, hw, ?_, hk⟩
    intro x hx
    simp only [List.mem_cons] at hx
    rcases hx with rfl | hx
    · exact hok.1 _ _ _ hw
    · exact hc x hx
  | seq a b iha ihb =>
    intro hok k cur h e hq
    rw [Re.run] at e
    obtain ⟨w₁, rest₁, caps₁, hs₁, hw₁, hc₁, hk₁⟩ := iha hok.1 _ _ _ e hq
    obtain ⟨w₂, rest₂, caps₂, hs₂, hw₂, hc₂, hk₂⟩ := ihb hok.2 _ _ _ hk₁ hc₁
    simp only at hs₂ hw₂ hk₂
    refine ⟨w₁ ++ w₂, rest₂, caps₂, by rw [hs₁, hs₂, List.append_assoc], ?_, hc₂, ?_⟩
    · exact ⟨w₁, w₂, rfl, by rw [← hs₂]; exact hw₁, hw₂⟩
    · simpa using hk₂
  | alt a b iha ihb =>
    intro hok k cur h e hq
    rw [Re.run] at e
    rcases orElse_eq_some e with e1 | ⟨_, e2⟩
    · obtain ⟨w, rest, caps, hs, hw, hc, hk⟩ := iha hok.1 _ _ _ e1 hq
      exact ⟨w, rest, caps, hs, Or.inl hw, hc, hk⟩
    · obtain ⟨w, rest, caps, hs, hw, hc, hk⟩ := ihb hok.2 _ _ _ e2 hq
      exact ⟨w, rest, caps, hs, Or.inr hw, hc, hk⟩
  | opt r ih =>
    intro hok k cur h e hq
    rw [Re.run] at e
    rcases orElse_eq_some e with e1 | ⟨_, e2⟩
    · obtain ⟨w, rest, caps, hs, hw, hc, hk⟩ := ih hok _ _ _ e1 hq
      exact ⟨w, rest, caps, hs, Or.inr hw, hc, hk⟩
    · exact ⟨[], cur.rest, cur.caps, rfl, Or.inl rfl, hq, by simpa using e2⟩

theorem matchAt_caps (Q : Nat → Str → Prop) {r : Re} (hr : r.CapOK Q) {pre s w : Str} {c : Cur}
    (e : matchAt r pre s = some (w, c)) : ∀ x ∈ c.caps, Q x.1 x.2 := by
  obtain ⟨w', rest, caps, -, -, hc, hk⟩ := run_caps Q r hr _ _ _ e (by simp)
  simp only [Option.some.injEq, Prod.mk.injEq] at hk
  obtain ⟨-, h2⟩ := hk
  subst h2
  exact hc

theorem searchFrom_caps (Q : Nat → Str → Prop) {r : Re} (hr : r.CapOK Q) :
    ∀ (s sk pre : Str) (m : Match), searchFrom r sk pre s = some m → ∀ x ∈ m.caps, Q x.1 x.2 := by
  intro s
  induction s with
  | nil =>
    intro sk pre m e
    rw [searchFrom] at e
    split at e
    · rename_i w c hm
      cases e
      exact matchAt_caps Q hr hm
    · exact Option.noConfusion e
  | cons x xs ih =>
    intro sk pre m e
    rw [searchFrom] at e
    split at e
    · rename_i w c hm
      cases e
      exact matchAt_caps Q hr hm
    · exact ih _ _ _ e

/-- The text of a group of a match has the property that the body of the
group guarantees, when the empty text has it. -/
theorem group_caps (Q : Nat → Str → Prop) {r : Re} (hr : r.CapOK Q) {s : Str} {m : Match}
    (e : regexSearch r s = some m) (i : Nat) (h0 : Q i []) : Q i (m.group i) := by
  have hc := searchFrom_caps Q hr s [] [] m e
  unfold Match.group
  generalize m.caps = caps at hc
  induction caps with
  | nil => exact h0
  | cons x xs ih =>
    obtain ⟨j, w⟩ := x
    rw [groupOf]
    split_ifs with hj
    · subst hj
      exact hc (j, w) (by simp)
    · exact ih (fun y hy => hc y (by simp [hy]))
theorem plus_accepts_chars {p : Char → Bool} {pre w rest : Str} (h : (Re.plus p).Accepts pre w rest) :
    ∀ c ∈ w, p c = true := by
  obtain ⟨w₁, w₂, rfl, ⟨c, rfl, hc⟩, h₂⟩ := h
  intro d hd
  simp only [List.singleton_append, List.mem_cons] at hd
  rcases hd with rfl | hd
  · exact hc
  · exact h₂ d hd

theorem not_dot_of_isTypeChar {w : Str} (h : ∀ c ∈ w, isTypeChar c = true) : '.' ∉ w :=
  fun hd => absurd (h '.' hd) (by decide)

/-- The type spelling of a variable line holds no dot. -/
theorem var_type_dotFree {s : Str} {m : Match} (e : regexSearch R_VAR s = some m) : '.' ∉ m.group 3 := by
  refine group_caps (fun i w => i = 3 → '.' ∉ w) ?_ e 3 (by simp) rfl
  simp only [R_VAR, Re.cat, Re.CapOK, Re.lit, ws, ws1, Re.plus, anyStar, and_true, true_and]
  refine ⟨?_, ?_, ?_, ?_⟩
  · intro _ _ _ _ h; exact absurd h (by decide)
  · intro _ _ _ _ h; exact absurd h (by decide)
  · intro pre w rest h _; exact not_dot_of_isTypeChar (plus_accepts_chars h)
  · intro _ _ _ _ h; exact absurd h (by decide)

/-- The type spelling of a parameter holds no dot. -/
theorem arg_type_dotFree {s : Str} {m : Match} (e : regexSearch R_ARG s = some m) : '.' ∉ m.group 2 := by
  refine group_caps (fun i w => i = 2 → '.' ∉ w) ?_ e 2 (by simp) rfl
  simp only [R_ARG, Re.cat, Re.CapOK, Re.lit, ws, ws1, Re.plus, anyStar, and_true, true_and]
  refine ⟨?_, ?_⟩
  · intro _ _ _ _ h; exact absurd h (by decide)
  · intro pre w rest h _; exact not_dot_of_isTypeChar (plus_accepts_chars h)

/-- The type name of a resolve block holds no dot. -/
theorem resolve_type_dotFree {s : Str} {m : Match} (e : regexSearch R_RESOLVE_START s = some m) :
    '.' ∉ m.group 1 := by
  refine group_caps (fun i w => i = 1 → '.' ∉ w) ?_ e 1 (by simp) rfl
  simp only [R_RESOLVE_START, Re.cat, Re.CapOK, Re.lit, ws, ws1, Re.plus, anyStar, and_true, true_and]
  intro pre w rest h _
  exact not_dot_of_isTypeChar (fun c hc => isWord_isTypeChar (plus_accepts_chars h c hc))
/-- The translation of a type spelling without a dot holds no dot. -/
theorem translateType_dotFree (ty r : Str) (hty : '.' ∉ ty) (h : translateType ty = some r) : '.' ∉ r := by
  induction ty using List.reverseRecOn generalizing r with
  | nil => simp [translateType, translateTypeAux] at h
  | append_singleton L b ih =>
    by_cases hb : b = '*'
    · subst hb
      rw [translateType_star] at h
      cases hL : translateType L with
      | none => simp [hL] at h
      | some r' =>
        simp only [hL, Option.map_some', Option.some.injEq] at h
        subst h
        have := ih r' (fun hd => hty (by simp [hd])) hL
        simp [this]
    · by_cases hm : isMapped (L ++ [b])
      · have key : ∀ (x y : Str), L ++ [b] = x → translateType x = some y → '.' ∉ y → '.' ∉ r := by
          intro x y e1 e2 e3
          rw [e1, e2] at h
          simp only [Option.some.injEq] at h
          rw [← h]
          exact e3
        rcases hm with e | e | e | e | e | e | e | e | e
        · exact key _ "int".toList e (by decide) (by decide)
        · exact key _ "uint32_t".toList e (by decide) (by decide)
        · exact key _ "uint8_t".toList e (by decide) (by decide)
        · exact key _ "float".toList e (by decide) (by decide)
        · exact key _ "double".toList e (by decide) (by decide)
        · exact key _ "bool".toList e (by decide) (by decide)
        · exact key _ "char*".toList e (by decide) (by decide)
        · exact key _ "void*".toList e (by decide) (by decide)
        · exact key _ "void".toList e (by decide) (by decide)
      · rw [translateType_unmapped _ hm] at h
        simp [hb] at h
        rw [← h]
        exact hty

theorem mem_mapSet (sc : StrMap) (n v : Str) (p : Str × Str) (h : p ∈ mapSet sc n v) :
    p ∈ sc ∨ p = (n, v) := by
  induction sc with
  | nil =>
    simp only [mapSet, List.mem_singleton] at h
    exact Or.inr h
  | cons q qs ih =>
    obtain ⟨k, x⟩ := q
    rw [mapSet] at h
    split_ifs at h
    · simp only [List.mem_cons] at h
      rcases h with h | h
      · exact Or.inr h
      · exact Or.inl (by simp [h])
    · simp only [List.mem_cons] at h
      rcases h with h | h
      · exact Or.inl (by simp [h])
      · rcases ih h with h | h
        · exact Or.inl (by simp [h])
        · exact Or.inr h

theorem add_dotFree (s : SymbolTable) (n v : Str) (hs : TypesDotFree s) (hv : '.' ∉ v) :
    TypesDotFree (s.add n v) := by
  unfold SymbolTable.add
  cases hsc : s.scopes with
  | nil => simpa [hsc] using hs
  | cons sc rest =>
    intro x hx p hp
    simp only [List.mem_cons] at hx
    rcases hx with rfl | hx
    · rcases mem_mapSet sc n v p hp with h | h
      · exact hs sc (by rw [hsc]; simp) p h
      · subst h; exact hv
    · exact hs x (by rw [hsc]; simp [hx]) p hp

theorem pushScope_dotFree (s : SymbolTable) (hs : TypesDotFree s) : TypesDotFree s.pushScope := by
  intro x hx p hp
  simp only [SymbolTable.pushScope, List.mem_cons] at hx
  rcases hx with rfl | hx
  · simp at hp
  · exact hs x hx p hp

theorem popScope_dotFree (s : SymbolTable) (hs : TypesDotFree s) : TypesDotFree s.popScope := by
  intro x hx p hp
  exact hs x (List.mem_of_mem_tail hx) p hp
theorem lowerArgs_dotFree (V : Str) (isDef : Bool) :
    ∀ (args cArgs : List Str) (syms : SymbolTable) (cArgs' : List Str) (syms' : SymbolTable),
      TypesDotFree syms → lowerArgs V isDef args cArgs syms = .ok (cArgs', syms') →
      TypesDotFree syms' := by
  intro args
  induction args with
  | nil =>
    intro cArgs syms cArgs' syms' hs h
    simp only [lowerArgs, Except.ok.injEq, Prod.mk.injEq] at h
    rw [← h.2]
    exact hs
  | cons a rest ih =>
    intro cArgs syms cArgs' syms' hs h
    rw [lowerArgs] at h
    by_cases h0 : a = []
    · rw [if_pos h0] at h
      exact ih _ _ _ _ hs h
    · rw [if_neg h0] at h
      cases hm : regexSearch R_ARG a with
      | none =>
        simp only [hm] at h
        exact ih _ _ _ _ hs h
      | some am =>
        simp only [hm] at h
        by_cases h1 : V ≠ [] ∧ am.group 1 = "self".toList
        · rw [if_pos h1] at h
          exact ih _ _ _ _ hs h
        · rw [if_neg h1] at h
          cases ht : translateType (am.group 2) with
          | none =>
            simp only [translateTypeE, ht] at h
            exact Except.noConfusion h
          | some ty =>
            simp only [translateTypeE, ht] at h
            refine ih _ _ _ _ ?_ h
            cases isDef with
            | true => exact add_dotFree _ _ _ hs (translateType_dotFree _ _ (arg_type_dotFree hm) ht)
            | false => exact hs

theorem closeContexts_dotFree (c : LineCtx) (t : Transpiler) (h : StateDotFree t) :
    StateDotFree (closeContexts c t).2 := by
  obtain ⟨h1, h2⟩ := h
  have hp := popScope_dotFree _ h1
  unfold closeContexts popIfOpen StateDotFree
  simp only
  split_ifs <;> first | exact ⟨h1, h2⟩ | exact ⟨hp, h2⟩ | exact ⟨h1, by simp⟩ | exact ⟨hp, by simp⟩

theorem bumpDepth_dotFree (c : LineCtx) (t : Transpiler) (h : StateDotFree t) :
    StateDotFree (bumpDepth c t) := by
  unfold bumpDepth
  split_ifs
  · exact h
  · exact h

theorem lowerFunc_dotFree (c : LineCtx) (t t' : Transpiler) (m : Match) (r : Str)
    (hs : StateDotFree t) (h : lowerFunc c t m = .ok (r, t')) : StateDotFree t' := by
  obtain ⟨h1, h2⟩ := hs
  have hself : TypesDotFree (if t.m_currentResolveType ≠ [] then
      t.m_symbols.add "self".toList t.m_currentResolveType else t.m_symbols) := by
    split_ifs
    · exact add_dotFree _ _ _ h1 h2
    · exact h1
  unfold lowerFunc at h
  cases hdef : decide (chLBrace ∈ c.line) with
  | false =>
    simp only [hdef, Bool.false_eq_true, if_false] at h
    split at h
    · exact Except.noConfusion h
    · split at h
      · exact Except.noConfusion h
      · rename_i cArgs syms hargs
        have hsy : TypesDotFree syms := lowerArgs_dotFree _ _ _ _ _ _ _ hself hargs
        cases h
        exact ⟨hsy, h2⟩
  | true =>
    simp only [hdef, if_true] at h
    split at h
    · exact Except.noConfusion h
    · split at h
      · exact Except.noConfusion h
      · rename_i cArgs syms hargs
        have hsy : TypesDotFree syms := lowerArgs_dotFree _ _ _ _ _ _ _ hself hargs
        cases h
        refine ⟨pushScope_dotFree _ ?_, ?_⟩
        · unfold bumpDepth
          split_ifs <;> exact hsy
        · unfold bumpDepth
          split_ifs <;> exact h2

theorem lowerVar_dotFree (fuel : Nat) (c : LineCtx) (t t' : Transpiler) (m : Match) (r : Str)
    (hm : regexSearch R_VAR c.out = some m)
    (hs : StateDotFree t) (h : lowerVar fuel c t m = .ok (r, t')) : StateDotFree t' := by
  obtain ⟨h1, h2⟩ := hs
  have ha := add_dotFree t.m_symbols (m.group 2) (m.group 3) h1 (var_type_dotFree hm)
  unfold lowerVar at h
  simp only at h
  repeat (any_goals (first | exact Except.noConfusion h | split at h))
  all_goals (cases h; exact ⟨ha, h2⟩)

theorem lowerStmt_dotFree (fuel : Nat) (c : LineCtx) (t t' : Transpiler) (r : Str)
    (hs : StateDotFree t) (h : lowerStmt fuel c t = .ok (r, t')) : StateDotFree t' := by
  have hb := bumpDepth_dotFree c t hs
  unfold lowerStmt at h
  simp only at h
  repeat (any_goals (first | exact Except.noConfusion h | split at h))
  all_goals (cases h; first | exact hb | exact hs)

theorem lowerLine_dotFree (fuel : Nat) (c : LineCtx) (t t' : Transpiler) (r : Str)
    (hs : StateDotFree t) (h : lowerLine fuel c t = .ok (r, t')) : StateDotFree t' := by
  unfold lowerLine at h
  cases h1 : regexSearch R_SHARED_START c.out with
  | some m =>
    simp only [h1] at h
    cases h
    apply bumpDepth_dotFree
    split_ifs <;> exact hs
  | none =>
    simp only [h1] at h
    by_cases h2 : t.m_inShared = true
    · rw [if_pos h2] at h
      cases h
      exact bumpDepth_dotFree c t hs
    · rw [if_neg h2] at h
      cases h3 : regexSearch R_STRUCT_START c.out with
      | some m =>
        simp only [h3] at h
        cases h
        exact bumpDepth_dotFree c _ hs
      | none =>
        simp only [h3] at h
        split at h
        · split at h
          · exact Except.noConfusion h
          · cases h
            exact hs
        · split at h
          · split at h
            · exact Except.noConfusion h
            · cases h
              exact hs
          · cases h8 : regexSearch R_RESOLVE_START c.out with
            | some m =>
              simp only [h8] at h
              cases h
              exact bumpDepth_dotFree c _ ⟨hs.1, resolve_type_dotFree h8⟩
            | none =>
              simp only [h8] at h
              cases h9 : regexSearch R_FUNC_SIGNATURE c.out with
              | some m =>
                simp only [h9] at h
                exact lowerFunc_dotFree c t t' m r hs h
              | none =>
                simp only [h9] at h
                cases h10 : regexSearch R_VAR c.out with
                | some m =>
                  simp only [h10] at h
                  exact lowerVar_dotFree fuel c t t' m r h10 hs h
                | none =>
                  simp only [h10] at h
                  exact lowerStmt_dotFree fuel c t t' r hs h

/-- A line of the rewrite pass stores no type name with a dot. -/
theorem processLine_dotFree (fuel : Nat) (t t' : Transpiler) (line r : Str)
    (hs : StateDotFree t) (h : processLine fuel t line = .ok (r, t')) : StateDotFree t' := by
  rcases processLine_ways fuel t t' line r h with ⟨-, rfl⟩ | ⟨-, ind, ⟨-, rfl⟩ | ⟨-, hl⟩⟩
  · exact hs
  · exact closeContexts_dotFree _ t hs
  · exact lowerLine_dotFree fuel _ _ t' r (closeContexts_dotFree _ t hs) hl
theorem pass2Line_dotFree (fuel : Nat) (t t₁ : Transpiler) (b b₁ : Bool) (l : Str)
    (hs : StateDotFree t) (h : pass2Line fuel t b l = .ok (t₁, b₁)) : StateDotFree t₁ := by
  unfold pass2Line at h
  repeat (any_goals (first | exact Except.noConfusion h | split at h))
  all_goals first
    | (cases h; exact hs)
    | (cases h
       have key := processLine_dotFree fuel t _ l _ hs (by assumption)
       exact key)

/-- The rewrite pass stores no type name with a dot: from a state without
one it reaches, on every unit and with or without a fault, a state without
one. -/
theorem pass2Lines_dotFree (fuel : Nat) :
    ∀ (lines : List Str) (t : Transpiler) (b : Bool), StateDotFree t →
      StateDotFree (pass2Lines fuel lines t b).1 := by
  intro lines
  induction lines with
  | nil => intro t b hs; exact hs
  | cons l ls ih =>
    intro t b hs
    rw [pass2Lines]
    split
    · exact hs
    · rename_i t₁ b₁ hp
      exact ih t₁ b₁ (pass2Line_dotFree fuel t t₁ b b₁ l hs hp)

theorem resetForPass2_dotFree (t : Transpiler) : StateDotFree (resetForPass2 t) := by
  refine ⟨?_, by simp [resetForPass2]⟩
  intro sc hsc p hp
  simp only [resetForPass2, SymbolTable.pushScope, List.mem_singleton] at hsc
  subst hsc
  simp at hp

/-- Every state that the pipeline of `processFile` reaches between two lines
of a unit, on a Transpiler in any state, holds no type name with a dot; so
`lookup` returns no text with a dot. -/
theorem runPasses_dotFree (fuel : Nat) (t : Transpiler) (src : Str) (name : Str) :
    StateDotFree (runPasses fuel t src).1 ∧ '.' ∉ (runPasses fuel t src).1.m_symbols.lookup name := by
  have h : StateDotFree (runPasses fuel t src).1 :=
    pass2Lines_dotFree fuel _ _ false (resetForPass2_dotFree _)
  exact ⟨h, lookup_dotFree _ name h.1⟩
/-! ## The claims -/

/-- C1: for every identifier `r`, method name `m` and argument text `a`
without `)` and without `.`, and every symbol table in which `lookup(r) = T`
for a type name `T` as the rewrite pass stores them, that is non-empty
(`lookup` returns the empty text for a name that is not bound) and without
`.`, the loop of `replaceMethodCalls` on `r.m(a)` stops (two evaluations of
its condition are enough) and returns `T_m(&r, a)` when `a` is non-empty,
`T_m(&r)` when `a` is empty.  Every table of the rewrite pass is of that
kind: the pass stores text matched by `\w+` or `[\w\*]+` and results of
`translateType` on such text (`Transpiler.cpp` 309, 327, 354), so in every
state that the pipeline of `processFile` reaches, on every unit and from
every state of the Transpiler, `lookup` returns no text with a `.`. -/
theorem methodCall_resolved (syms : SymbolTable) (r m a T : Str) (fuel : Nat)
    (hr : IsIdent r) (hm : IsIdent m) (ha : ')' ∉ a) (hadot : '.' ∉ a)
    (hT : syms.lookup r = T) (hT0 : T ≠ []) (hTdot : '.' ∉ T) :
    replaceMethodCalls syms (fuel + 2) (r ++ ".".toList ++ m ++ "(".toList ++ a ++ ")".toList)
      = some (T ++ "_".toList ++ m ++ "(".toList
          ++ (if a ≠ [] then "&".toList ++ r ++ ", ".toList ++ a else "&".toList ++ r) ++ ")".toList)
    ∧ (∀ (fuel₀ : Nat) (t : Transpiler) (src n : Str),
        '.' ∉ (runPasses fuel₀ t src).1.m_symbols.lookup n) :=
  ⟨replaceMethodCalls_resolved syms r m a T fuel hr hm ha hadot hT hT0 hTdot,
    fun fuel₀ t src n => (runPasses_dotFree fuel₀ t src n).2⟩

/-- Witness of C1: with `v : V`, `v.set(10, 20)` becomes `V_set(&v, 10, 20)`. -/
theorem methodCall_resolved_witness :
    replaceMethodCalls ⟨[[("v".toList, "V".toList)]]⟩ 2 "v.set(10, 20)".toList
      = some "V_set(&v, 10, 20)".toList :=
  (methodCall_resolved ⟨[[("v".toList, "V".toList)]]⟩ "v".toList "set".toList "10, 20".toList "V".toList 0
    (by decide) (by decide) (by decide) (by decide) (by decide) (by decide) (by decide)).1

/-- C2: when the leftmost method-call pattern of a line has a receiver for
which `lookup` returns the empty text, `replaceMethodCalls` returns the line
unchanged after one evaluation of its loop condition, whatever the bound on
the iterations. -/
theorem methodCall_unresolved (syms : SymbolTable) (line : Str) (m : Match) (fuel : Nat)
    (hm : regexSearch R_METHOD_CALL line = some m) (hl : syms.lookup (m.group 1) = []) :
    replaceMethodCalls syms (fuel + 1) line = some line := by
  rw [replaceMethodCalls, hm]
  simp [hl]

/-- Witness of C2: `v.set(10, 20)` with no binding for `v` is left as it is. -/
theorem methodCall_unresolved_witness :
    replaceMethodCalls ⟨[[]]⟩ 1 "v.set(10, 20)".toList = some "v.set(10, 20)".toList :=
  methodCall_unresolved ⟨[[]]⟩ "v.set(10, 20)".toList
    ⟨[], "v.set(10, 20)".toList, [], [(3, "10, 20".toList), (2, "set".toList), (1, "v".toList)]⟩ 0
    (by decide) (by decide)

/-- C7: for a type spelling `T` with a character other than `*`,
`translateType` returns a value `r`, `translateType (T*)` is `r*`, and `k`
markers appended to `T` are appended to `r`. -/
theorem translateType_pointer_rule (T : Str) (h : ∃ c ∈ T, c ≠ '*') :
    ∃ r, translateType T = some r ∧ translateType (T ++ ['*']) = some (r ++ ['*'])
      ∧ ∀ k, translateType (T ++ List.replicate k '*') = some (r ++ List.replicate k '*') := by
  obtain ⟨r, hr⟩ := translateType_isSome T h
  refine ⟨r, hr, ?_, ?_⟩
  · rw [translateType_star, hr]; rfl
  · intro k
    rw [translateType_stars, hr]; rfl

/-- Witness of C7: `u32**` is translated to `uint32_t**`. -/
theorem translateType_pointer_rule_witness :
    (∃ c ∈ "u32".toList, c ≠ '*') ∧ translateType "u32**".toList = some "uint32_t**".toList := by
  have hex : ∃ c ∈ "u32".toList, c ≠ '*' := ⟨'u', by decide, by decide⟩
  obtain ⟨r, h1, -, h3⟩ := translateType_pointer_rule "u32".toList hex
  have h0 : translateType "u32".toList = some "uint32_t".toList := by decide
  rw [h0] at h1
  cases h1
  exact ⟨hex, h3 2⟩

/-- C8: for a type spelling `T` with a character other than `*`,
`translateType` returns a value that it translates to itself; a spelling
outside the nine mapped names that does not end in `*` is returned
unchanged; each spelling the table produces translates to itself. -/
theorem translateType_idempotent (T : Str) (h : ∃ c ∈ T, c ≠ '*') :
    (∃ r, translateType T = some r ∧ translateType r = some r)
    ∧ (¬ isMapped T → T.getLast? ≠ some '*' → translateType T = some T)
    ∧ translateType "int".toList = some "int".toList
    ∧ translateType "uint32_t".toList = some "uint32_t".toList
    ∧ translateType "uint8_t".toList = some "uint8_t".toList
    ∧ translateType "float".toList = some "float".toList
    ∧ translateType "double".toList = some "double".toList
    ∧ translateType "bool".toList = some "bool".toList
    ∧ translateType "char*".toList = some "char*".toList
    ∧ translateType "void*".toList = some "void*".toList
    ∧ translateType "void".toList = some "void".toList := by
  refine ⟨?_, ?_, by decide, by decide, by decide, by decide, by decide, by decide, by decide,
    by decide, by decide⟩
  · obtain ⟨r, hr⟩ := translateType_isSome T h
    exact ⟨r, hr, translateType_fixed T r hr⟩
  · intro hm hl
    rw [translateType_unmapped T hm]
    cases e : T.getLast? with
    | none =>
      obtain ⟨c, hc, -⟩ := h
      rw [List.getLast?_eq_none_iff] at e
      subst e
      simp at hc
    | some c =>
      have hc : c ≠ '*' := by
        intro hc
        apply hl
        rw [e, hc]
      simp [hc]

/-- Witness of C8: `str*` is translated to `char**`, which translates to
itself. -/
theorem translateType_idempotent_witness :
    (∃ c ∈ "str*".toList, c ≠ '*') ∧ translateType "str*".toList = some "char**".toList
      ∧ translateType "char**".toList = some "char**".toList := by
  have hex : ∃ c ∈ "str*".toList, c ≠ '*' := ⟨'s', by decide, by decide⟩
  obtain ⟨⟨r, h1, h2⟩, -⟩ := translateType_idempotent "str*".toList hex
  have h0 : translateType "str*".toList = some "char**".toList := by decide
  rw [h0] at h1
  cases h1
  exact ⟨hex, h0, h2⟩

/-- C3: for every identifier `e` without a binding in the symbol table,
function name `f` and argument text `a` without `)`, without the pipe
operator and without a standalone `_`, the loop of `replacePipeOperators` on
`e |> f(a)` stops (two evaluations of its condition are enough) and returns
`f(e, a)` when `a` is non-empty, `f(e)` when `a` is empty. -/
theorem pipe_without_placeholder (syms : SymbolTable) (e f a : Str) (fuel : Nat) (he : IsIdent e)
    (hf : IsIdent f) (hl : syms.lookup e = []) (ha : ')' ∉ a) (hp : hasSub "|>".toList a = false)
    (hs : hasStandalone none a = false) :
    replacePipeOperators syms (fuel + 2) (e ++ " |> ".toList ++ f ++ "(".toList ++ a ++ ")".toList)
      = some (f ++ "(".toList ++ (if a ≠ [] then e ++ ", ".toList ++ a else e) ++ ")".toList) :=
  replacePipe_prepend syms e f a fuel he hf hl ha hp hs

/-- Witness of C3: `x |> f(1)` becomes `f(x, 1)`. -/
theorem pipe_without_placeholder_witness :
    replacePipeOperators ⟨[[]]⟩ 2 "x |> f(1)".toList = some "f(x, 1)".toList :=
  pipe_without_placeholder ⟨[[]]⟩ "x".toList "f".toList "1".toList 0
    (by decide) (by decide) (by decide) (by decide) (by decide) (by decide)

/-- C4: for every identifier `e` without a binding in the symbol table,
function name `f` and argument text `a` without `)` and without the pipe
operator that holds a standalone `_`, the loop of `replacePipeOperators` on
`e |> f(a)` stops and returns `f(a')`, where `a'` is `a` with every
standalone `_` replaced by `e`; nothing is prepended. -/
theorem pipe_with_placeholder (syms : SymbolTable) (e f a : Str) (fuel : Nat) (he : IsIdent e)
    (hf : IsIdent f) (hl : syms.lookup e = []) (ha : ')' ∉ a) (hp : hasSub "|>".toList a = false)
    (hs : hasStandalone none a = true) :
    replacePipeOperators syms (fuel + 2) (e ++ " |> ".toList ++ f ++ "(".toList ++ a ++ ")".toList)
      = some (f ++ "(".toList ++ substStandalone e none a ++ ")".toList) :=
  replacePipe_placeholder syms e f a fuel he hf hl ha hp hs

/-- Witness of C4: `x |> f(_, 1)` becomes `f(x, 1)`, the result of
`x |> f(1)`, and `x |> f(1, _)` becomes `f(1, x)`. -/
theorem pipe_with_placeholder_witness :
    replacePipeOperators ⟨[[]]⟩ 2 "x |> f(_, 1)".toList = some "f(x, 1)".toList
    ∧ replacePipeOperators ⟨[[]]⟩ 2 "x |> f(_, 1)".toList = replacePipeOperators ⟨[[]]⟩ 2 "x |> f(1)".toList
    ∧ replacePipeOperators ⟨[[]]⟩ 2 "x |> f(1, _)".toList = some "f(1, x)".toList :=
  ⟨pipe_with_placeholder ⟨[[]]⟩ "x".toList "f".toList "_, 1".toList 0
      (by decide) (by decide) (by decide) (by decide) (by decide) (by decide),
    by decide,
    pipe_with_placeholder ⟨[[]]⟩ "x".toList "f".toList "1, _".toList 0
      (by decide) (by decide) (by decide) (by decide) (by decide) (by decide)⟩

/-- C5: for every identifier `e` with `lookup(e) = T` and every function
name `f`, the loop of `replacePipeOperators` on `e |> f()` stops and returns
`f(&e)` when `T` is non-empty and `f` starts with `T_`, and `f(e)` when `T`
is empty or `f` does not start with `T_`. -/
theorem pipe_into_dispatch (syms : SymbolTable) (e f T : Str) (fuel : Nat) (he : IsIdent e)
    (hf : IsIdent f) (hT : syms.lookup e = T) :
    replacePipeOperators syms (fuel + 2) (e ++ " |> ".toList ++ f ++ "()".toList)
      = some (if T ≠ [] ∧ (T ++ "_".toList).isPrefixOf f = true then f ++ "(&".toList ++ e ++ ")".toList
          else f ++ "(".toList ++ e ++ ")".toList) :=
  replacePipe_dispatch syms e f T fuel he hf hT

/-- Witness of C5: with `v : Vector`, `v |> Vector_print()` becomes
`Vector_print(&v)`. -/
theorem pipe_into_dispatch_witness :
    replacePipeOperators ⟨[[("v".toList, "Vector".toList)]]⟩ 2 "v |> Vector_print()".toList
      = some "Vector_print(&v)".toList :=
  pipe_into_dispatch ⟨[[("v".toList, "Vector".toList)]]⟩ "v".toList "Vector_print".toList
    "Vector".toList 0 (by decide) (by decide) (by decide)

/-- C9: for every unit that consists of the lines `struct S {`, one line
`n: t` per field and `}`, processed at depth 0 outside a resolve block and a
mixin definition with nothing pending, the rewrite pass ends without a fault
and appends exactly `typedef struct S {`, then for each field in order four
spaces and `translateType(t) n;`, then `} S;` to the output. -/
theorem struct_lowering (fuel : Nat) (t : Transpiler) (S : Str) (fields : List (Str × Str))
    (hS : IsIdent S) (hf : ∀ f ∈ fields, IsField f) (hd : t.m_braceDepth = 0)
    (hsh : t.m_inShared = false) (hr : t.m_currentResolveType = []) (hp : t.m_pendingAttribute = []) :
    pass2_Transpilation fuel t
        (unlines (("struct ".toList ++ S ++ " \x7b".toList)
          :: (fields.map (fun f => f.1 ++ ": ".toList ++ f.2) ++ ["\x7d".toList])))
      = ({ t with
            m_inStruct := false, m_structStartDepth := 0, m_pendingAttribute := [],
            m_currentStructAttribute := [], m_currentStructName := S,
            m_outputLines := t.m_outputLines ++
              (("typedef struct ".toList ++ S ++ " \x7b".toList)
                :: (fields.map (fun f => "    ".toList ++ (translated f.2 ++ " ".toList ++ f.1 ++ ";".toList))
                  ++ ["\x7d ".toList ++ S ++ ";".toList])) }, none) := by
  have e₁ : ("struct ".toList ++ S ++ " \x7b".toList)
      :: (fields.map (fun f => f.1 ++ ": ".toList ++ f.2) ++ ["\x7d".toList]) = structLines S fields := rfl
  have e₂ : structOutput 0 S [] fields
      = ("typedef struct ".toList ++ S ++ " \x7b".toList)
          :: (fields.map (fun f => "    ".toList ++ (translated f.2 ++ " ".toList ++ f.1 ++ ";".toList))
            ++ ["\x7d ".toList ++ S ++ ";".toList]) := by
    simp [structOutput, closeText, typedefLine, fieldText, spaces, chLBrace, chRBrace]
  rw [e₁, pass2_struct fuel t S fields hS hf hd hsh hr, hp, e₂]

/-- Witness of C9: the fields `a: i32` and `b: ptr` of a struct `S` give
`    int a;` and `    void* b;` between `typedef struct S {` and `} S;`. -/
theorem struct_lowering_witness :
    (pass2_Transpilation 0 (resetForPass2 (Transpiler.fresh ⟨false, true⟩))
        "struct S \x7b\na: i32\nb: ptr\n\x7d\n".toList).1.m_outputLines
      = ["typedef struct S \x7b".toList, "    int a;".toList, "    void* b;".toList, "\x7d S;".toList] := by
  have h := struct_lowering 0 (resetForPass2 (Transpiler.fresh ⟨false, true⟩)) "S".toList
    [("a".toList, "i32".toList), ("b".toList, "ptr".toList)]
    (by decide) (by decide) (by decide) (by decide) (by decide) (by decide)
  exact congrArg (fun r => r.1.m_outputLines) h

/-- C10: for a unit that consists of the attribute lines `@[a]` and `@[b]`
(`a` non-empty, both without a line terminator), the lines of a struct `S`
and the lines of a struct `T`, processed at depth 0 outside a resolve block
and a mixin definition with nothing pending, the rewrite pass ends without a
fault; the line emitted at the end of `S` is `} S __attribute__((a, b));`
and the one at the end of `T` is `} T;`. -/
theorem attribute_consumption (fuel : Nat) (t : Transpiler) (a b S T : Str)
    (fs₁ fs₂ : List (Str × Str)) (ha0 : a ≠ []) (ha : ∀ c ∈ a, isAny c = true)
    (hb : ∀ c ∈ b, isAny c = true) (hS : IsIdent S) (hT : IsIdent T)
    (hf₁ : ∀ f ∈ fs₁, IsField f) (hf₂ : ∀ f ∈ fs₂, IsField f) (hd : t.m_braceDepth = 0)
    (hsh : t.m_inShared = false) (hr : t.m_currentResolveType = []) (hp : t.m_pendingAttribute = []) :
    pass2_Transpilation fuel t
        (unlines (("@[".toList ++ a ++ "]".toList) :: ("@[".toList ++ b ++ "]".toList)
          :: ((("struct ".toList ++ S ++ " \x7b".toList)
                :: (fs₁.map (fun f => f.1 ++ ": ".toList ++ f.2) ++ ["\x7d".toList]))
              ++ (("struct ".toList ++ T ++ " \x7b".toList)
                :: (fs₂.map (fun f => f.1 ++ ": ".toList ++ f.2) ++ ["\x7d".toList])))))
      = ({ t with
            m_inStruct := false, m_structStartDepth := 0, m_pendingAttribute := [],
            m_currentStructAttribute := [], m_currentStructName := T,
            m_outputLines := t.m_outputLines ++
              (("typedef struct ".toList ++ S ++ " \x7b".toList)
                :: (fs₁.map (fun f => "    ".toList ++ (translated f.2 ++ " ".toList ++ f.1 ++ ";".toList))
                  ++ ["\x7d ".toList ++ S ++ " __attribute__((".toList ++ a ++ ", ".toList ++ b
                        ++ "));".toList]))
              ++ (("typedef struct ".toList ++ T ++ " \x7b".toList)
                :: (fs₂.map (fun f => "    ".toList ++ (translated f.2 ++ " ".toList ++ f.1 ++ ";".toList))
                  ++ ["\x7d ".toList ++ T ++ ";".toList])) }, none) := by
  have e₀ : ("@[".toList ++ a ++ "]".toList) :: ("@[".toList ++ b ++ "]".toList)
      :: ((("struct ".toList ++ S ++ " \x7b".toList)
            :: (fs₁.map (fun f => f.1 ++ ": ".toList ++ f.2) ++ ["\x7d".toList]))
          ++ (("struct ".toList ++ T ++ " \x7b".toList)
            :: (fs₂.map (fun f => f.1 ++ ": ".toList ++ f.2) ++ ["\x7d".toList])))
      = attrLine a :: attrLine b :: (structLines S fs₁ ++ structLines T fs₂) := rfl
  have e₁ : structOutput 0 S ((if a ≠ [] then a ++ ", ".toList else a) ++ b) fs₁
      = ("typedef struct ".toList ++ S ++ " \x7b".toList)
          :: (fs₁.map (fun f => "    ".toList ++ (translated f.2 ++ " ".toList ++ f.1 ++ ";".toList))
            ++ ["\x7d ".toList ++ S ++ " __attribute__((".toList ++ a ++ ", ".toList ++ b
                  ++ "));".toList]) := by
    simp [structOutput, closeText, typedefLine, fieldText, spaces, ha0, chLBrace, chRBrace]
  have e₂ : structOutput 0 T [] fs₂
      = ("typedef struct ".toList ++ T ++ " \x7b".toList)
          :: (fs₂.map (fun f => "    ".toList ++ (translated f.2 ++ " ".toList ++ f.1 ++ ";".toList))
            ++ ["\x7d ".toList ++ T ++ ";".toList]) := by
    simp [structOutput, closeText, typedefLine, fieldText, spaces, chLBrace, chRBrace]
  rw [e₀, pass2_attr_structs fuel t a b S T fs₁ fs₂ ha hb hS hT hf₁ hf₂ hd hsh hr hp, e₁, e₂]

/-- Witness of C10: after `@[packed]` and `@[aligned(4)]` the struct `S` ends
with `} S __attribute__((packed, aligned(4)));` and the struct `T` after it
with `} T;`. -/
theorem attribute_consumption_witness :
    (pass2_Transpilation 0 (resetForPass2 (Transpiler.fresh ⟨false, true⟩))
        "@[packed]\n@[aligned(4)]\nstruct S \x7b\na: u8\n\x7d\nstruct T \x7b\nb: i32\n\x7d\n".toList).1.m_outputLines
      = ["typedef struct S \x7b".toList, "    uint8_t a;".toList,
          "\x7d S __attribute__((packed, aligned(4)));".toList,
          "typedef struct T \x7b".toList, "    int b;".toList, "\x7d T;".toList] := by
  have h := attribute_consumption 0 (resetForPass2 (Transpiler.fresh ⟨false, true⟩))
    "packed".toList "aligned(4)".toList "S".toList "T".toList
    [("a".toList, "u8".toList)] [("b".toList, "i32".toList)]
    (by decide) (by decide) (by decide) (by decide) (by decide) (by decide) (by decide)
    (by decide) (by decide) (by decide) (by decide)
  exact congrArg (fun r => r.1.m_outputLines) h

/-- C6, the claim as stated fails: inside `resolve Vector`, after the
attribute line `@[hot]` the definition line is lowered with the annotation in
front of the return type; inside a mixin definition opened in the resolve
block the definition line emits nothing; and once a stray `}` has taken the
depth below zero while the resolve block is still active, the definition
line has no indentation to be built from and the pass stops on it. -/
theorem resolve_signature_counterexample :
    (pass2_Transpilation 1 (resetForPass2 (Transpiler.fresh ⟨false, true⟩))
        "resolve Vector \x7b\n@[hot]\nfn set(x: i32, y: i32) -> void \x7b\n".toList).1.m_outputLines
      = ["// resolve Vector".toList,
          "__attribute__((hot)) void Vector_set(Vector* self, int x, int y) \x7b".toList]
    ∧ (pass2_Transpilation 1 (resetForPass2 (Transpiler.fresh ⟨false, true⟩))
        "resolve Vector \x7b\nshared M \x7b\nfn set(x: i32, y: i32) -> void \x7b\n".toList).1.m_outputLines
      = ["// resolve Vector".toList, "// shared M (elided)".toList]
    ∧ (pass2_Transpilation 1 (resetForPass2 (Transpiler.fresh ⟨false, true⟩))
        "resolve Vector \x7b x\n\x7d\nfn set(x: i32, y: i32) -> void \x7b\n".toList).1.m_outputLines
      = ["// resolve Vector".toList, "\x7d".toList]
    ∧ (pass2_Transpilation 1 (resetForPass2 (Transpiler.fresh ⟨false, true⟩))
        "resolve Vector \x7b x\n\x7d\nfn set(x: i32, y: i32) -> void \x7b\n".toList).2
      = some .lengthError := by
  exact ⟨by decide, by decide, by decide, by decide⟩

/-- C6 (amended): while a resolve block for type `V` is active, no mixin
definition is open, nothing is pending in the attribute buffer and the brace
depth is not negative, `processLine` on a definition line
`fn m(p1: t1, ..., pn: tn) -> r {` with no parameter named `self` returns,
after the indentation of the resolve block (one level less than the depth),
the text `translateType(r) V_m(V* self, translateType(t1) p1, ...,
translateType(tn) pn) {`; the parameters are added to the current scope, a
scope is pushed and the depth is raised by one. -/
theorem resolve_signature (fuel : Nat) (t : Transpiler) (V m : Str) (ps : List (Str × Str)) (r : Str)
    (hV : t.m_currentResolveType = V) (hV0 : V ≠ []) (hm : IsIdent m)
    (hps : ∀ p ∈ ps, IsField p ∧ p.1 ≠ "self".toList) (hr : IsTypeText r) (hr' : ∃ c ∈ r, c ≠ '*')
    (hd : 0 ≤ t.m_braceDepth) (hsh : t.m_inShared = false) (hpend : t.m_pendingAttribute = []) :
    processLine fuel t
        ("fn ".toList ++ m ++ "(".toList ++ joinArgs (ps.map (fun p => p.1 ++ ": ".toList ++ p.2))
          ++ ") -> ".toList ++ r ++ " \x7b".toList)
      = .ok (List.replicate ((t.m_braceDepth - 1).toNat * 4) ' '
            ++ (translated r ++ " ".toList ++ V ++ "_".toList ++ m ++ "(".toList
              ++ joinArgs ((V ++ "* self".toList) :: ps.map (fun p => translated p.2 ++ " ".toList ++ p.1))
              ++ ") \x7b".toList),
          { t with
              m_symbols := (addParams (t.m_symbols.add "self".toList V) ps).pushScope,
              m_braceDepth := t.m_braceDepth + 1 }) := by
  have h := processLine_fnDef fuel t m ps r hm hps hr hr' hd hsh
  have e : "fn ".toList ++ m ++ "(".toList ++ joinArgs (ps.map (fun p => p.1 ++ ": ".toList ++ p.2))
      ++ ") -> ".toList ++ r ++ " \x7b".toList = fnLine m ps r := rfl
  have hdepth : (printDepthOf t false).toNat = (t.m_braceDepth - 1).toNat := by
    unfold printDepthOf
    simp only [Bool.false_eq_true, false_and, if_false, hV, ne_eq, hV0, not_false_eq_true, true_and]
    split_ifs
    · rfl
    · omega
  have hpo : paramOut = fun p => translated p.2 ++ " ".toList ++ p.1 := rfl
  rw [e, h, hdepth, hpo]
  simp only [hV, hpend, ne_eq, hV0, not_false_eq_true, if_true, not_true_eq_false, if_false]
  simp [spaces, chLBrace]

/-- Witness of C6: in `resolve Vector`, `fn set(x: i32, y: i32) -> void {`
yields `void Vector_set(Vector* self, int x, int y) {`. -/
theorem resolve_signature_witness :
    (processLine 0
        { resetForPass2 (Transpiler.fresh ⟨false, true⟩) with
            m_currentResolveType := "Vector".toList, m_braceDepth := 1 }
        "fn set(x: i32, y: i32) -> void \x7b".toList).map Prod.fst
      = .ok "void Vector_set(Vector* self, int x, int y) \x7b".toList := by
  have h := resolve_signature 0
    { resetForPass2 (Transpiler.fresh ⟨false, true⟩) with
        m_currentResolveType := "Vector".toList, m_braceDepth := 1 }
    "Vector".toList "set".toList [("x".toList, "i32".toList), ("y".toList, "i32".toList)] "void".toList
    rfl (by decide) (by decide) (by decide) (by decide) (by decide) (by decide) rfl rfl
  exact congrArg (fun r => r.map Prod.fst) h


/-- C12: for every source made of lines `pre` that do not open a mixin
definition, a line matched by the mixin opening with name `M`, interior lines
`L1..Ln` whose brace count (started at 1 by the opening line and taken at the
end of each interior line) is never zero and is 1 after `Ln`, the line `}`,
and lines `post` that do not open a mixin definition, `pass1_Discovery`
registers under `M` exactly `L1 ++ "\n" ++ ... ++ Ln ++ "\n"` and changes
nothing else: the registry is the old one with that one entry set, and the
lines outside the definition add nothing. -/
theorem mixin_discovery (t : Transpiler) (pre post ls : List Str) (l₀ : Str) (m : Match)
    (hpre : ∀ l ∈ pre, regexSearch R_SHARED_START l = none)
    (hpost : ∀ l ∈ post, regexSearch R_SHARED_START l = none)
    (hopen : regexSearch R_SHARED_START l₀ = some m)
    (hin : ∀ k, k ≤ ls.length → depthAfter 1 (ls.take k) ≠ 0) (hbal : depthAfter 1 ls = 1)
    (hnl : ∀ l ∈ pre ++ l₀ :: (ls ++ "\x7d".toList :: post), '\n' ∉ l) :
    pass1_Discovery t (unlines (pre ++ l₀ :: (ls ++ "\x7d".toList :: post)))
      = { t with m_sharedMixins := mapSet t.m_sharedMixins (m.group 1) (unlines ls) }
    ∧ mapFind (pass1_Discovery t (unlines (pre ++ l₀ :: (ls ++ "\x7d".toList :: post)))).m_sharedMixins
        (m.group 1) = some (unlines ls) := by
  have h := pass1_oneMixin t pre post ls l₀ m hpre hpost hopen hin hbal hnl
  have e : closeLine = "\x7d".toList := rfl
  rw [e] at h
  refine ⟨h, ?_⟩
  rw [h]
  exact mapFind_mapSet _ _ _

/-- Witness of C12: in the unit `a`, `shared M {`, `x: i32`, `n { y }`, `}`,
`z`, the two interior lines are registered under `M` and nothing else is. -/
theorem mixin_discovery_witness :
    (pass1_Discovery (Transpiler.fresh ⟨false, true⟩)
        "a\nshared M \x7b\nx: i32\nn \x7b y \x7d\n\x7d\nz\n".toList).m_sharedMixins
      = [("M".toList, "x: i32\nn \x7b y \x7d\n".toList)] := by
  have h := (mixin_discovery (Transpiler.fresh ⟨false, true⟩) ["a".toList] ["z".toList]
    ["x: i32".toList, "n \x7b y \x7d".toList] "shared M \x7b".toList
    ⟨[], "shared M \x7b".toList, [], [(1, "M".toList)]⟩
    (by decide) (by decide) (by decide) (by decide) (by decide) (by decide)).1
  exact congrArg (fun r => r.m_sharedMixins) h

/-- C13, the claim as stated fails: in the struct `S` with no mixin
registered, the line `use N` is not emitted as it stands: it goes the way of a
statement and comes out indented and with a semicolon, as `    use N;`. -/
theorem use_unregistered_counterexample :
    (runPasses 1 (Transpiler.fresh ⟨false, true⟩)
        "struct S \x7b\nuse N\n\x7d\n".toList).1.m_outputLines
      = ["typedef struct S \x7b".toList, "    use N;".toList, "\x7d S;".toList]
    ∧ (runPasses 1 (Transpiler.fresh ⟨false, true⟩)
        "struct S \x7b\nuse N\n\x7d\n".toList).1.m_sharedMixins = [] := by
  exact ⟨by decide, by decide⟩

/-- C13 (amended): for every identifier `N` that is not a key of the mixin
registry, `processLine` on the line `use N`, outside a mixin definition and
at a non-negative depth (inside a struct or not), returns the line with the
indentation of the current depth in front and a semicolon at the end, as
`use N;`; no field is injected and the state, the brace depth included, stays
as it is. -/
theorem use_unregistered (fuel : Nat) (t : Transpiler) (N : Str) (hN : IsIdent N)
    (hd : 0 ≤ t.m_braceDepth) (hsh : t.m_inShared = false)
    (hreg : mapFind t.m_sharedMixins N = none) :
    processLine (fuel + 1) t ("use ".toList ++ N)
      = .ok (spaces (printDepthOf t false).toNat ++ ("use ".toList ++ N) ++ ";".toList, t) :=
  processLine_useUnregistered fuel t N hN hd hsh hreg

/-- Witness of C13 (amended): inside a struct at depth 1 with an empty
registry, `use N` comes out as `    use N;` and the depth is still 1. -/
theorem use_unregistered_witness :
    (processLine 1 { resetForPass2 (Transpiler.fresh ⟨false, true⟩) with m_inStruct := true, m_braceDepth := 1 }
        "use N".toList).toOption.map (fun r => (r.1, r.2.m_braceDepth))
      = some ("    use N;".toList, 1) := by
  have h := use_unregistered 0
    { resetForPass2 (Transpiler.fresh ⟨false, true⟩) with m_inStruct := true, m_braceDepth := 1 }
    "N".toList (by decide) (by decide) (by decide) (by decide)
  exact congrArg (fun r => r.toOption.map (fun r => (r.1, r.2.m_braceDepth))) h
/-! ## C14: the brace depth at the end of a unit -/

/-- C14, the claim as stated fails: brace detection is strict, it looks at
the ends of a line only, and not every branch of `processLine` acts on it.
Each of these units is balanced, is processed without a fault from depth 0
and does not end at depth 0.  The line `{ }` is taken as opening a block
(depth 1).  In `var a: i32 = {`, `1`, `}` the variable line opens no block
(depth -1), and neither does the second line of `var v: T`,
`fn v.m() -> i32 {`, `}`, whose text after the rewriting of the method call,
`fn T_m(&v) -> i32 {`, reads as the head of a function (depth -1).  In
`shared M {`, `}`, `struct S {`, `use M {`, `}`, `}` the `use` line of a
registered mixin opens no block; in `struct S {`, `x: i32 {`, `}`, `}` the
field line opens none; in `@include "a.h" {`, `}` the include line opens
none; in `struct S {`, `} {`, `}` the line that ends the struct opens none
(depth -1 each).  In `if c {`, `x }` the closing brace that does not begin
its line closes nothing (depth 1). -/
theorem brace_depth_counterexample :
    (countedLines (getlines "\x7b \x7d\n".toList) false = ["\x7b \x7d".toList]
      ∧ depthAfter 0 (countedLines (getlines "\x7b \x7d\n".toList) false) = 0
      ∧ (pass2_Transpilation 1 (resetForPass2 (Transpiler.fresh ⟨false, true⟩)) "\x7b \x7d\n".toList).2
        = none
      ∧ (pass2_Transpilation 1 (resetForPass2 (Transpiler.fresh ⟨false, true⟩))
          "\x7b \x7d\n".toList).1.m_braceDepth = 1)
    ∧ (depthAfter 0 (countedLines (getlines "var a: i32 = \x7b\n1\n\x7d\n".toList) false) = 0
      ∧ (pass2_Transpilation 1 (resetForPass2 (Transpiler.fresh ⟨false, true⟩))
          "var a: i32 = \x7b\n1\n\x7d\n".toList).2 = none
      ∧ (pass2_Transpilation 1 (resetForPass2 (Transpiler.fresh ⟨false, true⟩))
          "var a: i32 = \x7b\n1\n\x7d\n".toList).1.m_braceDepth = -1)
    ∧ (depthAfter 0 (countedLines (getlines "var v: T\nfn v.m() -> i32 \x7b\n\x7d\n".toList) false) = 0
      ∧ (pass2_Transpilation 2 (resetForPass2 (Transpiler.fresh ⟨false, true⟩))
          "var v: T\nfn v.m() -> i32 \x7b\n\x7d\n".toList).2 = none
      ∧ (pass2_Transpilation 2 (resetForPass2 (Transpiler.fresh ⟨false, true⟩))
          "var v: T\nfn v.m() -> i32 \x7b\n\x7d\n".toList).1.m_braceDepth = -1)
    ∧ (depthAfter 0 (countedLines
          (getlines "shared M \x7b\n\x7d\nstruct S \x7b\nuse M \x7b\n\x7d\n\x7d\n".toList) false) = 0
      ∧ (runPasses 1 (Transpiler.fresh ⟨false, true⟩)
          "shared M \x7b\n\x7d\nstruct S \x7b\nuse M \x7b\n\x7d\n\x7d\n".toList).2 = none
      ∧ (runPasses 1 (Transpiler.fresh ⟨false, true⟩)
          "shared M \x7b\n\x7d\nstruct S \x7b\nuse M \x7b\n\x7d\n\x7d\n".toList).1.m_braceDepth = -1)
    ∧ (depthAfter 0 (countedLines (getlines "struct S \x7b\nx: i32 \x7b\n\x7d\n\x7d\n".toList) false) = 0
      ∧ (pass2_Transpilation 1 (resetForPass2 (Transpiler.fresh ⟨false, true⟩))
          "struct S \x7b\nx: i32 \x7b\n\x7d\n\x7d\n".toList).2 = none
      ∧ (pass2_Transpilation 1 (resetForPass2 (Transpiler.fresh ⟨false, true⟩))
          "struct S \x7b\nx: i32 \x7b\n\x7d\n\x7d\n".toList).1.m_braceDepth = -1)
    ∧ (depthAfter 0 (countedLines (getlines "@include \x22a.h\x22 \x7b\n\x7d\n".toList) false) = 0
      ∧ (pass2_Transpilation 1 (resetForPass2 (Transpiler.fresh ⟨false, true⟩))
          "@include \x22a.h\x22 \x7b\n\x7d\n".toList).2 = none
      ∧ (pass2_Transpilation 1 (resetForPass2 (Transpiler.fresh ⟨false, true⟩))
          "@include \x22a.h\x22 \x7b\n\x7d\n".toList).1.m_braceDepth = -1)
    ∧ (depthAfter 0 (countedLines (getlines "struct S \x7b\n\x7d \x7b\n\x7d\n".toList) false) = 0
      ∧ (pass2_Transpilation 1 (resetForPass2 (Transpiler.fresh ⟨false, true⟩))
          "struct S \x7b\n\x7d \x7b\n\x7d\n".toList).2 = none
      ∧ (pass2_Transpilation 1 (resetForPass2 (Transpiler.fresh ⟨false, true⟩))
          "struct S \x7b\n\x7d \x7b\n\x7d\n".toList).1.m_braceDepth = -1)
    ∧ (depthAfter 0 (countedLines (getlines "if c \x7b\nx \x7d\n".toList) false) = 0
      ∧ (pass2_Transpilation 1 (resetForPass2 (Transpiler.fresh ⟨false, true⟩))
          "if c \x7b\nx \x7d\n".toList).2 = none
      ∧ (pass2_Transpilation 1 (resetForPass2 (Transpiler.fresh ⟨false, true⟩))
          "if c \x7b\nx \x7d\n".toList).1.m_braceDepth = 1) := by
  refine ⟨?_, ?_, ?_, ?_, ?_, ?_, ?_, ?_⟩
  · decide
  · decide
  · decide
  · decide
  · decide
  · decide
  · decide
  · decide

/-- C14 (amended): the brace depth follows the braces as `processLine`
reads them.  The rewrite pass, started at depth 0 and ending without a
fault, ends at the number of lines that it takes as opening a block minus
the number of lines that begin with a closing brace, blanks apart, counted
over the lines it hands to `processLine` (the lines outside native regions
that are neither comment lines nor attribute lines; an include line never
begins with a closing brace).  A line is taken as opening a block, in the
state in which the pass reaches it, when its last or its first character,
blanks apart, is an opening brace and the line is lowered as the head of a
block: it is no include line, it does not end the mixin definition, struct
or resolve block that is open, and it is the head of a mixin definition, a
line inside one, the head of a struct, of a resolve block or of a function,
or a statement whose text after expression rewriting is an `if`, a `while`,
a `loop` or the head of no mixin definition, struct, resolve block or
function; it is no `use` line of a registered mixin, no field line of a
struct and no variable line.  When every line handed to `processLine` has
its braces where `processLine` reads them (it holds one opening brace more
than closing braces for being taken as opening a block, and one closing
brace more for beginning with a closing brace), the pass ends at the brace
count of those lines; when they are balanced, `m_braceDepth` is 0 after the
last line.  That is so, in particular, when each of those lines is a line
without a brace, a closing line (its only brace is a closing brace at its
start) or an opening line (its only brace is an opening brace at its end; it
is no include, `use`, field or variable line; and it is the head of a mixin
definition, struct, resolve block or function, or a statement without a
method call or pipe). -/
theorem brace_depth_restored (fuel : Nat) (t : Transpiler) (src : Str)
    (hd : t.m_braceDepth = 0)
    (hok : (pass2_Transpilation fuel t src).2 = none) :
    (pass2_Transpilation fuel t src).1.m_braceDepth = detectedDepth fuel (getlines src) t false 0
    ∧ (tracksBraces fuel (getlines src) t false = true →
        (pass2_Transpilation fuel t src).1.m_braceDepth
            = depthAfter 0 (countedLines (getlines src) false)
          ∧ (depthAfter 0 (countedLines (getlines src) false) = 0 →
              (pass2_Transpilation fuel t src).1.m_braceDepth = 0))
    ∧ ((∀ l ∈ countedLines (getlines src) false, IsPlainLine l ∨ IsCloserLine l ∨ IsOpenerLine l) →
        tracksBraces fuel (getlines src) t false = true) := by
  refine ⟨pass2Lines_detected fuel (getlines src) t (pass2_Transpilation fuel t src).1 false 0
    (Prod.ext rfl hok) hd, ?_,
    tracksBraces_of_shapes fuel (getlines src) t (pass2_Transpilation fuel t src).1 false
      (Prod.ext rfl hok)⟩
  intro hs
  have h := pass2Lines_tracks fuel (getlines src) t (pass2_Transpilation fuel t src).1 false
    (Prod.ext rfl hok) hs
  rw [hd] at h
  exact ⟨h, fun h0 => h.trans h0⟩

/-- Witness of C14 (amended): a unit with a struct, a comment line that
holds a brace, and a function whose body holds a block and a native line;
and a unit with the lines `if v.ok() {` and `} else {`, the first of which
is rewritten to `if V_ok(&v) {`.  Both have their braces where `processLine`
reads them and end at depth 0.  The unit `{ }`, `var a: i32 = {`, `}` has
not, and ends at depth 0 as well: the first line is taken as opening a block
and the last line begins with a closing brace. -/
theorem brace_depth_restored_witness :
    (pass2_Transpilation 2 (resetForPass2 (Transpiler.fresh ⟨false, true⟩))
      "struct P \x7b\nx: i32\n\x7d\n# note \x7b\nfn main() -> i32 \x7b\nif c \x7b\nnative \x7b a(); \x7d\n\x7d\nreturn 0\n\x7d\n".toList).1.m_braceDepth = 0
    ∧ (pass2_Transpilation 2 (resetForPass2 (Transpiler.fresh ⟨false, true⟩))
      "fn main() -> i32 \x7b\nvar v: V\nif v.ok() \x7b\na()\n\x7d else \x7b\nb()\n\x7d\n\x7d\n".toList).1.m_braceDepth = 0
    ∧ (pass2_Transpilation 1 (resetForPass2 (Transpiler.fresh ⟨false, true⟩))
      "\x7b \x7d\nvar a: i32 = \x7b\n\x7d\n".toList).1.m_braceDepth = 0 :=
  ⟨((brace_depth_restored 2 (resetForPass2 (Transpiler.fresh ⟨false, true⟩))
    "struct P \x7b\nx: i32\n\x7d\n# note \x7b\nfn main() -> i32 \x7b\nif c \x7b\nnative \x7b a(); \x7d\n\x7d\nreturn 0\n\x7d\n".toList
    (by decide) (by decide)).2.1 (by decide)).2 (by decide),
   ((brace_depth_restored 2 (resetForPass2 (Transpiler.fresh ⟨false, true⟩))
    "fn main() -> i32 \x7b\nvar v: V\nif v.ok() \x7b\na()\n\x7d else \x7b\nb()\n\x7d\n\x7d\n".toList
    (by decide) (by decide)).2.1 (by decide)).2 (by decide),
   (brace_depth_restored 1 (resetForPass2 (Transpiler.fresh ⟨false, true⟩))
    "\x7b \x7d\nvar a: i32 = \x7b\n\x7d\n".toList (by decide) (by decide)).1.trans (by decide)⟩

/-- C15, the claim as stated fails: inside a mixin definition that is open
(after the line `shared M {`) `processLine` returns the empty text for the
signature line `fn f(a: i32) -> i32`, and the unit `shared M {`,
`fn f(a: i32) -> i32`, `}` emits the comment of the mixin only; at depth -1
(after a line `}`) the same line raises `std::length_error`; and for
`fn f(a: *) -> i32` and for `fn f() -> *` `translateType` reads the last
character of an empty text. -/
theorem bodiless_signature_counterexample :
    (runPasses 1 (Transpiler.fresh ⟨false, true⟩) "shared M \x7b\n".toList).1.m_inShared = true
    ∧ (processLine 1 (runPasses 1 (Transpiler.fresh ⟨false, true⟩) "shared M \x7b\n".toList).1
        "fn f(a: i32) -> i32".toList).toOption.map (fun r => r.1) = some []
    ∧ (runPasses 1 (Transpiler.fresh ⟨false, true⟩)
        "shared M \x7b\nfn f(a: i32) -> i32\n\x7d\n".toList).1.m_outputLines
      = ["// shared M (elided)".toList]
    ∧ (runPasses 1 (Transpiler.fresh ⟨false, true⟩) "\x7d\n".toList).1.m_braceDepth = -1
    ∧ (runPasses 1 (Transpiler.fresh ⟨false, true⟩) "\x7d\nfn f(a: i32) -> i32\n".toList).2
      = some Fault.lengthError
    ∧ (runPasses 1 (Transpiler.fresh ⟨false, true⟩) "fn f(a: *) -> i32\n".toList).2
      = some Fault.emptyBack
    ∧ (runPasses 1 (Transpiler.fresh ⟨false, true⟩) "fn f() -> *\n".toList).2
      = some Fault.emptyBack := by
  refine ⟨?_, ?_, ?_, ?_, ?_, ?_, ?_⟩
  · decide
  · decide
  · decide
  · decide
  · decide
  · decide
  · decide

/-- C15 (amended): for every line that holds no `{` and whose text, as
`processLine` reads it (leading blanks dropped, `self.` replaced by
`self->`), matches the function-signature grammar (match `m`), processed
while no mixin definition is open and the brace depth is not negative, when
`translateType` returns for the return type (`ret`) and the loop over the
parameters returns the lowered parameters (`cArgs`; it fails only when
`translateType` does not return for a parameter type): `processLine` returns
the indentation followed by the lowered prototype and `;`.  The prototype
is the attribute list of the line, if any, as `__attribute__((...))`, the
modifier, if any, the translated return type, the name (after `V_` inside a
resolve block for `V`) and, in parentheses, the lowered parameters joined by
`, ` (after `V* self` inside a resolve block).  The brace depth and the
number of scopes on the symbol-table stack are the same after the line as
before it; the state changes only inside a resolve block, where `self` is
bound in the current scope.  In particular, for a line
`fn n(p1: t1, ..., pk: tk) -> r` with identifiers `n`, `p1`, ..., `pk` other
than `self` and translatable types the prototype is
`translateType(r) n(translateType(t1) p1, ..., translateType(tk) pk)`. -/
theorem bodiless_signature (fuel : Nat) (t : Transpiler) (line : Str) (m : Match) (ret : Str)
    (cArgs : List Str) (syms : SymbolTable)
    (hm : regexSearch R_FUNC_SIGNATURE (lineText line) = some m) (hb : chLBrace ∉ line)
    (hsh : t.m_inShared = false) (hd : 0 ≤ t.m_braceDepth)
    (hret : translateType (m.group 5) = some ret)
    (hargs : lowerArgs t.m_currentResolveType false (regexSplit R_ARG_SPLIT (m.group 4))
        (if t.m_currentResolveType ≠ [] then [t.m_currentResolveType ++ "* self".toList] else [])
        (if t.m_currentResolveType ≠ [] then t.m_symbols.add "self".toList t.m_currentResolveType
          else t.m_symbols) = .ok (cArgs, syms)) :
    (∃ t', processLine fuel t line
        = .ok (spaces (printDepthOf t false).toNat
            ++ (if m.group 1 ≠ [] then "__attribute__((".toList ++ m.group 1 ++ ")) ".toList else [])
            ++ (if m.group 2 = [] then [] else m.group 2 ++ " ".toList)
            ++ ret ++ " ".toList
            ++ (if t.m_currentResolveType ≠ [] then t.m_currentResolveType ++ "_".toList ++ m.group 3
                else m.group 3)
            ++ "(".toList ++ joinArgs cArgs ++ ")".toList ++ ";".toList, t')
      ∧ t' = { t with
          m_symbols :=
            if t.m_currentResolveType ≠ [] then t.m_symbols.add "self".toList t.m_currentResolveType
            else t.m_symbols }
      ∧ t'.m_braceDepth = t.m_braceDepth
      ∧ t'.m_symbols.scopes.length = t.m_symbols.scopes.length)
    ∧ (∀ (n : Str) (ps : List (Str × Str)) (r : Str), IsIdent n →
        (∀ p ∈ ps, IsField p ∧ p.1 ≠ "self".toList) → IsTypeText r → (∃ c ∈ r, c ≠ '*') →
        ∃ t', processLine fuel t
            ("fn ".toList ++ n ++ "(".toList ++ joinArgs (ps.map (fun p => p.1 ++ ": ".toList ++ p.2))
              ++ ") -> ".toList ++ r)
          = .ok (spaces (printDepthOf t false).toNat
                ++ translated r ++ " ".toList
                ++ (if t.m_currentResolveType ≠ [] then t.m_currentResolveType ++ "_".toList ++ n else n)
                ++ "(".toList
                ++ joinArgs ((if t.m_currentResolveType ≠ [] then [t.m_currentResolveType ++ "* self".toList]
                      else [])
                    ++ ps.map (fun p => translated p.2 ++ " ".toList ++ p.1))
                ++ ")".toList ++ ";".toList, t')
          ∧ t'.m_braceDepth = t.m_braceDepth
          ∧ t'.m_symbols.scopes.length = t.m_symbols.scopes.length) := by
  have hlen : ({ t with
      m_symbols :=
        if t.m_currentResolveType ≠ [] then t.m_symbols.add "self".toList t.m_currentResolveType
        else t.m_symbols } : Transpiler).m_symbols.scopes.length = t.m_symbols.scopes.length := by
    dsimp only
    split_ifs
    · exact scopes_length_add _ _ _
    · rfl
  refine ⟨⟨_, processLine_signature fuel t line m ret cArgs syms hm hb hsh hd hret hargs, rfl, rfl, hlen⟩,
    ?_⟩
  intro n ps r hn hps hr hr'
  have h := processLine_fnDecl fuel t n ps r hn hps hr hr' hd hsh
  have hpo : paramOut = fun p => translated p.2 ++ " ".toList ++ p.1 := rfl
  have hpt : paramText = fun p => p.1 ++ ": ".toList ++ p.2 := rfl
  rw [declLine, hpo, hpt] at h
  exact ⟨_, h, rfl, hlen⟩

/-- Witness of C15 (amended): `fn f(a: i32) -> i32` gives `int f(int a);`,
and the line `@[hot] static fn  f ( a : i32 ,b:u8 )->  i32`, written after
two blanks and with blanks at its end, gives
`__attribute__((hot)) static int f(int a, uint8_t b);`, with the depth and
the number of scopes as before. -/
theorem bodiless_signature_witness :
    (processLine 0 (resetForPass2 (Transpiler.fresh ⟨false, true⟩)) "fn f(a: i32) -> i32".toList).toOption.map
        (fun r => (r.1, r.2.m_braceDepth, r.2.m_symbols.scopes.length))
      = some ("int f(int a);".toList, 0, 1)
    ∧ (processLine 0 (resetForPass2 (Transpiler.fresh ⟨false, true⟩))
        "  @[hot] static fn  f ( a : i32 ,b:u8 )->  i32  ".toList).toOption.map
        (fun r => (r.1, r.2.m_braceDepth, r.2.m_symbols.scopes.length))
      = some ("__attribute__((hot)) static int f(int a, uint8_t b);".toList, 0, 1) := by
  obtain ⟨⟨t₁, h₁, -, d₁, s₁⟩, -⟩ := bodiless_signature 0 (resetForPass2 (Transpiler.fresh ⟨false, true⟩))
    "fn f(a: i32) -> i32".toList
    ⟨[], "fn f(a: i32) -> i32".toList, [], [(5, "i32".toList), (4, "a: i32".toList), (3, "f".toList)]⟩
    "int".toList ["int a".toList] (resetForPass2 (Transpiler.fresh ⟨false, true⟩)).m_symbols
    (by decide) (by decide) (by decide) (by decide) (by decide) rfl
  obtain ⟨⟨t₂, h₂, -, d₂, s₂⟩, -⟩ := bodiless_signature 0 (resetForPass2 (Transpiler.fresh ⟨false, true⟩))
    "  @[hot] static fn  f ( a : i32 ,b:u8 )->  i32  ".toList
    ⟨[], "@[hot] static fn  f ( a : i32 ,b:u8 )->  i32  ".toList, [],
      [(5, "i32".toList), (4, " a : i32 ,b:u8 ".toList), (3, "f".toList), (2, "static".toList),
        (1, "hot".toList)]⟩
    "int".toList ["int a".toList, "uint8_t b".toList]
    (resetForPass2 (Transpiler.fresh ⟨false, true⟩)).m_symbols
    (by decide) (by decide) (by decide) (by decide) (by decide) rfl
  have e₁ : processLine 0 (resetForPass2 (Transpiler.fresh ⟨false, true⟩)) "fn f(a: i32) -> i32".toList
      = .ok ("int f(int a);".toList, t₁) := h₁
  have e₂ : processLine 0 (resetForPass2 (Transpiler.fresh ⟨false, true⟩))
      "  @[hot] static fn  f ( a : i32 ,b:u8 )->  i32  ".toList
      = .ok ("__attribute__((hot)) static int f(int a, uint8_t b);".toList, t₂) := h₂
  rw [e₁, e₂]
  simp only [Except.toOption, Option.map_some']
  rw [d₁, s₁, d₂, s₂]
  exact ⟨rfl, rfl⟩

/-- C16, the claim as stated fails: for the line `var a : i32 = self.x` the
initializer is `self.x`, which both rewrites leave as it is, yet the emitted
text is `int a = self->x;`: `processLine` replaces `self.` by `self->` in the
whole line before it reads the declaration.  For `var n : i32 =  x` the text
after `= ` is ` x`, which both rewrites leave as it is, yet the emitted text
is `int n = x;`: the blanks after `=` are not part of the initializer.  For
`var n : i32 = 5` followed by a carriage return the emitted text is
`int n = 5;`: the initializer ends at a line terminator.  For `var n : i32 = `
with nothing after the blank the emitted text is `int n;`, the form without
an initializer.  For `var p : * = 1`
nothing is emitted: `translateType` reads the last character of an empty
string.  Inside a mixin definition the line `var n : i32 = 5` emits the empty
text, and at depth -1 it raises `std::length_error`. -/
theorem var_declaration_counterexample :
    (processLine 1 (resetForPass2 (Transpiler.fresh ⟨false, true⟩))
        "var a : i32 = self.x".toList).toOption.map (fun r => r.1) = some "int a = self->x;".toList
    ∧ (replaceMethodCalls ((resetForPass2 (Transpiler.fresh ⟨false, true⟩)).m_symbols.add
          "a".toList "i32".toList) 1 "self.x".toList).bind
        (replacePipeOperators ((resetForPass2 (Transpiler.fresh ⟨false, true⟩)).m_symbols.add
          "a".toList "i32".toList) 1) = some "self.x".toList
    ∧ (processLine 1 (resetForPass2 (Transpiler.fresh ⟨false, true⟩))
        "var n : i32 =  x".toList).toOption.map (fun r => r.1) = some "int n = x;".toList
    ∧ (replaceMethodCalls ((resetForPass2 (Transpiler.fresh ⟨false, true⟩)).m_symbols.add
          "n".toList "i32".toList) 1 " x".toList).bind
        (replacePipeOperators ((resetForPass2 (Transpiler.fresh ⟨false, true⟩)).m_symbols.add
          "n".toList "i32".toList) 1) = some " x".toList
    ∧ (processLine 1 (resetForPass2 (Transpiler.fresh ⟨false, true⟩))
        "var n : i32 = 5\r".toList).toOption.map (fun r => r.1) = some "int n = 5;".toList
    ∧ (replaceMethodCalls ((resetForPass2 (Transpiler.fresh ⟨false, true⟩)).m_symbols.add
          "n".toList "i32".toList) 1 "5\r".toList).bind
        (replacePipeOperators ((resetForPass2 (Transpiler.fresh ⟨false, true⟩)).m_symbols.add
          "n".toList "i32".toList) 1) = some "5\r".toList
    ∧ (processLine 1 (resetForPass2 (Transpiler.fresh ⟨false, true⟩))
        "var n : i32 = ".toList).toOption.map (fun r => r.1) = some "int n;".toList
    ∧ (runPasses 1 (Transpiler.fresh ⟨false, true⟩) "var p : * = 1\n".toList).2
      = some Fault.emptyBack
    ∧ (processLine 1 (runPasses 1 (Transpiler.fresh ⟨false, true⟩) "shared M \x7b\n".toList).1
        "var n : i32 = 5".toList).toOption.map (fun r => r.1) = some []
    ∧ (runPasses 1 (Transpiler.fresh ⟨false, true⟩) "\x7d\n".toList).1.m_braceDepth = -1
    ∧ (runPasses 1 (Transpiler.fresh ⟨false, true⟩) "\x7d\nvar n : i32 = 5\n".toList).2
      = some Fault.lengthError := by
  refine ⟨?_, ?_, ?_, ?_, ?_, ?_, ?_, ?_, ?_, ?_, ?_⟩
  · decide
  · decide
  · decide
  · decide
  · decide
  · decide
  · decide
  · decide
  · decide
  · decide
  · decide

/-- C16 (amended): for every line `var n : t = e` (`n` an identifier, `t` a
type spelling of word characters and `*` with a character other than `*`, so
that `translateType` returns; `e` non-empty, without a line terminator, not
starting with a blank and without the text `self.`), processed outside a
mixin definition at a non-negative depth while the scope stack is non-empty
(innermost scope `sc`), when the two rewrites of `e` return `e'` (they are run
on the table that already holds `n`), the emitted text after the indentation
is `translateType(t) n = e';`; for the line `var n : t` it is
`translateType(t) n;`.  In both cases the new table is the old one with `n`
bound to `t`, the source spelling: `lookup(n) = t`, and the binding stands in
the innermost scope, the outer scopes being untouched. -/
theorem var_declaration (fuel : Nat) (t : Transpiler) (n ty e e₁ e₂ : Str) (sc : StrMap)
    (rest : List StrMap) (hn : IsIdent n) (hty : IsTypeText ty) (hty' : ∃ c ∈ ty, c ≠ '*')
    (he : ∀ c ∈ e, isAny c = true) (he0 : e ≠ []) (hes : StopsAt isSpace e)
    (hself : hasSub "self.".toList e = false) (hd : 0 ≤ t.m_braceDepth) (hsh : t.m_inShared = false)
    (hsc : t.m_symbols.scopes = sc :: rest)
    (h₁ : replaceMethodCalls (t.m_symbols.add n ty) fuel e = some e₁)
    (h₂ : replacePipeOperators (t.m_symbols.add n ty) fuel e₁ = some e₂) :
    processLine fuel t ("var ".toList ++ n ++ " : ".toList ++ ty ++ " = ".toList ++ e)
      = .ok (spaces (printDepthOf t false).toNat ++ translated ty ++ " ".toList ++ n ++ " = ".toList
              ++ e₂ ++ ";".toList,
          { t with m_symbols := t.m_symbols.add n ty })
    ∧ processLine fuel t ("var ".toList ++ n ++ " : ".toList ++ ty)
      = .ok (spaces (printDepthOf t false).toNat ++ translated ty ++ " ".toList ++ n ++ ";".toList,
          { t with m_symbols := t.m_symbols.add n ty })
    ∧ (t.m_symbols.add n ty).lookup n = ty
    ∧ (t.m_symbols.add n ty).scopes = mapSet sc n ty :: rest
    ∧ mapFind (mapSet sc n ty) n = some ty :=
  ⟨processLine_var fuel t n ty e e₁ e₂ hn hty hty' he he0 hes hself hd hsh h₁ h₂,
    processLine_var₀ fuel t n ty hn hty hty' hd hsh,
    lookup_add _ n ty (by rw [hsc]; simp),
    scopes_add _ n ty sc rest hsc,
    mapFind_mapSet sc n ty⟩

/-- Witness of C16 (amended): with one empty scope, `var v : Vector = v.make()`
gives `Vector v = Vector_make(&v);` (the receiver `v` is already bound when
the initializer is rewritten) and binds `v` to `Vector`. -/
theorem var_declaration_witness :
    (processLine 2 (resetForPass2 (Transpiler.fresh ⟨false, true⟩))
        "var v : Vector = v.make()".toList).toOption.map
          (fun r => (r.1, r.2.m_symbols.lookup "v".toList, r.2.m_symbols.scopes))
      = some ("Vector v = Vector_make(&v);".toList, "Vector".toList, [[("v".toList, "Vector".toList)]]) := by
  have h := (var_declaration 2 (resetForPass2 (Transpiler.fresh ⟨false, true⟩)) "v".toList "Vector".toList
    "v.make()".toList "Vector_make(&v)".toList "Vector_make(&v)".toList [] []
    (by decide) (by decide) (by decide) (by decide) (by decide) (stopsAt_cons _ (by decide)) (by decide)
    (by decide) (by decide) (by decide) (by decide) (by decide)).1
  exact congrArg (fun r => r.toOption.map
    (fun r => (r.1, r.2.m_symbols.lookup "v".toList, r.2.m_symbols.scopes))) h

/-- C17, the claim as stated fails: in a function body at depth 1 the region
`native { exit(1); }` is emitted as four spaces followed by ` exit(1); `, the
text between the braces with its leading blank kept (this is the expected
output of the repository, `build/tests/attributes.c`); in a region of
several lines the interior line `if (x) { y(); }` is not emitted at all: its
closing brace ends the region, the lines after it are processed as code and
the depth ends at -1; an interior line `native {` is not emitted either; a
line `native { y }` inside a region ends it and is emitted as a region of its
own; text on the opening line after the brace and on the closing line before
the brace is dropped; and at a negative depth both forms of region raise
`std::length_error`. -/
theorem native_passthrough_counterexample :
    (runPasses 1 (Transpiler.fresh ⟨false, true⟩)
        "fn f() -> void \x7b\nnative \x7b exit(1); \x7d\n\x7d\n".toList).1.m_outputLines
      = ["void f() \x7b".toList, "     exit(1); ".toList, "\x7d".toList]
    ∧ (runPasses 1 (Transpiler.fresh ⟨false, true⟩)
        "native \x7b\nif (x) \x7b y(); \x7d\nz();\n\x7d\n".toList).1.m_outputLines
      = ["z();".toList, "\x7d".toList]
    ∧ (runPasses 1 (Transpiler.fresh ⟨false, true⟩)
        "native \x7b\nif (x) \x7b y(); \x7d\nz();\n\x7d\n".toList).1.m_braceDepth = -1
    ∧ (runPasses 1 (Transpiler.fresh ⟨false, true⟩)
        "native \x7b\nnative \x7b\nx\n\x7d\n".toList).1.m_outputLines = ["x".toList]
    ∧ (runPasses 1 (Transpiler.fresh ⟨false, true⟩)
        "native \x7b\nx\nnative \x7b y \x7d\nz\n".toList).1.m_outputLines
      = ["x".toList, " y ".toList, "z;".toList]
    ∧ (runPasses 1 (Transpiler.fresh ⟨false, true⟩)
        "native \x7b a\nb\nc \x7d\n".toList).1.m_outputLines = ["b".toList]
    ∧ (runPasses 1 (Transpiler.fresh ⟨false, true⟩) "\x7d\nnative \x7b x \x7d\n".toList).2
      = some Fault.lengthError
    ∧ (runPasses 1 (Transpiler.fresh ⟨false, true⟩) "\x7d\nnative \x7b\nx\n\x7d\n".toList).2
      = some Fault.lengthError := by
  refine ⟨?_, ?_, ?_, ?_, ?_, ?_, ?_, ?_⟩
  · decide
  · decide
  · decide
  · decide
  · decide
  · decide
  · decide
  · decide

/-- C17 (amended): at a brace depth `d` that is not negative, a native region
that closes on the line it opens on (`native`, `{`, a text, `}`, with blanks
`ind` and `sp` around the keyword and a rest `tail` without `}`) emits one
line: `4 × d` spaces followed by the text between the opening brace and the
last closing brace, as it stands, leading blanks included.  A native region
of several lines (an opening line that begins with `native`, `{` and holds
no `}`, interior lines that hold no `}` and do not begin with `native`, `{`,
then a closing line that holds a `}` and does not begin with `native`, `{`)
emits one line per interior line: `4 × d` spaces followed by the line without
its leading blanks and otherwise as it stands; text on the opening line and
on the closing line is not emitted.  In both cases the state after the region
differs from the state before it in the emitted lines only: brace depth,
symbol table and pending attributes are the same. -/
theorem native_passthrough (fuel : Nat) (rest ls : List Str) (ind sp text tail l₀ l₁ : Str)
    (t : Transpiler) (b : Bool) (d : Nat) (hd : t.m_braceDepth = (d : Int))
    (hind : ∀ c ∈ ind, isSpace c = true) (hsp : ∀ c ∈ sp, isSpace c = true) (htail : chRBrace ∉ tail)
    (h₀ : regexTest R_NATIVE_BLOCK l₀ = true ∧ chRBrace ∉ l₀)
    (hls : ∀ l ∈ ls, regexTest R_NATIVE_BLOCK l = false ∧ chRBrace ∉ l)
    (h₁ : regexTest R_NATIVE_BLOCK l₁ = false ∧ chRBrace ∈ l₁) :
    pass2Lines fuel
        ((ind ++ "native".toList ++ sp ++ "\x7b".toList ++ text ++ "\x7d".toList ++ tail) :: rest) t b
      = pass2Lines fuel rest
          { t with m_outputLines := t.m_outputLines ++ [List.replicate (d * 4) ' ' ++ text] } false
    ∧ pass2Lines fuel (l₀ :: (ls ++ l₁ :: rest)) t b
      = pass2Lines fuel rest
          { t with m_outputLines :=
              t.m_outputLines ++ ls.map (fun l => List.replicate (d * 4) ' ' ++ l.dropWhile isSpace) }
          false := by
  constructor
  · exact pass2Lines_cons fuel _ rest t _ b false
      (pass2Line_nativeSingle fuel t b ind sp text tail d hind hsp htail hd)
  · exact pass2Lines_nativeMulti fuel rest ls l₀ l₁ t b d hd h₀ hls h₁

/-- Witness of C17 (amended): at depth 1, `native { exit(1); }` gives four
spaces and ` exit(1); `; the region `native {`, `   int x = 1;`, `foo();`
(after a tab), `}` gives `    int x = 1;` and `    foo();`. -/
theorem native_passthrough_witness :
    (pass2Lines 0 ["native \x7b exit(1); \x7d".toList]
        { resetForPass2 (Transpiler.fresh ⟨false, true⟩) with m_braceDepth := 1 } false).1.m_outputLines
      = ["     exit(1); ".toList]
    ∧ (pass2Lines 0 ["native \x7b".toList, "   int x = 1;".toList, "\tfoo();".toList, "\x7d".toList]
        { resetForPass2 (Transpiler.fresh ⟨false, true⟩) with m_braceDepth := 1 } false).1.m_outputLines
      = ["    int x = 1;".toList, "    foo();".toList] := by
  have h := native_passthrough 0 [] ["   int x = 1;".toList, "\tfoo();".toList] [] " ".toList
    " exit(1); ".toList [] "native \x7b".toList "\x7d".toList
    { resetForPass2 (Transpiler.fresh ⟨false, true⟩) with m_braceDepth := 1 } false 1
    (by decide) (by decide) (by decide) (by decide) (by decide) (by decide) (by decide)
  exact ⟨congrArg (fun r => r.1.m_outputLines) h.1, congrArg (fun r => r.1.m_outputLines) h.2⟩

/-- C18, the code at the failing input: in the unit `fn main() -> i32 {`,
`var v: Vector`, `v.print()`, `if c {`, `}`, `v.print()`, `}` the number of
scopes after 0, 1, ..., 7 lines is 1, 2, 2, 2, 2, 1, 1, 0: the line that
closes the `if` block pops the scope pushed for the body of `main`, which is
still open, and the line that closes `main` pops the root scope.  The local
`v` goes with the popped scope: the call `v.print()` is desugared before the
block and left as it is after it. -/
theorem scope_stack_defect :
    (List.range 8).map (fun k =>
        (pass2Lines 2 ((getlines
            "fn main() -> i32 \x7b\nvar v: Vector\nv.print()\nif c \x7b\n\x7d\nv.print()\n\x7d\n".toList).take k)
          (resetForPass2 (Transpiler.fresh ⟨false, true⟩)) false).1.m_symbols.scopes.length)
      = [1, 2, 2, 2, 2, 1, 1, 0]
    ∧ (runPasses 2 (Transpiler.fresh ⟨false, true⟩)
        "fn main() -> i32 \x7b\nvar v: Vector\nv.print()\nif c \x7b\n\x7d\nv.print()\n\x7d\n".toList).1.m_outputLines
      = ["int main() \x7b".toList, "    Vector v;".toList, "    Vector_print(&v);".toList,
          "    if (c ) \x7b".toList, "    \x7d".toList, "    v.print();".toList, "\x7d".toList]
    ∧ (runPasses 2 (Transpiler.fresh ⟨false, true⟩) "if x \x7b\n\x7d\n".toList).1.m_symbols.scopes.length = 0 := by
  exact ⟨by decide, by decide, by decide⟩

/-- C19, the code at the failing input: on the definition line
`fn f(v: Vec) -> void {`, processed with the root scope alone on the stack,
the parameter `v` is bound in the root scope and the scope pushed for the
body is empty; so in the unit `fn f(v: Vec) -> void {`, `}`,
`fn g() -> void {`, `v.m()`, `}` the name `v` still resolves after the body of
`f` is closed (the call in `g` is desugared to `Vec_m(&v)`), and it is still
bound when the pass ends. -/
theorem parameter_scope_defect :
    (processLine 2 (resetForPass2 (Transpiler.fresh ⟨false, true⟩))
        "fn f(v: Vec) -> void \x7b".toList).toOption.map (fun r => r.2.m_symbols.scopes)
      = some [[], [("v".toList, "Vec".toList)]]
    ∧ (runPasses 2 (Transpiler.fresh ⟨false, true⟩)
        "fn f(v: Vec) -> void \x7b\n\x7d\nfn g() -> void \x7b\nv.m()\n\x7d\n".toList).1.m_outputLines
      = ["void f(Vec v) \x7b".toList, "\x7d".toList, "void g() \x7b".toList, "    Vec_m(&v);".toList,
          "\x7d".toList]
    ∧ (runPasses 2 (Transpiler.fresh ⟨false, true⟩)
        "fn f(v: Vec) -> void \x7b\n\x7d\nfn g() -> void \x7b\nv.m()\n\x7d\n".toList).1.m_symbols.scopes
      = [[("v".toList, "Vec".toList)]] := by
  exact ⟨by decide, by decide, by decide⟩

/-- C20: for every line and every symbol table whose stored type names hold
no dot, the loop of `replaceMethodCalls` performs finitely many turns: it
returns a result `r` as soon as it is allowed more turns than the line has
dots.  A turn that finds a call with a resolved receiver goes on with a line
that has exactly one dot less (so strictly fewer), and a turn that finds a
call with an unresolved receiver returns the line as it stands. -/
theorem methodCalls_terminate (syms : SymbolTable) (line : Str) (hs : TypesDotFree syms) :
    (∃ r, ∀ fuel, dots line < fuel → replaceMethodCalls syms fuel line = some r)
    ∧ (∀ current m, regexSearch R_METHOD_CALL current = some m → syms.lookup (m.group 1) ≠ [] →
        (∀ fuel, replaceMethodCalls syms (fuel + 1) current
          = replaceMethodCalls syms fuel (methodCallStep m (syms.lookup (m.group 1))))
        ∧ dots (methodCallStep m (syms.lookup (m.group 1))) + 1 = dots current
        ∧ dots (methodCallStep m (syms.lookup (m.group 1))) < dots current)
    ∧ (∀ current m fuel, regexSearch R_METHOD_CALL current = some m → syms.lookup (m.group 1) = [] →
        replaceMethodCalls syms (fuel + 1) current = some current) := by
  refine ⟨replaceMethodCalls_terminates syms hs (dots line) line (le_refl _), ?_, ?_⟩
  · intro current m hm hT
    have hdec := methodCallStep_dots (syms.lookup (m.group 1)) hm (lookup_dotFree syms _ hs)
    exact ⟨fun fuel => replaceMethodCalls_step syms fuel current m hm hT, hdec, by omega⟩
  · intro current m fuel hm hT
    apply replaceMethodCalls_stop
    intro m' hm'
    rw [hm] at hm'
    cases hm'
    exact hT

/-- Witness of C20: with `v : V`, the line `v.a(v.b())` has two dots and the
loop returns within three turns. -/
theorem methodCalls_terminate_witness :
    (replaceMethodCalls ⟨[[("v".toList, "V".toList)]]⟩ 3 "v.a(v.b())".toList).isSome = true := by
  obtain ⟨r, hr⟩ := (methodCalls_terminate ⟨[[("v".toList, "V".toList)]]⟩ "v.a(v.b())".toList
    (by decide)).1
  rw [hr 3 (by decide)]
  rfl

/-! ## C21: the loop of `replacePipeOperators` -/

/-- C21, the code at the failing input: on the line `a(_|>_|>a(_|>_)` the
loop of `replacePipeOperators` does not end, with any symbol table: whatever
number of turns is allowed, the bound is reached.  The first pipe operator
of the line is followed by `_|`, so the piped argument is `a(_|>_`, up to
the second operator; the call `a(_|>_)` holds two placeholders, each gives
way to the piped argument, and the line after the turn, `a(a(_|>_|>a(_|>_)`,
is of the same kind and longer.  The rewrite pass on a unit with this line
does not get past it. -/
theorem pipe_loop_defect :
    (∀ (syms : SymbolTable) (fuel : Nat),
      replacePipeOperators syms fuel "a(_|>_|>a(_|>_)".toList = none)
    ∧ (∀ (syms : SymbolTable) (fuel : Nat),
      replacePipeOperators syms (fuel + 1) "a(_|>_|>a(_|>_)".toList
        = replacePipeOperators syms fuel "a(a(_|>_|>a(_|>_)".toList)
    ∧ (∀ (fuel : Nat),
      pass2_Transpilation fuel (resetForPass2 (Transpiler.fresh ⟨false, true⟩)) "a(_|>_|>a(_|>_)\n".toList
        = (resetForPass2 (Transpiler.fresh ⟨false, true⟩), some .outOfFuel)) :=
  ⟨fun syms fuel => pipeLoop_diverges syms fuel 0 0,
    fun syms fuel => pipeLoop_step syms fuel 0 0,
    fun fuel => pass2_pipeLoop fuel (resetForPass2 (Transpiler.fresh ⟨false, true⟩)) [] (by decide) rfl⟩

/-! ## C22: faults of `processLine` -/

/-- C22, the code at the failing inputs.  In the unit `}`, `x` the first
line takes the depth from 0 to -1 and the second line computes its
indentation from that depth: the rewrite pass stops with the fault of
`std::string(-4, ' ')`, and `processFile` returns `false`.  On the line
`var p: *` the type spelling is `*`: `translateType` takes `*` off and reads
the last character of the empty text that is left. -/
theorem per_line_faults :
    (pass2_Transpilation 1 (resetForPass2 (Transpiler.fresh ⟨false, true⟩)) "\x7d\nx\n".toList).2
      = some .lengthError
    ∧ (pass2_Transpilation 1 (resetForPass2 (Transpiler.fresh ⟨false, true⟩))
        "\x7d\nx\n".toList).1.m_braceDepth = -1
    ∧ (processLine 1 (pass2_Transpilation 1 (resetForPass2 (Transpiler.fresh ⟨false, true⟩))
        "\x7d\n".toList).1 "x".toList).toOption.isSome = false
    ∧ (processFile 1 (Transpiler.fresh ⟨false, true⟩) (some "\x7d\nx\n".toList) "a.ox".toList
        true).toOption.map (fun r => r.1) = some false
    ∧ translateType "*".toList = none
    ∧ (processLine 1 (resetForPass2 (Transpiler.fresh ⟨false, true⟩)) "var p: *".toList).toOption.isSome
      = false
    ∧ (pass2_Transpilation 1 (resetForPass2 (Transpiler.fresh ⟨false, true⟩)) "var p: *\n".toList).2
      = some .emptyBack := by
  refine ⟨?_, ?_, ?_, ?_, ?_, ?_, ?_⟩
  · decide
  · decide
  · decide
  · decide
  · decide
  · decide
  · decide

/-! ## C23: a run on a Transpiler that has been used -/

/-- C23, the defect: `processFile` resets seven members between the passes
(`Transpiler.cpp` 36-43) but neither the lines emitted (`m_outputLines`) nor
the mixin registry (`m_sharedMixins`), and `loadFile` leaves `m_source` as it
is when the file cannot be read (63-69).  After the unit `x`, the pipeline on
the unit `y` leaves the lines `x;`, `y;` where a fresh Transpiler leaves
`y;`, and `processFile` writes both lines under the header.  After a unit
that defines the mixin `M`, the registry used for the unit `struct S {`,
`use M`, `}` holds `M`, and the struct gets the field of `M`, where a fresh
Transpiler has an empty registry and emits `use M;`.  After the unit `x`,
`processFile` on a file that cannot be read translates the unit `x` again
and reports success, where a fresh Transpiler reports failure and writes
nothing.  In general the pipeline on a unit `B`, run on a Transpiler in a
state `t`, uses the registry of `t` and leaves the lines of `t` followed by
the lines it emits for `B` with that registry. -/
theorem session_state_leak :
    (runPasses 1 (runPasses 1 (Transpiler.fresh ⟨false, true⟩) "x\n".toList).1
        "y\n".toList).1.m_outputLines = ["x;".toList, "y;".toList]
    ∧ (runPasses 1 (Transpiler.fresh ⟨false, true⟩) "y\n".toList).1.m_outputLines = ["y;".toList]
    ∧ ((processFile 1 (Transpiler.fresh ⟨false, true⟩) (some "x\n".toList) "a.ox".toList
          true).toOption.bind (fun r =>
        (processFile 1 r.2.2 (some "y\n".toList) "b.ox".toList true).toOption)).map
          (fun r => (r.1, r.2.1))
      = some (true, ["// transpiled from b.ox".toList, "x;".toList, "y;".toList])
    ∧ (processFile 1 (Transpiler.fresh ⟨false, true⟩) (some "y\n".toList) "b.ox".toList
          true).toOption.map (fun r => (r.1, r.2.1))
      = some (true, ["// transpiled from b.ox".toList, "y;".toList])
    ∧ (pass1_Discovery
        (runPasses 1 (Transpiler.fresh ⟨false, true⟩) "shared M \x7b\nx: i32\n\x7d\n".toList).1
        "struct S \x7b\nuse M\n\x7d\n".toList).m_sharedMixins = [("M".toList, "x: i32\n".toList)]
    ∧ (pass1_Discovery (Transpiler.fresh ⟨false, true⟩)
        "struct S \x7b\nuse M\n\x7d\n".toList).m_sharedMixins = []
    ∧ (runPasses 1
        (runPasses 1 (Transpiler.fresh ⟨false, true⟩) "shared M \x7b\nx: i32\n\x7d\n".toList).1
        "struct S \x7b\nuse M\n\x7d\n".toList).1.m_outputLines
      = ["// shared M (elided)".toList, "typedef struct S \x7b".toList, "    int x;\n".toList,
          "\x7d S;".toList]
    ∧ (runPasses 1 (Transpiler.fresh ⟨false, true⟩)
        "struct S \x7b\nuse M\n\x7d\n".toList).1.m_outputLines
      = ["typedef struct S \x7b".toList, "    use M;".toList, "\x7d S;".toList]
    ∧ ((processFile 1 (Transpiler.fresh ⟨false, true⟩) (some "x\n".toList) "a.ox".toList
          true).toOption.bind (fun r =>
        (processFile 1 r.2.2 none "b.ox".toList true).toOption)).map (fun r => (r.1, r.2.1))
      = some (true, ["// transpiled from b.ox".toList, "x;".toList, "x;".toList])
    ∧ (processFile 1 (Transpiler.fresh ⟨false, true⟩) none "b.ox".toList true).toOption.map
          (fun r => (r.1, r.2.1))
      = some (false, [])
    ∧ (∀ (fuel : Nat) (t : Transpiler) (B : Str),
        (pass1_Discovery t B).m_sharedMixins = (pass1_Discovery (presetFresh t) B).m_sharedMixins
        ∧ (runPasses fuel t B).1.m_outputLines
            = t.m_outputLines ++ (runPasses fuel (presetFresh t) B).1.m_outputLines
        ∧ (runPasses fuel t B).2 = (runPasses fuel (presetFresh t) B).2) := by
  refine ⟨?_, ?_, ?_, ?_, ?_, ?_, ?_, ?_, ?_, ?_, ?_⟩
  · decide
  · decide
  · decide
  · decide
  · decide
  · decide
  · decide
  · decide
  · decide
  · decide
  · intro fuel t B
    obtain ⟨_, h2, h3⟩ := runPasses_carry fuel t B
    exact ⟨rfl, h2, h3⟩

end Onyx
